import Mathlib

/-!
# cbtf-krell: AddressBitmap and the sampling collectors

A shallow embedding of

* `contrib/Krell/libcbtf-symtab/AddressBitmap.cpp` (bit-per-address encoding of an
  address range, its wire codec and the extraction of contiguous runs), and
* the sample handlers of `core/collectors/usertime/collector.c` and
  `core/collectors/hwctime/collector.c`,

followed by the theorems that relate the code to its specification.

Machine integers are natural numbers; 64-bit unsigned arithmetic is written with an
explicit `% 2 ^ 64`. A failed `BOOST_VERIFY` and a read outside a buffer are the result
`none`.
-/

namespace KrellInstitute

/-! ## Address and AddressRange -/

/-- Modelled from the spec: `Address::operator+` (Address.hpp is not among the sources).
The spec calls an address a 64-bit unsigned integer with add/sub arithmetic, so the sum
wraps modulo `2 ^ 64`. -/
def addrAdd (a offset : Nat) : Nat := (a + offset) % 2 ^ 64

/-- Modelled from the spec: `Address::operator-` (Address.hpp is not among the sources):
64-bit unsigned subtraction, wrapping modulo `2 ^ 64`. -/
def addrSub (a b : Nat) : Nat := (a + 2 ^ 64 - b % 2 ^ 64) % 2 ^ 64

/-- Modelled from the spec: the class `AddressRange` (AddressRange.hpp is not among the
sources): a half-open interval `[begin, end)` of addresses. -/
structure AddressRange where
  dm_begin : Nat
  dm_end : Nat
deriving DecidableEq

namespace AddressRange

/-- Modelled from the spec: `AddressRange::getBegin`. -/
def getBegin (r : AddressRange) : Nat := r.dm_begin

/-- Modelled from the spec: `AddressRange::getEnd`. -/
def getEnd (r : AddressRange) : Nat := r.dm_end

/-- Modelled from the spec: `AddressRange::getWidth`, "Width = end − begin" in 64-bit
unsigned arithmetic. -/
def getWidth (r : AddressRange) : Nat := addrSub r.dm_end r.dm_begin

/-- Modelled from the spec: `AddressRange::doesContain(const Address&)`, containment of an
address in the half-open interval. -/
def doesContain (r : AddressRange) (a : Nat) : Bool := decide (r.dm_begin ≤ a) && decide (a < r.dm_end)

/-- Modelled from the spec: `AddressRange::operator<`, the total order of ranges,
"lexicographic on begin, then end". -/
def lt (a b : AddressRange) : Bool :=
  decide (a.dm_begin < b.dm_begin) || (decide (a.dm_begin = b.dm_begin) && decide (a.dm_end < b.dm_end))

end AddressRange

/-- The `insert` of `std::set<AddressRange>`: the set is kept as the list of its elements in
increasing order, and an element equivalent to one already present is not inserted. -/
def setInsert (r : AddressRange) : List AddressRange → List AddressRange
  | [] => [r]
  | x :: xs =>
    if r.lt x then r :: x :: xs
    else if x.lt r then x :: setInsert r xs
    else x :: xs

/-! ## AddressBitmap -/

/-- The wire message `CBTF_Protocol_AddressBitmap`: a range and the opaque byte array
`bitmap.data` (`data_len` is the length of `data_val`). -/
structure CBTF_Protocol_AddressBitmap where
  range : AddressRange
  data_val : List Nat
deriving DecidableEq

/-- The field `bitmap.data.data_len` of a message. -/
def CBTF_Protocol_AddressBitmap.data_len (m : CBTF_Protocol_AddressBitmap) : Nat :=
  m.data_val.length

/-- The class `AddressBitmap`: the range `dm_range` and the bit vector `dm_bitmap`. -/
structure AddressBitmap where
  dm_range : AddressRange
  dm_bitmap : List Bool
deriving DecidableEq

namespace AddressBitmap

/-- The class invariant established by every constructor: the range is a half-open
interval of 64-bit addresses and the bit vector has one bit per address of the range. -/
def WF (b : AddressBitmap) : Prop :=
  b.dm_range.dm_begin ≤ b.dm_range.dm_end ∧ b.dm_range.dm_end < 2 ^ 64 ∧
    b.dm_bitmap.length = b.dm_range.getWidth

instance (b : AddressBitmap) : Decidable b.WF := by
  unfold WF; exact inferInstance

/-- Constructor `AddressBitmap(const AddressRange&)`: all bits false. -/
def fromRange (range : AddressRange) : AddressBitmap :=
  { dm_range := range, dm_bitmap := List.replicate range.getWidth false }

/-- Accessor `getRange`. -/
def getRange (b : AddressBitmap) : AddressRange := b.dm_range

/-- Member `getValue`: `BOOST_VERIFY(dm_range.doesContain(address))`, then the bit at
index `address - begin`. `none` is the failed assertion (or an index outside the vector). -/
def getValue (b : AddressBitmap) (address : Nat) : Option Bool :=
  if b.dm_range.doesContain address then
    b.dm_bitmap[addrSub address b.dm_range.getBegin]?
  else none

/-- Member `setValue`: `BOOST_VERIFY(dm_range.doesContain(address))`, then the bit at
index `address - begin` is assigned. `none` is the failed assertion (or an index outside
the vector). -/
def setValue (b : AddressBitmap) (address : Nat) (value : Bool) : Option AddressBitmap :=
  if b.dm_range.doesContain address then
    if addrSub address b.dm_range.getBegin < b.dm_bitmap.length then
      some { b with dm_bitmap := b.dm_bitmap.set (addrSub address b.dm_range.getBegin) value }
    else none
  else none

/-- Constructor `AddressBitmap(const std::set<Address>&)`. The set is given by its
elements in iteration (increasing) order; `*begin()` is the head and `*rbegin()` the last
element. Dereferencing these on an empty set is undefined, hence `none`. -/
def fromAddresses (addresses : List Nat) : Option AddressBitmap :=
  match addresses.head?, addresses.getLast? with
  | some lo, some hi =>
    let range : AddressRange := { dm_begin := lo, dm_end := addrAdd hi 1 }
    addresses.foldlM (fun b a => b.setValue a true)
      { dm_range := range, dm_bitmap := List.replicate range.getWidth false }
  | _, _ => none

/-- The byte count used by both directions of the codec:
`std::max<uint64_t>(1, ((getWidth() - 1) / 8) + 1)` in 64-bit unsigned arithmetic. -/
def messageSize (width : Nat) : Nat := max 1 ((addrSub width 1 / 8 + 1) % 2 ^ 64)

/-- One iteration of the encoding loop:
`if (dm_bitmap[i]) data_val[i / 8] |= 1 << (i % 8);` on `uint8_t` bytes. -/
def toMessageStep (bitmap : List Bool) (data : List Nat) (i : Nat) : List Nat :=
  if bitmap.getD i false then
    data.set (i / 8) ((data.getD (i / 8) 0 ||| (1 <<< (i % 8))) % 256)
  else data

/-- Conversion `operator CBTF_Protocol_AddressBitmap`, given that `malloc(size)` returns
the `size` bytes asked for: `size` zero bytes (`memset`), then the loop over
`i < getWidth()`. The case that `malloc` returns the null pointer is `toMessageWithin`. -/
def toMessage (b : AddressBitmap) : CBTF_Protocol_AddressBitmap :=
  { range := b.dm_range
    data_val := (List.range b.dm_range.getWidth).foldl (toMessageStep b.dm_bitmap)
      (List.replicate (messageSize b.dm_range.getWidth) 0) }

/-- Conversion `operator CBTF_Protocol_AddressBitmap` with its allocation. `heap` is the
largest number of bytes `malloc` can provide: for a larger `size` the call `malloc(size)`
returns the null pointer, the operator does not test it, and `memset` writes through it,
so that no message is returned (`none`); otherwise the message is `toMessage`. -/
def toMessageWithin (heap : Nat) (b : AddressBitmap) : Option CBTF_Protocol_AddressBitmap :=
  if messageSize b.dm_range.getWidth ≤ heap then some b.toMessage else none

/-- One iteration of the decoding loop:
`dm_bitmap[i] = data_val[i / 8] & (1 << (i % 8));` (non-zero converts to `true`). -/
def fromMessageStep (data : List Nat) (bitmap : List Bool) (i : Nat) : List Bool :=
  bitmap.set i ((data.getD (i / 8) 0 &&& (1 <<< (i % 8))) != 0)

/-- Constructor `AddressBitmap(const CBTF_Protocol_AddressBitmap&)`:
`BOOST_VERIFY(data_len == size)` (`none` when it fails), then the loop over
`i < getWidth()`. -/
def fromMessage (message : CBTF_Protocol_AddressBitmap) : Option AddressBitmap :=
  if message.data_len = messageSize message.range.getWidth then
    some { dm_range := message.range
           dm_bitmap := (List.range message.range.getWidth).foldl (fromMessageStep message.data_val)
             (List.replicate message.range.getWidth false) }
  else none

/-- State of the loop of `getContiguousRanges`: the locals `in_range`, `range_begin` and the
set `ranges`. -/
structure RunState where
  in_range : Bool
  range_begin : Nat
  ranges : List AddressRange
deriving DecidableEq

/-- Body of the loop of `getContiguousRanges` at address `i`. Exactly one of the two
conditions evaluates `getValue(i)`, whose assertion may fail. -/
def getContiguousRangesStep (b : AddressBitmap) (value : Bool) (st : RunState) (i : Nat) :
    Option RunState :=
  match b.getValue i with
  | none => none
  | some v =>
    if !st.in_range && (v == value) then
      some { st with in_range := true, range_begin := i }
    else if st.in_range && (v != value) then
      some { st with in_range := false
                     ranges := setInsert { dm_begin := st.range_begin, dm_end := i } st.ranges }
    else some st

/-- The loop `for (Address i = begin; i != end; ++i)`. The counter wraps at `2 ^ 64`, so
at most `2 ^ 64 - 1` increments lead from `begin` to `end`; `fuel` bounds the number of
iterations. -/
def getContiguousRangesLoop (b : AddressBitmap) (value : Bool) :
    Nat → Nat → RunState → Option RunState
  | 0, _, _ => none
  | fuel + 1, i, st =>
    if i = b.dm_range.getEnd then some st
    else
      match getContiguousRangesStep b value st i with
      | none => none
      | some st1 => getContiguousRangesLoop b value fuel (addrAdd i 1) st1

/-- Member `getContiguousRanges(value)`: the loop, then the flush of a range that ends at
the end of the bitmap. -/
def getContiguousRanges (b : AddressBitmap) (value : Bool) : Option (List AddressRange) :=
  match getContiguousRangesLoop b value (2 ^ 64) b.dm_range.getBegin
      { in_range := false, range_begin := 0, ranges := [] } with
  | none => none
  | some st =>
    if st.in_range then
      some (setInsert { dm_begin := st.range_begin, dm_end := b.dm_range.getEnd } st.ranges)
    else some st.ranges

/-- The bit stored for address `a`, read without the assertion of `getValue`. -/
def bitAt (b : AddressBitmap) (a : Nat) : Bool :=
  b.dm_bitmap.getD (a - b.dm_range.dm_begin) false

/-- Invariant of the loop of `getContiguousRanges` when it is about to examine address
`i`. -/
structure RunInv (b : AddressBitmap) (p : Bool) (i : Nat) (st : RunState) : Prop where
  closed : ∀ r ∈ st.ranges,
    b.dm_range.dm_begin ≤ r.dm_begin ∧ r.dm_begin < r.dm_end ∧ r.dm_end < i ∧
    (∀ a, r.dm_begin ≤ a → a < r.dm_end → b.bitAt a = p) ∧ b.bitAt r.dm_end ≠ p ∧
    (r.dm_begin = b.dm_range.dm_begin ∨
      (b.dm_range.dm_begin < r.dm_begin ∧ b.bitAt (r.dm_begin - 1) ≠ p))
  sep : ∀ r1 ∈ st.ranges, ∀ r2 ∈ st.ranges,
    r1 = r2 ∨ r1.dm_end < r2.dm_begin ∨ r2.dm_end < r1.dm_begin
  opened : st.in_range = true →
    b.dm_range.dm_begin ≤ st.range_begin ∧ st.range_begin < i ∧
    (∀ a, st.range_begin ≤ a → a < i → b.bitAt a = p) ∧
    (st.range_begin = b.dm_range.dm_begin ∨
      (b.dm_range.dm_begin < st.range_begin ∧ b.bitAt (st.range_begin - 1) ≠ p)) ∧
    ∀ r ∈ st.ranges, r.dm_end < st.range_begin
  idle : st.in_range = false →
    i = b.dm_range.dm_begin ∨ (b.dm_range.dm_begin < i ∧ b.bitAt (i - 1) ≠ p)
  cover : ∀ a, b.dm_range.dm_begin ≤ a → a < i → b.bitAt a = p →
    (∃ r ∈ st.ranges, r.dm_begin ≤ a ∧ a < r.dm_end) ∨
    (st.in_range = true ∧ st.range_begin ≤ a)

end AddressBitmap

/-! ## The sample buffer of the collectors -/

namespace Collector

/-- The macro `CBTF_USERTIME_BUFFERSIZE` (both collectors): number of entries in the sample
buffer. -/
def CBTF_USERTIME_BUFFERSIZE : Nat := 1024

/-- The macro `CBTF_USERTIME_MAXFRAMES` (both collectors): maximal number of frames of one
captured call stack. -/
def CBTF_USERTIME_MAXFRAMES : Nat := 100

/-- Modelled from the spec: the message header `CBTF_DataHeader` (DataHeader.h is not among
the sources), with the fields the spec lists. -/
structure CBTF_DataHeader where
  experiment : Nat
  collector : Nat
  id : String
  host : String
  pid : Nat
  posix_tid : Nat
  rank : Nat
  omp_tid : Nat
  time_begin : Nat
  time_end : Nat
  addr_begin : Nat
  addr_end : Nat
deriving DecidableEq

/-- The thread-local storage `TLS` of a collector. `stacktraces` and `count` are the arrays
`buffer.stacktraces` and `buffer.count`; `data.stacktraces.stacktraces_val` and
`data.count.count_val` point at them, so the payload is described by the two lengths
`stacktraces_len` and `count_len`. `thread_barrier` exists in the usertime collector only
and `EventSet` in the hwctime collector only. -/
structure TLS where
  header : CBTF_DataHeader
  interval : Nat
  stacktraces_len : Nat
  count_len : Nat
  stacktraces : List Nat
  count : List Nat
  thread_idle : Bool
  thread_wait_barrier : Bool
  thread_barrier : Bool
  debug_collector : Bool
  defer_sampling : Bool
  EventSet : Int
deriving DecidableEq

/-- What one call of `cbtf_collector_send` receives: the header and the payload, whose two
arrays are encoded up to their lengths. -/
structure Batch where
  header : CBTF_DataHeader
  interval : Nat
  stacktraces : List Nat
  count : List Nat
deriving DecidableEq

/-- A thread of the monitored process as the collector sees it: its thread-local storage,
the number of calls of `CBTF_GetTime` made so far, and the batches handed to
`cbtf_collector_send` so far, oldest first. -/
structure Runtime where
  tls : TLS
  clock_reads : Nat
  sent : List Batch
deriving DecidableEq

/-- The services and build options the collectors depend on: the clock (the value of the
n-th call of `CBTF_GetTime`), the MPI rank reported by `monitor_mpi_comm_rank` (at the
n-th clock read), the options `HAVE_OMPT` and `CBTF_SERVICE_USE_OFFLINE`, and the
addresses `CBTF_GetAddressOfFunction` returns for the three blame functions. -/
structure Env where
  CBTF_GetTime : Nat → Nat
  monitor_mpi_comm_rank : Nat → Nat
  HAVE_OMPT : Bool
  CBTF_SERVICE_USE_OFFLINE : Bool
  addr_OMPT_THREAD_IDLE : Nat
  addr_OMPT_THREAD_WAIT_BARRIER : Nat
  addr_OMPT_THREAD_BARRIER : Nat

/-- The function `initialize_data`: a fresh header interval and address range (`~0` is
`2 ^ 64 - 1`), empty payload, zeroed buffers. -/
def initialize_data (env : Env) (rt : Runtime) : Runtime :=
  { rt with
    clock_reads := rt.clock_reads + 1
    tls := { rt.tls with
      header := { rt.tls.header with
        time_begin := env.CBTF_GetTime rt.clock_reads
        time_end := 0
        addr_begin := 2 ^ 64 - 1
        addr_end := 0 }
      stacktraces_len := 0
      count_len := 0
      stacktraces := List.replicate CBTF_USERTIME_BUFFERSIZE 0
      count := List.replicate CBTF_USERTIME_BUFFERSIZE 0 } }

/-- The function `update_header_with_time` (64-bit unsigned `time + 1`). -/
def update_header_with_time (tls : TLS) (time : Nat) : TLS :=
  let h1 : CBTF_DataHeader :=
    if time < tls.header.time_begin then { tls.header with time_begin := time } else tls.header
  let h2 : CBTF_DataHeader :=
    if time ≥ h1.time_end then { h1 with time_end := (time + 1) % 2 ^ 64 } else h1
  { tls with header := h2 }

/-- The function `update_header_with_address` (64-bit unsigned `addr + 1`). -/
def update_header_with_address (tls : TLS) (addr : Nat) : TLS :=
  let h1 : CBTF_DataHeader :=
    if addr < tls.header.addr_begin then { tls.header with addr_begin := addr } else tls.header
  let h2 : CBTF_DataHeader :=
    if addr ≥ h1.addr_end then { h1 with addr_end := (addr + 1) % 2 ^ 64 } else h1
  { tls with header := h2 }

/-- The function `send_samples`: stamp `time_end`, set the rank (`setRank` tells whether
the assignment is compiled in), hand header and payload to `cbtf_collector_send`, then
`initialize_data`. -/
def send_samples (env : Env) (setRank : Bool) (rt : Runtime) : Runtime :=
  let hdr : CBTF_DataHeader :=
    { rt.tls.header with
      time_end := env.CBTF_GetTime rt.clock_reads
      rank := if setRank then env.monitor_mpi_comm_rank rt.clock_reads else rt.tls.header.rank }
  let batch : Batch :=
    { header := hdr
      interval := rt.tls.interval
      stacktraces := rt.tls.stacktraces.take rt.tls.stacktraces_len
      count := rt.tls.count.take rt.tls.count_len }
  initialize_data env
    { tls := { rt.tls with header := hdr }
      clock_reads := rt.clock_reads + 1
      sent := rt.sent ++ [batch] }

/-- The inner loop of the search, `for (j = 0; j < framecount; j++)` with its `break`:
the first argument counts the iterations still to run (`framecount - j`), the result is
the final value of `j`. A read outside `buffer.stacktraces` or `framebuf` is `none`. -/
def matchFrames (stacktraces framebuf : List Nat) (i : Nat) : Nat → Nat → Option Nat
  | 0, j => some j
  | n + 1, j =>
    match stacktraces[i + j]?, framebuf[j]? with
    | some a, some f =>
      if a ≠ f then some j else matchFrames stacktraces framebuf i n (j + 1)
    | _, _ => none

/-- Body of the outer loop of the search at index `i`; the accumulator is the pair
`(stack_already_exists, stackindex)`. -/
def scanStep (tls : TLS) (framebuf : List Nat) (framecount : Nat) (acc : Bool × Nat)
    (i : Nat) : Option (Bool × Nat) :=
  match tls.count[i]? with
  | none => none
  | some c =>
    if c = 0 then some acc
    else if c = 255 then some acc
    else
      match matchFrames tls.stacktraces framebuf i framecount 0 with
      | none => none
      | some j => if j = framecount then some (true, i) else some acc

/-- The search `for (i = 0; i < count_len; i++)` of the handler for a buffered stack equal
to the captured one. -/
def scanStacks (tls : TLS) (framebuf : List Nat) (framecount : Nat) : Option (Bool × Nat) :=
  (List.range tls.count_len).foldlM (scanStep tls framebuf framecount) (false, 0)

/-- Body of the insertion loop for frame `i`: store the address, mark the top of the stack
with count 1 and every other frame with 0, widen the address range of the header, advance
both lengths. A write outside the buffers is `none`. -/
def insertStep (framebuf : List Nat) (tls : TLS) (i : Nat) : Option TLS :=
  match framebuf[i]? with
  | none => none
  | some f =>
    if tls.stacktraces_len < tls.stacktraces.length ∧ tls.count_len < tls.count.length then
      some { tls with
        stacktraces := tls.stacktraces.set tls.stacktraces_len f
        count := tls.count.set tls.count_len (if i > 0 then 0 else 1)
        header := { tls.header with
          addr_begin := if f < tls.header.addr_begin then f else tls.header.addr_begin
          addr_end := if f > tls.header.addr_end then f else tls.header.addr_end }
        stacktraces_len := tls.stacktraces_len + 1
        count_len := tls.count_len + 1 }
    else none

/-- The insertion loop `for (i = 0; i < framecount; i++)`. -/
def insertFrames (framebuf : List Nat) (framecount : Nat) (tls : TLS) : Option TLS :=
  (List.range framecount).foldlM (insertStep framebuf) tls

/-- The part of the handlers after the stack capture, identical in both collectors:
search, increment of the count of a matching stack (on `uint8_t`), or else flush when the
buffer has no room and insertion of the frames. -/
def recordSample (env : Env) (setRank : Bool) (rt : Runtime) (framebuf : List Nat)
    (framecount : Nat) : Option Runtime :=
  match scanStacks rt.tls framebuf framecount with
  | none => none
  | some (stack_already_exists, stackindex) =>
    if stack_already_exists && decide (rt.tls.count.getD stackindex 0 < 255) then
      some { rt with tls := { rt.tls with
        count := rt.tls.count.set stackindex ((rt.tls.count.getD stackindex 0 + 1) % 256) } }
    else
      let rt1 : Runtime :=
        if rt.tls.stacktraces_len + framecount > CBTF_USERTIME_BUFFERSIZE then
          send_samples env setRank rt
        else rt
      match insertFrames framebuf framecount rt1.tls with
      | none => none
      | some tls1 => some { rt1 with tls := tls1 }

/-- The local array `framebuf` after `memset` and the stack capture: the captured frames
followed by zeros, `CBTF_USERTIME_MAXFRAMES` slots in all. -/
def captureBuffer (frames : List Nat) : List Nat :=
  frames ++ List.replicate (CBTF_USERTIME_MAXFRAMES - frames.length) 0

/-- The blame shift of `serviceTimerHandler`, compiled in with `HAVE_OMPT`: a set flag
replaces `framebuf[0]`, the flags being tested in an `if … else if … else if` chain. -/
def usertimeBlameShift (env : Env) (tls : TLS) (framebuf : List Nat) : List Nat :=
  if env.HAVE_OMPT then
    if tls.thread_idle then framebuf.set 0 env.addr_OMPT_THREAD_IDLE
    else if tls.thread_wait_barrier then framebuf.set 0 env.addr_OMPT_THREAD_WAIT_BARRIER
    else if tls.thread_barrier then framebuf.set 0 env.addr_OMPT_THREAD_BARRIER
    else framebuf
  else framebuf

/-- The blame shift of `hwctimePAPIHandler`, compiled in with `HAVE_OMPT`: the two flags
are tested by two separate `if` statements, one after the other. -/
def hwctimeBlameShift (env : Env) (tls : TLS) (framebuf : List Nat) : List Nat :=
  if env.HAVE_OMPT then
    let fb1 := if tls.thread_idle then framebuf.set 0 env.addr_OMPT_THREAD_IDLE else framebuf
    if tls.thread_wait_barrier then fb1.set 0 env.addr_OMPT_THREAD_WAIT_BARRIER else fb1
  else framebuf

/-- The handler `serviceTimerHandler` of the usertime collector. `frames` is what the
stack capture writes into `framebuf` (at most `CBTF_USERTIME_MAXFRAMES` addresses, their
number is `framecount`; more would overrun the array). The rank is set in `send_samples`
only under `CBTF_SERVICE_USE_OFFLINE`. -/
def serviceTimerHandler (env : Env) (rt : Runtime) (frames : List Nat) : Option Runtime :=
  if rt.tls.defer_sampling = true then some rt
  else if frames.length > CBTF_USERTIME_MAXFRAMES then none
  else
    recordSample env env.CBTF_SERVICE_USE_OFFLINE rt
      (usertimeBlameShift env rt.tls (captureBuffer frames)) frames.length

/-- The handler `hwctimePAPIHandler` of the hwctime collector; its `send_samples` always
sets the rank. -/
def hwctimePAPIHandler (env : Env) (rt : Runtime) (frames : List Nat) : Option Runtime :=
  if rt.tls.defer_sampling = true then some rt
  else if frames.length > CBTF_USERTIME_MAXFRAMES then none
  else
    recordSample env true rt (hwctimeBlameShift env rt.tls (captureBuffer frames)) frames.length

/-- Delivery of `n` samples with the same captured frames to a handler, one after the
other. -/
def deliver (handler : Runtime → List Nat → Option Runtime) (frames : List Nat) :
    Nat → Runtime → Option Runtime
  | 0, rt => some rt
  | n + 1, rt =>
    match handler rt frames with
    | none => none
    | some rt1 => deliver handler frames n rt1

/-- A sample block on which the handler runs undisturbed: sampling is not deferred and no
blame flag is set, as `cbtf_collector_start` leaves it. -/
def Undisturbed (tls : TLS) : Prop :=
  tls.defer_sampling = false ∧ tls.thread_idle = false ∧
    tls.thread_wait_barrier = false ∧ tls.thread_barrier = false

/-- The buffer holds exactly `m` entries, each the stack `fb[0 .. k)`; the first `m - 1`
entries have count 255 and the last one has count `c`. -/
structure Repeated (fb : List Nat) (k m c : Nat) (tls : TLS) : Prop where
  len_st : tls.stacktraces.length = CBTF_USERTIME_BUFFERSIZE
  len_ct : tls.count.length = CBTF_USERTIME_BUFFERSIZE
  slen : tls.stacktraces_len = m * k
  clen : tls.count_len = m * k
  frames : ∀ e j, e < m → j < k → tls.stacktraces[e * k + j]? = fb[j]?
  top_full : ∀ e, e + 1 < m → tls.count[e * k]? = some 255
  top_last : 0 < m → tls.count[(m - 1) * k]? = some c
  rest : ∀ e j, e < m → 0 < j → j < k → tls.count[e * k + j]? = some 0

/-- The buffer of `tls` holds exactly `m` entries, each of them the stack `frames`: entry
`e` occupies the slots `e * k .. e * k + k - 1` for `k` the number of frames, its count
is stored at its first slot and its other count slots are 0. The first `m - 1` entries
have count 255 and the last one has count `c`. -/
def HoldsEntries (frames : List Nat) (m c : Nat) (tls : TLS) : Prop :=
  tls.stacktraces_len = m * frames.length ∧ tls.count_len = m * frames.length ∧
  (∀ e j, e < m → j < frames.length →
    tls.stacktraces[e * frames.length + j]? = frames[j]?) ∧
  (∀ e, e + 1 < m → tls.count[e * frames.length]? = some 255) ∧
  (0 < m → tls.count[(m - 1) * frames.length]? = some c) ∧
  (∀ e j, e < m → 0 < j → j < frames.length →
    tls.count[e * frames.length + j]? = some 0)

/-- An environment for concrete runs: a clock that starts at 1000 and advances by one per
read, rank 0, both build options on. -/
def sampleEnv : Env :=
  { CBTF_GetTime := fun n => 1000 + n
    monitor_mpi_comm_rank := fun _ => 0
    HAVE_OMPT := true
    CBTF_SERVICE_USE_OFFLINE := true
    addr_OMPT_THREAD_IDLE := 0x7f0000001000
    addr_OMPT_THREAD_WAIT_BARRIER := 0x7f0000002000
    addr_OMPT_THREAD_BARRIER := 0x7f0000003000 }

/-- A thread right after `initialize_data`, with sampling enabled and no blame flag set:
the state in which `cbtf_collector_start` hands the buffer to the handler. -/
def sampleRuntime : Runtime :=
  initialize_data sampleEnv
    { tls :=
        { header :=
            { experiment := 1, collector := 1, id := "usertime", host := "localhost", pid := 4242
              posix_tid := 4242, rank := 0, omp_tid := 0, time_begin := 0, time_end := 0
              addr_begin := 0, addr_end := 0 }
          interval := 28571428
          stacktraces_len := 0
          count_len := 0
          stacktraces := []
          count := []
          thread_idle := false
          thread_wait_barrier := false
          thread_barrier := false
          debug_collector := false
          defer_sampling := false
          EventSet := 0 }
      clock_reads := 0
      sent := [] }

/-- Delivery of a sequence of samples to a handler, one after the other; each element is
what one stack capture returns. -/
def deliverAll (handler : Runtime → List Nat → Option Runtime) :
    List (List Nat) → Runtime → Option Runtime
  | [], rt => some rt
  | frames :: rest, rt =>
    match handler rt frames with
    | none => none
    | some rt1 => deliverAll handler rest rt1

/-- A well-formed sample block: both arrays have `CBTF_USERTIME_BUFFERSIZE` slots and the
two payload lengths agree and stay within the arrays. -/
def BlockWF (tls : TLS) : Prop :=
  tls.stacktraces.length = CBTF_USERTIME_BUFFERSIZE ∧
    tls.count.length = CBTF_USERTIME_BUFFERSIZE ∧
    tls.stacktraces_len = tls.count_len ∧ tls.stacktraces_len ≤ CBTF_USERTIME_BUFFERSIZE

/-- The outcome of handling a sample that is not merged, seen from the state `rt` before
the call and the state `rt1` after it, for the frame buffer `fb` and the frame count `k`:
when the buffer has no room, exactly one batch, the payload held so far, has been sent
and the stack occupies the slots `0 .. k - 1` of the cleared buffer; otherwise nothing has
been sent. -/
def FlushedWhenFull (rt : Runtime) (fb : List Nat) (k : Nat) (rt1 : Runtime) : Prop :=
  (rt.tls.stacktraces_len + k > CBTF_USERTIME_BUFFERSIZE →
    (∃ b : Batch, rt1.sent = rt.sent ++ [b] ∧
      b.stacktraces = rt.tls.stacktraces.take rt.tls.stacktraces_len ∧
      b.count = rt.tls.count.take rt.tls.count_len) ∧
    rt1.tls.stacktraces_len = k ∧ rt1.tls.count_len = k ∧
    (∀ i, i < k → rt1.tls.stacktraces[i]? = fb[i]?) ∧
    (∀ i, k ≤ i → i < CBTF_USERTIME_BUFFERSIZE → rt1.tls.stacktraces[i]? = some 0)) ∧
  (rt.tls.stacktraces_len + k ≤ CBTF_USERTIME_BUFFERSIZE → rt1.sent = rt.sent)

/-- The outcome of inserting the `k` frames of `fb` at the payload length `u`, seen from
the block `tls1` after the insertion. -/
def InsertedAt (u : Nat) (fb : List Nat) (k : Nat) (tls1 : TLS) : Prop :=
  (∀ i, i < k → tls1.stacktraces[u + i]? = fb[i]?) ∧
  tls1.count[u]? = some 1 ∧
  (∀ i, 0 < i → i < k → tls1.count[u + i]? = some 0) ∧
  tls1.stacktraces_len = u + k ∧ tls1.count_len = u + k

/-- The buffer holds the stacks of `ss`, each of 100 frames and with count 1, one after
the other in the order of the list. -/
structure Stored (ss : List (List Nat)) (tls : TLS) : Prop where
  wf : BlockWF tls
  slen : tls.stacktraces_len = 100 * ss.length
  frames : ∀ e s j, ss[e]? = some s → j < 100 → tls.stacktraces[100 * e + j]? = s[j]?
  top : ∀ e, e < ss.length → tls.count[100 * e]? = some 1
  rest : ∀ e j, e < ss.length → 0 < j → j < 100 → tls.count[100 * e + j]? = some 0

namespace Usertime

/-- What `cbtf_collector_start` receives from its caller and its surroundings: the header
template, whether `CBTF_DEBUG_COLLECTOR` is set, the value `(uint64_t)(args.sampling_rate)`
obtained from `CBTF_USERTIME_RATE` (or the default), and the result of
`monitor_get_thread_num`. -/
structure StartArgs where
  header : CBTF_DataHeader
  debug_collector : Bool
  sampling_rate : Nat
  omp_tid : Nat
deriving DecidableEq

/-- The function `cbtf_collector_start` of the usertime collector, on the thread-local
storage: flags, copy of the header template, `initialize_data`, the interval
`1000000000 / sampling_rate` (a division by zero is `none`), thread number, collector id
and a fresh `time_begin`; with `HAVE_OMPT` the blame flags are cleared. The final
`CBTF_Timer(interval, handler)` arms the timer whose expirations are the samples
delivered to the handler; it changes nothing in the storage. -/
def cbtf_collector_start (env : Env) (args : StartArgs) (rt : Runtime) : Option Runtime :=
  let rt1 : Runtime := initialize_data env
    { rt with tls := { rt.tls with
        defer_sampling := false
        debug_collector := args.debug_collector
        header := args.header } }
  if args.sampling_rate = 0 then none
  else
    some { rt1 with
      clock_reads := rt1.clock_reads + 1
      tls := { rt1.tls with
        interval := 1000000000 / args.sampling_rate
        header := { rt1.tls.header with
          omp_tid := args.omp_tid
          id := "usertime"
          time_begin := env.CBTF_GetTime rt1.clock_reads }
        thread_idle := if env.HAVE_OMPT then false else rt1.tls.thread_idle
        thread_wait_barrier := if env.HAVE_OMPT then false else rt1.tls.thread_wait_barrier
        thread_barrier := if env.HAVE_OMPT then false else rt1.tls.thread_barrier } }

/-- The function `cbtf_collector_pause` of the usertime collector (the storage exists). -/
def cbtf_collector_pause (rt : Runtime) : Runtime :=
  { rt with tls := { rt.tls with defer_sampling := true } }

/-- The function `cbtf_collector_resume` of the usertime collector (the storage exists). -/
def cbtf_collector_resume (rt : Runtime) : Runtime :=
  { rt with tls := { rt.tls with defer_sampling := false } }

/-- The function `cbtf_collector_stop` of the usertime collector: after `CBTF_Timer(0, NULL)`
has disarmed the timer, stamp `time_end` and send the samples not sent yet, if any. -/
def cbtf_collector_stop (env : Env) (rt : Runtime) : Runtime :=
  let rt1 : Runtime :=
    { rt with
      clock_reads := rt.clock_reads + 1
      tls := { rt.tls with
        header := { rt.tls.header with time_end := env.CBTF_GetTime rt.clock_reads } } }
  if rt1.tls.stacktraces_len > 0 then send_samples env env.CBTF_SERVICE_USE_OFFLINE rt1
  else rt1

/-- What can happen to a thread that runs the usertime collector: a call of one of the
four entry points, or a timer expiry with the frames its stack capture returns. -/
inductive Event where
  | start (args : StartArgs)
  | sample (frames : List Nat)
  | pause
  | resume
  | stop
deriving DecidableEq

/-- Effect of one event on the thread. -/
def step (env : Env) (rt : Runtime) : Event → Option Runtime
  | Event.start args => cbtf_collector_start env args rt
  | Event.sample frames => serviceTimerHandler env rt frames
  | Event.pause => some (cbtf_collector_pause rt)
  | Event.resume => some (cbtf_collector_resume rt)
  | Event.stop => some (cbtf_collector_stop env rt)

/-- Effect of a sequence of events, in order. -/
def run (env : Env) : List Event → Runtime → Option Runtime
  | [], rt => some rt
  | e :: rest, rt =>
    match step env rt e with
    | none => none
    | some rt1 => run env rest rt1

end Usertime

/-- The batches in `sent` follow each other in time: each batch begins no earlier than the
batch before it ended. -/
def TimeOrdered (sent : List Batch) : Prop :=
  ∀ i a b, sent[i]? = some a → sent[i + 1]? = some b →
    a.header.time_end ≤ b.header.time_begin

/-- Invariant of a thread under a non-decreasing clock: the batches sent are ordered in
time, and the last batch ended no later than the current header begins and no later than
any clock value still to be read. -/
def TimeInv (env : Env) (rt : Runtime) : Prop :=
  TimeOrdered rt.sent ∧
  ∀ b, rt.sent.getLast? = some b →
    b.header.time_end ≤ rt.tls.header.time_begin ∧
    ∀ r, rt.clock_reads ≤ r → b.header.time_end ≤ env.CBTF_GetTime r

/-- The outcome of delivering the eleven stacks `samples` to `handler` from the state
`rt0`: the first ten are handled without a send and fill 1000 slots; handling the
eleventh sends exactly one batch, of 1000 slots, and leaves only the eleventh stack in the
buffer. -/
def FlushOnEleventh (handler : Runtime → List Nat → Option Runtime)
    (samples : List (List Nat)) (rt0 : Runtime) : Prop :=
  ∃ rt10 rt11 b, deliverAll handler (samples.take 10) rt0 = some rt10 ∧
    rt10.sent = rt0.sent ∧ rt10.tls.stacktraces_len = 1000 ∧
    deliverAll handler samples rt0 = some rt11 ∧ rt11.sent = rt0.sent ++ [b] ∧
    b.stacktraces.length = 1000 ∧ b.count.length = 1000 ∧
    rt11.tls.stacktraces_len = 100 ∧ rt11.tls.count_len = 100

/-- Eleven pairwise distinct stacks of 100 frames: stack `i` repeats the address
`0x1000 + i`. -/
def elevenStacks : List (List Nat) :=
  (List.range 11).map (fun i => List.replicate 100 (0x1000 + i))

/-- The thread of `sampleRuntime` after `OMPT_THREAD_IDLE(true)`. -/
def idleRuntime : Runtime :=
  { sampleRuntime with tls := { sampleRuntime.tls with thread_idle := true } }

/-- The thread of `sampleRuntime` after `OMPT_THREAD_IDLE(true)` and
`OMPT_THREAD_WAIT_BARRIER(true)`: both blame flags are set. -/
def idleWaitingRuntime : Runtime :=
  { sampleRuntime with tls := { sampleRuntime.tls with
      thread_idle := true, thread_wait_barrier := true } }

/-- A run of the usertime collector with two sessions: start, one sample, stop; start
again, a sample, a pause with a sample that is not taken, resume, stop. -/
def sampleEvents : List Usertime.Event :=
  [Usertime.Event.start
      { header := sampleRuntime.tls.header, debug_collector := false
        sampling_rate := 35, omp_tid := 0 },
    Usertime.Event.sample [0x10, 0x20, 0x30], Usertime.Event.stop,
    Usertime.Event.start
      { header := sampleRuntime.tls.header, debug_collector := false
        sampling_rate := 35, omp_tid := 0 },
    Usertime.Event.sample [0x10, 0x20], Usertime.Event.pause,
    Usertime.Event.sample [0x40], Usertime.Event.resume, Usertime.Event.stop]

/-- The constant `PAPI_NULL` of the PAPI library (papi.h): the event-set handle that
stands for no event set. -/
def PAPI_NULL : Int := -1

namespace Hwctime

/-- The function `cbtf_collector_pause` of the hwctime collector (the storage exists):
nothing happens while the process-wide flag `hwctime_papi_init_done` is 0. -/
def cbtf_collector_pause (hwctime_papi_init_done : Nat) (rt : Runtime) : Runtime :=
  if hwctime_papi_init_done = 0 then rt
  else { rt with tls := { rt.tls with defer_sampling := true } }

/-- The function `cbtf_collector_resume` of the hwctime collector (the storage exists):
nothing happens while the process-wide flag `hwctime_papi_init_done` is 0. -/
def cbtf_collector_resume (hwctime_papi_init_done : Nat) (rt : Runtime) : Runtime :=
  if hwctime_papi_init_done = 0 then rt
  else { rt with tls := { rt.tls with defer_sampling := false } }

/-- The function `cbtf_collector_stop` of the hwctime collector: return at once when the
event set is `PAPI_NULL`; otherwise, after `CBTF_Stop` has stopped the counter, stamp
`time_end` and send the samples not sent yet, if any. -/
def cbtf_collector_stop (env : Env) (rt : Runtime) : Runtime :=
  if rt.tls.EventSet = PAPI_NULL then rt
  else
    let rt1 : Runtime :=
      { rt with
        clock_reads := rt.clock_reads + 1
        tls := { rt.tls with
          header := { rt.tls.header with time_end := env.CBTF_GetTime rt.clock_reads } } }
    if rt1.tls.stacktraces_len > 0 then send_samples env true rt1 else rt1

/-- What `cbtf_collector_start` of the hwctime collector receives from its caller and its
surroundings: the header template, whether `CBTF_DEBUG_COLLECTOR` is set, the value the
assignment `tls->data.interval = hwctime_papithreshold` stores, the result of
`monitor_get_thread_num`, the value of the process-wide flag `hwctime_papi_init_done`
(shared with the other threads of the process), and the service `CBTF_Create_Eventset`,
given by the handle it leaves in `tls->EventSet` for the handle it finds there. -/
structure StartArgs where
  header : CBTF_DataHeader
  debug_collector : Bool
  hwctime_papithreshold : Nat
  omp_tid : Nat
  hwctime_papi_init_done : Nat
  CBTF_Create_Eventset : Int → Int

/-- The function `cbtf_collector_start` of the hwctime collector, on the thread-local
storage: flags, the threshold as interval, copy of the header template,
`initialize_data`, thread number, collector id and `time_begin`; `EventSet` is set to
`PAPI_NULL` when the flag `hwctime_papi_init_done` is 0, then `CBTF_Create_Eventset`
acts on it, and `time_begin` is stamped again. The calls `CBTF_AddEvent`, `CBTF_Overflow`
(which registers `hwctimePAPIHandler` for the event set) and `CBTF_Start` change nothing
in the storage. -/
def cbtf_collector_start (env : Env) (args : StartArgs) (rt : Runtime) : Runtime :=
  let rt1 : Runtime := initialize_data env
    { rt with tls := { rt.tls with
        defer_sampling := false
        debug_collector := args.debug_collector
        interval := args.hwctime_papithreshold
        header := args.header } }
  let rt2 : Runtime :=
    { rt1 with
      clock_reads := rt1.clock_reads + 1
      tls := { rt1.tls with
        header := { rt1.tls.header with
          omp_tid := args.omp_tid
          id := "hwctime"
          time_begin := env.CBTF_GetTime rt1.clock_reads } } }
  let handle : Int := if args.hwctime_papi_init_done = 0 then PAPI_NULL else rt2.tls.EventSet
  { rt2 with
    clock_reads := rt2.clock_reads + 1
    tls := { rt2.tls with
      EventSet := args.CBTF_Create_Eventset handle
      header := { rt2.tls.header with time_begin := env.CBTF_GetTime rt2.clock_reads } } }

/-- What can happen to a thread that runs the hwctime collector: a call of one of the
four entry points (pause and resume with the value of `hwctime_papi_init_done` they
find), or a counter overflow with the frames its stack capture returns. -/
inductive Event where
  | start (args : StartArgs)
  | sample (frames : List Nat)
  | pause (hwctime_papi_init_done : Nat)
  | resume (hwctime_papi_init_done : Nat)
  | stop

/-- Effect of one event on the thread. PAPI calls `hwctimePAPIHandler` for an overflow of
the event set the thread registered the handler for, whose handle is in `tls->EventSet`:
while that is `PAPI_NULL` the thread has no event set and a sample cannot take place
(`none`). -/
def step (env : Env) (rt : Runtime) : Event → Option Runtime
  | Event.start args => some (cbtf_collector_start env args rt)
  | Event.sample frames =>
    if rt.tls.EventSet = PAPI_NULL then none else hwctimePAPIHandler env rt frames
  | Event.pause flag => some (cbtf_collector_pause flag rt)
  | Event.resume flag => some (cbtf_collector_resume flag rt)
  | Event.stop => some (cbtf_collector_stop env rt)

/-- Effect of a sequence of events, in order. -/
def run (env : Env) : List Event → Runtime → Option Runtime
  | [], rt => some rt
  | e :: rest, rt =>
    match step env rt e with
    | none => none
    | some rt1 => run env rest rt1

end Hwctime

/-- The characters for which the C library function `isspace` holds in the C locale: the
space (code 32) and the control characters tab, newline, vertical tab, form feed and
carriage return (codes 9 to 13). -/
def isspace (c : Char) : Bool :=
  c.toNat = 32 || (9 ≤ c.toNat && c.toNat ≤ 13)

/-- The value of a run of decimal digits at the start of `cs`, continuing from `acc`;
the run ends at the first character that is not a digit. -/
def atoiDigits : Nat → List Char → Nat
  | acc, [] => acc
  | acc, c :: cs =>
    if '0' ≤ c ∧ c ≤ '9' then atoiDigits (10 * acc + (c.toNat - '0'.toNat)) cs else acc

/-- The C library function `atoi`: leading white space is skipped, an optional sign is
read, then the decimal digits that follow; no digits give 0. A value that an `int` of 32
bits cannot hold is undefined behaviour, here `none`. -/
def atoi (s : String) : Option Int :=
  let cs := s.toList.dropWhile isspace
  let value : Int :=
    match cs with
    | '-' :: rest => - (atoiDigits 0 rest : Int)
    | '+' :: rest => (atoiDigits 0 rest : Int)
    | _ => (atoiDigits 0 cs : Int)
  if - (2 : Int) ^ 31 ≤ value ∧ value < (2 : Int) ^ 31 then some value else none

namespace Usertime

/-- The assignment
`args.sampling_rate = (sampling_rate != NULL) ? atoi(sampling_rate) : 35;` of
`cbtf_collector_start`, for the value `getenv("CBTF_USERTIME_RATE")` returns. -/
def startSamplingRate (CBTF_USERTIME_RATE : Option String) : Option Int :=
  match CBTF_USERTIME_RATE with
  | none => some 35
  | some s => atoi s

/-- The cast `(uint64_t)(args.sampling_rate)` applied to the `int` that was assigned to the
field. The field is declared in a generated header; `signedField` tells whether its type
is a signed integer type (the value is kept and the cast wraps it modulo `2 ^ 64`) or an
unsigned one of 32 bits (the assignment wraps it modulo `2 ^ 32`, the cast keeps it). -/
def rateToUInt64 (signedField : Bool) (r : Int) : Nat :=
  if signedField then (r % (2 : Int) ^ 64).toNat else (r % (2 : Int) ^ 32).toNat

/-- What a call of `cbtf_collector_start` finds: the header template passed to it, the
two environment variables it reads (`none` when `getenv` returns `NULL`) and the result
of `monitor_get_thread_num`. -/
structure StartCall where
  header : CBTF_DataHeader
  CBTF_DEBUG_COLLECTOR : Option String
  CBTF_USERTIME_RATE : Option String
  monitor_get_thread_num : Nat
deriving DecidableEq

/-- A thread together with its interval timer: `timer` is the interval of the last call
`CBTF_Timer(interval, serviceTimerHandler)`, and `none` when no such call has been made
or `CBTF_Timer(0, NULL)` has followed it. -/
structure Thread where
  rt : Runtime
  timer : Option Nat
deriving DecidableEq

/-- The function `cbtf_collector_start` as a whole: the environment is read, the storage
is set up (`cbtf_collector_start` above, with the rate cast to `uint64_t`) and
`CBTF_Timer(tls->data.interval, serviceTimerHandler)` is called. No step checks the
rate; `none` is undefined behaviour (`atoi` out of range, division by zero). -/
def start (env : Env) (signedField : Bool) (call : StartCall) (th : Thread) :
    Option Thread :=
  match startSamplingRate call.CBTF_USERTIME_RATE with
  | none => none
  | some r =>
    match cbtf_collector_start env
        { header := call.header
          debug_collector := call.CBTF_DEBUG_COLLECTOR.isSome
          sampling_rate := rateToUInt64 signedField r
          omp_tid := call.monitor_get_thread_num } th.rt with
    | none => none
    | some rt1 => some { rt := rt1, timer := some rt1.tls.interval }

end Usertime

/-- The thread of `sampleRuntime` with the stack `[0x10, 0x20, 0x30]` buffered once. -/
def bufferedRuntime : Runtime :=
  { sampleRuntime with tls := { sampleRuntime.tls with
      stacktraces_len := 3
      count_len := 3
      stacktraces := [0x10, 0x20, 0x30] ++ List.replicate 1021 0
      count := [1, 0, 0] ++ List.replicate 1021 0 } }

/-- The thread of `bufferedRuntime` with no event set configured (`EventSet` is
`PAPI_NULL`). -/
def nullEventRuntime : Runtime :=
  { bufferedRuntime with tls := { bufferedRuntime.tls with EventSet := PAPI_NULL } }

/-- Arguments of a start at the default rate. -/
def sampleStartArgs : Usertime.StartArgs :=
  { header := sampleRuntime.tls.header, debug_collector := false
    sampling_rate := 35, omp_tid := 0 }

/-- Arguments of the first hwctime start of a process: the flag `hwctime_papi_init_done`
is 0 and `CBTF_Create_Eventset` leaves the handle `created` in `tls->EventSet`. -/
def sampleHwctimeStartArgs (created : Int) : Hwctime.StartArgs :=
  { header := sampleRuntime.tls.header, debug_collector := false
    hwctime_papithreshold := 20000, omp_tid := 0
    hwctime_papi_init_done := 0, CBTF_Create_Eventset := fun _ => created }

/-- What follows the first start in `sampleEvents`. -/
def sampleSession : List Usertime.Event :=
  [Usertime.Event.sample [0x10, 0x20, 0x30], Usertime.Event.stop,
    Usertime.Event.start sampleStartArgs,
    Usertime.Event.sample [0x10, 0x20], Usertime.Event.pause,
    Usertime.Event.sample [0x40], Usertime.Event.resume, Usertime.Event.stop]

/-- A call of `cbtf_collector_start` with the rate variable set to `rate`. -/
def sampleStartCall (rate : Option String) : Usertime.StartCall :=
  { header := sampleRuntime.tls.header
    CBTF_DEBUG_COLLECTOR := none
    CBTF_USERTIME_RATE := rate
    monitor_get_thread_num := 0 }

/-- The outcome of a call of `cbtf_collector_stop` that does its work, seen from the state
`rt` before and the state `rt1` after: with samples buffered exactly one batch is sent, it
holds every slot buffered so far, and the buffer is empty afterwards; with nothing
buffered nothing is sent. -/
def StoppedWith (rt rt1 : Runtime) : Prop :=
  (0 < rt.tls.stacktraces_len →
    (∃ b : Batch, rt1.sent = rt.sent ++ [b] ∧
      b.stacktraces = rt.tls.stacktraces.take rt.tls.stacktraces_len ∧
      b.count = rt.tls.count.take rt.tls.count_len) ∧
    rt1.tls.stacktraces_len = 0 ∧ rt1.tls.count_len = 0) ∧
  (rt.tls.stacktraces_len = 0 →
    rt1.sent = rt.sent ∧ rt1.tls.stacktraces_len = 0 ∧ rt1.tls.count_len = 0)

/-- Invariant of a started thread: the sample block is well formed and every batch sent
has as many stack slots as count slots. -/
def BlockInv (rt : Runtime) : Prop :=
  BlockWF rt.tls ∧ ∀ b ∈ rt.sent, b.stacktraces.length = b.count.length

/-- What one call of a handler does to the slots written: it sends at most one batch, and
when it sends none the number of slots written stays or grows by the number of frames and
the slots written before hold what they held. -/
def KeepsWritten (handler : Runtime → List Nat → Option Runtime) : Prop :=
  ∀ rt rt1 frames, handler rt frames = some rt1 →
    (rt1.sent = rt.sent ∨ ∃ b, rt1.sent = rt.sent ++ [b]) ∧
    (rt1.sent = rt.sent →
      (rt1.tls.stacktraces_len = rt.tls.stacktraces_len ∨
        rt1.tls.stacktraces_len = rt.tls.stacktraces_len + frames.length) ∧
      ∀ x, x < rt.tls.stacktraces_len → rt1.tls.stacktraces[x]? = rt.tls.stacktraces[x]?)

/-- Entry `i` of the buffer matches the captured frames in the search of the handlers: its
count is neither 0 nor 255 and the inner loop runs through all `framecount` frames. -/
def ScanMatch (tls : TLS) (framebuf : List Nat) (framecount i : Nat) : Prop :=
  ∃ c, tls.count[i]? = some c ∧ c ≠ 0 ∧ c ≠ 255 ∧
    matchFrames tls.stacktraces framebuf i framecount 0 = some framecount

/-- The indices `i + j` at which the inner loop of the search reads `buffer.stacktraces`,
in order: iteration `j` reads slot `i + j` and the loop goes on while the slot equals
`framebuf[j]`. The arguments are those of `matchFrames`. -/
def matchReads (stacktraces framebuf : List Nat) (i : Nat) : Nat → Nat → List Nat
  | 0, _ => []
  | n + 1, j =>
    (i + j) ::
      (match stacktraces[i + j]?, framebuf[j]? with
        | some a, some f =>
          if a ≠ f then [] else matchReads stacktraces framebuf i n (j + 1)
        | _, _ => [])

/-- The indices at which the search of the handlers reads `buffer.stacktraces`: those of
the inner loop, for every `i < count_len` whose count is neither 0 nor 255. -/
def scanReads (tls : TLS) (framebuf : List Nat) (framecount : Nat) : List Nat :=
  (List.range tls.count_len).flatMap (fun i =>
    match tls.count[i]? with
    | none => []
    | some c =>
      if c = 0 then [] else if c = 255 then []
      else matchReads tls.stacktraces framebuf i framecount 0)

/-- The count slots at and above `count_len` hold 0, as `initialize_data` leaves them. -/
def CountTail (tls : TLS) : Prop :=
  ∀ i, tls.count_len ≤ i → tls.count.getD i 0 = 0

/-- The identity fields of a header: experiment, collector, collector id, host, pid,
posix thread id and OpenMP thread id. -/
def identityOf (h : CBTF_DataHeader) : Nat × Nat × String × String × Nat × Nat × Nat :=
  (h.experiment, h.collector, h.id, h.host, h.pid, h.posix_tid, h.omp_tid)

/-- From the state `rt` to the state `rt1` the identity fields of the header and the
payload interval are kept, and every batch sent in between carries them. -/
def KeepsIdentity (rt rt1 : Runtime) : Prop :=
  identityOf rt1.tls.header = identityOf rt.tls.header ∧
  rt1.tls.interval = rt.tls.interval ∧
  ∃ new, rt1.sent = rt.sent ++ new ∧
    ∀ b ∈ new, identityOf b.header = identityOf rt.tls.header ∧ b.interval = rt.tls.interval

/-- Whether an event is a call of `cbtf_collector_start`. -/
def isStart : Usertime.Event → Bool
  | Usertime.Event.start _ => true
  | _ => false

/-- A header with the rank field put aside (set to 0). -/
def eraseHeaderRank (h : CBTF_DataHeader) : CBTF_DataHeader := { h with rank := 0 }

/-- A batch with the rank field of its header put aside. -/
def eraseBatchRank (b : Batch) : Batch := { b with header := eraseHeaderRank b.header }

/-- A sample block with the rank field of its header put aside. -/
def eraseBlockRank (tls : TLS) : TLS := { tls with header := eraseHeaderRank tls.header }

/-- A thread with the rank field put aside, in its header and in the batches sent. -/
def eraseRank (rt : Runtime) : Runtime :=
  { rt with tls := eraseBlockRank rt.tls, sent := rt.sent.map eraseBatchRank }

/-- No blame flag of the thread is set. -/
def NoBlame (tls : TLS) : Prop :=
  tls.thread_idle = false ∧ tls.thread_wait_barrier = false ∧ tls.thread_barrier = false

/-- Ten pairwise distinct stacks of 100 frames: stack `i` repeats the address
`0x1000 + i`. -/
def tenStacks : List (List Nat) :=
  (List.range 10).map (fun i => List.replicate 100 (0x1000 + i))

/-- The ten stacks of `tenStacks` followed by a stack of 24 frames: delivered to the empty
buffer they fill all 1024 slots. -/
def fillStacks : List (List Nat) := tenStacks ++ [List.replicate 24 0x2000]

/-- A stack of 25 frames whose first 24 frames are those of the last stack of
`fillStacks`. -/
def probeStack : List Nat := List.replicate 25 0x2000

/-- A session of the usertime collector after its start: samples, a pause with a sample
that is not taken, a resume and the stop. -/
def sessionEvents : List Usertime.Event :=
  [Usertime.Event.sample [0x10, 0x20, 0x30], Usertime.Event.sample [0x10, 0x20, 0x30],
    Usertime.Event.sample [0x40], Usertime.Event.pause, Usertime.Event.sample [0x50],
    Usertime.Event.resume, Usertime.Event.stop]

/-- The outcome of a handler call that merges the sample into entry `idx`, seen from the
state `rt` before and the state `rt1` after: `idx` is the matching entry of the highest
index, its count has grown by 1, and nothing else has changed (the other counts, the
stack slots, both lengths, the header, the clock and the batches sent). -/
def MergedAt (rt : Runtime) (fb : List Nat) (k idx : Nat) (rt1 : Runtime) : Prop :=
  idx < rt.tls.count_len ∧ ScanMatch rt.tls fb k idx ∧
  (∀ i, idx < i → i < rt.tls.count_len → ¬ ScanMatch rt.tls fb k i) ∧
  rt1 = { rt with tls := { rt.tls with
      count := rt.tls.count.set idx (rt.tls.count.getD idx 0 + 1) } } ∧
  rt1.tls.count[idx]? = some (rt.tls.count.getD idx 0 + 1) ∧
  ∀ i, i ≠ idx → rt1.tls.count[i]? = rt.tls.count[i]?

/-- The outcome of one handled sample for the counts, seen from the state `rt` before and
the state `rt1` after: the block stays well formed with zeros above the payload; when
nothing is sent the sum of the count array has grown by exactly 1; when a batch is sent
(at most one is), its counts sum to what the array held, and the array then holds the new
sample alone. -/
def CountedOnce (rt rt1 : Runtime) : Prop :=
  BlockWF rt1.tls ∧ CountTail rt1.tls ∧
  rt1.tls.defer_sampling = rt.tls.defer_sampling ∧
  (rt1.sent = rt.sent ∨ ∃ b, rt1.sent = rt.sent ++ [b]) ∧
  (rt1.sent = rt.sent → rt1.tls.count.sum = rt.tls.count.sum + 1) ∧
  (∀ b, rt1.sent = rt.sent ++ [b] →
    b.count.sum = rt.tls.count.sum ∧ rt1.tls.count.sum = 1)

/-- The insertion of `k` frames after the search has found nothing to merge, seen from
the state `rt` before and the state `rt1` after: the frames are written at the slots
`base .. base + k - 1`, where `base` is the payload length, or 0 when the buffer had no
room and was sent; every slot written lies within the 1024 slots of the buffer. -/
def InsertedWithin (rt : Runtime) (k : Nat) (rt1 : Runtime) : Prop :=
  ∃ base, (base = if rt.tls.stacktraces_len + k > CBTF_USERTIME_BUFFERSIZE then 0
      else rt.tls.stacktraces_len) ∧
    (∀ i, i < k → base + i < CBTF_USERTIME_BUFFERSIZE) ∧
    rt1.tls.stacktraces_len = base + k ∧ rt1.tls.count_len = base + k ∧
    rt1.tls.stacktraces.length = CBTF_USERTIME_BUFFERSIZE ∧
    rt1.tls.count.length = CBTF_USERTIME_BUFFERSIZE

/-- Invariant of the sample block for the counts: the block is well formed and the count
slots above the payload hold 0. -/
def CountInv (tls : TLS) : Prop := BlockWF tls ∧ CountTail tls

end Collector

/-! ## SymbolTable -/

/-- The type `SymbolTable::UniqueIdentifier` (`boost::uint32_t`): the position of a
function or statement in its list. -/
abbrev UniqueIdentifier := Nat

/-- The type `SymbolTable::AddressRangeIndex`, a
`boost::bimap<multiset_of<AddressRange>, multiset_of<UniqueIdentifier>>`: the pairs it
holds, in the order of its left view (by address range). -/
abbrev AddressRangeIndex := List (AddressRange × UniqueIdentifier)

/-- The structure `SymbolTable::FunctionItem`. -/
structure FunctionItem where
  dm_name : String
  dm_addresses : List AddressBitmap
deriving DecidableEq

/-- The structure `SymbolTable::StatementItem`. -/
structure StatementItem where
  dm_path : String
  dm_line : Nat
  dm_column : Nat
  dm_addresses : List AddressBitmap
deriving DecidableEq

/-- The data members of the class `SymbolTable`. -/
structure SymbolTable where
  dm_path : String
  dm_checksum : Nat
  dm_functions : List FunctionItem
  dm_functions_index : AddressRangeIndex
  dm_statements : List StatementItem
  dm_statements_index : AddressRangeIndex
deriving DecidableEq

namespace SymbolTable

/-- Modelled from the spec: the constructor `SymbolTable(path)` (SymbolTable.cpp is not
among the sources), "functions/statements empty". The checksum of the file bytes is an
argument. -/
def create (path : String) (checksum : Nat) : SymbolTable :=
  { dm_path := path, dm_checksum := checksum, dm_functions := [], dm_functions_index := []
    dm_statements := [], dm_statements_index := [] }

/-- Modelled from the spec: one step of "group adjacent/overlapping input ranges". The
range `r` joins the group `g` formed last when the two touch or overlap, and the group
becomes their span; otherwise `r` begins a new group. The groups are held latest first. -/
def groupStep (groups : List AddressRange) (r : AddressRange) : List AddressRange :=
  match groups with
  | [] => [r]
  | g :: gs =>
    if r.dm_begin ≤ g.dm_end ∧ g.dm_begin ≤ r.dm_end then
      { dm_begin := min g.dm_begin r.dm_begin, dm_end := max g.dm_end r.dm_end } :: gs
    else r :: g :: gs

/-- Modelled from the spec: "group adjacent/overlapping input ranges", over the ranges of
the input set in its order. -/
def groupRanges (ranges : List AddressRange) : List AddressRange :=
  (ranges.foldl groupStep []).reverse

/-- Modelled from the spec: the bits of every address of the range `r` are set in the
bitmap `b`, with `AddressBitmap::setValue`. -/
def setRange (b : AddressBitmap) (r : AddressRange) : Option AddressBitmap :=
  ((List.range r.getWidth).map (fun i => addrAdd r.dm_begin i)).foldlM
    (fun b a => b.setValue a true) b

/-- Modelled from the spec: "an existing bitmap whose range covers the group". -/
def doesCover (b : AddressBitmap) (g : AddressRange) : Bool :=
  decide (b.dm_range.dm_begin ≤ g.dm_begin) && decide (g.dm_end ≤ b.dm_range.dm_end)

/-- Modelled from the spec: "for each group, either extend an existing bitmap whose range
covers the group or allocate a new bitmap sized to the group's span". The first bitmap
that covers the group is extended; a new bitmap goes to the end of the list. -/
def extendGroup : List AddressBitmap → AddressRange → Option (List AddressBitmap)
  | [], g => (setRange (AddressBitmap.fromRange g) g).map (fun b => [b])
  | b :: rest, g =>
    if doesCover b g then (setRange b g).map (fun b1 => b1 :: rest)
    else (extendGroup rest g).map (fun rest1 => b :: rest1)

/-- Modelled from the spec: "merge the given ranges into the entity's bitmap list". -/
def extend (bitmaps : List AddressBitmap) (ranges : List AddressRange) :
    Option (List AddressBitmap) :=
  (groupRanges ranges).foldlM extendGroup bitmaps

/-- Modelled from the spec: "the contiguous runs across all its bitmaps", each bitmap
giving `getContiguousRanges(true)`. -/
def contiguousRuns : List AddressBitmap → Option (List AddressRange)
  | [] => some []
  | b :: rest =>
    match b.getContiguousRanges true, contiguousRuns rest with
    | some rs, some more => some (rs ++ more)
    | _, _ => none

/-- Modelled from the spec: insertion of a pair into a range index; the left view keeps
the pairs in the order of their ranges, equal ranges in the order of insertion. -/
def indexInsert (e : AddressRange × UniqueIdentifier) : AddressRangeIndex → AddressRangeIndex
  | [] => [e]
  | x :: xs => if e.1.lt x.1 then e :: x :: xs else x :: indexInsert e xs

/-- Modelled from the spec: "any mutation rebuilds the index entries for the affected
entity": the pairs of `uid` are erased and "an entry is inserted for every maximal
contiguous run of set bits in every bitmap associated with the entity". -/
def reindex (uid : UniqueIdentifier) (bitmaps : List AddressBitmap)
    (index : AddressRangeIndex) : Option AddressRangeIndex :=
  (contiguousRuns bitmaps).map
    (fun runs => runs.foldl (fun idx r => indexInsert (r, uid) idx)
      (index.filter (fun e => e.2 ≠ uid)))

/-- Modelled from the spec: `add_function(name) → uid`, "identifier is the insertion
index". -/
def addFunction (t : SymbolTable) (name : String) : SymbolTable × UniqueIdentifier :=
  ({ t with dm_functions := t.dm_functions ++ [{ dm_name := name, dm_addresses := [] }] },
    t.dm_functions.length)

/-- Modelled from the spec: `add_statement(path, line, column) → uid`. -/
def addStatement (t : SymbolTable) (path : String) (line column : Nat) :
    SymbolTable × UniqueIdentifier :=
  ({ t with dm_statements := t.dm_statements ++
      [{ dm_path := path, dm_line := line, dm_column := column, dm_addresses := [] }] },
    t.dm_statements.length)

/-- Modelled from the spec: `add_function_address_ranges(uid, ranges)`, "merge the given
ranges into the entity's bitmap list and (re)insert the resulting contiguous runs into
the index". An identifier out of range is the fatal assertion, `none`. -/
def addFunctionAddressRanges (t : SymbolTable) (uid : UniqueIdentifier)
    (ranges : List AddressRange) : Option SymbolTable :=
  match t.dm_functions[uid]? with
  | none => none
  | some item =>
    match extend item.dm_addresses ranges with
    | none => none
    | some bitmaps =>
      match reindex uid bitmaps t.dm_functions_index with
      | none => none
      | some index =>
        some { t with
          dm_functions := t.dm_functions.set uid { item with dm_addresses := bitmaps }
          dm_functions_index := index }

/-- Modelled from the spec: `add_statement_address_ranges(uid, ranges)`. -/
def addStatementAddressRanges (t : SymbolTable) (uid : UniqueIdentifier)
    (ranges : List AddressRange) : Option SymbolTable :=
  match t.dm_statements[uid]? with
  | none => none
  | some item =>
    match extend item.dm_addresses ranges with
    | none => none
    | some bitmaps =>
      match reindex uid bitmaps t.dm_statements_index with
      | none => none
      | some index =>
        some { t with
          dm_statements := t.dm_statements.set uid { item with dm_addresses := bitmaps }
          dm_statements_index := index }

/-- Modelled from the spec: the sorted set of the given runs (a `std::set<AddressRange>`). -/
def rangeSet (runs : List AddressRange) : List AddressRange :=
  runs.foldl (fun s r => setInsert r s) []

/-- Modelled from the spec: `getFunctionAddressRanges(uid)`, "the entity's address ranges
(expressed as the sorted set of contiguous runs across all its bitmaps)". -/
def getFunctionAddressRanges (t : SymbolTable) (uid : UniqueIdentifier) :
    Option (List AddressRange) :=
  match t.dm_functions[uid]? with
  | none => none
  | some item => (contiguousRuns item.dm_addresses).map rangeSet

/-- Modelled from the spec: `getStatementAddressRanges(uid)`. -/
def getStatementAddressRanges (t : SymbolTable) (uid : UniqueIdentifier) :
    Option (List AddressRange) :=
  match t.dm_statements[uid]? with
  | none => none
  | some item => (contiguousRuns item.dm_addresses).map rangeSet

/-- Modelled from the spec: one pair of the index during an address lookup. The state is
the list of identifiers the visitor has been invoked on and whether the iteration goes
on; the visitor is invoked on an entity not visited yet whose run contains the address,
and "iteration halts as soon as the visitor returns false". -/
def visitStep (address : Nat) (visitor : UniqueIdentifier → Bool)
    (st : List UniqueIdentifier × Bool) (e : AddressRange × UniqueIdentifier) :
    List UniqueIdentifier × Bool :=
  if st.2 && e.1.doesContain address && !(st.1.contains e.2) then
    (st.1 ++ [e.2], visitor e.2)
  else st

/-- Modelled from the spec: "address lookup consults the appropriate range index and
yields every entity whose contiguous runs contain the address". The result is the list of
identifiers the visitor was invoked on, in the order of the calls. -/
def visitAt (index : AddressRangeIndex) (address : Nat)
    (visitor : UniqueIdentifier → Bool) : List UniqueIdentifier :=
  (index.foldl (visitStep address visitor) ([], true)).1

/-- Modelled from the spec: `visitFunctionsAt(address, visitor)`. -/
def visitFunctionsAt (t : SymbolTable) (address : Nat)
    (visitor : UniqueIdentifier → Bool) : List UniqueIdentifier :=
  visitAt t.dm_functions_index address visitor

/-- Modelled from the spec: `visitStatementsAt(address, visitor)`. -/
def visitStatementsAt (t : SymbolTable) (address : Nat)
    (visitor : UniqueIdentifier → Bool) : List UniqueIdentifier :=
  visitAt t.dm_statements_index address visitor

/-- A call that builds a symbol table. -/
inductive Op where
  | addFunction (name : String)
  | addFunctionAddressRanges (uid : UniqueIdentifier) (ranges : List AddressRange)
  | addStatement (path : String) (line column : Nat)
  | addStatementAddressRanges (uid : UniqueIdentifier) (ranges : List AddressRange)
deriving DecidableEq

/-- Effect of one call on the table. -/
def step (t : SymbolTable) : Op → Option SymbolTable
  | Op.addFunction name => some (addFunction t name).1
  | Op.addFunctionAddressRanges uid ranges => addFunctionAddressRanges t uid ranges
  | Op.addStatement path line column => some (addStatement t path line column).1
  | Op.addStatementAddressRanges uid ranges => addStatementAddressRanges t uid ranges

/-- Effect of a sequence of calls, in order. -/
def run : List Op → SymbolTable → Option SymbolTable
  | [], t => some t
  | op :: rest, t =>
    match step t op with
    | none => none
    | some t1 => run rest t1

/-- The ranges a call passes: each is a half-open interval of 64-bit addresses. -/
def Op.WF : Op → Prop
  | Op.addFunctionAddressRanges _ ranges =>
    ∀ r ∈ ranges, r.dm_begin ≤ r.dm_end ∧ r.dm_end < 2 ^ 64
  | Op.addStatementAddressRanges _ ranges =>
    ∀ r ∈ ranges, r.dm_begin ≤ r.dm_end ∧ r.dm_end < 2 ^ 64
  | _ => True

/-- The address `a` is covered by the bitmaps: its bit is set in one of them. -/
def Covers (bitmaps : List AddressBitmap) (a : Nat) : Prop :=
  ∃ b ∈ bitmaps, b.dm_range.doesContain a = true ∧ b.bitAt a = true

/-- The range `r` is a contiguous run of set bits of one of the bitmaps. -/
def IsRun (bitmaps : List AddressBitmap) (r : AddressRange) : Prop :=
  ∃ b ∈ bitmaps, ∃ rs, b.getContiguousRanges true = some rs ∧ r ∈ rs

/-- The range index agrees with the bitmaps of the entities: it holds the pair
`(r, uid)` exactly when `r` is a contiguous run of a bitmap of entity `uid`. -/
def IndexConsistent (items : List (List AddressBitmap)) (index : AddressRangeIndex) : Prop :=
  ∀ r uid, (r, uid) ∈ index ↔ ∃ bitmaps, items[uid]? = some bitmaps ∧ IsRun bitmaps r

/-- The bitmap lists of the functions, by identifier. -/
def functionBitmaps (t : SymbolTable) : List (List AddressBitmap) :=
  t.dm_functions.map (fun item => item.dm_addresses)

/-- The bitmap lists of the statements, by identifier. -/
def statementBitmaps (t : SymbolTable) : List (List AddressBitmap) :=
  t.dm_statements.map (fun item => item.dm_addresses)

/-- Invariant of a symbol table: every bitmap satisfies the class invariant and both
range indices agree with the bitmaps. -/
structure Consistent (t : SymbolTable) : Prop where
  functions_wf : ∀ bitmaps ∈ functionBitmaps t, ∀ b ∈ bitmaps, b.WF
  functions_index : IndexConsistent (functionBitmaps t) t.dm_functions_index
  statements_wf : ∀ bitmaps ∈ statementBitmaps t, ∀ b ∈ bitmaps, b.WF
  statements_index : IndexConsistent (statementBitmaps t) t.dm_statements_index

/-- The calls of the lookup example: function `f` is added and given the ranges
`[0x100, 0x200)` and `[0x300, 0x400)`. -/
def exampleOps : List Op :=
  [Op.addFunction "f",
    Op.addFunctionAddressRanges 0
      [{ dm_begin := 0x100, dm_end := 0x200 }, { dm_begin := 0x300, dm_end := 0x400 }]]

/-- The table of the lookup example. -/
def exampleTable : Option SymbolTable :=
  run exampleOps (create "a.out" 0)

/-- The address `a` is covered by entity `uid` of the list: the entity exists and one of
its bitmaps has the bit of `a` set. -/
def CoversEntity (items : List (List AddressBitmap)) (uid : UniqueIdentifier) (a : Nat) :
    Prop :=
  ∃ bitmaps, items[uid]? = some bitmaps ∧ Covers bitmaps a

/-- The identifiers an address lookup visits when the visitor answers as `visitor` does,
given the list `all` it visits when the visitor never halts: those up to and including
the first one on which the visitor returns false. -/
def untilHalt (visitor : UniqueIdentifier → Bool) : List UniqueIdentifier →
    List UniqueIdentifier
  | [] => []
  | u :: us => if visitor u then u :: untilHalt visitor us else [u]

/-- An address lookup that never halts visits exactly the entities with a contiguous run
that contains the address, each of them once. -/
def VisitsExactly (items : List (List AddressBitmap)) (a : Nat)
    (visited : List UniqueIdentifier) : Prop :=
  visited.Nodup ∧
  ∀ uid, uid ∈ visited ↔
    ∃ bitmaps, items[uid]? = some bitmaps ∧ ∃ r, IsRun bitmaps r ∧ r.doesContain a = true

/-- The address ranges `rs` reported for entity `uid` cover exactly the union of the set
bits of its bitmaps, which is the union of the ranges `added` to it; no range is reported
when nothing was added. -/
def UnionOfAdded (items : List (List AddressBitmap)) (uid : UniqueIdentifier)
    (added : List (List AddressRange)) (rs : List AddressRange) : Prop :=
  (∀ a, (∃ r ∈ rs, r.doesContain a = true) ↔ CoversEntity items uid a) ∧
  (∀ a, (∃ r ∈ rs, r.doesContain a = true) ↔
    ∃ ranges ∈ added, ∃ r ∈ ranges, r.doesContain a = true) ∧
  (added = [] → rs = [])

/-- The range lists passed to `addFunctionAddressRanges` for `uid`, in order. -/
def functionRangesAdded (uid : UniqueIdentifier) : List Op → List (List AddressRange)
  | [] => []
  | Op.addFunctionAddressRanges u ranges :: rest =>
    if u = uid then ranges :: functionRangesAdded uid rest else functionRangesAdded uid rest
  | _ :: rest => functionRangesAdded uid rest

/-- The range lists passed to `addStatementAddressRanges` for `uid`, in order. -/
def statementRangesAdded (uid : UniqueIdentifier) : List Op → List (List AddressRange)
  | [] => []
  | Op.addStatementAddressRanges u ranges :: rest =>
    if u = uid then ranges :: statementRangesAdded uid rest
    else statementRangesAdded uid rest
  | _ :: rest => statementRangesAdded uid rest

end SymbolTable

end KrellInstitute

/-! # Theorems -/

namespace KrellInstitute

/-! ## Arithmetic of addresses -/

theorem addrSub_of_le {a b : Nat} (hab : b ≤ a) (ha : a < 2 ^ 64) : addrSub a b = a - b := by
  unfold addrSub
  have hb : b % 2 ^ 64 = b := Nat.mod_eq_of_lt (by omega)
  rw [hb]
  omega

theorem addrSub_lt (a b : Nat) : addrSub a b < 2 ^ 64 := by
  unfold addrSub
  exact Nat.mod_lt _ (by norm_num)

theorem addrAdd_of_lt {a k : Nat} (h : a + k < 2 ^ 64) : addrAdd a k = a + k := by
  unfold addrAdd
  exact Nat.mod_eq_of_lt h

theorem AddressRange.getWidth_lt (r : AddressRange) : r.getWidth < 2 ^ 64 :=
  addrSub_lt _ _

theorem AddressRange.getWidth_of_le {r : AddressRange} (h : r.dm_begin ≤ r.dm_end)
    (he : r.dm_end < 2 ^ 64) : r.getWidth = r.dm_end - r.dm_begin :=
  addrSub_of_le h he

namespace AddressBitmap

/-! ## The wire codec -/

theorem messageSize_of_pos {w : Nat} (h1 : 1 ≤ w) (h2 : w < 2 ^ 64) :
    messageSize w = (w - 1) / 8 + 1 := by
  unfold messageSize
  rw [addrSub_of_le h1 h2]
  have : ((w - 1) / 8 + 1) % 2 ^ 64 = (w - 1) / 8 + 1 := Nat.mod_eq_of_lt (by omega)
  rw [this]
  omega

theorem messageSize_zero : messageSize 0 = 2 ^ 61 := by
  decide

theorem le_messageSize {w : Nat} (h2 : w < 2 ^ 64) : w ≤ 8 * messageSize w := by
  rcases Nat.eq_zero_or_pos w with h | h
  · subst h; exact Nat.zero_le _
  · rw [messageSize_of_pos h h2]; omega

/-- Testing bit `k` of a byte with the mask `1 << k`, as the decoder does. -/
theorem and_mask_ne_zero (x k : Nat) : ((x &&& (1 <<< k)) != 0) = x.testBit k := by
  rw [Nat.one_shiftLeft]
  cases hx : x.testBit k with
  | true =>
    have hb : (x &&& 2 ^ k).testBit k = true := by
      rw [Nat.testBit_and, hx, Nat.testBit_two_pow_self]; rfl
    have hne : x &&& 2 ^ k ≠ 0 := by
      intro h0
      rw [h0, Nat.zero_testBit] at hb
      exact Bool.noConfusion hb
    simpa using hne
  | false =>
    have h0 : x &&& 2 ^ k = 0 := by
      apply Nat.eq_of_testBit_eq
      intro i
      rw [Nat.testBit_and, Nat.zero_testBit, Nat.testBit_two_pow]
      by_cases hki : k = i
      · subst hki; simp [hx]
      · simp [hki]
    simp [h0]

/-- Setting bit `m` of a byte with `|= 1 << m` and truncating to eight bits. -/
theorem testBit_or_mask (x m k : Nat) (hk : k < 8) :
    (((x ||| (1 <<< m)) % 256).testBit k) = (x.testBit k || decide (m = k)) := by
  have h256 : (256 : Nat) = 2 ^ 8 := by norm_num
  rw [h256, Nat.testBit_mod_two_pow, Nat.testBit_or, Nat.one_shiftLeft, Nat.testBit_two_pow]
  simp [hk]

theorem toMessageStep_length (bm : List Bool) (data : List Nat) (i : Nat) :
    (toMessageStep bm data i).length = data.length := by
  unfold toMessageStep
  split <;> simp

theorem toMessageStep_testBit (bm : List Bool) (data : List Nat) (i j k : Nat)
    (hi : i / 8 < data.length) (hk : k < 8) :
    ((toMessageStep bm data i).getD j 0).testBit k =
      ((data.getD j 0).testBit k || (decide (8 * j + k = i) && bm.getD i false)) := by
  unfold toMessageStep
  by_cases hb : bm.getD i false = true
  · rw [if_pos hb, hb]
    by_cases hj : j = i / 8
    · subst hj
      have hget : (data.set (i / 8) ((data.getD (i / 8) 0 ||| 1 <<< (i % 8)) % 256)).getD (i / 8) 0
          = (data.getD (i / 8) 0 ||| 1 <<< (i % 8)) % 256 := by
        simp [List.getD_eq_getElem?_getD, List.getElem?_set, hi]
      rw [hget, testBit_or_mask _ _ _ hk]
      have : (i % 8 = k) ↔ (8 * (i / 8) + k = i) := by omega
      simp [this]
    · have hget : (data.set (i / 8) ((data.getD (i / 8) 0 ||| 1 <<< (i % 8)) % 256)).getD j 0
          = data.getD j 0 := by
        simp [List.getD_eq_getElem?_getD, List.getElem?_set, Ne.symm hj]
      rw [hget]
      have : ¬ (8 * j + k = i) := by omega
      simp [this]
  · have hb' : bm.getD i false = false := by simpa using hb
    rw [if_neg hb, hb']
    simp

/-- Contents of the byte array after the first `n` iterations of the encoding loop. -/
theorem toMessage_loop (bm : List Bool) (size n : Nat) (hn : n ≤ 8 * size) :
    ((List.range n).foldl (toMessageStep bm) (List.replicate size 0)).length = size ∧
    ∀ j k, k < 8 →
      (((List.range n).foldl (toMessageStep bm) (List.replicate size 0)).getD j 0).testBit k =
        (decide (8 * j + k < n) && bm.getD (8 * j + k) false) := by
  induction n with
  | zero =>
    refine ⟨by simp, ?_⟩
    intro j k _
    simp [List.getD_eq_getElem?_getD, List.getElem?_replicate]
    split <;> simp
  | succ n ih =>
    obtain ⟨hlen, hbits⟩ := ih (by omega)
    rw [List.range_succ, List.foldl_append]
    simp only [List.foldl_cons, List.foldl_nil]
    refine ⟨by rw [toMessageStep_length, hlen], ?_⟩
    intro j k hk
    rw [toMessageStep_testBit _ _ _ _ _ (by rw [hlen]; omega) hk, hbits j k hk]
    by_cases h1 : 8 * j + k < n
    · have h2 : 8 * j + k < n + 1 := by omega
      have h3 : ¬ (8 * j + k = n) := by omega
      simp [h1, h2, h3]
    · by_cases h3 : 8 * j + k = n
      · have h2 : 8 * j + k < n + 1 := by omega
        simp [h1, h2, h3]
      · have h2 : ¬ (8 * j + k < n + 1) := by omega
        simp [h1, h2, h3]

/-- A loop that assigns `f i` to slot `i` for every `i < n`. -/
theorem foldl_set_range {α : Type} (f : Nat → α) (init : List α) (n : Nat) :
    ((List.range n).foldl (fun bm i => bm.set i (f i)) init).length = init.length ∧
    ∀ i, i < init.length →
      ((List.range n).foldl (fun bm i => bm.set i (f i)) init)[i]? =
        if i < n then some (f i) else init[i]? := by
  induction n with
  | zero => simp
  | succ n ih =>
    obtain ⟨hlen, hget⟩ := ih
    rw [List.range_succ, List.foldl_append]
    simp only [List.foldl_cons, List.foldl_nil]
    refine ⟨by rw [List.length_set, hlen], ?_⟩
    intro i hi
    rw [List.getElem?_set]
    by_cases hni : n = i
    · subst hni
      simp [hlen, hi]
    · rw [if_neg hni, hget i hi]
      by_cases h1 : i < n
      · have : i < n + 1 := by omega
        simp [h1, this]
      · have : ¬ i < n + 1 := by omega
        simp [h1, this]

theorem toMessage_range (b : AddressBitmap) : b.toMessage.range = b.dm_range := rfl

theorem toMessage_length (b : AddressBitmap) :
    b.toMessage.data_val.length = messageSize b.dm_range.getWidth :=
  (toMessage_loop b.dm_bitmap _ _ (le_messageSize b.dm_range.getWidth_lt)).1

theorem toMessage_testBit (b : AddressBitmap) (i : Nat) (hi : i < b.dm_range.getWidth) :
    (b.toMessage.data_val.getD (i / 8) 0).testBit (i % 8) = b.dm_bitmap.getD i false := by
  have h := (toMessage_loop b.dm_bitmap _ _ (le_messageSize b.dm_range.getWidth_lt)).2
    (i / 8) (i % 8) (Nat.mod_lt _ (by norm_num))
  have hdm : 8 * (i / 8) + i % 8 = i := Nat.div_add_mod i 8
  rw [hdm] at h
  unfold toMessage
  simp only
  rw [h]
  simp [hi]

/-- The bit the decoder stores for offset `i` is bit `i % 8` of byte `i / 8`. -/
theorem fromMessage_bit (m : CBTF_Protocol_AddressBitmap) (b : AddressBitmap)
    (h : fromMessage m = some b) :
    b.dm_range = m.range ∧ b.dm_bitmap.length = m.range.getWidth ∧
    ∀ i, i < m.range.getWidth →
      b.dm_bitmap[i]? = some ((m.data_val.getD (i / 8) 0).testBit (i % 8)) := by
  unfold fromMessage at h
  split at h
  · injection h with h
    subst h
    have hf := foldl_set_range (fun i => (m.data_val.getD (i / 8) 0 &&& (1 <<< (i % 8))) != 0)
      (List.replicate m.range.getWidth false) m.range.getWidth
    have hstep : fromMessageStep m.data_val =
        fun bm i => bm.set i ((m.data_val.getD (i / 8) 0 &&& (1 <<< (i % 8))) != 0) := rfl
    refine ⟨rfl, ?_, ?_⟩
    · simp only [hstep]
      rw [hf.1, List.length_replicate]
    · intro i hi
      simp only [hstep]
      rw [hf.2 i (by rw [List.length_replicate]; exact hi), if_pos hi, and_mask_ne_zero]
  · exact Option.noConfusion h

/-- Decoding an encoded bitmap gives the bitmap back. -/
theorem fromMessage_toMessage (b : AddressBitmap)
    (hlen : b.dm_bitmap.length = b.dm_range.getWidth) :
    fromMessage b.toMessage = some b := by
  have hsz : b.toMessage.data_len = messageSize b.toMessage.range.getWidth := by
    unfold CBTF_Protocol_AddressBitmap.data_len
    rw [toMessage_length, toMessage_range]
  cases hdec : fromMessage b.toMessage with
  | none =>
    unfold fromMessage at hdec
    rw [if_pos hsz] at hdec
    exact Option.noConfusion hdec
  | some b1 =>
    obtain ⟨hr, hl, hbit⟩ := fromMessage_bit _ _ hdec
    rw [toMessage_range] at hr hl hbit
    have hbm : b1.dm_bitmap = b.dm_bitmap := by
      apply List.ext_getElem?
      intro i
      by_cases hi : i < b.dm_range.getWidth
      · rw [hbit i hi, toMessage_testBit b i hi, List.getD_eq_getElem?_getD]
        have : i < b.dm_bitmap.length := by omega
        simp [List.getElem?_eq_getElem this]
      · rw [List.getElem?_eq_none (by omega), List.getElem?_eq_none (by omega)]
    cases b1
    cases b
    simp only at hr hbm
    subst hr hbm
    rfl

end AddressBitmap

/-! ## Sets of ranges -/

theorem AddressRange.eq_of_not_lt {a b : AddressRange} (h1 : a.lt b = false)
    (h2 : b.lt a = false) : a = b := by
  cases a with
  | mk ab ae =>
    cases b with
    | mk bb be =>
      simp only [AddressRange.lt, Bool.or_eq_false_iff, Bool.and_eq_false_iff,
        decide_eq_false_iff_not] at h1 h2
      have hb : ab = bb := by omega
      subst hb
      have he : ae = be := by
        rcases h1.2 with h | h
        · exact absurd rfl h
        · rcases h2.2 with h' | h'
          · exact absurd rfl h'
          · omega
      subst he
      rfl

theorem mem_setInsert (r y : AddressRange) (s : List AddressRange) :
    y ∈ setInsert r s ↔ y = r ∨ y ∈ s := by
  induction s with
  | nil => simp [setInsert]
  | cons x xs ih =>
    unfold setInsert
    by_cases h1 : r.lt x = true
    · rw [if_pos h1]; simp
    · rw [if_neg h1]
      by_cases h2 : x.lt r = true
      · rw [if_pos h2]
        simp only [List.mem_cons, ih]
        tauto
      · rw [if_neg h2]
        have hrx : r = x :=
          AddressRange.eq_of_not_lt (by simpa using h1) (by simpa using h2)
        subst hrx
        simp only [List.mem_cons]
        tauto

namespace AddressBitmap

/-! ## Contiguous runs -/

theorem getValue_eq_bitAt {b : AddressBitmap} (hwf : b.WF) {a : Nat}
    (h1 : b.dm_range.dm_begin ≤ a) (h2 : a < b.dm_range.dm_end) :
    b.getValue a = some (b.bitAt a) := by
  obtain ⟨hbe, he, hlen⟩ := hwf
  rw [AddressRange.getWidth_of_le hbe he] at hlen
  unfold getValue bitAt
  have hc : b.dm_range.doesContain a = true := by
    simp [AddressRange.doesContain, h1, h2]
  rw [if_pos hc]
  have hidx : addrSub a b.dm_range.getBegin = a - b.dm_range.dm_begin := by
    unfold AddressRange.getBegin
    exact addrSub_of_le h1 (by omega)
  rw [hidx, List.getD_eq_getElem?_getD]
  have hlt : a - b.dm_range.dm_begin < b.dm_bitmap.length := by omega
  simp [List.getElem?_eq_getElem hlt]

theorem getValue_eq_none {b : AddressBitmap} {a : Nat}
    (h : ¬ (b.dm_range.dm_begin ≤ a ∧ a < b.dm_range.dm_end)) : b.getValue a = none := by
  unfold getValue
  have hc : ¬ (b.dm_range.doesContain a = true) := by
    simpa [AddressRange.doesContain] using h
  rw [if_neg hc]

theorem runInv_init (b : AddressBitmap) (p : Bool) :
    RunInv b p b.dm_range.dm_begin { in_range := false, range_begin := 0, ranges := [] } where
  closed := by intro r hr; simp at hr
  sep := by intro r hr; simp at hr
  opened := by intro h; simp at h
  idle := fun _ => Or.inl rfl
  cover := by intro a h1 h2; omega

theorem runInv_step {b : AddressBitmap} (hwf : b.WF) (p : Bool) {i : Nat} {st : RunState}
    (h1 : b.dm_range.dm_begin ≤ i) (h2 : i < b.dm_range.dm_end) (inv : RunInv b p i st) :
    ∃ st1, getContiguousRangesStep b p st i = some st1 ∧ RunInv b p (i + 1) st1 := by
  unfold getContiguousRangesStep
  rw [getValue_eq_bitAt hwf h1 h2]
  simp only
  cases hin : st.in_range with
  | false =>
    have hidle := inv.idle hin
    by_cases hv : b.bitAt i = p
    · -- a range begins at `i`
      refine ⟨{ st with in_range := true, range_begin := i }, by simp [hv], ?_⟩
      refine ⟨?_, inv.sep, ?_, ?_, ?_⟩
      · intro r hr
        obtain ⟨c1, c2, c3, c4, c5, c6⟩ := inv.closed r hr
        exact ⟨c1, c2, by omega, c4, c5, c6⟩
      · intro _
        refine ⟨h1, by simp, ?_, ?_, ?_⟩
        · intro a ha1 ha2
          have : a = i := by simp at ha1 ha2; omega
          subst this; exact hv
        · simp only
          rcases hidle with h | ⟨h, h'⟩
          · exact Or.inl h
          · exact Or.inr ⟨h, h'⟩
        · intro r hr
          exact (inv.closed r hr).2.2.1
      · intro h; simp at h
      · intro a ha1 ha2 ha3
        by_cases hai : a = i
        · exact Or.inr ⟨rfl, by simp [hai]⟩
        · rcases inv.cover a ha1 (by omega) ha3 with h | ⟨h, _⟩
          · exact Or.inl h
          · rw [hin] at h; exact Bool.noConfusion h
    · -- still outside a range
      have hv' : (b.bitAt i == p) = false := by simpa using hv
      refine ⟨st, by simp [hin, hv'], ?_⟩
      refine ⟨?_, inv.sep, ?_, ?_, ?_⟩
      · intro r hr
        obtain ⟨c1, c2, c3, c4, c5, c6⟩ := inv.closed r hr
        exact ⟨c1, c2, by omega, c4, c5, c6⟩
      · intro h; rw [hin] at h; exact Bool.noConfusion h
      · intro _
        exact Or.inr ⟨by omega, by simpa using hv⟩
      · intro a ha1 ha2 ha3
        have hai : a ≠ i := by intro h; subst h; exact hv ha3
        rcases inv.cover a ha1 (by omega) ha3 with h | ⟨h, _⟩
        · exact Or.inl h
        · rw [hin] at h; exact Bool.noConfusion h
  | true =>
    obtain ⟨o1, o2, o3, o4, o5⟩ := inv.opened hin
    by_cases hv : b.bitAt i = p
    · -- the range continues
      have hv' : (b.bitAt i != p) = false := by simp [hv]
      refine ⟨st, by simp [hin, hv'], ?_⟩
      refine ⟨?_, inv.sep, ?_, ?_, ?_⟩
      · intro r hr
        obtain ⟨c1, c2, c3, c4, c5, c6⟩ := inv.closed r hr
        exact ⟨c1, c2, by omega, c4, c5, c6⟩
      · intro _
        refine ⟨o1, by omega, ?_, o4, o5⟩
        intro a ha1 ha2
        by_cases hai : a = i
        · subst hai; exact hv
        · exact o3 a ha1 (by omega)
      · intro h; rw [hin] at h; exact Bool.noConfusion h
      · intro a ha1 ha2 ha3
        by_cases hai : a = i
        · exact Or.inr ⟨hin, by omega⟩
        · rcases inv.cover a ha1 (by omega) ha3 with h | h
          · exact Or.inl h
          · exact Or.inr h
    · -- the range ends at `i`
      have hv' : (b.bitAt i != p) = true := by simpa using hv
      refine ⟨{ st with in_range := false
                        ranges := setInsert { dm_begin := st.range_begin, dm_end := i } st.ranges },
        by simp [hin, hv'], ?_⟩
      have hnew : b.dm_range.dm_begin ≤ st.range_begin ∧ st.range_begin < i ∧ i < i + 1 ∧
          (∀ a, st.range_begin ≤ a → a < i → b.bitAt a = p) ∧ b.bitAt i ≠ p ∧
          (st.range_begin = b.dm_range.dm_begin ∨
            (b.dm_range.dm_begin < st.range_begin ∧ b.bitAt (st.range_begin - 1) ≠ p)) :=
        ⟨o1, o2, by omega, o3, hv, o4⟩
      refine ⟨?_, ?_, ?_, ?_, ?_⟩
      · intro r hr
        rcases (mem_setInsert _ _ _).1 hr with h | h
        · subst h; exact hnew
        · obtain ⟨c1, c2, c3, c4, c5, c6⟩ := inv.closed r h
          exact ⟨c1, c2, by omega, c4, c5, c6⟩
      · intro r1 hr1 r2 hr2
        rcases (mem_setInsert _ _ _).1 hr1 with e1 | m1
        · rcases (mem_setInsert _ _ _).1 hr2 with e2 | m2
          · exact Or.inl (e1.trans e2.symm)
          · subst e1
            exact Or.inr (Or.inr (o5 r2 m2))
        · rcases (mem_setInsert _ _ _).1 hr2 with e2 | m2
          · subst e2
            exact Or.inr (Or.inl (o5 r1 m1))
          · exact inv.sep r1 m1 r2 m2
      · intro h; simp at h
      · intro _
        exact Or.inr ⟨by omega, by simpa using hv⟩
      · intro a ha1 ha2 ha3
        have hai : a ≠ i := by intro h; subst h; exact hv ha3
        rcases inv.cover a ha1 (by omega) ha3 with ⟨r, hr, hra⟩ | ⟨_, h⟩
        · exact Or.inl ⟨r, (mem_setInsert _ _ _).2 (Or.inr hr), hra⟩
        · exact Or.inl ⟨_, (mem_setInsert _ _ _).2 (Or.inl rfl), h, (show a < i by omega)⟩

/-- With enough fuel the loop reaches the end of the range, and the invariant holds
there. -/
theorem runInv_loop {b : AddressBitmap} (hwf : b.WF) (p : Bool) :
    ∀ (fuel i : Nat) (st : RunState), b.dm_range.dm_begin ≤ i → i ≤ b.dm_range.dm_end →
      b.dm_range.dm_end - i < fuel → RunInv b p i st →
      ∃ st1, getContiguousRangesLoop b p fuel i st = some st1 ∧
        RunInv b p b.dm_range.dm_end st1 := by
  intro fuel
  induction fuel with
  | zero => intro i st _ _ hf; omega
  | succ fuel ih =>
    intro i st h1 h2 hf inv
    unfold getContiguousRangesLoop
    by_cases hie : i = b.dm_range.getEnd
    · rw [if_pos hie]
      have hie' : i = b.dm_range.dm_end := hie
      subst hie'
      exact ⟨st, rfl, inv⟩
    · rw [if_neg hie]
      have hlt : i < b.dm_range.dm_end := by
        have : i ≠ b.dm_range.dm_end := hie
        omega
      obtain ⟨st1, hs, inv1⟩ := runInv_step hwf p h1 hlt inv
      rw [hs]
      simp only
      have hnext : addrAdd i 1 = i + 1 := addrAdd_of_lt (by have := hwf.2.1; omega)
      rw [hnext]
      exact ih (i + 1) st1 (by omega) (by omega) (by omega) inv1

/-- What `getContiguousRanges` returns on a well-formed bitmap: every range lies in the
bitmap, is non-empty, holds only bits of the wanted polarity and cannot be extended; two
different ranges are separated; and every address of the wanted polarity is covered. -/
theorem getContiguousRanges_spec {b : AddressBitmap} (hwf : b.WF) (p : Bool) :
    ∃ rs, b.getContiguousRanges p = some rs ∧
      (∀ r ∈ rs,
        b.dm_range.dm_begin ≤ r.dm_begin ∧ r.dm_begin < r.dm_end ∧
        r.dm_end ≤ b.dm_range.dm_end ∧
        (∀ a, r.dm_begin ≤ a → a < r.dm_end → b.bitAt a = p) ∧
        (r.dm_end = b.dm_range.dm_end ∨
          (r.dm_end < b.dm_range.dm_end ∧ b.bitAt r.dm_end ≠ p)) ∧
        (r.dm_begin = b.dm_range.dm_begin ∨
          (b.dm_range.dm_begin < r.dm_begin ∧ b.bitAt (r.dm_begin - 1) ≠ p))) ∧
      (∀ r1 ∈ rs, ∀ r2 ∈ rs, r1 = r2 ∨ r1.dm_end < r2.dm_begin ∨ r2.dm_end < r1.dm_begin) ∧
      (∀ a, b.dm_range.dm_begin ≤ a → a < b.dm_range.dm_end → b.bitAt a = p →
        ∃ r ∈ rs, r.dm_begin ≤ a ∧ a < r.dm_end) := by
  obtain ⟨st, hloop, inv⟩ := runInv_loop hwf p (2 ^ 64) b.dm_range.dm_begin
    { in_range := false, range_begin := 0, ranges := [] } (le_refl _) hwf.1
    (by have := hwf.2.1; omega) (runInv_init b p)
  unfold getContiguousRanges
  have hb : b.dm_range.getBegin = b.dm_range.dm_begin := rfl
  rw [hb, hloop]
  simp only
  cases hin : st.in_range with
  | false =>
    refine ⟨st.ranges, by simp, ?_, inv.sep, ?_⟩
    · intro r hr
      obtain ⟨c1, c2, c3, c4, c5, c6⟩ := inv.closed r hr
      exact ⟨c1, c2, by omega, c4, Or.inr ⟨c3, c5⟩, c6⟩
    · intro a ha1 ha2 ha3
      rcases inv.cover a ha1 ha2 ha3 with h | ⟨h, _⟩
      · exact h
      · rw [hin] at h; exact Bool.noConfusion h
  | true =>
    obtain ⟨o1, o2, o3, o4, o5⟩ := inv.opened hin
    refine ⟨setInsert { dm_begin := st.range_begin, dm_end := b.dm_range.getEnd } st.ranges,
      by simp, ?_, ?_, ?_⟩
    · intro r hr
      rcases (mem_setInsert _ _ _).1 hr with h | h
      · subst h
        exact ⟨o1, o2, le_refl _, o3, Or.inl rfl, o4⟩
      · obtain ⟨c1, c2, c3, c4, c5, c6⟩ := inv.closed r h
        exact ⟨c1, c2, by omega, c4, Or.inr ⟨c3, c5⟩, c6⟩
    · intro r1 hr1 r2 hr2
      rcases (mem_setInsert _ _ _).1 hr1 with e1 | m1
      · rcases (mem_setInsert _ _ _).1 hr2 with e2 | m2
        · exact Or.inl (e1.trans e2.symm)
        · subst e1
          exact Or.inr (Or.inr (o5 r2 m2))
      · rcases (mem_setInsert _ _ _).1 hr2 with e2 | m2
        · subst e2
          exact Or.inr (Or.inl (o5 r1 m1))
        · exact inv.sep r1 m1 r2 m2
    · intro a ha1 ha2 ha3
      rcases inv.cover a ha1 ha2 ha3 with ⟨r, hr, hra⟩ | ⟨_, h⟩
      · exact ⟨r, (mem_setInsert _ _ _).2 (Or.inr hr), hra⟩
      · exact ⟨_, (mem_setInsert _ _ _).2 (Or.inl rfl), h, ha2⟩

/-! ## Assignment of single bits and construction from a set of addresses -/

theorem setValue_of_contains {b : AddressBitmap} (hwf : b.WF) {a : Nat}
    (h1 : b.dm_range.dm_begin ≤ a) (h2 : a < b.dm_range.dm_end) (v : Bool) :
    b.setValue a v =
      some { b with dm_bitmap := b.dm_bitmap.set (a - b.dm_range.dm_begin) v } := by
  obtain ⟨hbe, he, hlen⟩ := hwf
  rw [AddressRange.getWidth_of_le hbe he] at hlen
  unfold setValue
  have hc : b.dm_range.doesContain a = true := by
    simp [AddressRange.doesContain, h1, h2]
  have hidx : addrSub a b.dm_range.getBegin = a - b.dm_range.dm_begin := by
    unfold AddressRange.getBegin
    exact addrSub_of_le h1 (by omega)
  rw [if_pos hc, hidx, if_pos (by omega)]

theorem setValue_eq_none {b : AddressBitmap} {a : Nat} (v : Bool)
    (h : ¬ (b.dm_range.dm_begin ≤ a ∧ a < b.dm_range.dm_end)) : b.setValue a v = none := by
  unfold setValue
  have hc : ¬ (b.dm_range.doesContain a = true) := by
    simpa [AddressRange.doesContain] using h
  rw [if_neg hc]

theorem wf_set {b : AddressBitmap} (hwf : b.WF) (i : Nat) (v : Bool) :
    WF { b with dm_bitmap := b.dm_bitmap.set i v } := by
  obtain ⟨hbe, he, hlen⟩ := hwf
  exact ⟨hbe, he, by simpa using hlen⟩

theorem bitAt_set {b : AddressBitmap} (hwf : b.WF) {a x : Nat}
    (h1 : b.dm_range.dm_begin ≤ a) (h2 : a < b.dm_range.dm_end)
    (hx : b.dm_range.dm_begin ≤ x) (v : Bool) :
    bitAt { b with dm_bitmap := b.dm_bitmap.set (a - b.dm_range.dm_begin) v } x =
      if x = a then v else b.bitAt x := by
  obtain ⟨hbe, he, hlen⟩ := hwf
  rw [AddressRange.getWidth_of_le hbe he] at hlen
  unfold bitAt
  simp only [List.getD_eq_getElem?_getD, List.getElem?_set]
  by_cases hxa : x = a
  · subst hxa
    have : x - b.dm_range.dm_begin < b.dm_bitmap.length := by omega
    simp [this]
  · have : ¬ (a - b.dm_range.dm_begin = x - b.dm_range.dm_begin) := by omega
    simp [this, hxa]

/-- The loop of the constructor from a set: every listed address inside the range gets
its bit set, nothing else changes. -/
theorem foldlM_setValue (xs : List Nat) :
    ∀ b : AddressBitmap, b.WF →
      (∀ a ∈ xs, b.dm_range.dm_begin ≤ a ∧ a < b.dm_range.dm_end) →
      ∃ b1, xs.foldlM (fun b a => b.setValue a true) b = some b1 ∧ b1.WF ∧
        b1.dm_range = b.dm_range ∧
        ∀ x, b.dm_range.dm_begin ≤ x → b1.bitAt x = (b.bitAt x || decide (x ∈ xs)) := by
  induction xs with
  | nil =>
    intro b hwf _
    exact ⟨b, rfl, hwf, rfl, by intro x _; simp⟩
  | cons a xs ih =>
    intro b hwf hmem
    obtain ⟨ha1, ha2⟩ := hmem a (List.mem_cons_self _ _)
    have hset := setValue_of_contains hwf ha1 ha2 true
    obtain ⟨b1, hfold, hwf1, hr1, hbits⟩ := ih _ (wf_set hwf (a - b.dm_range.dm_begin) true)
      (fun y hy => hmem y (List.mem_cons_of_mem _ hy))
    refine ⟨b1, ?_, hwf1, hr1, ?_⟩
    · rw [List.foldlM_cons, hset]
      exact hfold
    · intro x hx
      rw [hbits x hx, bitAt_set hwf ha1 ha2 hx]
      by_cases hxa : x = a
      · simp [hxa]
      · simp [hxa]

theorem pairwise_le_getLast :
    ∀ (l : List Nat) (hne : l ≠ []), l.Pairwise (· < ·) → ∀ x ∈ l, x ≤ l.getLast hne := by
  intro l
  induction l with
  | nil => intro hne; exact absurd rfl hne
  | cons h t ih =>
    intro hne hp x hx
    cases t with
    | nil =>
      simp only [List.mem_singleton] at hx
      subst hx
      simp
    | cons t1 t2 =>
      rw [List.getLast_cons (List.cons_ne_nil t1 t2)]
      rw [List.pairwise_cons] at hp
      have hlast := ih (List.cons_ne_nil t1 t2) hp.2
      rcases List.mem_cons.1 hx with hxh | hxt
      · subst hxh
        have h1 := hp.1 t1 (List.mem_cons_self _ _)
        have h2 := hlast t1 (List.mem_cons_self _ _)
        omega
      · exact hlast x hxt

theorem bitAt_replicate (r : AddressRange) (x : Nat) :
    bitAt { dm_range := r, dm_bitmap := List.replicate r.getWidth false } x = false := by
  unfold bitAt
  simp only [List.getD_eq_getElem?_getD, List.getElem?_replicate]
  split <;> rfl

/-- The constructor from a set of addresses whose largest element is below the top of the
address space. -/
theorem fromAddresses_spec (addresses : List Nat) (hne : addresses ≠ [])
    (hsorted : addresses.Pairwise (· < ·)) (hmax : ∀ a ∈ addresses, a < 2 ^ 64 - 1) :
    ∃ b lo hi, fromAddresses addresses = some b ∧ b.WF ∧
      lo ∈ addresses ∧ hi ∈ addresses ∧ (∀ a ∈ addresses, lo ≤ a ∧ a ≤ hi) ∧
      b.dm_range = { dm_begin := lo, dm_end := hi + 1 } ∧
      ∀ x, lo ≤ x → b.bitAt x = decide (x ∈ addresses) := by
  cases addresses with
  | nil => exact absurd rfl hne
  | cons h t =>
    have hlastmem := List.getLast_mem hne
    have hle := pairwise_le_getLast _ hne hsorted
    have hhead : ∀ a ∈ h :: t, h ≤ a := by
      intro a ha
      rcases List.mem_cons.1 ha with e | m
      · omega
      · exact Nat.le_of_lt ((List.pairwise_cons.1 hsorted).1 a m)
    have hhi := hmax _ hlastmem
    have hadd : addrAdd ((h :: t).getLast hne) 1 = (h :: t).getLast hne + 1 :=
      addrAdd_of_lt (by omega)
    have hwf0 : WF { dm_range := { dm_begin := h, dm_end := (h :: t).getLast hne + 1 }
                     dm_bitmap := List.replicate
                       (AddressRange.getWidth
                         { dm_begin := h, dm_end := (h :: t).getLast hne + 1 }) false } := by
      refine ⟨?_, ?_, by simp⟩
      · have := hle h (List.mem_cons_self _ _)
        show h ≤ (h :: t).getLast hne + 1
        omega
      · show (h :: t).getLast hne + 1 < 2 ^ 64
        omega
    obtain ⟨b1, hfold, hwf1, hr1, hbits⟩ := foldlM_setValue (h :: t) _ hwf0
      (fun a ha => ⟨hhead a ha, by have := hle a ha; show a < (h :: t).getLast hne + 1; omega⟩)
    refine ⟨b1, h, (h :: t).getLast hne, ?_, hwf1, List.mem_cons_self _ _, hlastmem,
      fun a ha => ⟨hhead a ha, hle a ha⟩, hr1, ?_⟩
    · unfold fromAddresses
      rw [List.head?_cons, List.getLast?_eq_getLast _ hne]
      simp only [hadd]
      exact hfold
    · intro x hx
      rw [hbits x hx, bitAt_replicate]
      simp

end AddressBitmap

/-! ## The specification of AddressBitmap -/

namespace AddressBitmap

/-- C1 (refuted for the empty range): for a bitmap over an empty range the conversion
computes `size = 2 ^ 61` from the width 0 (`width - 1` wraps) and asks `malloc` for that
many bytes; wherever `malloc` cannot provide them no message is returned, so there is
nothing to construct a bitmap from. The bitmap of the range `[0x2000, 0x2000)` is an
example. What does hold: for every bitmap of width at least 1 whose `ceil (width / 8)`
bytes `malloc` provides, the conversion returns a message, and constructing a bitmap from
it succeeds and yields a bitmap with the same range and, at every address of the range,
the same bit value (indeed the same bitmap). -/
theorem roundtrip_fails_on_empty_range :
    ((fromRange { dm_begin := 0x2000, dm_end := 0x2000 }).WF ∧
      messageSize (fromRange { dm_begin := 0x2000, dm_end := 0x2000 }).getRange.getWidth
        = 2 ^ 61 ∧
      toMessageWithin (2 ^ 48) (fromRange { dm_begin := 0x2000, dm_end := 0x2000 }) = none) ∧
    (∀ (heap : Nat) (b : AddressBitmap), b.WF → b.getRange.getWidth = 0 → heap < 2 ^ 61 →
      toMessageWithin heap b = none) ∧
    (∀ (heap : Nat) (b : AddressBitmap), b.WF → 1 ≤ b.getRange.getWidth →
      (b.getRange.getWidth + 7) / 8 ≤ heap →
      ∃ m b1, toMessageWithin heap b = some m ∧ fromMessage m = some b1 ∧ b1 = b ∧
        b1.getRange = b.getRange ∧
        ∀ a, b.getRange.doesContain a = true →
          ∃ v, b.getValue a = some v ∧ b1.getValue a = some v) ∧
    (toMessageWithin (2 ^ 48)
        { dm_range := { dm_begin := 0x1000, dm_end := 0x1004 }
          dm_bitmap := [true, true, false, true] } =
      some { range := { dm_begin := 0x1000, dm_end := 0x1004 }, data_val := [0x0B] } ∧
    fromMessage { range := { dm_begin := 0x1000, dm_end := 0x1004 }, data_val := [0x0B] } =
      some { dm_range := { dm_begin := 0x1000, dm_end := 0x1004 }
             dm_bitmap := [true, true, false, true] }) := by
  refine ⟨⟨by decide, by decide, by decide⟩, ?_, ?_, by decide, by decide⟩
  · intro heap b _ hw hheap
    have hw0 : b.dm_range.getWidth = 0 := hw
    unfold toMessageWithin
    rw [hw0, messageSize_zero, if_neg (by omega)]
  · intro heap b hwf hw hheap
    have hw1 : 1 ≤ b.dm_range.getWidth := hw
    have hsize : messageSize b.dm_range.getWidth ≤ heap := by
      rw [messageSize_of_pos hw1 b.dm_range.getWidth_lt]
      have : (b.dm_range.getWidth + 7) / 8 ≤ heap := hheap
      omega
    refine ⟨b.toMessage, b, ?_, fromMessage_toMessage b hwf.2.2, rfl, rfl, ?_⟩
    · unfold toMessageWithin
      rw [if_pos hsize]
    · intro a ha
      have hc : b.dm_range.dm_begin ≤ a ∧ a < b.dm_range.dm_end := by
        simpa [getRange, AddressRange.doesContain] using ha
      exact ⟨b.bitAt a, getValue_eq_bitAt hwf hc.1 hc.2, getValue_eq_bitAt hwf hc.1 hc.2⟩

/-- C2: on a bitmap whose range has begin <= end, the ranges returned by
`getContiguousRanges p` are pairwise disjoint and cover exactly the addresses `a` of the
range with `getValue a = p`. -/
theorem getContiguousRanges_partition (b : AddressBitmap) (hwf : b.WF) (p : Bool) :
    ∃ rs, b.getContiguousRanges p = some rs ∧
      (∀ r1 ∈ rs, ∀ r2 ∈ rs, r1 ≠ r2 →
        ∀ a, ¬ (r1.doesContain a = true ∧ r2.doesContain a = true)) ∧
      (∀ a, (∃ r ∈ rs, r.doesContain a = true) ↔
        (b.getRange.doesContain a = true ∧ b.getValue a = some p)) := by
  obtain ⟨rs, hrs, hprop, hsep, hcover⟩ := getContiguousRanges_spec hwf p
  refine ⟨rs, hrs, ?_, ?_⟩
  · intro r1 h1 r2 h2 hne a ha
    simp only [AddressRange.doesContain, Bool.and_eq_true, decide_eq_true_eq] at ha
    rcases hsep r1 h1 r2 h2 with h | h | h
    · exact hne h
    · omega
    · omega
  · intro a
    constructor
    · rintro ⟨r, hr, hra⟩
      simp only [AddressRange.doesContain, Bool.and_eq_true, decide_eq_true_eq] at hra
      obtain ⟨c1, _, c3, c4, _, _⟩ := hprop r hr
      have h1 : b.dm_range.dm_begin ≤ a := by omega
      have h2 : a < b.dm_range.dm_end := by omega
      refine ⟨by simp [getRange, AddressRange.doesContain, h1, h2], ?_⟩
      rw [getValue_eq_bitAt hwf h1 h2, c4 a hra.1 hra.2]
    · rintro ⟨hc, hv⟩
      have hc' : b.dm_range.dm_begin ≤ a ∧ a < b.dm_range.dm_end := by
        simpa [getRange, AddressRange.doesContain] using hc
      rw [getValue_eq_bitAt hwf hc'.1 hc'.2] at hv
      obtain ⟨r, hr, hra⟩ := hcover a hc'.1 hc'.2 (Option.some.inj hv)
      exact ⟨r, hr, by simp [AddressRange.doesContain, hra.1, hra.2]⟩

theorem getContiguousRanges_partition_witness :
    WF { dm_range := { dm_begin := 0x1000, dm_end := 0x1004 }
         dm_bitmap := [true, true, false, true] } ∧
    ∃ rs, getContiguousRanges { dm_range := { dm_begin := 0x1000, dm_end := 0x1004 }
                                dm_bitmap := [true, true, false, true] } true = some rs ∧
      (∀ r1 ∈ rs, ∀ r2 ∈ rs, r1 ≠ r2 →
        ∀ a, ¬ (r1.doesContain a = true ∧ r2.doesContain a = true)) ∧
      (∀ a, (∃ r ∈ rs, r.doesContain a = true) ↔
        ((getRange { dm_range := { dm_begin := 0x1000, dm_end := 0x1004 }
                     dm_bitmap := [true, true, false, true] }).doesContain a = true ∧
          getValue { dm_range := { dm_begin := 0x1000, dm_end := 0x1004 }
                     dm_bitmap := [true, true, false, true] } a = some true)) :=
  ⟨by decide, getContiguousRanges_partition _ (by decide) true⟩

/-- C3: every range `[rb, re)` returned by `getContiguousRanges p` is non-empty and
maximal: the address `rb - 1` is outside the range of the bitmap or has polarity `!p`,
and the address `re` is outside the range of the bitmap or has polarity `!p`. -/
theorem getContiguousRanges_maximal (b : AddressBitmap) (hwf : b.WF) (p : Bool) :
    ∃ rs, b.getContiguousRanges p = some rs ∧
      ∀ r ∈ rs, r.dm_begin < r.dm_end ∧
        (b.getRange.doesContain (addrSub r.dm_begin 1) = false ∨
          b.getValue (addrSub r.dm_begin 1) = some (!p)) ∧
        (b.getRange.doesContain r.dm_end = false ∨ b.getValue r.dm_end = some (!p)) := by
  obtain ⟨rs, hrs, hprop, _, _⟩ := getContiguousRanges_spec hwf p
  refine ⟨rs, hrs, ?_⟩
  intro r hr
  obtain ⟨c1, c2, c3, _, c5, c6⟩ := hprop r hr
  have hE := hwf.2.1
  refine ⟨c2, ?_, ?_⟩
  · rcases c6 with h | ⟨h, h'⟩
    · left
      by_cases h0 : r.dm_begin = 0
      · have hs : addrSub r.dm_begin 1 = 2 ^ 64 - 1 := by rw [h0]; decide
        rw [hs]
        have : ¬ (2 ^ 64 - 1 < b.dm_range.dm_end) := by omega
        unfold getRange AddressRange.doesContain
        rw [decide_eq_false this, Bool.and_false]
      · rw [addrSub_of_le (by omega) (by omega)]
        have : ¬ (b.dm_range.dm_begin ≤ r.dm_begin - 1) := by omega
        simp [getRange, AddressRange.doesContain, this]
    · right
      rw [addrSub_of_le (by omega) (by omega),
        getValue_eq_bitAt hwf (by omega) (by omega)]
      cases hb : b.bitAt (r.dm_begin - 1) <;> cases p <;> simp_all
  · rcases c5 with h | ⟨h, h'⟩
    · left
      simp [getRange, AddressRange.doesContain, h]
    · right
      rw [getValue_eq_bitAt hwf (by omega) h]
      cases hb : b.bitAt r.dm_end <;> cases p <;> simp_all

theorem getContiguousRanges_maximal_witness :
    WF { dm_range := { dm_begin := 0x1000, dm_end := 0x1004 }
         dm_bitmap := [true, true, false, true] } ∧
    ∃ rs, getContiguousRanges { dm_range := { dm_begin := 0x1000, dm_end := 0x1004 }
                                dm_bitmap := [true, true, false, true] } true = some rs ∧
      ∀ r ∈ rs, r.dm_begin < r.dm_end ∧
        ((getRange { dm_range := { dm_begin := 0x1000, dm_end := 0x1004 }
                     dm_bitmap := [true, true, false, true] }).doesContain
            (addrSub r.dm_begin 1) = false ∨
          getValue { dm_range := { dm_begin := 0x1000, dm_end := 0x1004 }
                     dm_bitmap := [true, true, false, true] } (addrSub r.dm_begin 1)
            = some (!true)) ∧
        ((getRange { dm_range := { dm_begin := 0x1000, dm_end := 0x1004 }
                     dm_bitmap := [true, true, false, true] }).doesContain r.dm_end = false ∨
          getValue { dm_range := { dm_begin := 0x1000, dm_end := 0x1004 }
                     dm_bitmap := [true, true, false, true] } r.dm_end = some (!true)) :=
  ⟨by decide, getContiguousRanges_maximal _ (by decide) true⟩

/-- C4 (as stated, refuted): for the set that holds only the highest 64-bit address, the
range end wraps to 0, `setValue` fails its assertion and no bitmap is built. -/
theorem fromAddresses_top_address : fromAddresses [0xFFFFFFFFFFFFFFFF] = none := by
  decide

/-- C4 (amended): for every non-empty set of addresses whose largest element is below
`2 ^ 64 - 1`, the constructed bitmap has range `[min, max + 1)`, a bit vector whose
length is that width, and `getValue a` is true exactly when `a` is in the set, for every
`a` of the range. -/
theorem fromAddresses_range_and_bits (addresses : List Nat) (hne : addresses ≠ [])
    (hsorted : addresses.Pairwise (· < ·)) (hmax : ∀ a ∈ addresses, a < 2 ^ 64 - 1) :
    ∃ b lo hi, fromAddresses addresses = some b ∧
      lo ∈ addresses ∧ hi ∈ addresses ∧ (∀ a ∈ addresses, lo ≤ a ∧ a ≤ hi) ∧
      b.getRange = { dm_begin := lo, dm_end := hi + 1 } ∧
      b.dm_bitmap.length = b.getRange.getWidth ∧ b.getRange.getWidth = hi + 1 - lo ∧
      ∀ a, b.getRange.doesContain a = true → b.getValue a = some (decide (a ∈ addresses)) := by
  obtain ⟨b, lo, hi, hb, hwf, hlo, hhi, hbnd, hr, hbits⟩ :=
    fromAddresses_spec addresses hne hsorted hmax
  refine ⟨b, lo, hi, hb, hlo, hhi, hbnd, hr, hwf.2.2, ?_, ?_⟩
  · have := AddressRange.getWidth_of_le hwf.1 hwf.2.1
    rw [hr] at this
    simpa [getRange, hr] using this
  · intro a ha
    have hc : b.dm_range.dm_begin ≤ a ∧ a < b.dm_range.dm_end := by
      simpa [getRange, AddressRange.doesContain] using ha
    rw [getValue_eq_bitAt hwf hc.1 hc.2]
    have hloa : lo ≤ a := by have := hc.1; rw [hr] at this; exact this
    rw [hbits a hloa]

theorem fromAddresses_range_and_bits_witness :
    ([0x1000, 0x1001, 0x1003] : List Nat) ≠ [] ∧
    ([0x1000, 0x1001, 0x1003] : List Nat).Pairwise (· < ·) ∧
    (∀ a ∈ ([0x1000, 0x1001, 0x1003] : List Nat), a < 2 ^ 64 - 1) ∧
    ∃ b lo hi, fromAddresses [0x1000, 0x1001, 0x1003] = some b ∧
      lo ∈ ([0x1000, 0x1001, 0x1003] : List Nat) ∧
      hi ∈ ([0x1000, 0x1001, 0x1003] : List Nat) ∧
      (∀ a ∈ ([0x1000, 0x1001, 0x1003] : List Nat), lo ≤ a ∧ a ≤ hi) ∧
      b.getRange = { dm_begin := lo, dm_end := hi + 1 } ∧
      b.dm_bitmap.length = b.getRange.getWidth ∧ b.getRange.getWidth = hi + 1 - lo ∧
      ∀ a, b.getRange.doesContain a = true →
        b.getValue a = some (decide (a ∈ ([0x1000, 0x1001, 0x1003] : List Nat))) :=
  ⟨by decide, by decide, by decide,
    fromAddresses_range_and_bits [0x1000, 0x1001, 0x1003] (by decide) (by decide) (by decide)⟩

/-- C5: for every offset `i` below the width, bit `i % 8` (counted from the least
significant bit) of byte `i / 8` of the encoded message is the value of
`getValue (begin + i)`; every message over the same range that carries
`ceil (width / 8)` bytes is decoded, and the decoded bitmap has as its bit for the address
`begin + i` bit `i % 8` of byte `i / 8` of the message, as has every bitmap decoded from
a message over that range; in particular the encoded message is decoded and gives the
address its value back. -/
theorem codec_bit_layout (b : AddressBitmap) (hwf : b.WF) (i : Nat)
    (hi : i < b.getRange.getWidth) :
    b.getValue (addrAdd b.getRange.getBegin i) =
        some ((b.toMessage.data_val.getD (i / 8) 0).testBit (i % 8)) ∧
    (∀ m, m.range = b.getRange → m.data_len = (b.getRange.getWidth + 7) / 8 →
      ∃ b1, fromMessage m = some b1 ∧
        b1.getValue (addrAdd b.getRange.getBegin i) =
          some ((m.data_val.getD (i / 8) 0).testBit (i % 8))) ∧
    (∀ m b1, m.range = b.getRange → fromMessage m = some b1 →
      b1.getValue (addrAdd b.getRange.getBegin i) =
        some ((m.data_val.getD (i / 8) 0).testBit (i % 8))) ∧
    (∃ b1, fromMessage b.toMessage = some b1 ∧
      b1.getValue (addrAdd b.getRange.getBegin i) =
        b.getValue (addrAdd b.getRange.getBegin i)) := by
  have hw := AddressRange.getWidth_of_le hwf.1 hwf.2.1
  have hi' : i < b.dm_range.getWidth := hi
  have hE := hwf.2.1
  have hadd : addrAdd b.getRange.getBegin i = b.dm_range.dm_begin + i :=
    addrAdd_of_lt (by show b.dm_range.dm_begin + i < 2 ^ 64; omega)
  have hdecoded : ∀ m b1, m.range = b.getRange → fromMessage m = some b1 →
      b1.getValue (addrAdd b.getRange.getBegin i) =
        some ((m.data_val.getD (i / 8) 0).testBit (i % 8)) := by
    intro m b1 hm hdec
    rw [hadd]
    obtain ⟨hr, hl, hbit⟩ := fromMessage_bit m b1 hdec
    have hrb : b1.dm_range = b.dm_range := by rw [hr, hm]; rfl
    have hmw : m.range.getWidth = b.dm_range.getWidth := by rw [hm]; rfl
    have hwf1 : b1.WF := by
      refine ⟨?_, ?_, ?_⟩
      · rw [hrb]; exact hwf.1
      · rw [hrb]; exact hwf.2.1
      · rw [hl, hmw, hrb]
    rw [getValue_eq_bitAt hwf1 (by rw [hrb]; omega) (by rw [hrb]; omega)]
    unfold bitAt
    rw [hrb, Nat.add_sub_cancel_left, List.getD_eq_getElem?_getD,
      hbit i (by rw [hmw]; exact hi')]
    rfl
  have hencoded : b.getValue (addrAdd b.getRange.getBegin i) =
      some ((b.toMessage.data_val.getD (i / 8) 0).testBit (i % 8)) := by
    rw [hadd, getValue_eq_bitAt hwf (by omega) (by omega), toMessage_testBit b i hi']
    unfold bitAt
    rw [Nat.add_sub_cancel_left]
  refine ⟨hencoded, ?_, hdecoded, ?_⟩
  · intro m hm hlen
    have hmw : m.range.getWidth = b.dm_range.getWidth := by rw [hm]; rfl
    have hsize : m.data_len = messageSize m.range.getWidth := by
      rw [hmw, messageSize_of_pos (by omega) b.dm_range.getWidth_lt, hlen]
      show (b.dm_range.getWidth + 7) / 8 = _
      omega
    have hsome : ∃ b1, fromMessage m = some b1 := by
      unfold fromMessage
      rw [if_pos hsize]
      exact ⟨_, rfl⟩
    obtain ⟨b1, hb1⟩ := hsome
    exact ⟨b1, hb1, hdecoded m b1 hm hb1⟩
  · refine ⟨b, fromMessage_toMessage b hwf.2.2, rfl⟩

theorem codec_bit_layout_witness :
    WF { dm_range := { dm_begin := 0x1000, dm_end := 0x1004 }
         dm_bitmap := [true, true, false, true] } ∧
    3 < (getRange { dm_range := { dm_begin := 0x1000, dm_end := 0x1004 }
                    dm_bitmap := [true, true, false, true] }).getWidth ∧
    (fromMessage { range := { dm_begin := 0x1000, dm_end := 0x1004 }, data_val := [0x08] }).bind
        (fun b1 => b1.getValue 0x1003) = some true ∧
    (fromMessage { range := { dm_begin := 0x1000, dm_end := 0x1004 }, data_val := [0x07] }).bind
        (fun b1 => b1.getValue 0x1003) = some false ∧
    (getValue { dm_range := { dm_begin := 0x1000, dm_end := 0x1004 }
                dm_bitmap := [true, true, false, true] }
        (addrAdd (getRange { dm_range := { dm_begin := 0x1000, dm_end := 0x1004 }
                             dm_bitmap := [true, true, false, true] }).getBegin 3) =
        some (((toMessage { dm_range := { dm_begin := 0x1000, dm_end := 0x1004 }
                            dm_bitmap := [true, true, false, true] }).data_val.getD
          (3 / 8) 0).testBit (3 % 8)) ∧
    (∀ m, m.range = getRange { dm_range := { dm_begin := 0x1000, dm_end := 0x1004 }
                               dm_bitmap := [true, true, false, true] } →
      m.data_len = ((getRange { dm_range := { dm_begin := 0x1000, dm_end := 0x1004 }
                                dm_bitmap := [true, true, false, true] }).getWidth + 7) / 8 →
      ∃ b1, fromMessage m = some b1 ∧
        b1.getValue (addrAdd (getRange { dm_range := { dm_begin := 0x1000, dm_end := 0x1004 }
                                         dm_bitmap := [true, true, false, true] }).getBegin 3) =
          some ((m.data_val.getD (3 / 8) 0).testBit (3 % 8))) ∧
    (∀ m b1, m.range = getRange { dm_range := { dm_begin := 0x1000, dm_end := 0x1004 }
                                  dm_bitmap := [true, true, false, true] } →
      fromMessage m = some b1 →
      b1.getValue (addrAdd (getRange { dm_range := { dm_begin := 0x1000, dm_end := 0x1004 }
                                       dm_bitmap := [true, true, false, true] }).getBegin 3) =
        some ((m.data_val.getD (3 / 8) 0).testBit (3 % 8))) ∧
    (∃ b1, fromMessage (toMessage { dm_range := { dm_begin := 0x1000, dm_end := 0x1004 }
                                    dm_bitmap := [true, true, false, true] }) = some b1 ∧
      b1.getValue (addrAdd (getRange { dm_range := { dm_begin := 0x1000, dm_end := 0x1004 }
                                       dm_bitmap := [true, true, false, true] }).getBegin 3) =
        getValue { dm_range := { dm_begin := 0x1000, dm_end := 0x1004 }
                   dm_bitmap := [true, true, false, true] }
          (addrAdd (getRange { dm_range := { dm_begin := 0x1000, dm_end := 0x1004 }
                               dm_bitmap := [true, true, false, true] }).getBegin 3))) :=
  ⟨by decide, by decide, by decide, by decide,
    codec_bit_layout _ (by decide) 3 (by decide)⟩

/-- C6: for a bitmap whose range has width `w >= 1`, the encoded message carries the range
unchanged and a byte array of length exactly `ceil (w / 8)`, the least number of bytes
that hold `w` bits. -/
theorem toMessage_range_and_length (b : AddressBitmap) (hw : 1 ≤ b.getRange.getWidth) :
    b.toMessage.range = b.getRange ∧
    b.toMessage.data_len = (b.getRange.getWidth + 7) / 8 ∧
    b.getRange.getWidth ≤ 8 * b.toMessage.data_len ∧
    8 * (b.toMessage.data_len - 1) < b.getRange.getWidth := by
  have hw' : 1 ≤ b.dm_range.getWidth := hw
  have hlen : b.toMessage.data_len = (b.dm_range.getWidth - 1) / 8 + 1 := by
    unfold CBTF_Protocol_AddressBitmap.data_len
    rw [toMessage_length, messageSize_of_pos hw' b.dm_range.getWidth_lt]
  refine ⟨rfl, ?_, ?_, ?_⟩
  · rw [hlen]; show _ = (b.dm_range.getWidth + 7) / 8; omega
  · rw [hlen]; show b.dm_range.getWidth ≤ _; omega
  · rw [hlen]; show _ < b.dm_range.getWidth; omega

theorem toMessage_range_and_length_witness :
    1 ≤ (getRange { dm_range := { dm_begin := 0x1000, dm_end := 0x1009 }
                    dm_bitmap := List.replicate 9 true }).getWidth ∧
    ((toMessage { dm_range := { dm_begin := 0x1000, dm_end := 0x1009 }
                  dm_bitmap := List.replicate 9 true }).range =
        getRange { dm_range := { dm_begin := 0x1000, dm_end := 0x1009 }
                   dm_bitmap := List.replicate 9 true } ∧
      (toMessage { dm_range := { dm_begin := 0x1000, dm_end := 0x1009 }
                   dm_bitmap := List.replicate 9 true }).data_len =
        ((getRange { dm_range := { dm_begin := 0x1000, dm_end := 0x1009 }
                     dm_bitmap := List.replicate 9 true }).getWidth + 7) / 8 ∧
      (getRange { dm_range := { dm_begin := 0x1000, dm_end := 0x1009 }
                  dm_bitmap := List.replicate 9 true }).getWidth ≤
        8 * (toMessage { dm_range := { dm_begin := 0x1000, dm_end := 0x1009 }
                         dm_bitmap := List.replicate 9 true }).data_len ∧
      8 * ((toMessage { dm_range := { dm_begin := 0x1000, dm_end := 0x1009 }
                        dm_bitmap := List.replicate 9 true }).data_len - 1) <
        (getRange { dm_range := { dm_begin := 0x1000, dm_end := 0x1009 }
                    dm_bitmap := List.replicate 9 true }).getWidth) :=
  ⟨by decide, toMessage_range_and_length _ (by decide)⟩

/-- C7 (the code at the failing input): encoding the bitmap of the empty range
`[0x2000, 0x2000)` computes `width - 1` in unsigned 64-bit arithmetic, which wraps, so
the byte array has `2 ^ 61` entries instead of one. -/
theorem toMessage_empty_range_length :
    (toMessage (fromRange { dm_begin := 0x2000, dm_end := 0x2000 })).data_len = 2 ^ 61 ∧
    (toMessage (fromRange { dm_begin := 0x2000, dm_end := 0x2000 })).data_len ≠ 1 := by
  have h : (toMessage (fromRange { dm_begin := 0x2000, dm_end := 0x2000 })).data_len
      = 2 ^ 61 := by
    unfold CBTF_Protocol_AddressBitmap.data_len
    rw [toMessage_length]
    decide
  exact ⟨h, by rw [h]; decide⟩

end AddressBitmap

end KrellInstitute

namespace KrellInstitute
namespace Collector

/-! ## The sample handlers -/

theorem deliver_succ (handler : Runtime → List Nat → Option Runtime) (frames : List Nat) :
    ∀ (n : Nat) (rt : Runtime),
      deliver handler frames (n + 1) rt =
        (deliver handler frames n rt).bind (fun rt1 => handler rt1 frames) := by
  intro n
  induction n with
  | zero =>
    intro rt
    simp only [deliver, Option.some_bind]
    cases handler rt frames <;> rfl
  | succ n ih =>
    intro rt
    rw [deliver]
    cases h : handler rt frames with
    | none => simp [deliver, h]
    | some rt1 =>
      simp only
      rw [ih rt1]
      conv_rhs => rw [deliver, h]

/-- The inner loop runs to the end when every compared slot agrees. -/
theorem matchFrames_all (st fb : List Nat) (i : Nat) :
    ∀ (n j : Nat), (∀ x, j ≤ x → x < j + n → x < fb.length ∧ st[i + x]? = fb[x]?) →
      matchFrames st fb i n j = some (j + n) := by
  intro n
  induction n with
  | zero => intro j _; rfl
  | succ n ih =>
    intro j h
    obtain ⟨hlt, heq⟩ := h j (le_refl _) (by omega)
    unfold matchFrames
    rw [heq, List.getElem?_eq_getElem hlt]
    simp only [ne_eq, not_true_eq_false, if_false]
    rw [ih (j + 1) (fun x hx1 hx2 => h x (by omega) (by omega))]
    congr 1
    omega

/-- Effect of the first `n` iterations of the insertion loop on a block whose two lengths
are `u`. -/
theorem insertFrames_prefix (fb : List Nat) (tls : TLS) (u : Nat)
    (hs : tls.stacktraces_len = u) (hc : tls.count_len = u) :
    ∀ n, n ≤ fb.length → u + n ≤ tls.stacktraces.length → u + n ≤ tls.count.length →
      ∃ t, (List.range n).foldlM (insertStep fb) tls = some t ∧
        t.stacktraces_len = u + n ∧ t.count_len = u + n ∧
        t.stacktraces.length = tls.stacktraces.length ∧ t.count.length = tls.count.length ∧
        (∀ x, t.stacktraces[x]? =
          if u ≤ x ∧ x < u + n then fb[x - u]? else tls.stacktraces[x]?) ∧
        (∀ x, t.count[x]? =
          if u ≤ x ∧ x < u + n then some (if x = u then 1 else 0) else tls.count[x]?) ∧
        t = { tls with
              stacktraces := t.stacktraces, count := t.count
              stacktraces_len := u + n, count_len := u + n
              header := { tls.header with addr_begin := t.header.addr_begin
                                          addr_end := t.header.addr_end } } := by
  intro n
  induction n with
  | zero =>
    intro _ _ _
    refine ⟨tls, rfl, hs, hc, rfl, rfl, ?_, ?_, ?_⟩
    · intro x; rw [if_neg (by omega)]
    · intro x; rw [if_neg (by omega)]
    · cases tls; simp only at hs hc; subst hs; subst hc; rfl
  | succ n ih =>
    intro h1 h2 h3
    obtain ⟨t, hfold, ts, tc, tls_, tlc, tst, tct, tfr⟩ := ih (by omega) (by omega) (by omega)
    have hfb : n < fb.length := by omega
    have hstep : insertStep fb t n = some { t with
        stacktraces := t.stacktraces.set t.stacktraces_len fb[n]
        count := t.count.set t.count_len (if n > 0 then 0 else 1)
        header := { t.header with
          addr_begin := if fb[n] < t.header.addr_begin then fb[n] else t.header.addr_begin
          addr_end := if fb[n] > t.header.addr_end then fb[n] else t.header.addr_end }
        stacktraces_len := t.stacktraces_len + 1
        count_len := t.count_len + 1 } := by
      unfold insertStep
      rw [List.getElem?_eq_getElem hfb]
      simp only
      rw [if_pos ⟨by omega, by omega⟩]
    rw [List.range_succ, List.foldlM_append, hfold]
    simp only [Option.bind_eq_bind, Option.some_bind, List.foldlM_cons, List.foldlM_nil,
      hstep, Option.pure_def]
    refine ⟨_, rfl, by simp only [ts]; omega, by simp only [tc]; omega, by simp [tls_],
      by simp [tlc], ?_, ?_, ?_⟩
    · intro x
      simp only [List.getElem?_set, ts, tst]
      by_cases hx : u + n = x
      · subst hx
        have : u + n < t.stacktraces.length := by omega
        simp [this, List.getElem?_eq_getElem hfb]
      · by_cases hx2 : u ≤ x ∧ x < u + n
        · have : u ≤ x ∧ x < u + (n + 1) := by omega
          simp [hx, hx2, this]
        · have : ¬ (u ≤ x ∧ x < u + (n + 1)) := by omega
          simp [hx, hx2, this]
    · intro x
      simp only [List.getElem?_set, tc, tct]
      by_cases hx : u + n = x
      · subst hx
        have hl : u + n < t.count.length := by omega
        by_cases hn : n = 0
        · have hl0 : u < t.count.length := by omega
          simp [hn, hl0]
        · have hn' : n > 0 := by omega
          have hne : ¬ (u + n = u) := by omega
          simp [hl, hn', hne]
      · by_cases hx2 : u ≤ x ∧ x < u + n
        · have : u ≤ x ∧ x < u + (n + 1) := by omega
          simp [hx, hx2, this]
        · have : ¬ (u ≤ x ∧ x < u + (n + 1)) := by omega
          simp [hx, hx2, this]
    · rw [tfr]
      simp only [ts, tc, Nat.add_assoc]


/-! ## Repeated delivery of one stack -/

theorem slot_ne_top {k j : Nat} (e e1 : Nat) (hj : 0 < j) (hjk : j < k) :
    e * k + j ≠ e1 * k := by
  intro h
  have h1 : (e * k + j) % k = j := by
    rw [Nat.mul_comm, Nat.mul_add_mod, Nat.mod_eq_of_lt hjk]
  have h2 : (e1 * k) % k = 0 := Nat.mul_mod_left _ _
  rw [h, h2] at h1
  omega

theorem top_lt_top {k e m : Nat} (hk : 0 < k) (he : e + 1 < m) : e * k < (m - 1) * k :=
  (Nat.mul_lt_mul_right hk).2 (by omega)

theorem slot_lt {k e j m : Nat} (he : e < m) (hj : j < k) : e * k + j < m * k := by
  have h1 : (e + 1) * k ≤ m * k := Nat.mul_le_mul_right k he
  rw [Nat.succ_mul] at h1
  omega

theorem slot_split {k m n : Nat} (hk : 0 < k) (hn : n < m * k) :
    ∃ e j, e < m ∧ j < k ∧ n = e * k + j := by
  refine ⟨n / k, n % k, (Nat.div_lt_iff_lt_mul hk).2 hn, Nat.mod_lt _ hk, ?_⟩
  rw [Nat.mul_comm]
  exact (Nat.div_add_mod n k).symm

/-- Result of the search on a buffer of repeated entries: the last entry is found unless
its count is 255. -/
theorem scanStacks_repeated {fb : List Nat} {k m c : Nat} {tls : TLS} (hk : 0 < k)
    (hkfb : k ≤ fb.length) (rep : Repeated fb k m c tls) (hc : 0 < m → 1 ≤ c ∧ c ≤ 255) :
    scanStacks tls fb k =
      some (if 0 < m ∧ c < 255 then (true, (m - 1) * k) else (false, 0)) := by
  have key : ∀ n, n ≤ m * k →
      (List.range n).foldlM (scanStep tls fb k) (false, 0) =
        some (if 0 < m ∧ c < 255 ∧ (m - 1) * k < n then (true, (m - 1) * k) else (false, 0)) := by
    intro n
    induction n with
    | zero =>
      intro _
      rw [if_neg (by omega)]
      rfl
    | succ n ih =>
      intro hn
      rw [List.range_succ, List.foldlM_append, ih (by omega)]
      simp only [Option.bind_eq_bind, Option.some_bind, List.foldlM_cons, List.foldlM_nil]
      obtain ⟨e, j, he, hj, hnej⟩ := slot_split hk (show n < m * k by omega)
      have hm : 0 < m := by omega
      by_cases hj0 : 0 < j
      · -- a continuation slot
        have hcnt : tls.count[n]? = some 0 := by rw [hnej]; exact rep.rest e j he hj0 hj
        have hne : n ≠ (m - 1) * k := by rw [hnej]; exact slot_ne_top e (m - 1) hj0 hj
        have hiff : ((m - 1) * k < n + 1) ↔ ((m - 1) * k < n) := by omega
        unfold scanStep
        rw [hcnt]
        simp [hiff]
      · have hj' : j = 0 := by omega
        subst hj'
        rw [Nat.add_zero] at hnej
        by_cases he1 : e + 1 < m
        · -- the top of an entry that is full
          have hcnt : tls.count[n]? = some 255 := by rw [hnej]; exact rep.top_full e he1
          have hlt : n < (m - 1) * k := by rw [hnej]; exact top_lt_top hk he1
          have hiff : ((m - 1) * k < n + 1) ↔ ((m - 1) * k < n) := by omega
          unfold scanStep
          rw [hcnt]
          simp [hiff]
        · -- the top of the last entry
          have hem : e = m - 1 := by omega
          subst hem
          have hcnt : tls.count[n]? = some c := by rw [hnej]; exact rep.top_last hm
          obtain ⟨hc1, hc2⟩ := hc hm
          have hlt1 : (m - 1) * k < n + 1 := by omega
          have hlt0 : ¬ ((m - 1) * k < n) := by omega
          unfold scanStep
          rw [hcnt]
          by_cases hc255 : c = 255
          · subst hc255
            simp
          · have h0 : ¬ (c = 0) := by omega
            have h1 : c < 255 := by omega
            have hmatch : matchFrames tls.stacktraces fb n k 0 = some (0 + k) := by
              apply matchFrames_all
              intro x _ hx
              refine ⟨by omega, ?_⟩
              rw [hnej]
              exact rep.frames (m - 1) x (by omega) (by omega)
            rw [Nat.zero_add] at hmatch
            rw [← hnej]
            simp [h0, hc255, hmatch, hm, h1]
  unfold scanStacks
  rw [rep.clen, key (m * k) (le_refl _)]
  by_cases hm : 0 < m
  · have : (m - 1) * k < m * k := (Nat.mul_lt_mul_right hk).2 (by omega)
    simp [hm, this]
  · simp [hm]


theorem recordSample_increment (env : Env) (setRank : Bool) (rt : Runtime) {fb : List Nat}
    {k m c : Nat} (hk : 0 < k) (hkfb : k ≤ fb.length) (rep : Repeated fb k m c rt.tls)
    (hm : 0 < m) (hc1 : 1 ≤ c) (hc2 : c < 255) :
    recordSample env setRank rt fb k =
      some { rt with tls := { rt.tls with
        count := rt.tls.count.set ((m - 1) * k) (c + 1) } } := by
  have hget : rt.tls.count.getD ((m - 1) * k) 0 = c := by
    rw [List.getD_eq_getElem?_getD, rep.top_last hm]
    rfl
  have hmod : (c + 1) % 256 = c + 1 := Nat.mod_eq_of_lt (by omega)
  unfold recordSample
  rw [scanStacks_repeated hk hkfb rep (fun _ => ⟨hc1, by omega⟩), if_pos ⟨hm, hc2⟩]
  simp only [hget, hmod, hc2, decide_True, Bool.and_self, if_true]

theorem repeated_increment {fb : List Nat} {k m c : Nat} {tls : TLS} (hk : 0 < k)
    (rep : Repeated fb k m c tls) (hm : 0 < m) (v : Nat) :
    Repeated fb k m v { tls with count := tls.count.set ((m - 1) * k) v } where
  len_st := rep.len_st
  len_ct := by simp only [List.length_set]; exact rep.len_ct
  slen := rep.slen
  clen := rep.clen
  frames := rep.frames
  top_full := by
    intro e he
    have hne : (m - 1) * k ≠ e * k := Nat.ne_of_gt (top_lt_top hk he)
    simp only [List.getElem?_set, if_neg hne]
    exact rep.top_full e he
  top_last := by
    intro _
    have hlt : (m - 1) * k < tls.count.length := by
      have h := rep.top_last hm
      exact (List.getElem?_eq_some_iff.1 h).1
    simp [List.getElem?_set, hlt]
  rest := by
    intro e j he hj hjk
    have hne : (m - 1) * k ≠ e * k + j := fun h => slot_ne_top e (m - 1) hj hjk h.symm
    simp only [List.getElem?_set, if_neg hne]
    exact rep.rest e j he hj hjk

theorem recordSample_insert (env : Env) (setRank : Bool) (rt : Runtime) {fb : List Nat}
    {k m c : Nat} (hk : 0 < k) (hkfb : k ≤ fb.length) (rep : Repeated fb k m c rt.tls)
    (hfull : m = 0 ∨ c = 255) (hroom : (m + 1) * k ≤ CBTF_USERTIME_BUFFERSIZE) :
    ∃ rt1, recordSample env setRank rt fb k = some rt1 ∧ Repeated fb k (m + 1) 1 rt1.tls ∧
      rt1.sent = rt.sent ∧ rt1.clock_reads = rt.clock_reads ∧
      (Undisturbed rt.tls → Undisturbed rt1.tls) := by
  have hmk : (m + 1) * k = m * k + k := Nat.succ_mul m k
  have hscan : scanStacks rt.tls fb k = some (false, 0) := by
    rw [scanStacks_repeated hk hkfb rep (fun hm => by omega), if_neg (by omega)]
  obtain ⟨t, hfold, ts, tc, tls_, tlc, tst, tct, tfr⟩ :=
    insertFrames_prefix fb rt.tls (m * k) rep.slen rep.clen k hkfb
      (by rw [rep.len_st]; omega) (by rw [rep.len_ct]; omega)
  have hnoflush : ¬ (rt.tls.stacktraces_len + k > CBTF_USERTIME_BUFFERSIZE) := by
    rw [rep.slen]; omega
  refine ⟨{ rt with tls := t }, ?_, ?_, rfl, rfl, ?_⟩
  · unfold recordSample insertFrames
    rw [hscan]
    simp only [Bool.false_and, if_neg hnoflush, hfold]
    rfl
  · refine ⟨by rw [tls_]; exact rep.len_st, by rw [tlc]; exact rep.len_ct,
      by rw [ts, hmk], by rw [tc, hmk], ?_, ?_, ?_, ?_⟩
    · intro e j he hj
      show t.stacktraces[e * k + j]? = fb[j]?
      rw [tst]
      by_cases hem : e < m
      · have := slot_lt hem hj
        rw [if_neg (by omega)]
        exact rep.frames e j hem hj
      · have hem' : e = m := by omega
        subst hem'
        rw [if_pos ⟨by omega, by omega⟩, Nat.add_sub_cancel_left]
    · intro e he
      show t.count[e * k]? = some 255
      rw [tct]
      have hem : e < m := by omega
      have := slot_lt hem hk
      rw [if_neg (by omega)]
      by_cases he1 : e + 1 < m
      · exact rep.top_full e he1
      · have hem' : e = m - 1 := by omega
        have hm : 0 < m := by omega
        rw [hem']
        have hc : c = 255 := by omega
        rw [rep.top_last hm, hc]
    · intro _
      show t.count[(m + 1 - 1) * k]? = some 1
      rw [Nat.add_sub_cancel, tct, if_pos ⟨le_refl _, by omega⟩, if_pos rfl]
    · intro e j he hj hjk
      show t.count[e * k + j]? = some 0
      rw [tct]
      by_cases hem : e < m
      · have := slot_lt hem hjk
        rw [if_neg (by omega)]
        exact rep.rest e j hem hj hjk
      · have hem' : e = m := by omega
        subst hem'
        rw [if_pos ⟨by omega, by omega⟩, if_neg (by omega)]
  · intro hu
    show Undisturbed t
    rw [tfr]
    exact hu

theorem captureBuffer_length {frames : List Nat}
    (h : frames.length ≤ CBTF_USERTIME_MAXFRAMES) :
    (captureBuffer frames).length = CBTF_USERTIME_MAXFRAMES := by
  unfold captureBuffer
  rw [List.length_append, List.length_replicate]
  omega

theorem captureBuffer_getElem? (frames : List Nat) {j : Nat} (h : j < frames.length) :
    (captureBuffer frames)[j]? = frames[j]? := by
  unfold captureBuffer
  rw [List.getElem?_append_left h]

theorem usertimeBlameShift_undisturbed (env : Env) {tls : TLS} (hu : Undisturbed tls)
    (fb : List Nat) : usertimeBlameShift env tls fb = fb := by
  obtain ⟨_, h1, h2, h3⟩ := hu
  unfold usertimeBlameShift
  simp [h1, h2, h3]

theorem hwctimeBlameShift_undisturbed (env : Env) {tls : TLS} (hu : Undisturbed tls)
    (fb : List Nat) : hwctimeBlameShift env tls fb = fb := by
  obtain ⟨_, h1, h2, _⟩ := hu
  unfold hwctimeBlameShift
  simp [h1, h2]

theorem serviceTimerHandler_undisturbed (env : Env) {rt : Runtime} (hu : Undisturbed rt.tls)
    {frames : List Nat} (h : frames.length ≤ CBTF_USERTIME_MAXFRAMES) :
    serviceTimerHandler env rt frames =
      recordSample env env.CBTF_SERVICE_USE_OFFLINE rt (captureBuffer frames) frames.length := by
  unfold serviceTimerHandler
  rw [usertimeBlameShift_undisturbed env hu, if_neg (by rw [hu.1]; exact Bool.noConfusion),
    if_neg (by omega)]

theorem hwctimePAPIHandler_undisturbed (env : Env) {rt : Runtime} (hu : Undisturbed rt.tls)
    {frames : List Nat} (h : frames.length ≤ CBTF_USERTIME_MAXFRAMES) :
    hwctimePAPIHandler env rt frames =
      recordSample env true rt (captureBuffer frames) frames.length := by
  unfold hwctimePAPIHandler
  rw [hwctimeBlameShift_undisturbed env hu, if_neg (by rw [hu.1]; exact Bool.noConfusion),
    if_neg (by omega)]

/-- Delivering one stack `n` times to a handler that records it, starting from an empty
buffer and without running out of room: the buffer holds `ceil (n / 255)` entries of the
stack, all with count 255 except the last, and nothing is sent. -/
theorem deliver_repeated (env : Env) (setRank : Bool)
    (handler : Runtime → List Nat → Option Runtime) (frames fb : List Nat) (k : Nat)
    (hh : ∀ rt, Undisturbed rt.tls → handler rt frames = recordSample env setRank rt fb k)
    (hk : 0 < k) (hkfb : k ≤ fb.length) (rt0 : Runtime) (rep0 : Repeated fb k 0 0 rt0.tls)
    (hu0 : Undisturbed rt0.tls) :
    ∀ n, (n + 254) / 255 * k ≤ CBTF_USERTIME_BUFFERSIZE →
      ∃ rt, deliver handler frames n rt0 = some rt ∧
        Repeated fb k ((n + 254) / 255) (n - 255 * ((n + 254) / 255 - 1)) rt.tls ∧
        Undisturbed rt.tls ∧ rt.sent = rt0.sent ∧ rt.clock_reads = rt0.clock_reads := by
  intro n
  induction n with
  | zero =>
    intro _
    exact ⟨rt0, rfl, rep0, hu0, rfl, rfl⟩
  | succ n ih =>
    intro hroom
    have hmono : (n + 254) / 255 * k ≤ (n + 1 + 254) / 255 * k :=
      Nat.mul_le_mul_right k (by omega)
    obtain ⟨rt, hdel, rep, hu, hsent, hclk⟩ := ih (by omega)
    rw [deliver_succ, hdel, Option.some_bind, hh rt hu]
    by_cases hinc : 0 < n ∧ n % 255 ≠ 0
    · -- the last entry is below 255: its count is incremented
      have hm : 0 < (n + 254) / 255 := by omega
      have hm1 : (n + 1 + 254) / 255 = (n + 254) / 255 := by omega
      have hc1 : (n + 1) - 255 * ((n + 254) / 255 - 1) =
          n - 255 * ((n + 254) / 255 - 1) + 1 := by omega
      rw [recordSample_increment env setRank rt hk hkfb rep hm (by omega) (by omega)]
      refine ⟨_, rfl, ?_, hu, hsent, hclk⟩
      rw [hm1, hc1]
      exact repeated_increment hk rep hm _
    · -- the buffer is empty or the last entry has reached 255: a new entry is inserted
      have hm1 : (n + 1 + 254) / 255 = (n + 254) / 255 + 1 := by omega
      have hc1 : (n + 1) - 255 * ((n + 1 + 254) / 255 - 1) = 1 := by omega
      obtain ⟨rt1, hrec, rep1, hs1, hk1, hu1⟩ :=
        recordSample_insert env setRank rt hk hkfb rep (by omega) (by rw [← hm1]; exact hroom)
      refine ⟨rt1, hrec, ?_, hu1 hu, by rw [hs1, hsent], by rw [hk1, hclk]⟩
      rw [hc1, hm1]
      exact rep1

/-- An empty, zeroed buffer holds no entry. -/
theorem repeated_empty (fb : List Nat) (k : Nat) {tls : TLS}
    (h1 : tls.stacktraces_len = 0) (h2 : tls.count_len = 0)
    (h3 : tls.stacktraces = List.replicate CBTF_USERTIME_BUFFERSIZE 0)
    (h4 : tls.count = List.replicate CBTF_USERTIME_BUFFERSIZE 0) :
    Repeated fb k 0 0 tls where
  len_st := by rw [h3, List.length_replicate]
  len_ct := by rw [h4, List.length_replicate]
  slen := by rw [h1, Nat.zero_mul]
  clen := by rw [h2, Nat.zero_mul]
  frames := by intro e j he; omega
  top_full := by intro e he; omega
  top_last := by intro h; omega
  rest := by intro e j he; omega


/-! ## The specification of the sample handlers -/

theorem holdsEntries_of_repeated {frames : List Nat} {m c : Nat} {tls : TLS}
    (rep : Repeated (captureBuffer frames) frames.length m c tls) :
    HoldsEntries frames m c tls := by
  refine ⟨rep.slen, rep.clen, ?_, rep.top_full, rep.top_last, rep.rest⟩
  intro e j he hj
  rw [rep.frames e j he hj, captureBuffer_getElem? frames hj]

/-- Repeated delivery of one stack to either handler. -/
theorem deliver_holdsEntries (env : Env) (frames : List Nat) (n : Nat) (rt0 : Runtime)
    (hk1 : 1 ≤ frames.length) (hk2 : frames.length ≤ CBTF_USERTIME_MAXFRAMES)
    (hempty : rt0.tls.stacktraces_len = 0 ∧ rt0.tls.count_len = 0 ∧
      rt0.tls.stacktraces = List.replicate CBTF_USERTIME_BUFFERSIZE 0 ∧
      rt0.tls.count = List.replicate CBTF_USERTIME_BUFFERSIZE 0)
    (hu : Undisturbed rt0.tls)
    (hroom : (n + 254) / 255 * frames.length ≤ CBTF_USERTIME_BUFFERSIZE) :
    (∃ rt, deliver (serviceTimerHandler env) frames n rt0 = some rt ∧ rt.sent = rt0.sent ∧
      HoldsEntries frames ((n + 254) / 255) (n - 255 * ((n + 254) / 255 - 1)) rt.tls) ∧
    (∃ rt, deliver (hwctimePAPIHandler env) frames n rt0 = some rt ∧ rt.sent = rt0.sent ∧
      HoldsEntries frames ((n + 254) / 255) (n - 255 * ((n + 254) / 255 - 1)) rt.tls) := by
  have rep0 := repeated_empty (captureBuffer frames) frames.length hempty.1 hempty.2.1
    hempty.2.2.1 hempty.2.2.2
  have hfb : frames.length ≤ (captureBuffer frames).length := by
    rw [captureBuffer_length hk2]; exact hk2
  constructor
  · obtain ⟨rt, hdel, rep, _, hsent, _⟩ :=
      deliver_repeated env env.CBTF_SERVICE_USE_OFFLINE (serviceTimerHandler env) frames
        (captureBuffer frames) frames.length
        (fun rt hu => serviceTimerHandler_undisturbed env hu hk2) hk1 hfb rt0 rep0 hu n hroom
    exact ⟨rt, hdel, hsent, holdsEntries_of_repeated rep⟩
  · obtain ⟨rt, hdel, rep, _, hsent, _⟩ :=
      deliver_repeated env true (hwctimePAPIHandler env) frames
        (captureBuffer frames) frames.length
        (fun rt hu => hwctimePAPIHandler_undisturbed env hu hk2) hk1 hfb rt0 rep0 hu n hroom
    exact ⟨rt, hdel, hsent, holdsEntries_of_repeated rep⟩

theorem sampleRuntime_empty :
    sampleRuntime.tls.stacktraces_len = 0 ∧ sampleRuntime.tls.count_len = 0 ∧
      sampleRuntime.tls.stacktraces = List.replicate CBTF_USERTIME_BUFFERSIZE 0 ∧
      sampleRuntime.tls.count = List.replicate CBTF_USERTIME_BUFFERSIZE 0 :=
  ⟨rfl, rfl, rfl, rfl⟩

theorem sampleRuntime_undisturbed : Undisturbed sampleRuntime.tls :=
  ⟨rfl, rfl, rfl, rfl⟩

/-- C8 (as stated, refuted): a 3-frame stack delivered 300 times to a started thread
leaves two entries whose counts are 255 and 45, not 254 and 46; an entry does hold more
than 254. -/
theorem deliver_300_counts :
    ∃ rt, deliver (serviceTimerHandler sampleEnv) [0x10, 0x20, 0x30] 300 sampleRuntime = some rt ∧
      rt.tls.stacktraces_len = 6 ∧ rt.tls.count[0]? = some 255 ∧ rt.tls.count[3]? = some 45 ∧
      rt.tls.count[0]? ≠ some 254 ∧ rt.tls.count[3]? ≠ some 46 := by
  obtain ⟨⟨rt, hdel, _, hlen, _, _, hfull, hlast, _⟩, _⟩ :=
    deliver_holdsEntries sampleEnv [0x10, 0x20, 0x30] 300 sampleRuntime (by decide) (by decide)
      sampleRuntime_empty sampleRuntime_undisturbed (by decide)
  have h0 : rt.tls.count[0]? = some 255 := hfull 0 (by decide)
  have h3 : rt.tls.count[3]? = some 45 := hlast (by decide)
  refine ⟨rt, hdel, hlen, h0, h3, ?_, ?_⟩
  · rw [h0]; decide
  · rw [h3]; decide

/-- C8 (amended): starting from the empty buffer left by start, delivering the same stack
of `k >= 1` frames `n` times with no flush in between leaves `ceil (n / 255)` entries for
that stack, all with count 255 except the last: for `1 <= n <= 255` exactly one entry
with count `n` (never more than 255 in one entry), for `n > 255` several entries whose
counts sum to `n`. This holds for the usertime and for the hwctime handler. -/
theorem deliver_same_stack (env : Env) (frames : List Nat) (n : Nat) (rt0 : Runtime)
    (hk1 : 1 ≤ frames.length) (hk2 : frames.length ≤ CBTF_USERTIME_MAXFRAMES)
    (hempty : rt0.tls.stacktraces_len = 0 ∧ rt0.tls.count_len = 0 ∧
      rt0.tls.stacktraces = List.replicate CBTF_USERTIME_BUFFERSIZE 0 ∧
      rt0.tls.count = List.replicate CBTF_USERTIME_BUFFERSIZE 0)
    (hu : Undisturbed rt0.tls)
    (hroom : (n + 254) / 255 * frames.length ≤ CBTF_USERTIME_BUFFERSIZE) :
    (∃ rt, deliver (serviceTimerHandler env) frames n rt0 = some rt ∧ rt.sent = rt0.sent ∧
      HoldsEntries frames ((n + 254) / 255) (n - 255 * ((n + 254) / 255 - 1)) rt.tls) ∧
    (∃ rt, deliver (hwctimePAPIHandler env) frames n rt0 = some rt ∧ rt.sent = rt0.sent ∧
      HoldsEntries frames ((n + 254) / 255) (n - 255 * ((n + 254) / 255 - 1)) rt.tls) ∧
    (1 ≤ n → n ≤ 255 → (n + 254) / 255 = 1 ∧ n - 255 * ((n + 254) / 255 - 1) = n) ∧
    (255 < n → 1 < (n + 254) / 255) ∧
    n - 255 * ((n + 254) / 255 - 1) ≤ 255 ∧
    255 * ((n + 254) / 255 - 1) + (n - 255 * ((n + 254) / 255 - 1)) = n := by
  obtain ⟨h1, h2⟩ := deliver_holdsEntries env frames n rt0 hk1 hk2 hempty hu hroom
  exact ⟨h1, h2, by omega, by omega, by omega, by omega⟩

theorem deliver_same_stack_witness :
    1 ≤ ([0x10, 0x20, 0x30] : List Nat).length ∧
    ([0x10, 0x20, 0x30] : List Nat).length ≤ CBTF_USERTIME_MAXFRAMES ∧
    (sampleRuntime.tls.stacktraces_len = 0 ∧ sampleRuntime.tls.count_len = 0 ∧
      sampleRuntime.tls.stacktraces = List.replicate CBTF_USERTIME_BUFFERSIZE 0 ∧
      sampleRuntime.tls.count = List.replicate CBTF_USERTIME_BUFFERSIZE 0) ∧
    Undisturbed sampleRuntime.tls ∧
    (300 + 254) / 255 * ([0x10, 0x20, 0x30] : List Nat).length ≤ CBTF_USERTIME_BUFFERSIZE ∧
    ((∃ rt, deliver (serviceTimerHandler sampleEnv) [0x10, 0x20, 0x30] 300 sampleRuntime
        = some rt ∧ rt.sent = sampleRuntime.sent ∧
      HoldsEntries [0x10, 0x20, 0x30] ((300 + 254) / 255)
        (300 - 255 * ((300 + 254) / 255 - 1)) rt.tls) ∧
    (∃ rt, deliver (hwctimePAPIHandler sampleEnv) [0x10, 0x20, 0x30] 300 sampleRuntime
        = some rt ∧ rt.sent = sampleRuntime.sent ∧
      HoldsEntries [0x10, 0x20, 0x30] ((300 + 254) / 255)
        (300 - 255 * ((300 + 254) / 255 - 1)) rt.tls) ∧
    (1 ≤ 300 → 300 ≤ 255 → (300 + 254) / 255 = 1 ∧ 300 - 255 * ((300 + 254) / 255 - 1) = 300) ∧
    (255 < 300 → 1 < (300 + 254) / 255) ∧
    300 - 255 * ((300 + 254) / 255 - 1) ≤ 255 ∧
    255 * ((300 + 254) / 255 - 1) + (300 - 255 * ((300 + 254) / 255 - 1)) = 300) :=
  ⟨by decide, by decide, ⟨rfl, rfl, rfl, rfl⟩, ⟨rfl, rfl, rfl, rfl⟩, by decide,
    deliver_same_stack sampleEnv [0x10, 0x20, 0x30] 300 sampleRuntime (by decide) (by decide)
      ⟨rfl, rfl, rfl, rfl⟩ ⟨rfl, rfl, rfl, rfl⟩ (by decide)⟩


section Evaluation

set_option maxRecDepth 100000

/-- C9 (the code at the failing input): after the 3-frame stack `[0x10, 0x20, 0x30]` has
been inserted, the 2-frame stack `[0x10, 0x20]` is merged into that entry by both
handlers: the count of the 3-frame entry becomes 2 and nothing is inserted, although the
stored stack has a frame the captured one lacks. -/
theorem prefix_stack_is_merged :
    (∃ rt1 rt2, serviceTimerHandler sampleEnv sampleRuntime [0x10, 0x20, 0x30] = some rt1 ∧
      serviceTimerHandler sampleEnv rt1 [0x10, 0x20] = some rt2 ∧
      rt1.tls.stacktraces_len = 3 ∧ rt1.tls.count.take 3 = [1, 0, 0] ∧
      rt2.tls.stacktraces_len = 3 ∧ rt2.tls.count.take 3 = [2, 0, 0] ∧
      rt2.tls.stacktraces.take 3 = [0x10, 0x20, 0x30]) ∧
    (∃ rt1 rt2, hwctimePAPIHandler sampleEnv sampleRuntime [0x10, 0x20, 0x30] = some rt1 ∧
      hwctimePAPIHandler sampleEnv rt1 [0x10, 0x20] = some rt2 ∧
      rt1.tls.stacktraces_len = 3 ∧ rt1.tls.count.take 3 = [1, 0, 0] ∧
      rt2.tls.stacktraces_len = 3 ∧ rt2.tls.count.take 3 = [2, 0, 0] ∧
      rt2.tls.stacktraces.take 3 = [0x10, 0x20, 0x30]) :=
  ⟨⟨_, _, rfl, rfl, rfl, rfl, rfl, rfl, rfl⟩, ⟨_, _, rfl, rfl, rfl, rfl, rfl, rfl, rfl⟩⟩

/-- C10 (the code at the failing input): after the one-frame stack `[0x400000]` has been
inserted into the empty buffer, the header has `addr_end = 0x400000`, the sampled address
itself, so the stored address is not below `addr_end`; `update_header_with_address`, which
the handlers do not call, would have set `addr_end = 0x400001`. -/
theorem addr_end_not_above_sample :
    (∃ rt, serviceTimerHandler sampleEnv sampleRuntime [0x400000] = some rt ∧
      rt.tls.stacktraces_len = 1 ∧ rt.tls.stacktraces[0]? = some 0x400000 ∧
      rt.tls.header.addr_begin = 0x400000 ∧ rt.tls.header.addr_end = 0x400000 ∧
      ¬ (0x400000 < rt.tls.header.addr_end)) ∧
    (∃ rt, hwctimePAPIHandler sampleEnv sampleRuntime [0x400000] = some rt ∧
      rt.tls.stacktraces_len = 1 ∧ rt.tls.stacktraces[0]? = some 0x400000 ∧
      rt.tls.header.addr_begin = 0x400000 ∧ rt.tls.header.addr_end = 0x400000 ∧
      ¬ (0x400000 < rt.tls.header.addr_end)) ∧
    (update_header_with_address sampleRuntime.tls 0x400000).header.addr_end = 0x400001 :=
  ⟨⟨_, rfl, rfl, rfl, rfl, rfl, by decide⟩, ⟨_, rfl, rfl, rfl, rfl, rfl, by decide⟩, rfl⟩

end Evaluation


/-! ## The three outcomes of handling a sample -/

/-- One iteration of the insertion loop changes the two arrays, the two lengths and the
address range of the header, nothing else. -/
theorem insertStep_frame {fb : List Nat} {tls t : TLS} {i : Nat}
    (h : insertStep fb tls i = some t) :
    t = { tls with
          stacktraces := t.stacktraces, count := t.count
          stacktraces_len := t.stacktraces_len, count_len := t.count_len
          header := { tls.header with addr_begin := t.header.addr_begin
                                      addr_end := t.header.addr_end } } := by
  unfold insertStep at h
  split at h
  · exact Option.noConfusion h
  · split at h
    · injection h with h
      subst h
      rfl
    · exact Option.noConfusion h

theorem foldlM_insertStep_frame (fb : List Nat) :
    ∀ (l : List Nat) (tls t : TLS), l.foldlM (insertStep fb) tls = some t →
      t = { tls with
            stacktraces := t.stacktraces, count := t.count
            stacktraces_len := t.stacktraces_len, count_len := t.count_len
            header := { tls.header with addr_begin := t.header.addr_begin
                                        addr_end := t.header.addr_end } } := by
  intro l
  induction l with
  | nil =>
    intro tls t h
    simp only [List.foldlM_nil, Option.pure_def, Option.some.injEq] at h
    subst h
    rfl
  | cons a l ih =>
    intro tls t h
    rw [List.foldlM_cons] at h
    cases h1 : insertStep fb tls a with
    | none => rw [h1] at h; exact Option.noConfusion h
    | some t1 =>
      rw [h1] at h
      have e2 := ih t1 t h
      have e1 := insertStep_frame h1
      rw [e1] at e2
      exact e2

/-- The insertion loop changes the two arrays, the two lengths and the address range of the
header, nothing else. -/
theorem insertFrames_frame {fb : List Nat} {k : Nat} {tls t : TLS}
    (h : insertFrames fb k tls = some t) :
    t = { tls with
          stacktraces := t.stacktraces, count := t.count
          stacktraces_len := t.stacktraces_len, count_len := t.count_len
          header := { tls.header with addr_begin := t.header.addr_begin
                                      addr_end := t.header.addr_end } } :=
  foldlM_insertStep_frame fb _ tls t h

/-- A handled sample either raises the count of the entry the search found, or is
inserted into the buffer as it is, or is inserted after a flush. -/
theorem recordSample_cases {env : Env} {setRank : Bool} {rt rt1 : Runtime} {fb : List Nat}
    {k : Nat} (h : recordSample env setRank rt fb k = some rt1) :
    (∃ idx, scanStacks rt.tls fb k = some (true, idx) ∧ rt.tls.count.getD idx 0 < 255 ∧
      rt1 = { rt with tls := { rt.tls with
        count := rt.tls.count.set idx ((rt.tls.count.getD idx 0 + 1) % 256) } }) ∨
    (rt.tls.stacktraces_len + k ≤ CBTF_USERTIME_BUFFERSIZE ∧
      ∃ t, insertFrames fb k rt.tls = some t ∧ rt1 = { rt with tls := t }) ∨
    (rt.tls.stacktraces_len + k > CBTF_USERTIME_BUFFERSIZE ∧
      ∃ t, insertFrames fb k (send_samples env setRank rt).tls = some t ∧
        rt1 = { send_samples env setRank rt with tls := t }) := by
  unfold recordSample at h
  cases hscan : scanStacks rt.tls fb k with
  | none => rw [hscan] at h; exact Option.noConfusion h
  | some r =>
    obtain ⟨ex, idx⟩ := r
    rw [hscan] at h
    simp only at h
    by_cases hm : (ex && decide (rt.tls.count.getD idx 0 < 255)) = true
    · rw [if_pos hm] at h
      injection h with h
      simp only [Bool.and_eq_true, decide_eq_true_eq] at hm
      left
      refine ⟨idx, ?_, hm.2, h.symm⟩
      rw [hm.1]
    · rw [if_neg hm] at h
      right
      by_cases hfull : rt.tls.stacktraces_len + k > CBTF_USERTIME_BUFFERSIZE
      · right
        simp only [if_pos hfull] at h
        cases hins : insertFrames fb k (send_samples env setRank rt).tls with
        | none => rw [hins] at h; exact Option.noConfusion h
        | some t =>
          rw [hins] at h
          injection h with h
          exact ⟨hfull, t, rfl, h.symm⟩
      · left
        simp only [if_neg hfull] at h
        cases hins : insertFrames fb k rt.tls with
        | none => rw [hins] at h; exact Option.noConfusion h
        | some t =>
          rw [hins] at h
          injection h with h
          exact ⟨by omega, t, rfl, h.symm⟩

/-- A sample that the search does not merge is inserted, after a flush when the buffer
has no room. -/
theorem recordSample_not_merged (env : Env) (setRank : Bool) (rt : Runtime) (fb : List Nat)
    (k : Nat) {ex : Bool} {idx : Nat} (hscan : scanStacks rt.tls fb k = some (ex, idx))
    (hnm : (ex && decide (rt.tls.count.getD idx 0 < 255)) = false) :
    recordSample env setRank rt fb k =
      (insertFrames fb k
        (if rt.tls.stacktraces_len + k > CBTF_USERTIME_BUFFERSIZE
          then send_samples env setRank rt else rt).tls).map
        (fun t => { (if rt.tls.stacktraces_len + k > CBTF_USERTIME_BUFFERSIZE
          then send_samples env setRank rt else rt) with tls := t }) := by
  unfold recordSample
  rw [hscan]
  simp only [hnm, Bool.false_eq_true, if_false]
  cases insertFrames fb k
    (if rt.tls.stacktraces_len + k > CBTF_USERTIME_BUFFERSIZE
      then send_samples env setRank rt else rt).tls <;> rfl

theorem send_samples_blockWF (env : Env) (setRank : Bool) (rt : Runtime) :
    BlockWF (send_samples env setRank rt).tls ∧
    (send_samples env setRank rt).tls.stacktraces_len = 0 ∧
    (send_samples env setRank rt).tls.count_len = 0 ∧
    (send_samples env setRank rt).tls.stacktraces = List.replicate CBTF_USERTIME_BUFFERSIZE 0 ∧
    (send_samples env setRank rt).tls.count = List.replicate CBTF_USERTIME_BUFFERSIZE 0 := by
  refine ⟨⟨?_, ?_, rfl, ?_⟩, rfl, rfl, rfl, rfl⟩
  · show (List.replicate CBTF_USERTIME_BUFFERSIZE 0).length = _
    rw [List.length_replicate]
  · show (List.replicate CBTF_USERTIME_BUFFERSIZE 0).length = _
    rw [List.length_replicate]
  · show 0 ≤ CBTF_USERTIME_BUFFERSIZE
    exact Nat.zero_le _


/-! ## Insertion of a stack -/

/-- The insertion loop on a well-formed block with room for `k` frames. -/
theorem insertFrames_spec {fb : List Nat} {tls : TLS} {k : Nat} (wf : BlockWF tls)
    (hk : k ≤ fb.length) (hroom : tls.stacktraces_len + k ≤ CBTF_USERTIME_BUFFERSIZE) :
    ∃ t, insertFrames fb k tls = some t ∧ BlockWF t ∧
      t.stacktraces_len = tls.stacktraces_len + k ∧ t.count_len = tls.stacktraces_len + k ∧
      (∀ x, t.stacktraces[x]? =
        if tls.stacktraces_len ≤ x ∧ x < tls.stacktraces_len + k
          then fb[x - tls.stacktraces_len]? else tls.stacktraces[x]?) ∧
      (∀ x, t.count[x]? =
        if tls.stacktraces_len ≤ x ∧ x < tls.stacktraces_len + k
          then some (if x = tls.stacktraces_len then 1 else 0) else tls.count[x]?) ∧
      (Undisturbed tls → Undisturbed t) := by
  obtain ⟨w1, w2, w3, _⟩ := wf
  obtain ⟨t, hfold, ts, tc, tl1, tl2, tst, tct, tfr⟩ :=
    insertFrames_prefix fb tls tls.stacktraces_len rfl w3.symm k hk
      (by rw [w1]; exact hroom) (by rw [w2]; exact hroom)
  exact ⟨t, hfold, ⟨by rw [tl1, w1], by rw [tl2, w2], by rw [ts, tc], by rw [ts]; exact hroom⟩,
    ts, tc, tst, tct, fun hu => by rw [tfr]; exact hu⟩

theorem insertedAt_of_spec {fb : List Nat} {tls t : TLS} {k : Nat} (hk : 1 ≤ k)
    (ts : t.stacktraces_len = tls.stacktraces_len + k)
    (tc : t.count_len = tls.stacktraces_len + k)
    (tst : ∀ x, t.stacktraces[x]? =
      if tls.stacktraces_len ≤ x ∧ x < tls.stacktraces_len + k
        then fb[x - tls.stacktraces_len]? else tls.stacktraces[x]?)
    (tct : ∀ x, t.count[x]? =
      if tls.stacktraces_len ≤ x ∧ x < tls.stacktraces_len + k
        then some (if x = tls.stacktraces_len then 1 else 0) else tls.count[x]?) :
    InsertedAt tls.stacktraces_len fb k t := by
  refine ⟨?_, ?_, ?_, ts, tc⟩
  · intro i hi
    rw [tst, if_pos ⟨by omega, by omega⟩, Nat.add_sub_cancel_left]
  · rw [tct, if_pos ⟨le_refl _, by omega⟩, if_pos rfl]
  · intro i h0 hi
    rw [tct, if_pos ⟨by omega, by omega⟩, if_neg (by omega)]

theorem usertimeBlameShift_length (env : Env) (tls : TLS) (fb : List Nat) :
    (usertimeBlameShift env tls fb).length = fb.length := by
  unfold usertimeBlameShift
  repeat' split
  all_goals simp

theorem hwctimeBlameShift_length (env : Env) (tls : TLS) (fb : List Nat) :
    (hwctimeBlameShift env tls fb).length = fb.length := by
  unfold hwctimeBlameShift
  repeat' split
  all_goals simp

theorem usertimeBlameShift_getElem? (env : Env) (tls : TLS) (fb : List Nat) {j : Nat}
    (hj : 0 < j) : (usertimeBlameShift env tls fb)[j]? = fb[j]? := by
  have hne : ¬ (0 = j) := by omega
  unfold usertimeBlameShift
  repeat' split
  all_goals simp [List.getElem?_set, hne]

theorem hwctimeBlameShift_getElem? (env : Env) (tls : TLS) (fb : List Nat) {j : Nat}
    (hj : 0 < j) : (hwctimeBlameShift env tls fb)[j]? = fb[j]? := by
  have hne : ¬ (0 = j) := by omega
  unfold hwctimeBlameShift
  repeat' split
  all_goals simp [List.getElem?_set, hne]

theorem serviceTimerHandler_eq (env : Env) {rt : Runtime}
    (hd : rt.tls.defer_sampling = false) {frames : List Nat}
    (h : frames.length ≤ CBTF_USERTIME_MAXFRAMES) :
    serviceTimerHandler env rt frames =
      recordSample env env.CBTF_SERVICE_USE_OFFLINE rt
        (usertimeBlameShift env rt.tls (captureBuffer frames)) frames.length := by
  unfold serviceTimerHandler
  rw [if_neg (by rw [hd]; exact Bool.noConfusion), if_neg (by omega)]

theorem hwctimePAPIHandler_eq (env : Env) {rt : Runtime}
    (hd : rt.tls.defer_sampling = false) {frames : List Nat}
    (h : frames.length ≤ CBTF_USERTIME_MAXFRAMES) :
    hwctimePAPIHandler env rt frames =
      recordSample env true rt
        (hwctimeBlameShift env rt.tls (captureBuffer frames)) frames.length := by
  unfold hwctimePAPIHandler
  rw [if_neg (by rw [hd]; exact Bool.noConfusion), if_neg (by omega)]

/-- A sample that is not merged and finds room is inserted at the current length and
nothing is sent. -/
theorem recordSample_insert_room (env : Env) (setRank : Bool) (rt : Runtime) {fb : List Nat}
    {k : Nat} {ex : Bool} {idx : Nat} (wf : BlockWF rt.tls) (hk : k ≤ fb.length)
    (hscan : scanStacks rt.tls fb k = some (ex, idx))
    (hnm : (ex && decide (rt.tls.count.getD idx 0 < 255)) = false)
    (hroom : rt.tls.stacktraces_len + k ≤ CBTF_USERTIME_BUFFERSIZE) :
    ∃ t, recordSample env setRank rt fb k = some { rt with tls := t } ∧ BlockWF t ∧
      t.stacktraces_len = rt.tls.stacktraces_len + k ∧
      t.count_len = rt.tls.stacktraces_len + k ∧
      (∀ x, t.stacktraces[x]? =
        if rt.tls.stacktraces_len ≤ x ∧ x < rt.tls.stacktraces_len + k
          then fb[x - rt.tls.stacktraces_len]? else rt.tls.stacktraces[x]?) ∧
      (∀ x, t.count[x]? =
        if rt.tls.stacktraces_len ≤ x ∧ x < rt.tls.stacktraces_len + k
          then some (if x = rt.tls.stacktraces_len then 1 else 0) else rt.tls.count[x]?) ∧
      (Undisturbed rt.tls → Undisturbed t) := by
  obtain ⟨t, hins, wft, ts, tc, tst, tct, hu⟩ := insertFrames_spec wf hk hroom
  refine ⟨t, ?_, wft, ts, tc, tst, tct, hu⟩
  rw [recordSample_not_merged env setRank rt fb k hscan hnm, if_neg (by omega), hins]
  rfl

/-- A sample that is not merged and finds no room is inserted at the start of the buffer
that `send_samples` has cleared. -/
theorem recordSample_insert_flush (env : Env) (setRank : Bool) (rt : Runtime) {fb : List Nat}
    {k : Nat} {ex : Bool} {idx : Nat} (hk : k ≤ fb.length)
    (hk2 : k ≤ CBTF_USERTIME_BUFFERSIZE)
    (hscan : scanStacks rt.tls fb k = some (ex, idx))
    (hnm : (ex && decide (rt.tls.count.getD idx 0 < 255)) = false)
    (hfull : rt.tls.stacktraces_len + k > CBTF_USERTIME_BUFFERSIZE) :
    ∃ t, recordSample env setRank rt fb k = some { send_samples env setRank rt with tls := t } ∧
      BlockWF t ∧ t.stacktraces_len = k ∧ t.count_len = k ∧
      (∀ x, t.stacktraces[x]? =
        if x < k then fb[x]? else (List.replicate CBTF_USERTIME_BUFFERSIZE 0)[x]?) ∧
      (∀ x, t.count[x]? =
        if x < k then some (if x = 0 then 1 else 0)
          else (List.replicate CBTF_USERTIME_BUFFERSIZE 0)[x]?) ∧
      (Undisturbed rt.tls → Undisturbed t) := by
  obtain ⟨wf, hs0, _, hst, hct⟩ := send_samples_blockWF env setRank rt
  obtain ⟨t, hins, wft, ts, tc, tst, tct, hu⟩ :=
    @insertFrames_spec fb (send_samples env setRank rt).tls k wf hk (by rw [hs0]; omega)
  rw [hs0] at ts tc tst tct
  rw [hst] at tst
  rw [hct] at tct
  refine ⟨t, ?_, wft, by omega, by omega, ?_, ?_, fun h => hu h⟩
  · rw [recordSample_not_merged env setRank rt fb k hscan hnm, if_pos hfull, hins]
    rfl
  · intro x
    rw [tst x]
    simp only [Nat.zero_le, true_and, Nat.zero_add, Nat.sub_zero]
  · intro x
    rw [tct x]
    simp only [Nat.zero_le, true_and, Nat.zero_add]

/-- What the handler leaves behind for a sample that is not merged. -/
theorem recordSample_flushedWhenFull (env : Env) (setRank : Bool) (rt : Runtime)
    {fb : List Nat} {k : Nat} {ex : Bool} {idx : Nat} (wf : BlockWF rt.tls)
    (hk : k ≤ fb.length) (hk2 : k ≤ CBTF_USERTIME_BUFFERSIZE)
    (hscan : scanStacks rt.tls fb k = some (ex, idx))
    (hnm : (ex && decide (rt.tls.count.getD idx 0 < 255)) = false) :
    ∃ rt1, recordSample env setRank rt fb k = some rt1 ∧ FlushedWhenFull rt fb k rt1 := by
  by_cases hfull : rt.tls.stacktraces_len + k > CBTF_USERTIME_BUFFERSIZE
  · obtain ⟨t, hrec, _, ts, tc, tst, _⟩ :=
      recordSample_insert_flush env setRank rt hk hk2 hscan hnm hfull
    refine ⟨_, hrec, ?_, fun h => absurd hfull (by omega)⟩
    intro _
    refine ⟨⟨_, rfl, rfl, rfl⟩, ts, tc, ?_, ?_⟩
    · intro i hi
      show t.stacktraces[i]? = fb[i]?
      rw [tst, if_pos hi]
    · intro i hi1 hi2
      show t.stacktraces[i]? = some 0
      rw [tst, if_neg (by omega), List.getElem?_replicate, if_pos hi2]
  · obtain ⟨t, hrec, _⟩ :=
      recordSample_insert_room env setRank rt wf hk hscan hnm (by omega)
    exact ⟨_, hrec, fun h => absurd h hfull, fun _ => rfl⟩


/-! ## Delivery of pairwise distinct stacks of 100 frames -/

/-- The inner loop stops early when some compared slot differs. -/
theorem matchFrames_mismatch (st fb : List Nat) (i : Nat) :
    ∀ (n j : Nat),
      (∀ x, j ≤ x → x < j + n → (∃ a, st[i + x]? = some a) ∧ (∃ f, fb[x]? = some f)) →
      (∃ x, j ≤ x ∧ x < j + n ∧ st[i + x]? ≠ fb[x]?) →
      ∃ r, matchFrames st fb i n j = some r ∧ r < j + n := by
  intro n
  induction n with
  | zero =>
    intro j _ ⟨x, h1, h2, _⟩
    omega
  | succ n ih =>
    intro j hread ⟨x, hx1, hx2, hx3⟩
    obtain ⟨⟨a, ha⟩, ⟨f, hf⟩⟩ := hread j (le_refl _) (by omega)
    unfold matchFrames
    rw [ha, hf]
    simp only
    by_cases haf : a = f
    · rw [if_neg (by simpa using haf)]
      have hxj : x ≠ j := by
        intro h
        subst h
        rw [ha, hf, haf] at hx3
        exact hx3 rfl
      obtain ⟨r, hr, hlt⟩ := ih (j + 1) (fun y hy1 hy2 => hread y (by omega) (by omega))
        ⟨x, by omega, by omega, hx3⟩
      exact ⟨r, hr, by omega⟩
    · rw [if_pos (by simpa using haf)]
      exact ⟨j, rfl, by omega⟩

theorem exists_getElem?_ne {s1 s2 : List Nat} (h1 : s1.length = 100) (h2 : s2.length = 100)
    (hne : s1 ≠ s2) : ∃ x, x < 100 ∧ s1[x]? ≠ s2[x]? := by
  by_contra hcon
  apply hne
  apply List.ext_getElem?
  intro x
  by_cases hx : x < 100
  · by_contra h
    exact hcon ⟨x, hx, h⟩
  · rw [List.getElem?_eq_none (by omega), List.getElem?_eq_none (by omega)]

/-- The search finds nothing in a buffer of 100-frame stacks that all differ from the
captured one. -/
theorem scanStacks_stored {ss : List (List Nat)} {tls : TLS} {fb : List Nat}
    (st : Stored ss tls) (hfb : fb.length = 100) (hlen : ∀ s ∈ ss, s.length = 100)
    (hne : ∀ s ∈ ss, s ≠ fb) : scanStacks tls fb 100 = some (false, 0) := by
  have key : ∀ n, n ≤ 100 * ss.length →
      (List.range n).foldlM (scanStep tls fb 100) (false, 0) = some (false, 0) := by
    intro n
    induction n with
    | zero => intro _; rfl
    | succ n ih =>
      intro hn
      rw [List.range_succ, List.foldlM_append, ih (by omega)]
      simp only [Option.bind_eq_bind, Option.some_bind, List.foldlM_cons, List.foldlM_nil]
      have he : n / 100 < ss.length := by omega
      have hsplit : n = 100 * (n / 100) + n % 100 := (Nat.div_add_mod n 100).symm
      by_cases hj : 0 < n % 100
      · have hcnt : tls.count[n]? = some 0 := by
          rw [hsplit]; exact st.rest (n / 100) (n % 100) he hj (by omega)
        unfold scanStep
        rw [hcnt]
        simp
      · have hn0 : n = 100 * (n / 100) := by omega
        have hcnt : tls.count[n]? = some 1 := by
          rw [hn0]; exact st.top (n / 100) he
        obtain ⟨s, hs⟩ : ∃ s, ss[n / 100]? = some s :=
          ⟨ss[n / 100], List.getElem?_eq_getElem he⟩
        have hsmem : s ∈ ss := List.getElem?_mem hs
        have hslen := hlen s hsmem
        obtain ⟨x, hx, hxne⟩ := exists_getElem?_ne hslen hfb (hne s hsmem)
        have hrd : ∀ y, y < 100 → tls.stacktraces[n + y]? = s[y]? := by
          intro y hy
          rw [hn0]
          exact st.frames (n / 100) s y hs hy
        obtain ⟨r, hr, hlt⟩ := matchFrames_mismatch tls.stacktraces fb n 100 0
          (fun y _ hy => ⟨⟨s[y], by rw [hrd y (by omega)]; exact List.getElem?_eq_getElem _⟩,
            ⟨fb[y], List.getElem?_eq_getElem _⟩⟩)
          ⟨x, Nat.zero_le _, by omega, by rw [hrd x hx]; exact hxne⟩
        have hr100 : ¬ (r = 100) := by omega
        unfold scanStep
        rw [hcnt]
        simp [hr, hr100]
  unfold scanStacks
  rw [← st.wf.2.2.1, st.slen]
  exact key _ (le_refl _)

theorem stored_nil {tls : TLS} (wf : BlockWF tls) (h : tls.stacktraces_len = 0) :
    Stored [] tls where
  wf := wf
  slen := by rw [h]; rfl
  frames := by intro e s j he; simp at he
  top := by intro e he; simp at he
  rest := by intro e j he; simp at he

/-- Handling a 100-frame stack that differs from all the stored ones, with room left:
the stack is appended and nothing is sent. -/
theorem recordSample_stored (env : Env) (setRank : Bool) (rt : Runtime)
    {ss : List (List Nat)} {s : List Nat} (st : Stored ss rt.tls) (hs : s.length = 100)
    (hlen : ∀ s1 ∈ ss, s1.length = 100) (hne : ∀ s1 ∈ ss, s1 ≠ s)
    (hroom : 100 * (ss.length + 1) ≤ CBTF_USERTIME_BUFFERSIZE) :
    ∃ t, recordSample env setRank rt s 100 = some { rt with tls := t } ∧
      Stored (ss ++ [s]) t ∧ (Undisturbed rt.tls → Undisturbed t) := by
  have hscan := scanStacks_stored st hs hlen hne
  have hu := st.slen
  obtain ⟨t, hrec, wft, ts, tc, tst, tct, hund⟩ :=
    recordSample_insert_room env setRank rt st.wf (by omega) hscan rfl (by rw [hu]; omega)
  rw [hu] at ts tc tst tct
  refine ⟨t, hrec, ⟨wft, ?_, ?_, ?_, ?_⟩, hund⟩
  · rw [ts, List.length_append]; simp; omega
  · intro e s1 j he hj
    rw [tst]
    by_cases hlt : e < ss.length
    · rw [List.getElem?_append_left hlt] at he
      rw [if_neg (by omega)]
      exact st.frames e s1 j he hj
    · by_cases heq : e = ss.length
      · subst heq
        rw [List.getElem?_concat_length] at he
        injection he with he
        subst he
        rw [if_pos ⟨by omega, by omega⟩, Nat.add_sub_cancel_left]
      · rw [List.getElem?_eq_none (by simp; omega)] at he
        exact Option.noConfusion he
  · intro e he
    rw [List.length_append, List.length_singleton] at he
    rw [tct]
    by_cases hlt : e < ss.length
    · rw [if_neg (by omega)]
      exact st.top e hlt
    · have heq : e = ss.length := by omega
      subst heq
      rw [if_pos ⟨by omega, by omega⟩, if_pos rfl]
  · intro e j he h0 hj
    rw [List.length_append, List.length_singleton] at he
    rw [tct]
    by_cases hlt : e < ss.length
    · rw [if_neg (by omega)]
      exact st.rest e j hlt h0 hj
    · have heq : e = ss.length := by omega
      subst heq
      rw [if_pos ⟨by omega, by omega⟩, if_neg (by omega)]

theorem deliverAll_append (handler : Runtime → List Nat → Option Runtime) :
    ∀ (l1 l2 : List (List Nat)) (rt : Runtime),
      deliverAll handler (l1 ++ l2) rt =
        (deliverAll handler l1 rt).bind (deliverAll handler l2) := by
  intro l1
  induction l1 with
  | nil => intro l2 rt; rfl
  | cons a l1 ih =>
    intro l2 rt
    simp only [List.cons_append, deliverAll]
    cases handler rt a with
    | none => rfl
    | some rt1 => exact ih l2 rt1

/-- Delivering pairwise distinct 100-frame stacks while the buffer has room stores them
one after the other and sends nothing. -/
theorem deliverAll_stored (env : Env) (setRank : Bool)
    (handler : Runtime → List Nat → Option Runtime)
    (hh : ∀ rt s, Undisturbed rt.tls → s.length = 100 →
      handler rt s = recordSample env setRank rt s 100) :
    ∀ (rest done : List (List Nat)) (rt : Runtime), Stored done rt.tls → Undisturbed rt.tls →
      (∀ s ∈ done ++ rest, s.length = 100) → (done ++ rest).Pairwise (· ≠ ·) →
      100 * (done ++ rest).length ≤ CBTF_USERTIME_BUFFERSIZE →
      ∃ rt1, deliverAll handler rest rt = some rt1 ∧ Stored (done ++ rest) rt1.tls ∧
        Undisturbed rt1.tls ∧ rt1.sent = rt.sent ∧ rt1.clock_reads = rt.clock_reads := by
  intro rest
  induction rest with
  | nil =>
    intro done rt st hu _ _ _
    rw [List.append_nil]
    exact ⟨rt, rfl, st, hu, rfl, rfl⟩
  | cons s rest ih =>
    intro done rt st hu hlen hpw hroom
    have hs : s.length = 100 := hlen s (by simp)
    have hne : ∀ s1 ∈ done, s1 ≠ s := by
      intro s1 h1
      exact (List.pairwise_append.1 hpw).2.2 s1 h1 s (List.mem_cons_self _ _)
    have hlen1 : (done ++ s :: rest).length = done.length + 1 + rest.length := by
      simp; omega
    obtain ⟨t, hrec, st1, hu1⟩ := recordSample_stored env setRank rt st hs
      (fun s1 h1 => hlen s1 (List.mem_append_left _ h1)) hne (by omega)
    have happ : done ++ s :: rest = (done ++ [s]) ++ rest := by simp
    rw [happ] at hlen hpw hroom ⊢
    obtain ⟨rt1, hdel, st2, hu2, hsent, hclk⟩ :=
      ih (done ++ [s]) { rt with tls := t } st1 (hu1 hu) hlen hpw hroom
    refine ⟨rt1, ?_, st2, hu2, hsent, hclk⟩
    rw [deliverAll, hh rt s hu hs, hrec]
    exact hdel


theorem blockWF_of_empty {tls : TLS}
    (h : tls.stacktraces_len = 0 ∧ tls.count_len = 0 ∧
      tls.stacktraces = List.replicate CBTF_USERTIME_BUFFERSIZE 0 ∧
      tls.count = List.replicate CBTF_USERTIME_BUFFERSIZE 0) : BlockWF tls := by
  obtain ⟨h1, h2, h3, h4⟩ := h
  refine ⟨by rw [h3, List.length_replicate], by rw [h4, List.length_replicate],
    by rw [h1, h2], by rw [h1]; exact Nat.zero_le _⟩

theorem captureBuffer_of_full {s : List Nat} (h : s.length = 100) : captureBuffer s = s := by
  unfold captureBuffer CBTF_USERTIME_MAXFRAMES
  rw [h]
  simp

/-- Eleven pairwise distinct samples of 100 frames, delivered to an empty buffer: the first
ten fill 1000 slots and send nothing; the eleventh finds no room, so the 1000 slots are
sent as one batch and the eleventh stack is left alone in the buffer. -/
theorem deliverAll_eleven (env : Env) (setRank : Bool)
    (handler : Runtime → List Nat → Option Runtime)
    (hh : ∀ rt s, Undisturbed rt.tls → s.length = 100 →
      handler rt s = recordSample env setRank rt s 100)
    (samples : List (List Nat)) (rt0 : Runtime) (h11 : samples.length = 11)
    (hlen : ∀ s ∈ samples, s.length = 100) (hpw : samples.Pairwise (· ≠ ·))
    (wf0 : BlockWF rt0.tls) (hempty : rt0.tls.stacktraces_len = 0)
    (hu : Undisturbed rt0.tls) :
    ∃ rt10 rt11 b, deliverAll handler (samples.take 10) rt0 = some rt10 ∧
      rt10.sent = rt0.sent ∧ rt10.tls.stacktraces_len = 1000 ∧
      deliverAll handler samples rt0 = some rt11 ∧ rt11.sent = rt0.sent ++ [b] ∧
      b.stacktraces.length = 1000 ∧ b.count.length = 1000 ∧
      rt11.tls.stacktraces_len = 100 ∧ rt11.tls.count_len = 100 := by
  have hdrop : samples.drop 10 = [samples[10]] := by
    rw [List.drop_eq_getElem_cons (by omega), List.drop_eq_nil_of_le (by omega)]
  have hsplit : samples = samples.take 10 ++ [samples[10]] := by
    rw [← hdrop, List.take_append_drop]
  have htlen : (samples.take 10).length = 10 := by rw [List.length_take]; omega
  have hpw' : (samples.take 10 ++ [samples[10]]).Pairwise (· ≠ ·) := by rw [← hsplit]; exact hpw
  have hpw10 : (samples.take 10).Pairwise (· ≠ ·) := (List.pairwise_append.1 hpw').1
  have hlen10 : ∀ s ∈ samples.take 10, s.length = 100 :=
    fun s hs => hlen s (List.mem_of_mem_take hs)
  have hs11 : (samples[10]).length = 100 := hlen _ (List.getElem_mem _)
  obtain ⟨rt10, hdel, st10, hu10, hsent10, _⟩ :=
    deliverAll_stored env setRank handler hh (samples.take 10) [] rt0 (stored_nil wf0 hempty) hu
      (by simpa using hlen10) (by simpa using hpw10)
      (by simp only [List.nil_append, htlen]; decide)
  rw [List.nil_append] at st10
  have hl10 : rt10.tls.stacktraces_len = 1000 := by rw [st10.slen, htlen]
  have hc10 : rt10.tls.count_len = 1000 := by rw [← st10.wf.2.2.1, hl10]
  have hne : ∀ s ∈ samples.take 10, s ≠ samples[10] :=
    fun s hs => (List.pairwise_append.1 hpw').2.2 s hs _ (List.mem_singleton_self _)
  have hscan := scanStacks_stored st10 hs11 hlen10 hne
  obtain ⟨t, hrec, _, ts, tc, _, _, _⟩ :=
    @recordSample_insert_flush env setRank rt10 samples[10] 100 false 0 (by omega)
      (by decide) hscan rfl (by rw [hl10]; decide)
  refine ⟨rt10, { send_samples env setRank rt10 with tls := t },
    { header := { rt10.tls.header with
        time_end := env.CBTF_GetTime rt10.clock_reads
        rank := if setRank then env.monitor_mpi_comm_rank rt10.clock_reads
                else rt10.tls.header.rank }
      interval := rt10.tls.interval
      stacktraces := rt10.tls.stacktraces.take rt10.tls.stacktraces_len
      count := rt10.tls.count.take rt10.tls.count_len },
    hdel, hsent10, hl10, ?_, ?_, ?_, ?_, ts, tc⟩
  · conv_lhs => rw [hsplit]
    rw [deliverAll_append, hdel, Option.some_bind, deliverAll, hh rt10 _ hu10 hs11, hrec]
    rfl
  · show rt10.sent ++ [_] = rt0.sent ++ [_]
    rw [hsent10]
  · show (rt10.tls.stacktraces.take rt10.tls.stacktraces_len).length = 1000
    rw [List.length_take, hl10, st10.wf.1]
    decide
  · show (rt10.tls.count.take rt10.tls.count_len).length = 1000
    rw [List.length_take, hc10, st10.wf.2.1]
    decide

theorem serviceTimerHandler_full_stack (env : Env) (rt : Runtime) (s : List Nat)
    (hu : Undisturbed rt.tls) (hs : s.length = 100) :
    serviceTimerHandler env rt s = recordSample env env.CBTF_SERVICE_USE_OFFLINE rt s 100 := by
  rw [serviceTimerHandler_undisturbed env hu (by rw [hs]; decide), captureBuffer_of_full hs, hs]

theorem hwctimePAPIHandler_full_stack (env : Env) (rt : Runtime) (s : List Nat)
    (hu : Undisturbed rt.tls) (hs : s.length = 100) :
    hwctimePAPIHandler env rt s = recordSample env true rt s 100 := by
  rw [hwctimePAPIHandler_undisturbed env hu (by rw [hs]; decide), captureBuffer_of_full hs, hs]


/-! ## Flush and insertion: the specification -/

/-- C11: for a sample that is not merged into an existing entry, the handler (usertime
and hwctime) sends exactly when `stacktraces_len + framecount > 1024`, exactly one batch,
the payload held before the insertion, and the new stack then occupies the slots
`0 .. framecount - 1` of the cleared buffer; otherwise nothing is sent. In particular,
eleven pairwise distinct 100-frame stacks delivered to the empty buffer left by start
cause exactly one send, issued while the eleventh is handled, of a 1000-slot batch, and
leave `stacktraces_len = 100`. -/
theorem flush_exactly_when_full (env : Env) (rt : Runtime) (frames : List Nat)
    (hdefer : rt.tls.defer_sampling = false)
    (hk : frames.length ≤ CBTF_USERTIME_MAXFRAMES) (wf : BlockWF rt.tls)
    (samples : List (List Nat)) (rt0 : Runtime) (h11 : samples.length = 11)
    (hlen : ∀ s ∈ samples, s.length = 100) (hpw : samples.Pairwise (· ≠ ·))
    (hempty : rt0.tls.stacktraces_len = 0 ∧ rt0.tls.count_len = 0 ∧
      rt0.tls.stacktraces = List.replicate CBTF_USERTIME_BUFFERSIZE 0 ∧
      rt0.tls.count = List.replicate CBTF_USERTIME_BUFFERSIZE 0)
    (hu : Undisturbed rt0.tls) :
    (∀ ex idx,
      scanStacks rt.tls (usertimeBlameShift env rt.tls (captureBuffer frames)) frames.length
        = some (ex, idx) →
      (ex && decide (rt.tls.count.getD idx 0 < 255)) = false →
      ∃ rt1, serviceTimerHandler env rt frames = some rt1 ∧
        FlushedWhenFull rt (usertimeBlameShift env rt.tls (captureBuffer frames))
          frames.length rt1) ∧
    (∀ ex idx,
      scanStacks rt.tls (hwctimeBlameShift env rt.tls (captureBuffer frames)) frames.length
        = some (ex, idx) →
      (ex && decide (rt.tls.count.getD idx 0 < 255)) = false →
      ∃ rt1, hwctimePAPIHandler env rt frames = some rt1 ∧
        FlushedWhenFull rt (hwctimeBlameShift env rt.tls (captureBuffer frames))
          frames.length rt1) ∧
    FlushOnEleventh (serviceTimerHandler env) samples rt0 ∧
    FlushOnEleventh (hwctimePAPIHandler env) samples rt0 := by
  have hcap := captureBuffer_length hk
  have hk2 : frames.length ≤ CBTF_USERTIME_BUFFERSIZE :=
    le_trans hk (by decide)
  refine ⟨?_, ?_, ?_, ?_⟩
  · intro ex idx hscan hnm
    rw [serviceTimerHandler_eq env hdefer hk]
    exact recordSample_flushedWhenFull env _ rt wf
      (by rw [usertimeBlameShift_length, hcap]; exact hk) hk2 hscan hnm
  · intro ex idx hscan hnm
    rw [hwctimePAPIHandler_eq env hdefer hk]
    exact recordSample_flushedWhenFull env _ rt wf
      (by rw [hwctimeBlameShift_length, hcap]; exact hk) hk2 hscan hnm
  · exact deliverAll_eleven env _ (serviceTimerHandler env)
      (fun rt s hu hs => serviceTimerHandler_full_stack env rt s hu hs) samples rt0 h11 hlen hpw
      (blockWF_of_empty hempty) hempty.1 hu
  · exact deliverAll_eleven env _ (hwctimePAPIHandler env)
      (fun rt s hu hs => hwctimePAPIHandler_full_stack env rt s hu hs) samples rt0 h11 hlen hpw
      (blockWF_of_empty hempty) hempty.1 hu

/-- C12: when a captured stack of `k >= 1` frames is inserted at `stacktraces_len = u` with
`u + k <= 1024` (by either handler), afterwards `stacktraces[u + i]` is frame `i` for
every `i < k`, `count[u] = 1`, `count[u + i] = 0` for `0 < i < k`, and
`stacktraces_len = count_len = u + k`. The frames are those of the frame buffer the
handler works on, which are the captured ones when no blame flag is set. -/
theorem insert_writes_stack (env : Env) (rt : Runtime) (frames : List Nat) (u : Nat)
    (hdefer : rt.tls.defer_sampling = false) (hk1 : 1 ≤ frames.length)
    (hk : frames.length ≤ CBTF_USERTIME_MAXFRAMES) (wf : BlockWF rt.tls)
    (hu : rt.tls.stacktraces_len = u)
    (hroom : u + frames.length ≤ CBTF_USERTIME_BUFFERSIZE) :
    (∀ ex idx,
      scanStacks rt.tls (usertimeBlameShift env rt.tls (captureBuffer frames)) frames.length
        = some (ex, idx) →
      (ex && decide (rt.tls.count.getD idx 0 < 255)) = false →
      ∃ rt1, serviceTimerHandler env rt frames = some rt1 ∧
        InsertedAt u (usertimeBlameShift env rt.tls (captureBuffer frames))
          frames.length rt1.tls) ∧
    (∀ ex idx,
      scanStacks rt.tls (hwctimeBlameShift env rt.tls (captureBuffer frames)) frames.length
        = some (ex, idx) →
      (ex && decide (rt.tls.count.getD idx 0 < 255)) = false →
      ∃ rt1, hwctimePAPIHandler env rt frames = some rt1 ∧
        InsertedAt u (hwctimeBlameShift env rt.tls (captureBuffer frames))
          frames.length rt1.tls) ∧
    (Undisturbed rt.tls → ∀ i, i < frames.length →
      (usertimeBlameShift env rt.tls (captureBuffer frames))[i]? = frames[i]? ∧
      (hwctimeBlameShift env rt.tls (captureBuffer frames))[i]? = frames[i]?) := by
  have hcap := captureBuffer_length hk
  subst hu
  refine ⟨?_, ?_, ?_⟩
  · intro ex idx hscan hnm
    rw [serviceTimerHandler_eq env hdefer hk]
    obtain ⟨t, hrec, _, ts, tc, tst, tct, _⟩ := recordSample_insert_room env
      env.CBTF_SERVICE_USE_OFFLINE rt wf
      (by rw [usertimeBlameShift_length, hcap]; exact hk) hscan hnm hroom
    exact ⟨_, hrec, insertedAt_of_spec hk1 ts tc tst tct⟩
  · intro ex idx hscan hnm
    rw [hwctimePAPIHandler_eq env hdefer hk]
    obtain ⟨t, hrec, _, ts, tc, tst, tct, _⟩ := recordSample_insert_room env true rt wf
      (by rw [hwctimeBlameShift_length, hcap]; exact hk) hscan hnm hroom
    exact ⟨_, hrec, insertedAt_of_spec hk1 ts tc tst tct⟩
  · intro hund i hi
    rw [usertimeBlameShift_undisturbed env hund, hwctimeBlameShift_undisturbed env hund,
      captureBuffer_getElem? frames hi]
    exact ⟨rfl, rfl⟩


section Witnesses

set_option maxRecDepth 100000

theorem elevenStacks_length : elevenStacks.length = 11 := by decide

theorem elevenStacks_frames : ∀ s ∈ elevenStacks, s.length = 100 := by decide

theorem elevenStacks_distinct : elevenStacks.Pairwise (· ≠ ·) := by decide

theorem flush_exactly_when_full_witness :
    sampleRuntime.tls.defer_sampling = false ∧
    ([0x10, 0x20, 0x30] : List Nat).length ≤ CBTF_USERTIME_MAXFRAMES ∧
    BlockWF sampleRuntime.tls ∧ elevenStacks.length = 11 ∧
    (∀ s ∈ elevenStacks, s.length = 100) ∧ elevenStacks.Pairwise (· ≠ ·) ∧
    Undisturbed sampleRuntime.tls ∧
    (∃ rt1, serviceTimerHandler sampleEnv sampleRuntime [0x10, 0x20, 0x30] = some rt1 ∧
      FlushedWhenFull sampleRuntime
        (usertimeBlameShift sampleEnv sampleRuntime.tls (captureBuffer [0x10, 0x20, 0x30]))
        ([0x10, 0x20, 0x30] : List Nat).length rt1) ∧
    (∃ rt1, hwctimePAPIHandler sampleEnv sampleRuntime [0x10, 0x20, 0x30] = some rt1 ∧
      FlushedWhenFull sampleRuntime
        (hwctimeBlameShift sampleEnv sampleRuntime.tls (captureBuffer [0x10, 0x20, 0x30]))
        ([0x10, 0x20, 0x30] : List Nat).length rt1) ∧
    FlushOnEleventh (serviceTimerHandler sampleEnv) elevenStacks sampleRuntime ∧
    FlushOnEleventh (hwctimePAPIHandler sampleEnv) elevenStacks sampleRuntime :=
  ⟨rfl, by decide, blockWF_of_empty sampleRuntime_empty, elevenStacks_length,
    elevenStacks_frames, elevenStacks_distinct, sampleRuntime_undisturbed,
    (flush_exactly_when_full sampleEnv sampleRuntime [0x10, 0x20, 0x30] rfl (by decide)
      (blockWF_of_empty sampleRuntime_empty) elevenStacks sampleRuntime elevenStacks_length
      elevenStacks_frames elevenStacks_distinct sampleRuntime_empty
      sampleRuntime_undisturbed).1 false 0 rfl rfl,
    (flush_exactly_when_full sampleEnv sampleRuntime [0x10, 0x20, 0x30] rfl (by decide)
      (blockWF_of_empty sampleRuntime_empty) elevenStacks sampleRuntime elevenStacks_length
      elevenStacks_frames elevenStacks_distinct sampleRuntime_empty
      sampleRuntime_undisturbed).2.1 false 0 rfl rfl,
    (flush_exactly_when_full sampleEnv sampleRuntime [0x10, 0x20, 0x30] rfl (by decide)
      (blockWF_of_empty sampleRuntime_empty) elevenStacks sampleRuntime elevenStacks_length
      elevenStacks_frames elevenStacks_distinct sampleRuntime_empty
      sampleRuntime_undisturbed).2.2⟩

theorem insert_writes_stack_witness :
    sampleRuntime.tls.defer_sampling = false ∧
    1 ≤ ([0x10, 0x20, 0x30] : List Nat).length ∧
    ([0x10, 0x20, 0x30] : List Nat).length ≤ CBTF_USERTIME_MAXFRAMES ∧
    BlockWF sampleRuntime.tls ∧ sampleRuntime.tls.stacktraces_len = 0 ∧
    0 + ([0x10, 0x20, 0x30] : List Nat).length ≤ CBTF_USERTIME_BUFFERSIZE ∧
    (∃ rt1, serviceTimerHandler sampleEnv sampleRuntime [0x10, 0x20, 0x30] = some rt1 ∧
      InsertedAt 0
        (usertimeBlameShift sampleEnv sampleRuntime.tls (captureBuffer [0x10, 0x20, 0x30]))
        ([0x10, 0x20, 0x30] : List Nat).length rt1.tls) ∧
    (∃ rt1, hwctimePAPIHandler sampleEnv sampleRuntime [0x10, 0x20, 0x30] = some rt1 ∧
      InsertedAt 0
        (hwctimeBlameShift sampleEnv sampleRuntime.tls (captureBuffer [0x10, 0x20, 0x30]))
        ([0x10, 0x20, 0x30] : List Nat).length rt1.tls) :=
  ⟨rfl, by decide, by decide, blockWF_of_empty sampleRuntime_empty, rfl, by decide,
    (insert_writes_stack sampleEnv sampleRuntime [0x10, 0x20, 0x30] 0 rfl (by decide)
      (by decide) (blockWF_of_empty sampleRuntime_empty) rfl (by decide)).1 false 0 rfl rfl,
    (insert_writes_stack sampleEnv sampleRuntime [0x10, 0x20, 0x30] 0 rfl (by decide)
      (by decide) (blockWF_of_empty sampleRuntime_empty) rfl (by decide)).2.1 false 0 rfl rfl⟩

end Witnesses


/-! ## The defer gate, `send_samples` and the blame shift -/

theorem deliverAll_deferred (handler : Runtime → List Nat → Option Runtime) (rt : Runtime)
    (hh : ∀ frames, handler rt frames = some rt) :
    ∀ samples : List (List Nat), deliverAll handler samples rt = some rt := by
  intro samples
  induction samples with
  | nil => rfl
  | cons s rest ih => rw [deliverAll, hh s]; exact ih

theorem serviceTimerHandler_deferred (env : Env) {rt : Runtime}
    (hd : rt.tls.defer_sampling = true) (frames : List Nat) :
    serviceTimerHandler env rt frames = some rt := by
  unfold serviceTimerHandler
  rw [if_pos hd]

theorem hwctimePAPIHandler_deferred (env : Env) {rt : Runtime}
    (hd : rt.tls.defer_sampling = true) (frames : List Nat) :
    hwctimePAPIHandler env rt frames = some rt := by
  unfold hwctimePAPIHandler
  rw [if_pos hd]

/-- C13: while `defer_sampling` is true, an invocation of either handler returns the
thread unchanged (no field of the sample block changes, nothing is sent), whatever the
captured frames; hence, after pause, any sequence of delivered events leaves the thread as
pause left it, with the count array, the other buffers and the list of sent batches as
they were before the gate was set. -/
theorem deferred_handler_changes_nothing (env : Env) (rt : Runtime)
    (hd : rt.tls.defer_sampling = true) :
    (∀ frames, serviceTimerHandler env rt frames = some rt ∧
      hwctimePAPIHandler env rt frames = some rt) ∧
    (∀ samples, deliverAll (serviceTimerHandler env) samples rt = some rt ∧
      deliverAll (hwctimePAPIHandler env) samples rt = some rt) ∧
    (∀ (rt0 : Runtime) (samples : List (List Nat)),
      deliverAll (serviceTimerHandler env) samples (Usertime.cbtf_collector_pause rt0) =
        some (Usertime.cbtf_collector_pause rt0) ∧
      deliverAll (hwctimePAPIHandler env) samples (Usertime.cbtf_collector_pause rt0) =
        some (Usertime.cbtf_collector_pause rt0) ∧
      (Usertime.cbtf_collector_pause rt0).tls.count = rt0.tls.count ∧
      (Usertime.cbtf_collector_pause rt0).tls.stacktraces = rt0.tls.stacktraces ∧
      (Usertime.cbtf_collector_pause rt0).tls.count_len = rt0.tls.count_len ∧
      (Usertime.cbtf_collector_pause rt0).tls.stacktraces_len = rt0.tls.stacktraces_len ∧
      (Usertime.cbtf_collector_pause rt0).tls.header = rt0.tls.header ∧
      (Usertime.cbtf_collector_pause rt0).sent = rt0.sent) := by
  refine ⟨fun frames => ⟨serviceTimerHandler_deferred env hd frames,
      hwctimePAPIHandler_deferred env hd frames⟩,
    fun samples => ⟨deliverAll_deferred _ rt (serviceTimerHandler_deferred env hd) samples,
      deliverAll_deferred _ rt (hwctimePAPIHandler_deferred env hd) samples⟩, ?_⟩
  intro rt0 samples
  exact ⟨deliverAll_deferred _ _ (serviceTimerHandler_deferred env rfl) samples,
    deliverAll_deferred _ _ (hwctimePAPIHandler_deferred env rfl) samples,
    rfl, rfl, rfl, rfl, rfl, rfl⟩

theorem deferred_handler_changes_nothing_witness :
    (Usertime.cbtf_collector_pause sampleRuntime).tls.defer_sampling = true ∧
    (serviceTimerHandler sampleEnv (Usertime.cbtf_collector_pause sampleRuntime)
        [0x10, 0x20, 0x30] = some (Usertime.cbtf_collector_pause sampleRuntime) ∧
      hwctimePAPIHandler sampleEnv (Usertime.cbtf_collector_pause sampleRuntime)
        [0x10, 0x20, 0x30] = some (Usertime.cbtf_collector_pause sampleRuntime)) ∧
    (deliverAll (serviceTimerHandler sampleEnv) [[0x10, 0x20, 0x30], [0x40], []]
        (Usertime.cbtf_collector_pause sampleRuntime) =
        some (Usertime.cbtf_collector_pause sampleRuntime) ∧
      deliverAll (hwctimePAPIHandler sampleEnv) [[0x10, 0x20, 0x30], [0x40], []]
        (Usertime.cbtf_collector_pause sampleRuntime) =
        some (Usertime.cbtf_collector_pause sampleRuntime)) :=
  ⟨rfl,
    (deferred_handler_changes_nothing sampleEnv (Usertime.cbtf_collector_pause sampleRuntime)
      rfl).1 [0x10, 0x20, 0x30],
    (deferred_handler_changes_nothing sampleEnv (Usertime.cbtf_collector_pause sampleRuntime)
      rfl).2.1 [[0x10, 0x20, 0x30], [0x40], []]⟩

/-- C14: `send_samples` (with or without the rank assignment) hands to send exactly one
batch: the header of the block with `time_end` set to the current time, and the payload at
its current lengths. Afterwards the block is re-initialised: `time_begin` is the next
clock value, `time_end = 0`, `addr_begin = 2 ^ 64 - 1`, `addr_end = 0`, both lengths are 0
and both arrays consist of 1024 zeros. -/
theorem send_samples_sends_and_reinitialises (env : Env) (setRank : Bool) (rt : Runtime) :
    (∃ b : Batch, (send_samples env setRank rt).sent = rt.sent ++ [b] ∧
      b.header.time_end = env.CBTF_GetTime rt.clock_reads ∧
      b.header.time_begin = rt.tls.header.time_begin ∧
      b.header.addr_begin = rt.tls.header.addr_begin ∧
      b.header.addr_end = rt.tls.header.addr_end ∧
      b.interval = rt.tls.interval ∧
      b.stacktraces = rt.tls.stacktraces.take rt.tls.stacktraces_len ∧
      b.count = rt.tls.count.take rt.tls.count_len) ∧
    (send_samples env setRank rt).tls.header.time_begin =
      env.CBTF_GetTime (rt.clock_reads + 1) ∧
    (send_samples env setRank rt).tls.header.time_end = 0 ∧
    (send_samples env setRank rt).tls.header.addr_begin = 2 ^ 64 - 1 ∧
    (send_samples env setRank rt).tls.header.addr_end = 0 ∧
    (send_samples env setRank rt).tls.stacktraces_len = 0 ∧
    (send_samples env setRank rt).tls.count_len = 0 ∧
    (send_samples env setRank rt).tls.stacktraces = List.replicate 1024 0 ∧
    (send_samples env setRank rt).tls.count = List.replicate 1024 0 ∧
    (∀ i, i < 1024 → (send_samples env setRank rt).tls.stacktraces[i]? = some 0 ∧
      (send_samples env setRank rt).tls.count[i]? = some 0) := by
  refine ⟨⟨_, rfl, rfl, rfl, rfl, rfl, rfl, rfl, rfl⟩, rfl, rfl, rfl, rfl, rfl, rfl, rfl, rfl,
    ?_⟩
  intro i hi
  have h1 : (send_samples env setRank rt).tls.stacktraces = List.replicate 1024 0 := rfl
  have h2 : (send_samples env setRank rt).tls.count = List.replicate 1024 0 := rfl
  rw [h1, h2, List.getElem?_replicate, if_pos hi]
  exact ⟨rfl, rfl⟩

/-- C16: with `HAVE_OMPT` and `thread_idle` set, the usertime handler works on a frame
buffer whose slot 0 is the idle sentinel address and whose slots `1 .. n - 1` are the
captured frames `1 .. n - 1`, with the frame count `n` of the capture: this is the stack
it compares, and the stack it stores when the sample is inserted. -/
theorem idle_overwrites_frame_zero_only (env : Env) (rt : Runtime) (frames : List Nat)
    (hompt : env.HAVE_OMPT = true) (hidle : rt.tls.thread_idle = true)
    (hdefer : rt.tls.defer_sampling = false) (hk1 : 1 ≤ frames.length)
    (hk : frames.length ≤ CBTF_USERTIME_MAXFRAMES) :
    ∃ fb, serviceTimerHandler env rt frames =
        recordSample env env.CBTF_SERVICE_USE_OFFLINE rt fb frames.length ∧
      fb.length = CBTF_USERTIME_MAXFRAMES ∧
      fb[0]? = some env.addr_OMPT_THREAD_IDLE ∧
      (∀ j, 0 < j → j < frames.length → fb[j]? = frames[j]?) ∧
      (BlockWF rt.tls → rt.tls.stacktraces_len + frames.length ≤ CBTF_USERTIME_BUFFERSIZE →
        ∀ ex idx, scanStacks rt.tls fb frames.length = some (ex, idx) →
          (ex && decide (rt.tls.count.getD idx 0 < 255)) = false →
          ∃ rt1, serviceTimerHandler env rt frames = some rt1 ∧
            rt1.tls.stacktraces[rt.tls.stacktraces_len]? = some env.addr_OMPT_THREAD_IDLE ∧
            (∀ j, 0 < j → j < frames.length →
              rt1.tls.stacktraces[rt.tls.stacktraces_len + j]? = frames[j]?) ∧
            rt1.tls.stacktraces_len = rt.tls.stacktraces_len + frames.length) := by
  have hcap := captureBuffer_length hk
  have hshift : usertimeBlameShift env rt.tls (captureBuffer frames) =
      (captureBuffer frames).set 0 env.addr_OMPT_THREAD_IDLE := by
    unfold usertimeBlameShift
    rw [if_pos hompt, if_pos hidle]
  have h0 : ((captureBuffer frames).set 0 env.addr_OMPT_THREAD_IDLE)[0]? =
      some env.addr_OMPT_THREAD_IDLE := by
    rw [List.getElem?_set]
    have : 0 < (captureBuffer frames).length := by rw [hcap]; decide
    simp [this]
  have hj : ∀ j, 0 < j → j < frames.length →
      ((captureBuffer frames).set 0 env.addr_OMPT_THREAD_IDLE)[j]? = frames[j]? := by
    intro j hj0 hjk
    rw [← hshift, usertimeBlameShift_getElem? env rt.tls _ hj0, captureBuffer_getElem? frames hjk]
  have heq := serviceTimerHandler_eq env hdefer hk
  rw [hshift] at heq
  refine ⟨_, heq, by rw [List.length_set, hcap], h0, hj, ?_⟩
  intro wf hroom ex idx hscan hnm
  obtain ⟨t, hrec, _, ts, _, tst, _, _⟩ := recordSample_insert_room env
    env.CBTF_SERVICE_USE_OFFLINE rt wf (by rw [List.length_set, hcap]; exact hk) hscan hnm hroom
  refine ⟨_, heq.trans hrec, ?_, ?_, ts⟩
  · show t.stacktraces[rt.tls.stacktraces_len]? = _
    rw [tst, if_pos ⟨le_refl _, by omega⟩, Nat.sub_self, h0]
  · intro j hj0 hjk
    show t.stacktraces[rt.tls.stacktraces_len + j]? = _
    rw [tst, if_pos ⟨by omega, by omega⟩, Nat.add_sub_cancel_left, hj j hj0 hjk]


section Evaluation

set_option maxRecDepth 100000

theorem idle_overwrites_frame_zero_only_witness :
    sampleEnv.HAVE_OMPT = true ∧ idleRuntime.tls.thread_idle = true ∧
    idleRuntime.tls.defer_sampling = false ∧ 1 ≤ ([0xAA, 0xBB, 0xCC] : List Nat).length ∧
    ([0xAA, 0xBB, 0xCC] : List Nat).length ≤ CBTF_USERTIME_MAXFRAMES ∧
    ∃ fb, serviceTimerHandler sampleEnv idleRuntime [0xAA, 0xBB, 0xCC] =
        recordSample sampleEnv sampleEnv.CBTF_SERVICE_USE_OFFLINE idleRuntime fb
          ([0xAA, 0xBB, 0xCC] : List Nat).length ∧
      fb.length = CBTF_USERTIME_MAXFRAMES ∧
      fb[0]? = some sampleEnv.addr_OMPT_THREAD_IDLE ∧
      (∀ j, 0 < j → j < ([0xAA, 0xBB, 0xCC] : List Nat).length →
        fb[j]? = ([0xAA, 0xBB, 0xCC] : List Nat)[j]?) ∧
      (BlockWF idleRuntime.tls →
        idleRuntime.tls.stacktraces_len + ([0xAA, 0xBB, 0xCC] : List Nat).length
          ≤ CBTF_USERTIME_BUFFERSIZE →
        ∀ ex idx, scanStacks idleRuntime.tls fb ([0xAA, 0xBB, 0xCC] : List Nat).length
            = some (ex, idx) →
          (ex && decide (idleRuntime.tls.count.getD idx 0 < 255)) = false →
          ∃ rt1, serviceTimerHandler sampleEnv idleRuntime [0xAA, 0xBB, 0xCC] = some rt1 ∧
            rt1.tls.stacktraces[idleRuntime.tls.stacktraces_len]? =
              some sampleEnv.addr_OMPT_THREAD_IDLE ∧
            (∀ j, 0 < j → j < ([0xAA, 0xBB, 0xCC] : List Nat).length →
              rt1.tls.stacktraces[idleRuntime.tls.stacktraces_len + j]? =
                ([0xAA, 0xBB, 0xCC] : List Nat)[j]?) ∧
            rt1.tls.stacktraces_len =
              idleRuntime.tls.stacktraces_len + ([0xAA, 0xBB, 0xCC] : List Nat).length) :=
  ⟨rfl, rfl, rfl, by decide, by decide,
    idle_overwrites_frame_zero_only sampleEnv idleRuntime [0xAA, 0xBB, 0xCC] rfl rfl rfl
      (by decide) (by decide)⟩

/-- C15 (the code at the failing input): with `thread_idle` and `thread_wait_barrier` both
set, the hwctime handler stores the wait-barrier sentinel in slot 0 of the stack, because
its second `if` is not an `else if`; the usertime handler stores the idle sentinel. -/
theorem hwctime_wait_barrier_overrides_idle :
    (∃ rt1, hwctimePAPIHandler sampleEnv idleWaitingRuntime [0xAA, 0xBB] = some rt1 ∧
      rt1.tls.stacktraces.take 2 = [sampleEnv.addr_OMPT_THREAD_WAIT_BARRIER, 0xBB] ∧
      rt1.tls.stacktraces[0]? ≠ some sampleEnv.addr_OMPT_THREAD_IDLE) ∧
    (∃ rt1, serviceTimerHandler sampleEnv idleWaitingRuntime [0xAA, 0xBB] = some rt1 ∧
      rt1.tls.stacktraces.take 2 = [sampleEnv.addr_OMPT_THREAD_IDLE, 0xBB]) :=
  ⟨⟨_, rfl, rfl, by decide⟩, ⟨_, rfl, rfl⟩⟩

/-- C17 (the code at the failing input): with the stack `[0x10, 0x20, 0x30]` buffered
once, a capture of zero frames is not dropped by either handler: the search accepts the
entry after comparing no slot, and its count goes from 1 to 2. -/
theorem zero_frames_increment_a_count :
    (∃ rt1 rt2, serviceTimerHandler sampleEnv sampleRuntime [0x10, 0x20, 0x30] = some rt1 ∧
      serviceTimerHandler sampleEnv rt1 [] = some rt2 ∧
      rt1.tls.count.take 3 = [1, 0, 0] ∧ rt2.tls.count.take 3 = [2, 0, 0] ∧
      rt2.tls.count ≠ rt1.tls.count) ∧
    (∃ rt1 rt2, hwctimePAPIHandler sampleEnv sampleRuntime [0x10, 0x20, 0x30] = some rt1 ∧
      hwctimePAPIHandler sampleEnv rt1 [] = some rt2 ∧
      rt1.tls.count.take 3 = [1, 0, 0] ∧ rt2.tls.count.take 3 = [2, 0, 0] ∧
      rt2.tls.count ≠ rt1.tls.count) :=
  ⟨⟨_, _, rfl, rfl, rfl, rfl, fun h => by
      have h0 := congrArg (fun l => l[0]?) h
      exact absurd h0 (by decide)⟩,
   ⟨_, _, rfl, rfl, rfl, rfl, fun h => by
      have h0 := congrArg (fun l => l[0]?) h
      exact absurd h0 (by decide)⟩⟩

end Evaluation

end Collector
end KrellInstitute

namespace KrellInstitute
namespace AddressBitmap

/-! ## Assertions of the decoder and of the bit accessors -/

/-- The decoder accepts a message exactly when its byte count is the size the codec
computes from the width of its range. -/
theorem fromMessage_isSome_iff (m : CBTF_Protocol_AddressBitmap) :
    (∃ b, fromMessage m = some b) ↔ m.data_len = messageSize m.range.getWidth := by
  unfold fromMessage
  by_cases h : m.data_len = messageSize m.range.getWidth
  · rw [if_pos h]
    exact ⟨fun _ => h, fun _ => ⟨_, rfl⟩⟩
  · rw [if_neg h]
    exact ⟨fun ⟨b, hb⟩ => Option.noConfusion hb, fun h' => absurd h' h⟩

/-- For a range of width at least 1 the decoder accepts exactly the byte count
`max 1 (ceil (width / 8))`. -/
theorem fromMessage_isSome_iff_of_pos (m : CBTF_Protocol_AddressBitmap)
    (hw : 1 ≤ m.range.getWidth) :
    (∃ b, fromMessage m = some b) ↔ m.data_len = max 1 ((m.range.getWidth + 7) / 8) := by
  rw [fromMessage_isSome_iff, messageSize_of_pos hw m.range.getWidth_lt]
  have : (m.range.getWidth - 1) / 8 + 1 = max 1 ((m.range.getWidth + 7) / 8) := by omega
  rw [this]

/-- C18 (the code at the failing input): the message over the empty range
`[0x2000, 0x2000)` with the single byte `0x00`, whose `data_len` is
`max 1 (ceil (0 / 8)) = 1`, is rejected by the decoder, because the decoder computes the
expected size for width 0 as `2 ^ 61`. -/
theorem fromMessage_rejects_empty_range_byte :
    fromMessage { range := { dm_begin := 0x2000, dm_end := 0x2000 }, data_val := [0] } = none ∧
    CBTF_Protocol_AddressBitmap.data_len
      { range := { dm_begin := 0x2000, dm_end := 0x2000 }, data_val := [0] } =
      max 1 ((AddressRange.getWidth { dm_begin := 0x2000, dm_end := 0x2000 } + 7) / 8) ∧
    messageSize (AddressRange.getWidth { dm_begin := 0x2000, dm_end := 0x2000 }) = 2 ^ 61 := by
  refine ⟨by decide, by decide, by decide⟩

/-- C19: on a bitmap that satisfies the class invariant, `getValue a` and `setValue a v`
succeed for every address `a` of the range, for which the index `a - begin` lies within
the bit vector, and fail their assertion, returning nothing, for every address outside
the range. -/
theorem accessors_succeed_exactly_in_range (b : AddressBitmap) (hwf : b.WF) (a : Nat)
    (v : Bool) :
    (b.getRange.doesContain a = true →
      (∃ x, b.getValue a = some x) ∧ (∃ b1, b.setValue a v = some b1) ∧
      addrSub a b.getRange.getBegin < b.dm_bitmap.length) ∧
    (b.getRange.doesContain a = false →
      b.getValue a = none ∧ b.setValue a v = none) := by
  constructor
  · intro hc
    have hc' : b.dm_range.dm_begin ≤ a ∧ a < b.dm_range.dm_end := by
      simpa [getRange, AddressRange.doesContain] using hc
    refine ⟨⟨_, getValue_eq_bitAt hwf hc'.1 hc'.2⟩,
      ⟨_, setValue_of_contains hwf hc'.1 hc'.2 v⟩, ?_⟩
    obtain ⟨hbe, he, hlen⟩ := hwf
    rw [AddressRange.getWidth_of_le hbe he] at hlen
    have hidx : addrSub a b.getRange.getBegin = a - b.dm_range.dm_begin :=
      addrSub_of_le hc'.1 (by omega)
    rw [hidx, hlen]
    omega
  · intro hc
    have hc' : ¬ (b.dm_range.dm_begin ≤ a ∧ a < b.dm_range.dm_end) := by
      intro h
      have : b.getRange.doesContain a = true := by
        simp [getRange, AddressRange.doesContain, h.1, h.2]
      rw [hc] at this
      exact Bool.noConfusion this
    exact ⟨getValue_eq_none hc', setValue_eq_none v hc'⟩

theorem accessors_succeed_exactly_in_range_witness :
    WF { dm_range := { dm_begin := 0x1000, dm_end := 0x1004 }
         dm_bitmap := [true, true, false, true] } ∧
    ((getRange { dm_range := { dm_begin := 0x1000, dm_end := 0x1004 }
                 dm_bitmap := [true, true, false, true] }).doesContain 0x1002 = true →
      (∃ x, getValue { dm_range := { dm_begin := 0x1000, dm_end := 0x1004 }
                       dm_bitmap := [true, true, false, true] } 0x1002 = some x) ∧
      (∃ b1, setValue { dm_range := { dm_begin := 0x1000, dm_end := 0x1004 }
                        dm_bitmap := [true, true, false, true] } 0x1002 true = some b1) ∧
      addrSub 0x1002 (getRange { dm_range := { dm_begin := 0x1000, dm_end := 0x1004 }
                                 dm_bitmap := [true, true, false, true] }).getBegin <
        (AddressBitmap.mk { dm_begin := 0x1000, dm_end := 0x1004 }
          [true, true, false, true]).dm_bitmap.length) ∧
    ((getRange { dm_range := { dm_begin := 0x1000, dm_end := 0x1004 }
                 dm_bitmap := [true, true, false, true] }).doesContain 0x1002 = false →
      getValue { dm_range := { dm_begin := 0x1000, dm_end := 0x1004 }
                 dm_bitmap := [true, true, false, true] } 0x1002 = none ∧
      setValue { dm_range := { dm_begin := 0x1000, dm_end := 0x1004 }
                 dm_bitmap := [true, true, false, true] } 0x1002 true = none) :=
  ⟨by decide, accessors_succeed_exactly_in_range _ (by decide) 0x1002 true⟩

end AddressBitmap
end KrellInstitute

namespace KrellInstitute
namespace Collector

/-! ## Order of the batches in time -/

theorem timeOrdered_concat {sent : List Batch} {b : Batch} (h : TimeOrdered sent)
    (hlast : ∀ a, sent.getLast? = some a → a.header.time_end ≤ b.header.time_begin) :
    TimeOrdered (sent ++ [b]) := by
  intro i x y hx hy
  by_cases h1 : i + 1 < sent.length
  · rw [List.getElem?_append_left (by omega)] at hx
    rw [List.getElem?_append_left h1] at hy
    exact h i x y hx hy
  · by_cases h2 : i + 1 = sent.length
    · rw [List.getElem?_append_left (by omega)] at hx
      rw [h2, List.getElem?_concat_length] at hy
      injection hy with hy
      subst hy
      apply hlast
      rw [List.getLast?_eq_getElem?]
      have : sent.length - 1 = i := by omega
      rw [this]
      exact hx
    · rw [List.getElem?_eq_none (by simp; omega)] at hy
      exact Option.noConfusion hy

/-- A step that sends nothing, keeps `time_begin` and does not turn the clock back keeps
the invariant. -/
theorem timeInv_of_same {env : Env} {rt rt1 : Runtime} (inv : TimeInv env rt)
    (hs : rt1.sent = rt.sent)
    (ht : rt1.tls.header.time_begin = rt.tls.header.time_begin)
    (hc : rt.clock_reads ≤ rt1.clock_reads) : TimeInv env rt1 := by
  obtain ⟨ho, hl⟩ := inv
  refine ⟨by rw [hs]; exact ho, ?_⟩
  intro b hb
  rw [hs] at hb
  obtain ⟨h1, h2⟩ := hl b hb
  exact ⟨by rw [ht]; exact h1, fun r hr => h2 r (by omega)⟩

theorem timeInv_send_samples {env : Env} (hmono : Monotone env.CBTF_GetTime)
    (setRank : Bool) {rt : Runtime} (inv : TimeInv env rt) :
    TimeInv env (send_samples env setRank rt) := by
  obtain ⟨ho, hl⟩ := inv
  have hsent : (send_samples env setRank rt).sent = rt.sent ++
      [{ header := { rt.tls.header with
           time_end := env.CBTF_GetTime rt.clock_reads
           rank := if setRank then env.monitor_mpi_comm_rank rt.clock_reads
                   else rt.tls.header.rank }
         interval := rt.tls.interval
         stacktraces := rt.tls.stacktraces.take rt.tls.stacktraces_len
         count := rt.tls.count.take rt.tls.count_len }] := rfl
  have hbegin : (send_samples env setRank rt).tls.header.time_begin =
      env.CBTF_GetTime (rt.clock_reads + 1) := rfl
  have hclk : (send_samples env setRank rt).clock_reads = rt.clock_reads + 1 + 1 := rfl
  refine ⟨?_, ?_⟩
  · rw [hsent]
    exact timeOrdered_concat ho (fun a ha => (hl a ha).1)
  · intro b hb
    rw [hsent, List.getLast?_concat] at hb
    injection hb with hb
    subst hb
    refine ⟨?_, ?_⟩
    · rw [hbegin]
      exact hmono (Nat.le_succ _)
    · intro r hr
      rw [hclk] at hr
      exact hmono (by omega)

theorem timeInv_recordSample {env : Env} (hmono : Monotone env.CBTF_GetTime)
    {setRank : Bool} {rt rt1 : Runtime} {fb : List Nat} {k : Nat} (inv : TimeInv env rt)
    (h : recordSample env setRank rt fb k = some rt1) : TimeInv env rt1 := by
  rcases recordSample_cases h with ⟨idx, _, _, h1⟩ | ⟨_, t, hins, h1⟩ | ⟨_, t, hins, h1⟩
  · subst h1
    exact timeInv_of_same inv rfl rfl (le_refl _)
  · subst h1
    have hfr := insertFrames_frame hins
    exact timeInv_of_same inv rfl (by rw [hfr]) (le_refl _)
  · subst h1
    have hfr := insertFrames_frame hins
    exact timeInv_of_same (timeInv_send_samples hmono setRank inv) rfl (by rw [hfr])
      (le_refl _)

theorem timeInv_serviceTimerHandler {env : Env} (hmono : Monotone env.CBTF_GetTime)
    {rt rt1 : Runtime} {frames : List Nat} (inv : TimeInv env rt)
    (h : serviceTimerHandler env rt frames = some rt1) : TimeInv env rt1 := by
  unfold serviceTimerHandler at h
  split at h
  · injection h with h
    subst h
    exact inv
  · split at h
    · exact Option.noConfusion h
    · exact timeInv_recordSample hmono inv h

theorem timeInv_stop {env : Env} (hmono : Monotone env.CBTF_GetTime) {rt : Runtime}
    (inv : TimeInv env rt) : TimeInv env (Usertime.cbtf_collector_stop env rt) := by
  have inv1 : TimeInv env
      { rt with
        clock_reads := rt.clock_reads + 1
        tls := { rt.tls with
          header := { rt.tls.header with time_end := env.CBTF_GetTime rt.clock_reads } } } :=
    timeInv_of_same inv rfl rfl (Nat.le_succ _)
  unfold Usertime.cbtf_collector_stop
  simp only
  split
  · exact timeInv_send_samples hmono _ inv1
  · exact inv1

theorem timeInv_start {env : Env} {rt rt1 : Runtime} {args : Usertime.StartArgs} (inv : TimeInv env rt)
    (h : Usertime.cbtf_collector_start env args rt = some rt1) : TimeInv env rt1 := by
  unfold Usertime.cbtf_collector_start at h
  simp only at h
  split at h
  · exact Option.noConfusion h
  · injection h with h
    subst h
    obtain ⟨ho, hl⟩ := inv
    refine ⟨ho, ?_⟩
    intro b hb
    obtain ⟨_, h2⟩ := hl b hb
    refine ⟨h2 _ (Nat.le_succ _), fun r hr => h2 r ?_⟩
    have : rt.clock_reads + 1 + 1 ≤ r := hr
    omega

theorem timeInv_step {env : Env} (hmono : Monotone env.CBTF_GetTime) {rt rt1 : Runtime}
    {e : Usertime.Event} (inv : TimeInv env rt) (h : Usertime.step env rt e = some rt1) :
    TimeInv env rt1 := by
  cases e with
  | start args => exact timeInv_start inv h
  | sample frames => exact timeInv_serviceTimerHandler hmono inv h
  | pause =>
    injection h with h
    subst h
    exact timeInv_of_same inv rfl rfl (le_refl _)
  | resume =>
    injection h with h
    subst h
    exact timeInv_of_same inv rfl rfl (le_refl _)
  | stop =>
    injection h with h
    subst h
    exact timeInv_stop hmono inv

theorem timeInv_run {env : Env} (hmono : Monotone env.CBTF_GetTime) :
    ∀ (events : List Usertime.Event) (rt rt1 : Runtime), TimeInv env rt →
      Usertime.run env events rt = some rt1 → TimeInv env rt1 := by
  intro events
  induction events with
  | nil =>
    intro rt rt1 inv h
    injection h with h
    subst h
    exact inv
  | cons e rest ih =>
    intro rt rt1 inv h
    rw [Usertime.run] at h
    cases hs : Usertime.step env rt e with
    | none => rw [hs] at h; exact Option.noConfusion h
    | some rt2 =>
      rw [hs] at h
      exact ih rt2 rt1 (timeInv_step hmono inv hs) h

theorem timeInv_of_nothing_sent (env : Env) {rt : Runtime} (h : rt.sent = []) :
    TimeInv env rt := by
  refine ⟨?_, ?_⟩
  · intro i a b ha
    rw [h] at ha
    simp at ha
  · intro b hb
    rw [h] at hb
    simp at hb

/-- C20: under a non-decreasing clock, whatever calls of start, pause, resume and stop and
whatever timer events follow each other on a thread of the usertime collector that has
sent nothing before, any two consecutive batches handed to send are ordered in time: the
header `time_begin` of the later one is at least the header `time_end` of the earlier
one. -/
theorem consecutive_batches_ordered_in_time (env : Env) (hmono : Monotone env.CBTF_GetTime)
    (events : List Usertime.Event) (rt0 rt : Runtime) (h0 : rt0.sent = [])
    (hrun : Usertime.run env events rt0 = some rt) :
    ∀ i a b, rt.sent[i]? = some a → rt.sent[i + 1]? = some b →
      a.header.time_end ≤ b.header.time_begin :=
  (timeInv_run hmono events rt0 rt (timeInv_of_nothing_sent env h0) hrun).1

theorem sampleEnv_clock_monotone : Monotone sampleEnv.CBTF_GetTime := by
  intro a b h
  show 1000 + a ≤ 1000 + b
  omega

section Evaluation

set_option maxRecDepth 100000

theorem consecutive_batches_ordered_in_time_witness :
    Monotone sampleEnv.CBTF_GetTime ∧ sampleRuntime.sent = [] ∧
    ∃ rt, Usertime.run sampleEnv sampleEvents sampleRuntime = some rt ∧
      rt.sent.length = 2 ∧
      ∀ i a b, rt.sent[i]? = some a → rt.sent[i + 1]? = some b →
        a.header.time_end ≤ b.header.time_begin :=
  ⟨sampleEnv_clock_monotone, rfl, _, rfl, rfl,
    consecutive_batches_ordered_in_time sampleEnv sampleEnv_clock_monotone sampleEvents
      sampleRuntime _ rfl rfl⟩

end Evaluation

end Collector
end KrellInstitute

namespace KrellInstitute
namespace Collector

/-! ## Stop, pause and resume -/

theorem usertime_stop_stoppedWith (env : Env) (rt : Runtime)
    (hlen : rt.tls.stacktraces_len = rt.tls.count_len) :
    StoppedWith rt (Usertime.cbtf_collector_stop env rt) := by
  unfold Usertime.cbtf_collector_stop
  simp only
  constructor
  · intro hpos
    rw [if_pos hpos]
    exact ⟨⟨_, rfl, rfl, rfl⟩, rfl, rfl⟩
  · intro h0
    rw [if_neg (by omega)]
    exact ⟨rfl, h0, by rw [← hlen]; exact h0⟩

theorem hwctime_stop_stoppedWith (env : Env) (rt : Runtime)
    (hlen : rt.tls.stacktraces_len = rt.tls.count_len) (hev : rt.tls.EventSet ≠ PAPI_NULL) :
    StoppedWith rt (Hwctime.cbtf_collector_stop env rt) := by
  unfold Hwctime.cbtf_collector_stop
  rw [if_neg hev]
  simp only
  constructor
  · intro hpos
    rw [if_pos hpos]
    exact ⟨⟨_, rfl, rfl, rfl⟩, rfl, rfl⟩
  · intro h0
    rw [if_neg (by omega)]
    exact ⟨rfl, h0, by rw [← hlen]; exact h0⟩

/-- C27: in the hwctime collector, stop on a thread whose event set is `PAPI_NULL` returns
the thread as it was: no field of the sample block changes and nothing is sent, whatever
the buffer holds. -/
theorem hwctime_stop_without_event_set (env : Env) (rt : Runtime)
    (hev : rt.tls.EventSet = PAPI_NULL) : Hwctime.cbtf_collector_stop env rt = rt := by
  unfold Hwctime.cbtf_collector_stop
  rw [if_pos hev]

/-- C22: on a started thread (for the hwctime collector: `hwctime_papi_init_done` is not 0)
pause sets `defer_sampling` to true and resume sets it to false, neither changes another
field of the thread, and each is idempotent. -/
theorem pause_resume_set_the_gate (rt : Runtime) (hwctime_papi_init_done : Nat)
    (hinit : hwctime_papi_init_done ≠ 0) :
    Usertime.cbtf_collector_pause rt =
      { rt with tls := { rt.tls with defer_sampling := true } } ∧
    Usertime.cbtf_collector_resume rt =
      { rt with tls := { rt.tls with defer_sampling := false } } ∧
    Usertime.cbtf_collector_pause (Usertime.cbtf_collector_pause rt) =
      Usertime.cbtf_collector_pause rt ∧
    Usertime.cbtf_collector_resume (Usertime.cbtf_collector_resume rt) =
      Usertime.cbtf_collector_resume rt ∧
    Hwctime.cbtf_collector_pause hwctime_papi_init_done rt =
      { rt with tls := { rt.tls with defer_sampling := true } } ∧
    Hwctime.cbtf_collector_resume hwctime_papi_init_done rt =
      { rt with tls := { rt.tls with defer_sampling := false } } ∧
    Hwctime.cbtf_collector_pause hwctime_papi_init_done
        (Hwctime.cbtf_collector_pause hwctime_papi_init_done rt) =
      Hwctime.cbtf_collector_pause hwctime_papi_init_done rt ∧
    Hwctime.cbtf_collector_resume hwctime_papi_init_done
        (Hwctime.cbtf_collector_resume hwctime_papi_init_done rt) =
      Hwctime.cbtf_collector_resume hwctime_papi_init_done rt := by
  refine ⟨rfl, rfl, rfl, rfl, ?_, ?_, ?_, ?_⟩
  · unfold Hwctime.cbtf_collector_pause
    rw [if_neg hinit]
  · unfold Hwctime.cbtf_collector_resume
    rw [if_neg hinit]
  · unfold Hwctime.cbtf_collector_pause
    rw [if_neg hinit, if_neg hinit]
  · unfold Hwctime.cbtf_collector_resume
    rw [if_neg hinit, if_neg hinit]

end Collector
end KrellInstitute

namespace KrellInstitute
namespace Collector

/-! ## Sampling rate and interval at start -/

theorem atoi_range {s : String} {r : Int} (h : atoi s = some r) :
    - (2 : Int) ^ 31 ≤ r ∧ r < (2 : Int) ^ 31 := by
  unfold atoi at h
  simp only at h
  split at h
  · rename_i hr
    injection h with h
    rw [← h]
    exact hr
  · exact Option.noConfusion h

theorem rateToUInt64_of_pos (signedField : Bool) {r : Int} (hpos : 0 < r)
    (hlt : r < (2 : Int) ^ 31) : Usertime.rateToUInt64 signedField r = r.toNat := by
  unfold Usertime.rateToUInt64
  rw [Int.emod_eq_of_lt (le_of_lt hpos) (lt_trans hlt (by norm_num)),
    Int.emod_eq_of_lt (le_of_lt hpos) (lt_trans hlt (by norm_num))]
  simp

theorem rateToUInt64_of_neg (signedField : Bool) {r : Int} (hneg : r < 0)
    (hge : - (2 : Int) ^ 31 ≤ r) : 2 ^ 31 ≤ Usertime.rateToUInt64 signedField r := by
  unfold Usertime.rateToUInt64
  have h1 : r % (2 : Int) ^ 64 = r + 2 ^ 64 := by
    rw [← Int.add_emod_self]
    exact Int.emod_eq_of_lt (by norm_num at hge ⊢; omega) (by norm_num; omega)
  have h2 : r % (2 : Int) ^ 32 = r + 2 ^ 32 := by
    rw [← Int.add_emod_self]
    exact Int.emod_eq_of_lt (by norm_num at hge ⊢; omega) (by norm_num; omega)
  rw [h1, h2]
  norm_num at hge ⊢
  split <;> omega

theorem usertime_start_of_rate (env : Env) (signedField : Bool) (call : Usertime.StartCall)
    (th : Usertime.Thread) {r : Int}
    (hr : Usertime.startSamplingRate call.CBTF_USERTIME_RATE = some r)
    (hne : Usertime.rateToUInt64 signedField r ≠ 0) :
    ∃ th1, Usertime.start env signedField call th = some th1 ∧
      th1.rt.tls.interval = 1000000000 / Usertime.rateToUInt64 signedField r ∧
      th1.timer = some (1000000000 / Usertime.rateToUInt64 signedField r) := by
  unfold Usertime.start
  rw [hr]
  simp only
  unfold Usertime.cbtf_collector_start
  simp only
  rw [if_neg hne]
  exact ⟨_, rfl, rfl, rfl⟩

/-- C23: the start of the usertime collector sets the payload interval, which is also the
period handed to the timer, to the integer quotient `1000000000 / rate` for every positive
rate that `CBTF_USERTIME_RATE` gives, and to `28571428` when the variable is unset. -/
theorem start_interval_from_rate (env : Env) (signedField : Bool)
    (call : Usertime.StartCall) (th : Usertime.Thread) (s : String) (r : Int)
    (hparse : atoi s = some r) (hpos : 0 < r) :
    (∃ th1, Usertime.start env signedField { call with CBTF_USERTIME_RATE := some s } th
        = some th1 ∧
      th1.rt.tls.interval = 1000000000 / r.toNat ∧
      th1.timer = some (1000000000 / r.toNat)) ∧
    (∃ th1, Usertime.start env signedField { call with CBTF_USERTIME_RATE := none } th
        = some th1 ∧
      th1.rt.tls.interval = 28571428 ∧ th1.timer = some 28571428) := by
  have hrange := atoi_range hparse
  have hcast := rateToUInt64_of_pos signedField hpos hrange.2
  constructor
  · obtain ⟨th1, h1, h2, h3⟩ := usertime_start_of_rate env signedField
      { call with CBTF_USERTIME_RATE := some s } th (r := r) hparse
      (by rw [hcast]; omega)
    rw [hcast] at h2 h3
    exact ⟨th1, h1, h2, h3⟩
  · have h35 : Usertime.rateToUInt64 signedField 35 = 35 := by
      cases signedField <;> rfl
    obtain ⟨th1, h1, h2, h3⟩ := usertime_start_of_rate env signedField
      { call with CBTF_USERTIME_RATE := none } th (r := 35) rfl
      (by rw [h35]; decide)
    rw [h35] at h2 h3
    exact ⟨th1, h1, h2, h3⟩

theorem start_interval_from_rate_witness :
    atoi "100" = some 100 ∧ (0 : Int) < 100 ∧
    ((∃ th1, Usertime.start sampleEnv true
        { sampleStartCall none with CBTF_USERTIME_RATE := some "100" }
        { rt := sampleRuntime, timer := none } = some th1 ∧
      th1.rt.tls.interval = 1000000000 / (100 : Int).toNat ∧
      th1.timer = some (1000000000 / (100 : Int).toNat)) ∧
    (∃ th1, Usertime.start sampleEnv true
        { sampleStartCall none with CBTF_USERTIME_RATE := none }
        { rt := sampleRuntime, timer := none } = some th1 ∧
      th1.rt.tls.interval = 28571428 ∧ th1.timer = some 28571428)) :=
  ⟨by decide, by decide,
    start_interval_from_rate sampleEnv true (sampleStartCall none)
      { rt := sampleRuntime, timer := none } "100" 100 (by decide) (by decide)⟩

section
set_option maxRecDepth 100000

/-- C24 (as stated, refuted): with `CBTF_USERTIME_RATE` set to `-5` the start of the
usertime collector completes without an error, the interval is computed by the division
(it is 0), the timer is installed with it and sampling is not deferred. -/
theorem start_accepts_negative_rate :
    (Usertime.start sampleEnv true (sampleStartCall (some "-5"))
        { rt := sampleRuntime, timer := none }).map
      (fun th1 => (th1.rt.tls.interval, th1.timer, th1.rt.tls.defer_sampling)) =
    some (0, some 0, false) := by
  decide

end

/-- C24 (amended): for every value of `CBTF_USERTIME_RATE` that parses to a negative
number the start of the usertime collector surfaces no error and activates the collector:
it completes, the interval is the quotient of 1000000000 by the rate converted to an
unsigned 64-bit number, which is 0, the timer is installed with that interval, sampling
is not deferred and nothing is sent. -/
theorem start_activates_on_negative_rate (env : Env) (signedField : Bool)
    (call : Usertime.StartCall) (th : Usertime.Thread) (s : String) (r : Int)
    (hparse : atoi s = some r) (hneg : r < 0) :
    ∃ th1, Usertime.start env signedField { call with CBTF_USERTIME_RATE := some s } th
        = some th1 ∧
      2 ^ 31 ≤ Usertime.rateToUInt64 signedField r ∧
      th1.rt.tls.interval = 1000000000 / Usertime.rateToUInt64 signedField r ∧
      th1.rt.tls.interval = 0 ∧ th1.timer = some 0 ∧
      th1.rt.tls.defer_sampling = false ∧ th1.rt.sent = th.rt.sent := by
  have hge := rateToUInt64_of_neg signedField hneg (atoi_range hparse).1
  have hq : 1000000000 / Usertime.rateToUInt64 signedField r = 0 :=
    Nat.div_eq_of_lt (lt_of_lt_of_le (by norm_num) hge)
  have hne : Usertime.rateToUInt64 signedField r ≠ 0 := by
    intro h0
    rw [h0] at hge
    exact absurd hge (by norm_num)
  unfold Usertime.start
  simp only [Usertime.startSamplingRate, hparse]
  unfold Usertime.cbtf_collector_start
  simp only
  rw [if_neg hne]
  exact ⟨_, rfl, hge, rfl, hq, by rw [← hq], rfl, rfl⟩

theorem start_activates_on_negative_rate_witness :
    atoi "-5" = some (-5) ∧ (-5 : Int) < 0 ∧
    ∃ th1, Usertime.start sampleEnv false
        { sampleStartCall none with CBTF_USERTIME_RATE := some "-5" }
        { rt := sampleRuntime, timer := none } = some th1 ∧
      2 ^ 31 ≤ Usertime.rateToUInt64 false (-5) ∧
      th1.rt.tls.interval = 1000000000 / Usertime.rateToUInt64 false (-5) ∧
      th1.rt.tls.interval = 0 ∧ th1.timer = some 0 ∧
      th1.rt.tls.defer_sampling = false ∧ th1.rt.sent = sampleRuntime.sent :=
  ⟨by decide, by decide,
    start_activates_on_negative_rate sampleEnv false (sampleStartCall none)
      { rt := sampleRuntime, timer := none } "-5" (-5) (by decide) (by decide)⟩

end Collector
end KrellInstitute

namespace KrellInstitute
namespace Collector

/-! ## Invariants of the running collector -/

theorem insertStep_blockWF {fb : List Nat} {tls t : TLS} {i : Nat}
    (h : insertStep fb tls i = some t) (wf : BlockWF tls) : BlockWF t := by
  unfold insertStep at h
  split at h
  · exact Option.noConfusion h
  · split at h
    · rename_i hroom
      injection h with h
      subst h
      obtain ⟨h1, h2, h3, h4⟩ := wf
      refine ⟨?_, ?_, ?_, ?_⟩
      · simp only [List.length_set]; exact h1
      · simp only [List.length_set]; exact h2
      · show tls.stacktraces_len + 1 = tls.count_len + 1
        rw [h3]
      · show tls.stacktraces_len + 1 ≤ CBTF_USERTIME_BUFFERSIZE
        rw [← h1]
        exact hroom.1
    · exact Option.noConfusion h

theorem foldlM_insertStep_blockWF (fb : List Nat) :
    ∀ (l : List Nat) (tls t : TLS), l.foldlM (insertStep fb) tls = some t →
      BlockWF tls → BlockWF t := by
  intro l
  induction l with
  | nil =>
    intro tls t h wf
    injection h with h
    subst h
    exact wf
  | cons i rest ih =>
    intro tls t h wf
    rw [List.foldlM_cons] at h
    cases hs : insertStep fb tls i with
    | none => rw [hs] at h; exact Option.noConfusion h
    | some t1 =>
      rw [hs] at h
      exact ih t1 t h (insertStep_blockWF hs wf)

theorem insertFrames_blockWF {fb : List Nat} {k : Nat} {tls t : TLS}
    (h : insertFrames fb k tls = some t) (wf : BlockWF tls) : BlockWF t :=
  foldlM_insertStep_blockWF fb _ tls t h wf

theorem blockInv_send_samples (env : Env) (setRank : Bool) {rt : Runtime}
    (inv : BlockInv rt) : BlockInv (send_samples env setRank rt) := by
  obtain ⟨⟨h1, h2, h3, h4⟩, hs⟩ := inv
  refine ⟨(send_samples_blockWF env setRank rt).1, ?_⟩
  intro b hb
  obtain ⟨b0, hsent, hst, hct⟩ : ∃ b0 : Batch,
      (send_samples env setRank rt).sent = rt.sent ++ [b0] ∧
      b0.stacktraces = rt.tls.stacktraces.take rt.tls.stacktraces_len ∧
      b0.count = rt.tls.count.take rt.tls.count_len := ⟨_, rfl, rfl, rfl⟩
  rw [hsent] at hb
  rcases List.mem_append.1 hb with hb2 | hb2
  · exact hs b hb2
  · rw [List.mem_singleton] at hb2
    subst hb2
    rw [hst, hct, List.length_take, List.length_take, h1, h2, h3]

theorem blockInv_recordSample {env : Env} {setRank : Bool} {rt rt1 : Runtime}
    {fb : List Nat} {k : Nat} (inv : BlockInv rt)
    (h : recordSample env setRank rt fb k = some rt1) : BlockInv rt1 := by
  rcases recordSample_cases h with ⟨idx, _, _, heq⟩ | ⟨_, t, hins, heq⟩ | ⟨_, t, hins, heq⟩
  · subst heq
    obtain ⟨⟨h1, h2, h3, h4⟩, hs⟩ := inv
    refine ⟨⟨h1, ?_, h3, h4⟩, hs⟩
    simp only [List.length_set]
    exact h2
  · subst heq
    exact ⟨insertFrames_blockWF hins inv.1, inv.2⟩
  · subst heq
    have inv1 := blockInv_send_samples env setRank inv
    exact ⟨insertFrames_blockWF hins inv1.1, inv1.2⟩

theorem blockInv_serviceTimerHandler {env : Env} {rt rt1 : Runtime} {frames : List Nat}
    (inv : BlockInv rt) (h : serviceTimerHandler env rt frames = some rt1) :
    BlockInv rt1 := by
  unfold serviceTimerHandler at h
  split at h
  · injection h with h
    subst h
    exact inv
  · split at h
    · exact Option.noConfusion h
    · exact blockInv_recordSample inv h

theorem blockInv_hwctimePAPIHandler {env : Env} {rt rt1 : Runtime} {frames : List Nat}
    (inv : BlockInv rt) (h : hwctimePAPIHandler env rt frames = some rt1) :
    BlockInv rt1 := by
  unfold hwctimePAPIHandler at h
  split at h
  · injection h with h
    subst h
    exact inv
  · split at h
    · exact Option.noConfusion h
    · exact blockInv_recordSample inv h

theorem blockInv_stop (env : Env) {rt : Runtime} (inv : BlockInv rt) :
    BlockInv (Usertime.cbtf_collector_stop env rt) := by
  have inv1 : BlockInv
      { rt with
        clock_reads := rt.clock_reads + 1
        tls := { rt.tls with
          header := { rt.tls.header with time_end := env.CBTF_GetTime rt.clock_reads } } } :=
    inv
  unfold Usertime.cbtf_collector_stop
  simp only
  split
  · exact blockInv_send_samples env _ inv1
  · exact inv1

/-- After `cbtf_collector_start` the sample block is well formed, whatever it held before,
and the list of sent batches is as it was. -/
theorem blockInv_start {env : Env} {rt rt1 : Runtime} {args : Usertime.StartArgs}
    (hs : ∀ b ∈ rt.sent, b.stacktraces.length = b.count.length)
    (h : Usertime.cbtf_collector_start env args rt = some rt1) : BlockInv rt1 := by
  unfold Usertime.cbtf_collector_start at h
  simp only at h
  split at h
  · exact Option.noConfusion h
  · injection h with h
    subst h
    refine ⟨⟨?_, ?_, rfl, ?_⟩, hs⟩
    · show (List.replicate CBTF_USERTIME_BUFFERSIZE 0).length = _
      rw [List.length_replicate]
    · show (List.replicate CBTF_USERTIME_BUFFERSIZE 0).length = _
      rw [List.length_replicate]
    · show 0 ≤ CBTF_USERTIME_BUFFERSIZE
      exact Nat.zero_le _

theorem blockInv_step {env : Env} {rt rt1 : Runtime} {e : Usertime.Event}
    (inv : BlockInv rt) (h : Usertime.step env rt e = some rt1) : BlockInv rt1 := by
  cases e with
  | start args => exact blockInv_start inv.2 h
  | sample frames => exact blockInv_serviceTimerHandler inv h
  | pause =>
    injection h with h
    subst h
    exact inv
  | resume =>
    injection h with h
    subst h
    exact inv
  | stop =>
    injection h with h
    subst h
    exact blockInv_stop env inv

theorem blockInv_run {env : Env} :
    ∀ (events : List Usertime.Event) (rt rt1 : Runtime), BlockInv rt →
      Usertime.run env events rt = some rt1 → BlockInv rt1 := by
  intro events
  induction events with
  | nil =>
    intro rt rt1 inv h
    injection h with h
    subst h
    exact inv
  | cons e rest ih =>
    intro rt rt1 inv h
    rw [Usertime.run] at h
    cases hs : Usertime.step env rt e with
    | none => rw [hs] at h; exact Option.noConfusion h
    | some rt2 =>
      rw [hs] at h
      exact ih rt2 rt1 (blockInv_step inv hs) h

theorem blockInv_deliverAll {handler : Runtime → List Nat → Option Runtime}
    (hstep : ∀ rt rt1 frames, BlockInv rt → handler rt frames = some rt1 → BlockInv rt1) :
    ∀ (samples : List (List Nat)) (rt rt1 : Runtime), BlockInv rt →
      deliverAll handler samples rt = some rt1 → BlockInv rt1 := by
  intro samples
  induction samples with
  | nil =>
    intro rt rt1 inv h
    injection h with h
    subst h
    exact inv
  | cons f rest ih =>
    intro rt rt1 inv h
    rw [deliverAll] at h
    cases hs : handler rt f with
    | none => rw [hs] at h; exact Option.noConfusion h
    | some rt2 =>
      rw [hs] at h
      exact ih rt2 rt1 (hstep rt rt2 f inv hs) h

/-- C25: in every state that the usertime collector reaches from a start through any
sequence of handler calls (with the flushes they make), pause, resume, stop and further
start calls, `stacktraces_len` equals `count_len`, and every batch handed to send has
stack and count vectors of equal length; a hwctime handler run from such a state keeps
both. -/
theorem lengths_agree_in_every_state (env : Env) (args : Usertime.StartArgs)
    (events : List Usertime.Event) (samples : List (List Nat)) (rt0 rt rt1 : Runtime)
    (hsent : rt0.sent = [])
    (hrun : Usertime.run env (Usertime.Event.start args :: events) rt0 = some rt) :
    rt.tls.stacktraces_len = rt.tls.count_len ∧
    (∀ b ∈ rt.sent, b.stacktraces.length = b.count.length) ∧
    (deliverAll (hwctimePAPIHandler env) samples rt = some rt1 →
      rt1.tls.stacktraces_len = rt1.tls.count_len ∧
      ∀ b ∈ rt1.sent, b.stacktraces.length = b.count.length) := by
  rw [Usertime.run] at hrun
  cases hs : Usertime.step env rt0 (Usertime.Event.start args) with
  | none => rw [hs] at hrun; exact Option.noConfusion hrun
  | some rt2 =>
    rw [hs] at hrun
    have inv2 : BlockInv rt2 :=
      blockInv_start (by rw [hsent]; intro b hb; exact absurd hb (List.not_mem_nil b)) hs
    have inv := blockInv_run events rt2 rt inv2 hrun
    refine ⟨inv.1.2.2.1, inv.2, ?_⟩
    intro hd
    have inv1 := blockInv_deliverAll
      (fun a b f ia hf => blockInv_hwctimePAPIHandler ia hf) samples rt rt1 inv hd
    exact ⟨inv1.1.2.2.1, inv1.2⟩

end Collector
end KrellInstitute

namespace KrellInstitute
namespace Collector

/-! ## Slots already written -/

theorem insertStep_keeps_written {fb : List Nat} {tls t : TLS} {i : Nat}
    (h : insertStep fb tls i = some t) :
    t.stacktraces_len = tls.stacktraces_len + 1 ∧
    ∀ x, x < tls.stacktraces_len → t.stacktraces[x]? = tls.stacktraces[x]? := by
  unfold insertStep at h
  split at h
  · exact Option.noConfusion h
  · split at h
    · injection h with h
      subst h
      refine ⟨rfl, ?_⟩
      intro x hx
      show (tls.stacktraces.set tls.stacktraces_len _)[x]? = _
      rw [List.getElem?_set_ne (by omega)]
    · exact Option.noConfusion h

theorem foldlM_insertStep_keeps_written (fb : List Nat) :
    ∀ (l : List Nat) (tls t : TLS), l.foldlM (insertStep fb) tls = some t →
      t.stacktraces_len = tls.stacktraces_len + l.length ∧
      ∀ x, x < tls.stacktraces_len → t.stacktraces[x]? = tls.stacktraces[x]? := by
  intro l
  induction l with
  | nil =>
    intro tls t h
    injection h with h
    subst h
    exact ⟨rfl, fun _ _ => rfl⟩
  | cons i rest ih =>
    intro tls t h
    rw [List.foldlM_cons] at h
    cases hs : insertStep fb tls i with
    | none => rw [hs] at h; exact Option.noConfusion h
    | some t1 =>
      rw [hs] at h
      obtain ⟨hl1, hk1⟩ := insertStep_keeps_written hs
      obtain ⟨hl2, hk2⟩ := ih t1 t h
      refine ⟨by rw [hl2, hl1, List.length_cons]; omega, ?_⟩
      intro x hx
      rw [hk2 x (by omega), hk1 x hx]

/-- A handled sample sends at most one batch; when it sends none, the number of slots
written does not shrink, it grows by the number of frames unless the sample is merged,
and the slots written before hold what they held. -/
theorem recordSample_keeps_written {env : Env} {setRank : Bool} {rt rt1 : Runtime}
    {fb : List Nat} {k : Nat} (h : recordSample env setRank rt fb k = some rt1) :
    (rt1.sent = rt.sent ∨ ∃ b, rt1.sent = rt.sent ++ [b]) ∧
    (rt1.sent = rt.sent →
      (rt1.tls.stacktraces_len = rt.tls.stacktraces_len ∨
        rt1.tls.stacktraces_len = rt.tls.stacktraces_len + k) ∧
      ∀ x, x < rt.tls.stacktraces_len → rt1.tls.stacktraces[x]? = rt.tls.stacktraces[x]?) := by
  rcases recordSample_cases h with ⟨idx, _, _, heq⟩ | ⟨_, t, hins, heq⟩ | ⟨_, t, hins, heq⟩
  · subst heq
    exact ⟨Or.inl rfl, fun _ => ⟨Or.inl rfl, fun _ _ => rfl⟩⟩
  · subst heq
    obtain ⟨hl, hk⟩ := foldlM_insertStep_keeps_written fb _ rt.tls t hins
    rw [List.length_range] at hl
    exact ⟨Or.inl rfl, fun _ => ⟨Or.inr hl, hk⟩⟩
  · subst heq
    have hsent : (send_samples env setRank rt).sent = rt.sent ++ [_] := rfl
    refine ⟨Or.inr ⟨_, hsent⟩, ?_⟩
    intro hsame
    exfalso
    have hlen := congrArg List.length hsame
    rw [show ({ send_samples env setRank rt with tls := t } : Runtime).sent =
      (send_samples env setRank rt).sent from rfl, hsent, List.length_append,
      List.length_singleton] at hlen
    omega

theorem serviceTimerHandler_keepsWritten (env : Env) :
    KeepsWritten (serviceTimerHandler env) := by
  intro rt rt1 frames h
  unfold serviceTimerHandler at h
  split at h
  · injection h with h
    subst h
    exact ⟨Or.inl rfl, fun _ => ⟨Or.inl rfl, fun _ _ => rfl⟩⟩
  · split at h
    · exact Option.noConfusion h
    · exact recordSample_keeps_written h

theorem hwctimePAPIHandler_keepsWritten (env : Env) :
    KeepsWritten (hwctimePAPIHandler env) := by
  intro rt rt1 frames h
  unfold hwctimePAPIHandler at h
  split at h
  · injection h with h
    subst h
    exact ⟨Or.inl rfl, fun _ => ⟨Or.inl rfl, fun _ _ => rfl⟩⟩
  · split at h
    · exact Option.noConfusion h
    · exact recordSample_keeps_written h

theorem deliverAll_sent_length {handler : Runtime → List Nat → Option Runtime}
    (hk : KeepsWritten handler) :
    ∀ (samples : List (List Nat)) (rt rt1 : Runtime),
      deliverAll handler samples rt = some rt1 → rt.sent.length ≤ rt1.sent.length := by
  intro samples
  induction samples with
  | nil =>
    intro rt rt1 h
    injection h with h
    subst h
    exact le_refl _
  | cons f rest ih =>
    intro rt rt1 h
    rw [deliverAll] at h
    cases hs : handler rt f with
    | none => rw [hs] at h; exact Option.noConfusion h
    | some rt2 =>
      rw [hs] at h
      have h2 := ih rt2 rt1 h
      rcases (hk rt rt2 f hs).1 with he | ⟨b, he⟩
      · rw [← he]; exact h2
      · rw [he, List.length_append, List.length_singleton] at h2
        omega

theorem deliverAll_keeps_written {handler : Runtime → List Nat → Option Runtime}
    (hk : KeepsWritten handler) :
    ∀ (samples : List (List Nat)) (rt rt1 : Runtime),
      deliverAll handler samples rt = some rt1 → rt1.sent = rt.sent →
      rt.tls.stacktraces_len ≤ rt1.tls.stacktraces_len ∧
      ∀ x, x < rt.tls.stacktraces_len → rt1.tls.stacktraces[x]? = rt.tls.stacktraces[x]? := by
  intro samples
  induction samples with
  | nil =>
    intro rt rt1 h _
    injection h with h
    subst h
    exact ⟨le_refl _, fun _ _ => rfl⟩
  | cons f rest ih =>
    intro rt rt1 h hsame
    rw [deliverAll] at h
    cases hs : handler rt f with
    | none => rw [hs] at h; exact Option.noConfusion h
    | some rt2 =>
      rw [hs] at h
      have hlen := deliverAll_sent_length hk rest rt2 rt1 h
      have hsent2 : rt2.sent = rt.sent := by
        rcases (hk rt rt2 f hs).1 with he | ⟨b, he⟩
        · exact he
        · exfalso
          rw [hsame, he, List.length_append, List.length_singleton] at hlen
          omega
      obtain ⟨hl1, hk1⟩ := (hk rt rt2 f hs).2 hsent2
      obtain ⟨hl2, hk2⟩ := ih rt2 rt1 h (by rw [hsame, hsent2])
      have hle : rt.tls.stacktraces_len ≤ rt2.tls.stacktraces_len := by
        rcases hl1 with e | e <;> omega
      refine ⟨le_trans hle hl2, ?_⟩
      intro x hx
      rw [hk2 x (by omega), hk1 x hx]

/-- C28: while no batch is sent, handler calls of either collector never change the slots
`stacktraces[0 .. stacktraces_len)` already written and never remove one: after any
sequence of calls that sends nothing, `stacktraces_len` is at least what it was and every
slot below the old length holds what it held, so each new stack lies after all entries
written before it; one call either leaves the length as it is or appends exactly its
frames. -/
theorem written_slots_are_kept (env : Env) (samples : List (List Nat)) (rt rt1 : Runtime)
    (hrun : deliverAll (serviceTimerHandler env) samples rt = some rt1 ∨
      deliverAll (hwctimePAPIHandler env) samples rt = some rt1)
    (hsent : rt1.sent = rt.sent) :
    (rt.tls.stacktraces_len ≤ rt1.tls.stacktraces_len ∧
      ∀ x, x < rt.tls.stacktraces_len →
        rt1.tls.stacktraces[x]? = rt.tls.stacktraces[x]?) ∧
    (∀ frames, samples = [frames] →
      rt1.tls.stacktraces_len = rt.tls.stacktraces_len ∨
      rt1.tls.stacktraces_len = rt.tls.stacktraces_len + frames.length) := by
  rcases hrun with hrun | hrun
  · refine ⟨deliverAll_keeps_written (serviceTimerHandler_keepsWritten env) samples rt rt1
      hrun hsent, ?_⟩
    intro frames hf
    subst hf
    rw [deliverAll] at hrun
    cases hs : serviceTimerHandler env rt frames with
    | none => rw [hs] at hrun; exact Option.noConfusion hrun
    | some rt2 =>
      rw [hs] at hrun
      injection hrun with hrun
      subst hrun
      exact ((serviceTimerHandler_keepsWritten env rt rt2 frames hs).2 hsent).1
  · refine ⟨deliverAll_keeps_written (hwctimePAPIHandler_keepsWritten env) samples rt rt1
      hrun hsent, ?_⟩
    intro frames hf
    subst hf
    rw [deliverAll] at hrun
    cases hs : hwctimePAPIHandler env rt frames with
    | none => rw [hs] at hrun; exact Option.noConfusion hrun
    | some rt2 =>
      rw [hs] at hrun
      injection hrun with hrun
      subst hrun
      exact ((hwctimePAPIHandler_keepsWritten env rt rt2 frames hs).2 hsent).1

end Collector

namespace AddressBitmap

/-- C26: the bitmap built from the address set `{0x1000, 0x1001, 0x1003}` has the range
`[0x1000, 0x1004)` of width 4 and the bits 1, 1, 0, 1; its message holds that range and
the single byte `0x0B`; and `getContiguousRanges(true)` returns exactly
`[0x1000, 0x1002)` and `[0x1003, 0x1004)`. -/
theorem example_bitmap_of_three_addresses :
    fromAddresses [0x1000, 0x1001, 0x1003] =
      some { dm_range := { dm_begin := 0x1000, dm_end := 0x1004 }
             dm_bitmap := [true, true, false, true] } ∧
    AddressRange.getWidth { dm_begin := 0x1000, dm_end := 0x1004 } = 4 ∧
    (fromAddresses [0x1000, 0x1001, 0x1003]).map toMessage =
      some { range := { dm_begin := 0x1000, dm_end := 0x1004 }, data_val := [0x0B] } ∧
    (fromAddresses [0x1000, 0x1001, 0x1003]).bind (fun b => getContiguousRanges b true) =
      some [{ dm_begin := 0x1000, dm_end := 0x1002 }, { dm_begin := 0x1003, dm_end := 0x1004 }] := by
  refine ⟨by decide, by decide, by decide, ?_⟩
  decide

end AddressBitmap
end KrellInstitute

namespace KrellInstitute
namespace Collector

section
set_option maxRecDepth 100000

theorem hwctime_stop_without_event_set_witness :
    nullEventRuntime.tls.EventSet = PAPI_NULL ∧ 0 < nullEventRuntime.tls.stacktraces_len ∧
    Hwctime.cbtf_collector_stop sampleEnv nullEventRuntime = nullEventRuntime :=
  ⟨rfl, by decide, hwctime_stop_without_event_set sampleEnv nullEventRuntime rfl⟩

theorem lengths_agree_in_every_state_witness :
    sampleRuntime.sent = [] ∧
    ∃ rt, Usertime.run sampleEnv (Usertime.Event.start sampleStartArgs :: sampleSession)
        sampleRuntime = some rt ∧
      rt.sent.length = 2 ∧
      (rt.tls.stacktraces_len = rt.tls.count_len ∧
      (∀ b ∈ rt.sent, b.stacktraces.length = b.count.length) ∧
      (deliverAll (hwctimePAPIHandler sampleEnv) [] rt = some rt →
        rt.tls.stacktraces_len = rt.tls.count_len ∧
        ∀ b ∈ rt.sent, b.stacktraces.length = b.count.length)) :=
  ⟨rfl, _, rfl, rfl,
    lengths_agree_in_every_state sampleEnv sampleStartArgs sampleSession [] sampleRuntime
      _ _ rfl rfl⟩

theorem written_slots_are_kept_witness :
    ∃ rt1, deliverAll (serviceTimerHandler sampleEnv) [[0x40, 0x50]] bufferedRuntime
        = some rt1 ∧
      rt1.sent = bufferedRuntime.sent ∧ rt1.tls.stacktraces_len = 5 ∧
      ((bufferedRuntime.tls.stacktraces_len ≤ rt1.tls.stacktraces_len ∧
        ∀ x, x < bufferedRuntime.tls.stacktraces_len →
          rt1.tls.stacktraces[x]? = bufferedRuntime.tls.stacktraces[x]?) ∧
      (∀ frames, [[0x40, 0x50]] = [frames] →
        rt1.tls.stacktraces_len = bufferedRuntime.tls.stacktraces_len ∨
        rt1.tls.stacktraces_len = bufferedRuntime.tls.stacktraces_len + frames.length)) :=
  ⟨_, rfl, rfl, rfl,
    written_slots_are_kept sampleEnv [[0x40, 0x50]] bufferedRuntime _ (Or.inl rfl) rfl⟩

end

theorem pause_resume_set_the_gate_witness :
    (1 : Nat) ≠ 0 ∧
    (Usertime.cbtf_collector_pause sampleRuntime =
      { sampleRuntime with tls := { sampleRuntime.tls with defer_sampling := true } } ∧
    Usertime.cbtf_collector_resume sampleRuntime =
      { sampleRuntime with tls := { sampleRuntime.tls with defer_sampling := false } } ∧
    Usertime.cbtf_collector_pause (Usertime.cbtf_collector_pause sampleRuntime) =
      Usertime.cbtf_collector_pause sampleRuntime ∧
    Usertime.cbtf_collector_resume (Usertime.cbtf_collector_resume sampleRuntime) =
      Usertime.cbtf_collector_resume sampleRuntime ∧
    Hwctime.cbtf_collector_pause 1 sampleRuntime =
      { sampleRuntime with tls := { sampleRuntime.tls with defer_sampling := true } } ∧
    Hwctime.cbtf_collector_resume 1 sampleRuntime =
      { sampleRuntime with tls := { sampleRuntime.tls with defer_sampling := false } } ∧
    Hwctime.cbtf_collector_pause 1 (Hwctime.cbtf_collector_pause 1 sampleRuntime) =
      Hwctime.cbtf_collector_pause 1 sampleRuntime ∧
    Hwctime.cbtf_collector_resume 1 (Hwctime.cbtf_collector_resume 1 sampleRuntime) =
      Hwctime.cbtf_collector_resume 1 sampleRuntime) :=
  ⟨by decide, pause_resume_set_the_gate sampleRuntime 1 (by decide)⟩

end Collector
end KrellInstitute

namespace KrellInstitute
namespace SymbolTable

/-! ## Symbol table: merging ranges into bitmaps -/

theorem doesContain_iff (r : AddressRange) (a : Nat) :
    r.doesContain a = true ↔ r.dm_begin ≤ a ∧ a < r.dm_end := by
  simp [AddressRange.doesContain]

theorem groupStep_spec (groups : List AddressRange) (r : AddressRange)
    (hg : ∀ g ∈ groups, g.dm_begin ≤ g.dm_end ∧ g.dm_end < 2 ^ 64)
    (hr : r.dm_begin ≤ r.dm_end ∧ r.dm_end < 2 ^ 64) :
    (∀ g ∈ groupStep groups r, g.dm_begin ≤ g.dm_end ∧ g.dm_end < 2 ^ 64) ∧
    ∀ a, (∃ g ∈ groupStep groups r, g.doesContain a = true) ↔
      ((∃ g ∈ groups, g.doesContain a = true) ∨ r.doesContain a = true) := by
  cases groups with
  | nil =>
    simp only [groupStep]
    refine ⟨?_, ?_⟩
    · intro g hmem
      rw [List.mem_singleton] at hmem
      subst hmem
      exact hr
    · intro a
      simp
  | cons g gs =>
    have hg0 := hg g (List.mem_cons_self _ _)
    simp only [groupStep]
    split
    · rename_i hmerge
      refine ⟨?_, ?_⟩
      · intro x hx
        rcases List.mem_cons.1 hx with hx | hx
        · subst hx
          simp only
          omega
        · exact hg x (List.mem_cons_of_mem _ hx)
      · intro a
        simp only [List.mem_cons, exists_eq_or_imp, doesContain_iff]
        constructor
        · rintro (h | h)
          · by_cases hga : g.dm_begin ≤ a ∧ a < g.dm_end
            · exact Or.inl (Or.inl hga)
            · right
              omega
          · exact Or.inl (Or.inr h)
        · rintro ((h | h) | h)
          · left; omega
          · exact Or.inr h
          · left; omega
    · refine ⟨?_, ?_⟩
      · intro x hx
        rcases List.mem_cons.1 hx with hx | hx
        · subst hx
          exact hr
        · exact hg x hx
      · intro a
        simp only [List.mem_cons, exists_eq_or_imp]
        constructor
        · rintro (h | h | h)
          · exact Or.inr h
          · exact Or.inl (Or.inl h)
          · exact Or.inl (Or.inr h)
        · rintro ((h | h) | h)
          · exact Or.inr (Or.inl h)
          · exact Or.inr (Or.inr h)
          · exact Or.inl h

theorem foldl_groupStep_spec (ranges : List AddressRange) :
    ∀ groups : List AddressRange,
      (∀ g ∈ groups, g.dm_begin ≤ g.dm_end ∧ g.dm_end < 2 ^ 64) →
      (∀ r ∈ ranges, r.dm_begin ≤ r.dm_end ∧ r.dm_end < 2 ^ 64) →
      (∀ g ∈ ranges.foldl groupStep groups, g.dm_begin ≤ g.dm_end ∧ g.dm_end < 2 ^ 64) ∧
      ∀ a, (∃ g ∈ ranges.foldl groupStep groups, g.doesContain a = true) ↔
        ((∃ g ∈ groups, g.doesContain a = true) ∨ ∃ r ∈ ranges, r.doesContain a = true) := by
  induction ranges with
  | nil =>
    intro groups hg _
    refine ⟨hg, ?_⟩
    intro a
    simp
  | cons r rest ih =>
    intro groups hg hr
    have hstep := groupStep_spec groups r hg (hr r (List.mem_cons_self _ _))
    have hrest := ih (groupStep groups r) hstep.1
      (fun x hx => hr x (List.mem_cons_of_mem _ hx))
    rw [List.foldl_cons]
    refine ⟨hrest.1, ?_⟩
    intro a
    rw [hrest.2 a, hstep.2 a]
    simp only [List.mem_cons, exists_eq_or_imp]
    constructor
    · rintro ((h | h) | h)
      · exact Or.inl h
      · exact Or.inr (Or.inl h)
      · exact Or.inr (Or.inr h)
    · rintro (h | h | h)
      · exact Or.inl (Or.inl h)
      · exact Or.inl (Or.inr h)
      · exact Or.inr h

theorem groupRanges_spec (ranges : List AddressRange)
    (hr : ∀ r ∈ ranges, r.dm_begin ≤ r.dm_end ∧ r.dm_end < 2 ^ 64) :
    (∀ g ∈ groupRanges ranges, g.dm_begin ≤ g.dm_end ∧ g.dm_end < 2 ^ 64) ∧
    ∀ a, (∃ g ∈ groupRanges ranges, g.doesContain a = true) ↔
      ∃ r ∈ ranges, r.doesContain a = true := by
  have h := foldl_groupStep_spec ranges []
    (fun g hg => absurd hg (List.not_mem_nil g)) hr
  unfold groupRanges
  refine ⟨fun g hg => h.1 g (List.mem_reverse.1 hg), ?_⟩
  intro a
  simp only [List.mem_reverse]
  rw [h.2 a]
  simp

theorem mem_rangeAddresses {r : AddressRange} (hr : r.dm_begin ≤ r.dm_end ∧ r.dm_end < 2 ^ 64)
    (x : Nat) :
    x ∈ (List.range r.getWidth).map (fun i => addrAdd r.dm_begin i) ↔
      r.dm_begin ≤ x ∧ x < r.dm_end := by
  rw [AddressRange.getWidth_of_le hr.1 hr.2]
  simp only [List.mem_map, List.mem_range]
  constructor
  · rintro ⟨i, hi, rfl⟩
    rw [addrAdd_of_lt (by omega)]
    omega
  · intro hx
    refine ⟨x - r.dm_begin, by omega, ?_⟩
    rw [addrAdd_of_lt (by omega)]
    omega

theorem setRange_spec {b : AddressBitmap} (hwf : b.WF) {g : AddressRange}
    (hg : g.dm_begin ≤ g.dm_end ∧ g.dm_end < 2 ^ 64)
    (hcover : b.dm_range.dm_begin ≤ g.dm_begin ∧ g.dm_end ≤ b.dm_range.dm_end) :
    ∃ b1, setRange b g = some b1 ∧ b1.WF ∧ b1.dm_range = b.dm_range ∧
      ∀ x, b.dm_range.dm_begin ≤ x → b1.bitAt x = (b.bitAt x || g.doesContain x) := by
  obtain ⟨b1, h1, h2, h3, h4⟩ := AddressBitmap.foldlM_setValue
    ((List.range g.getWidth).map (fun i => addrAdd g.dm_begin i)) b hwf
    (by
      intro a ha
      rw [mem_rangeAddresses hg] at ha
      omega)
  refine ⟨b1, h1, h2, h3, ?_⟩
  intro x hx
  rw [h4 x hx]
  congr 1
  rw [Bool.eq_iff_iff, decide_eq_true_iff, mem_rangeAddresses hg, doesContain_iff]

theorem fromRange_wf {g : AddressRange} (hg : g.dm_begin ≤ g.dm_end ∧ g.dm_end < 2 ^ 64) :
    (AddressBitmap.fromRange g).WF :=
  ⟨hg.1, hg.2, List.length_replicate _ _⟩

theorem covers_cons (b : AddressBitmap) (rest : List AddressBitmap) (a : Nat) :
    Covers (b :: rest) a ↔
      ((b.dm_range.doesContain a = true ∧ b.bitAt a = true) ∨ Covers rest a) := by
  unfold Covers
  simp only [List.mem_cons, exists_eq_or_imp]

theorem covers_nil (a : Nat) : ¬ Covers [] a := by
  rintro ⟨b, hb, _⟩
  exact absurd hb (List.not_mem_nil b)

theorem extendGroup_spec (g : AddressRange)
    (hg : g.dm_begin ≤ g.dm_end ∧ g.dm_end < 2 ^ 64) :
    ∀ bitmaps : List AddressBitmap, (∀ b ∈ bitmaps, b.WF) →
      ∃ bitmaps1, extendGroup bitmaps g = some bitmaps1 ∧ (∀ b ∈ bitmaps1, b.WF) ∧
        ∀ a, Covers bitmaps1 a ↔ (Covers bitmaps a ∨ g.doesContain a = true) := by
  intro bitmaps
  induction bitmaps with
  | nil =>
    intro _
    obtain ⟨b1, h1, h2, h3, h4⟩ := setRange_spec (fromRange_wf hg) hg
      ⟨le_refl _, le_refl _⟩
    refine ⟨[b1], ?_, ?_, ?_⟩
    · simp only [extendGroup, h1, Option.map_some']
    · intro b hb
      rw [List.mem_singleton] at hb
      subst hb
      exact h2
    · intro a
      rw [covers_cons]
      have h3b : b1.dm_range = g := h3
      constructor
      · rintro (⟨hin, hbit⟩ | h)
        · right
          rw [h3b] at hin
          exact hin
        · exact absurd h (covers_nil a)
      · rintro (h | h)
        · exact absurd h (covers_nil a)
        · left
          rw [h3b]
          refine ⟨h, ?_⟩
          rw [h4 a ((doesContain_iff g a).1 h).1, h, Bool.or_true]
  | cons b rest ih =>
    intro hwf
    have hb := hwf b (List.mem_cons_self _ _)
    have hrest : ∀ x ∈ rest, x.WF := fun x hx => hwf x (List.mem_cons_of_mem _ hx)
    by_cases hc : doesCover b g = true
    · have hc2 : b.dm_range.dm_begin ≤ g.dm_begin ∧ g.dm_end ≤ b.dm_range.dm_end := by
        simpa [doesCover] using hc
      obtain ⟨b1, h1, h2, h3, h4⟩ := setRange_spec hb hg hc2
      refine ⟨b1 :: rest, ?_, ?_, ?_⟩
      · simp only [extendGroup, hc, if_true, h1, Option.map_some']
      · intro x hx
        rcases List.mem_cons.1 hx with hx | hx
        · subst hx; exact h2
        · exact hrest x hx
      · intro a
        rw [covers_cons, covers_cons, h3]
        constructor
        · rintro (⟨hin, hbit⟩ | h)
          · rw [h4 a ((doesContain_iff _ a).1 hin).1, Bool.or_eq_true] at hbit
            rcases hbit with hbit | hbit
            · exact Or.inl (Or.inl ⟨hin, hbit⟩)
            · exact Or.inr hbit
          · exact Or.inl (Or.inr h)
        · rintro ((⟨hin, hbit⟩ | h) | h)
          · left
            refine ⟨hin, ?_⟩
            rw [h4 a ((doesContain_iff _ a).1 hin).1, hbit, Bool.true_or]
          · exact Or.inr h
          · left
            have hga := (doesContain_iff g a).1 h
            have hin : b.dm_range.doesContain a = true :=
              (doesContain_iff _ a).2 ⟨by omega, by omega⟩
            refine ⟨hin, ?_⟩
            rw [h4 a (by omega), h, Bool.or_true]
    · obtain ⟨rest1, h1, h2, h3⟩ := ih hrest
      refine ⟨b :: rest1, ?_, ?_, ?_⟩
      · simp only [extendGroup, hc, Bool.false_eq_true, if_false, h1, Option.map_some']
      · intro x hx
        rcases List.mem_cons.1 hx with hx | hx
        · subst hx; exact hb
        · exact h2 x hx
      · intro a
        rw [covers_cons, covers_cons, h3 a]
        constructor
        · rintro (h | h | h)
          · exact Or.inl (Or.inl h)
          · exact Or.inl (Or.inr h)
          · exact Or.inr h
        · rintro ((h | h) | h)
          · exact Or.inl h
          · exact Or.inr (Or.inl h)
          · exact Or.inr (Or.inr h)

theorem foldlM_extendGroup_spec (groups : List AddressRange) :
    ∀ bitmaps : List AddressBitmap, (∀ b ∈ bitmaps, b.WF) →
      (∀ g ∈ groups, g.dm_begin ≤ g.dm_end ∧ g.dm_end < 2 ^ 64) →
      ∃ bitmaps1, groups.foldlM extendGroup bitmaps = some bitmaps1 ∧
        (∀ b ∈ bitmaps1, b.WF) ∧
        ∀ a, Covers bitmaps1 a ↔ (Covers bitmaps a ∨ ∃ g ∈ groups, g.doesContain a = true) := by
  induction groups with
  | nil =>
    intro bitmaps hwf _
    refine ⟨bitmaps, rfl, hwf, ?_⟩
    intro a
    simp
  | cons g rest ih =>
    intro bitmaps hwf hg
    obtain ⟨bm1, h1, h2, h3⟩ := extendGroup_spec g (hg g (List.mem_cons_self _ _)) bitmaps hwf
    obtain ⟨bm2, k1, k2, k3⟩ := ih bm1 h2 (fun x hx => hg x (List.mem_cons_of_mem _ hx))
    refine ⟨bm2, ?_, k2, ?_⟩
    · rw [List.foldlM_cons, h1]
      exact k1
    · intro a
      rw [k3 a, h3 a]
      simp only [List.mem_cons, exists_eq_or_imp]
      constructor
      · rintro ((h | h) | h)
        · exact Or.inl h
        · exact Or.inr (Or.inl h)
        · exact Or.inr (Or.inr h)
      · rintro (h | h | h)
        · exact Or.inl (Or.inl h)
        · exact Or.inl (Or.inr h)
        · exact Or.inr h

/-- Merging ranges into a list of bitmaps returns, keeps the class invariant of every
bitmap, and covers exactly what was covered before together with the ranges. -/
theorem extend_spec (bitmaps : List AddressBitmap) (ranges : List AddressRange)
    (hwf : ∀ b ∈ bitmaps, b.WF)
    (hr : ∀ r ∈ ranges, r.dm_begin ≤ r.dm_end ∧ r.dm_end < 2 ^ 64) :
    ∃ bitmaps1, extend bitmaps ranges = some bitmaps1 ∧ (∀ b ∈ bitmaps1, b.WF) ∧
      ∀ a, Covers bitmaps1 a ↔ (Covers bitmaps a ∨ ∃ r ∈ ranges, r.doesContain a = true) := by
  have hgr := groupRanges_spec ranges hr
  obtain ⟨bm1, h1, h2, h3⟩ := foldlM_extendGroup_spec (groupRanges ranges) bitmaps hwf hgr.1
  refine ⟨bm1, h1, h2, ?_⟩
  intro a
  rw [h3 a, hgr.2 a]

/-! ## Symbol table: runs and the range index -/

theorem runs_cover {b : AddressBitmap} (hwf : b.WF) {rs : List AddressRange}
    (h : b.getContiguousRanges true = some rs) (a : Nat) :
    (∃ r ∈ rs, r.doesContain a = true) ↔
      (b.dm_range.doesContain a = true ∧ b.bitAt a = true) := by
  obtain ⟨rs1, h1, hprop, _, hcover⟩ := AddressBitmap.getContiguousRanges_spec hwf true
  rw [h] at h1
  injection h1 with h1
  subst h1
  constructor
  · rintro ⟨r, hr, hra⟩
    obtain ⟨c1, c2, c3, c4, _, _⟩ := hprop r hr
    have hra2 := (doesContain_iff r a).1 hra
    exact ⟨(doesContain_iff _ a).2 ⟨by omega, by omega⟩, c4 a hra2.1 hra2.2⟩
  · rintro ⟨hin, hbit⟩
    have hin2 := (doesContain_iff _ a).1 hin
    obtain ⟨r, hr, hra⟩ := hcover a hin2.1 hin2.2 hbit
    exact ⟨r, hr, (doesContain_iff r a).2 hra⟩

theorem run_nonempty {b : AddressBitmap} (hwf : b.WF) {rs : List AddressRange}
    (h : b.getContiguousRanges true = some rs) {r : AddressRange} (hr : r ∈ rs) :
    r.dm_begin < r.dm_end := by
  obtain ⟨rs1, h1, hprop, _, _⟩ := AddressBitmap.getContiguousRanges_spec hwf true
  rw [h] at h1
  injection h1 with h1
  subst h1
  exact (hprop r hr).2.1

theorem contiguousRuns_spec :
    ∀ bitmaps : List AddressBitmap, (∀ b ∈ bitmaps, b.WF) →
      ∃ runs, contiguousRuns bitmaps = some runs ∧ ∀ r, r ∈ runs ↔ IsRun bitmaps r := by
  intro bitmaps
  induction bitmaps with
  | nil =>
    intro _
    refine ⟨[], rfl, ?_⟩
    intro r
    constructor
    · intro h
      exact absurd h (List.not_mem_nil r)
    · rintro ⟨b, hb, _⟩
      exact absurd hb (List.not_mem_nil b)
  | cons b rest ih =>
    intro hwf
    obtain ⟨rs, hrs, _⟩ := AddressBitmap.getContiguousRanges_spec
      (hwf b (List.mem_cons_self _ _)) true
    obtain ⟨more, hmore, hmem⟩ := ih (fun x hx => hwf x (List.mem_cons_of_mem _ hx))
    refine ⟨rs ++ more, ?_, ?_⟩
    · simp only [contiguousRuns, hrs, hmore]
    · intro r
      rw [List.mem_append, hmem r]
      unfold IsRun
      simp only [List.mem_cons, exists_eq_or_imp, hrs, Option.some.injEq, exists_eq_left']

theorem isRun_covers {bitmaps : List AddressBitmap} (hwf : ∀ b ∈ bitmaps, b.WF) (a : Nat) :
    (∃ r, IsRun bitmaps r ∧ r.doesContain a = true) ↔ Covers bitmaps a := by
  constructor
  · rintro ⟨r, ⟨b, hb, rs, hrs, hr⟩, hra⟩
    exact ⟨b, hb, (runs_cover (hwf b hb) hrs a).1 ⟨r, hr, hra⟩⟩
  · rintro ⟨b, hb, hcov⟩
    obtain ⟨rs, hrs, _⟩ := AddressBitmap.getContiguousRanges_spec (hwf b hb) true
    obtain ⟨r, hr, hra⟩ := (runs_cover (hwf b hb) hrs a).2 hcov
    exact ⟨r, ⟨b, hb, rs, hrs, hr⟩, hra⟩

theorem mem_foldl_setInsert (runs : List AddressRange) :
    ∀ (s : List AddressRange) (r : AddressRange),
      r ∈ runs.foldl (fun s r => setInsert r s) s ↔ (r ∈ s ∨ r ∈ runs) := by
  induction runs with
  | nil =>
    intro s r
    simp
  | cons x rest ih =>
    intro s r
    rw [List.foldl_cons, ih, mem_setInsert, List.mem_cons]
    constructor
    · rintro ((h | h) | h)
      · exact Or.inr (Or.inl h)
      · exact Or.inl h
      · exact Or.inr (Or.inr h)
    · rintro (h | h | h)
      · exact Or.inl (Or.inr h)
      · exact Or.inl (Or.inl h)
      · exact Or.inr h

theorem mem_rangeSet (runs : List AddressRange) (r : AddressRange) :
    r ∈ rangeSet runs ↔ r ∈ runs := by
  unfold rangeSet
  rw [mem_foldl_setInsert]
  simp

theorem mem_indexInsert (e y : AddressRange × UniqueIdentifier) :
    ∀ index : AddressRangeIndex, y ∈ indexInsert e index ↔ (y = e ∨ y ∈ index) := by
  intro index
  induction index with
  | nil => simp [indexInsert]
  | cons x xs ih =>
    simp only [indexInsert]
    split
    · simp only [List.mem_cons]
    · simp only [List.mem_cons, ih]
      constructor
      · rintro (h | h | h)
        · exact Or.inr (Or.inl h)
        · exact Or.inl h
        · exact Or.inr (Or.inr h)
      · rintro (h | h | h)
        · exact Or.inr (Or.inl h)
        · exact Or.inl h
        · exact Or.inr (Or.inr h)

theorem mem_foldl_indexInsert (uid : UniqueIdentifier) (runs : List AddressRange) :
    ∀ (index : AddressRangeIndex) (y : AddressRange × UniqueIdentifier),
      y ∈ runs.foldl (fun idx r => indexInsert (r, uid) idx) index ↔
        (y ∈ index ∨ (y.2 = uid ∧ y.1 ∈ runs)) := by
  induction runs with
  | nil =>
    intro index y
    simp
  | cons x rest ih =>
    intro index y
    rw [List.foldl_cons, ih, mem_indexInsert, List.mem_cons]
    constructor
    · rintro ((h | h) | h)
      · subst h
        exact Or.inr ⟨rfl, Or.inl rfl⟩
      · exact Or.inl h
      · exact Or.inr ⟨h.1, Or.inr h.2⟩
    · rintro (h | ⟨h1, h2 | h2⟩)
      · exact Or.inl (Or.inr h)
      · left; left
        exact Prod.ext h2 h1
      · exact Or.inr ⟨h1, h2⟩

/-- Rebuilding the index entries of entity `uid` from its new bitmaps returns and leaves
the index in agreement with the bitmaps. -/
theorem reindex_spec {items : List (List AddressBitmap)} {index : AddressRangeIndex}
    (hidx : IndexConsistent items index) {uid : UniqueIdentifier} (huid : uid < items.length)
    {bitmaps : List AddressBitmap} (hwf : ∀ b ∈ bitmaps, b.WF) :
    ∃ index1, reindex uid bitmaps index = some index1 ∧
      IndexConsistent (items.set uid bitmaps) index1 := by
  obtain ⟨runs, hruns, hmem⟩ := contiguousRuns_spec bitmaps hwf
  have hre : reindex uid bitmaps index =
      some (runs.foldl (fun idx r => indexInsert (r, uid) idx)
        (index.filter (fun e => e.2 ≠ uid))) := by
    simp only [reindex, hruns, Option.map_some']
  refine ⟨_, hre, ?_⟩
  intro r (u : Nat)
  rw [mem_foldl_indexInsert, List.mem_filter]
  simp only [ne_eq, decide_not, Bool.not_eq_true', decide_eq_false_iff_not]
  by_cases hu : u = uid
  · subst hu
    rw [List.getElem?_set_self huid]
    simp only [not_true_eq_false, and_false, false_or, true_and, Option.some.injEq,
      exists_eq_left', hmem r]
  · rw [List.getElem?_set_ne (Ne.symm hu)]
    rw [← hidx r u]
    simp only [hu, not_false_eq_true, and_true, false_and, or_false]

theorem indexConsistent_append {items : List (List AddressBitmap)} {index : AddressRangeIndex}
    (hidx : IndexConsistent items index) : IndexConsistent (items ++ [[]]) index := by
  intro r (u : Nat)
  rw [hidx r u]
  by_cases hu : u < items.length
  · rw [List.getElem?_append_left hu]
  · have hnone : items[u]? = none := List.getElem?_eq_none (by omega)
    rw [hnone]
    constructor
    · rintro ⟨_, h, _⟩
      exact Option.noConfusion h
    · rintro ⟨bitmaps, h, b, hb, _⟩
      rw [List.getElem?_append_right (by omega)] at h
      by_cases h0 : u - items.length = 0
      · rw [h0] at h
        injection h with h
        subst h
        exact absurd hb (List.not_mem_nil b)
      · rw [List.getElem?_eq_none (by simp; omega)] at h
        exact Option.noConfusion h

/-! ## Symbol table: the calls that build a table -/

theorem consistent_create (path : String) (checksum : Nat) :
    Consistent (create path checksum) := by
  refine ⟨?_, ?_, ?_, ?_⟩
  · intro bitmaps h
    exact absurd h (List.not_mem_nil _)
  · intro r (u : Nat)
    constructor
    · intro h
      exact absurd h (List.not_mem_nil _)
    · rintro ⟨_, h, _⟩
      exact Option.noConfusion h
  · intro bitmaps h
    exact absurd h (List.not_mem_nil _)
  · intro r (u : Nat)
    constructor
    · intro h
      exact absurd h (List.not_mem_nil _)
    · rintro ⟨_, h, _⟩
      exact Option.noConfusion h

theorem wf_append_empty {items : List (List AddressBitmap)}
    (h : ∀ bitmaps ∈ items, ∀ b ∈ bitmaps, b.WF) :
    ∀ bitmaps ∈ items ++ [[]], ∀ b ∈ bitmaps, b.WF := by
  intro bitmaps hb b hmem
  rcases List.mem_append.1 hb with hb | hb
  · exact h bitmaps hb b hmem
  · rw [List.mem_singleton] at hb
    subst hb
    exact absurd hmem (List.not_mem_nil b)

theorem wf_set_entity {items : List (List AddressBitmap)}
    (h : ∀ bitmaps ∈ items, ∀ b ∈ bitmaps, b.WF) (uid : Nat) {new : List AddressBitmap}
    (hnew : ∀ b ∈ new, b.WF) : ∀ bitmaps ∈ items.set uid new, ∀ b ∈ bitmaps, b.WF := by
  intro bitmaps hb b hmem
  rcases List.mem_or_eq_of_mem_set hb with hb | hb
  · exact h bitmaps hb b hmem
  · subst hb
    exact hnew b hmem

theorem coversEntity_append (items : List (List AddressBitmap)) (uid : Nat) (a : Nat) :
    CoversEntity (items ++ [[]]) uid a ↔ CoversEntity items uid a := by
  unfold CoversEntity
  by_cases hu : uid < items.length
  · rw [List.getElem?_append_left hu]
  · rw [List.getElem?_eq_none (Nat.le_of_not_lt hu)]
    constructor
    · rintro ⟨bitmaps, h, hc⟩
      rw [List.getElem?_append_right (Nat.le_of_not_lt hu)] at h
      by_cases h0 : uid - items.length = 0
      · rw [h0] at h
        injection h with h
        subst h
        exact absurd hc (covers_nil a)
      · rw [List.getElem?_eq_none (by simp; omega)] at h
        exact Option.noConfusion h
    · rintro ⟨_, h, _⟩
      exact Option.noConfusion h

theorem coversEntity_set {items : List (List AddressBitmap)} {u : Nat}
    {old new : List AddressBitmap} (hold : items[u]? = some old) (extra : Nat → Prop)
    (hnew : ∀ a, Covers new a ↔ (Covers old a ∨ extra a)) (uid : Nat) (a : Nat) :
    CoversEntity (items.set u new) uid a ↔
      (CoversEntity items uid a ∨ (uid = u ∧ extra a)) := by
  unfold CoversEntity
  have hlt : u < items.length := (List.getElem?_eq_some_iff.1 hold).1
  by_cases hu : uid = u
  · subst hu
    rw [List.getElem?_set_self hlt, hold]
    simp only [Option.some.injEq, exists_eq_left', true_and]
    exact hnew a
  · rw [List.getElem?_set_ne (Ne.symm hu)]
    simp only [hu, false_and, or_false]

/-- The effect of `addFunctionAddressRanges` on a consistent table: the call returns, the
table stays consistent, the bitmaps of the function are replaced by bitmaps that cover
what they covered and the given ranges, and nothing else changes. -/
theorem addFunctionAddressRanges_spec {t : SymbolTable} (hc : Consistent t) {uid : Nat}
    (huid : uid < t.dm_functions.length) {ranges : List AddressRange}
    (hr : ∀ r ∈ ranges, r.dm_begin ≤ r.dm_end ∧ r.dm_end < 2 ^ 64) :
    ∃ t1 old new, addFunctionAddressRanges t uid ranges = some t1 ∧ Consistent t1 ∧
      (functionBitmaps t)[uid]? = some old ∧
      functionBitmaps t1 = (functionBitmaps t).set uid new ∧
      statementBitmaps t1 = statementBitmaps t ∧
      ∀ a, Covers new a ↔ (Covers old a ∨ ∃ r ∈ ranges, r.doesContain a = true) := by
  obtain ⟨item, hitem⟩ : ∃ item, t.dm_functions[uid]? = some item :=
    ⟨_, List.getElem?_eq_getElem huid⟩
  have hold : (functionBitmaps t)[uid]? = some item.dm_addresses := by
    unfold functionBitmaps
    rw [List.getElem?_map, hitem]
    rfl
  have hwf_old : ∀ b ∈ item.dm_addresses, b.WF :=
    hc.functions_wf _ (List.getElem?_mem hold)
  obtain ⟨new, hext, hwf_new, hcov⟩ := extend_spec item.dm_addresses ranges hwf_old hr
  have hlen : uid < (functionBitmaps t).length := by
    unfold functionBitmaps
    rw [List.length_map]
    exact huid
  obtain ⟨index1, hre, hidx⟩ := reindex_spec hc.functions_index hlen hwf_new
  have hfb : functionBitmaps
      { t with
        dm_functions := t.dm_functions.set uid { item with dm_addresses := new }
        dm_functions_index := index1 } = (functionBitmaps t).set uid new := by
    unfold functionBitmaps
    exact List.map_set
  refine ⟨{ t with
      dm_functions := t.dm_functions.set uid { item with dm_addresses := new }
      dm_functions_index := index1 }, item.dm_addresses, new, ?_,
    ⟨?_, ?_, hc.statements_wf, hc.statements_index⟩, hold, hfb, rfl, hcov⟩
  · simp only [addFunctionAddressRanges, hitem, hext, hre]
  · rw [hfb]
    exact wf_set_entity hc.functions_wf uid hwf_new
  · rw [hfb]
    exact hidx

/-- The effect of `addStatementAddressRanges` on a consistent table. -/
theorem addStatementAddressRanges_spec {t : SymbolTable} (hc : Consistent t) {uid : Nat}
    (huid : uid < t.dm_statements.length) {ranges : List AddressRange}
    (hr : ∀ r ∈ ranges, r.dm_begin ≤ r.dm_end ∧ r.dm_end < 2 ^ 64) :
    ∃ t1 old new, addStatementAddressRanges t uid ranges = some t1 ∧ Consistent t1 ∧
      (statementBitmaps t)[uid]? = some old ∧
      statementBitmaps t1 = (statementBitmaps t).set uid new ∧
      functionBitmaps t1 = functionBitmaps t ∧
      ∀ a, Covers new a ↔ (Covers old a ∨ ∃ r ∈ ranges, r.doesContain a = true) := by
  obtain ⟨item, hitem⟩ : ∃ item, t.dm_statements[uid]? = some item :=
    ⟨_, List.getElem?_eq_getElem huid⟩
  have hold : (statementBitmaps t)[uid]? = some item.dm_addresses := by
    unfold statementBitmaps
    rw [List.getElem?_map, hitem]
    rfl
  have hwf_old : ∀ b ∈ item.dm_addresses, b.WF :=
    hc.statements_wf _ (List.getElem?_mem hold)
  obtain ⟨new, hext, hwf_new, hcov⟩ := extend_spec item.dm_addresses ranges hwf_old hr
  have hlen : uid < (statementBitmaps t).length := by
    unfold statementBitmaps
    rw [List.length_map]
    exact huid
  obtain ⟨index1, hre, hidx⟩ := reindex_spec hc.statements_index hlen hwf_new
  have hfb : statementBitmaps
      { t with
        dm_statements := t.dm_statements.set uid { item with dm_addresses := new }
        dm_statements_index := index1 } = (statementBitmaps t).set uid new := by
    unfold statementBitmaps
    exact List.map_set
  refine ⟨{ t with
      dm_statements := t.dm_statements.set uid { item with dm_addresses := new }
      dm_statements_index := index1 }, item.dm_addresses, new, ?_,
    ⟨hc.functions_wf, hc.functions_index, ?_, ?_⟩, hold, hfb, rfl, hcov⟩
  · simp only [addStatementAddressRanges, hitem, hext, hre]
  · rw [hfb]
    exact wf_set_entity hc.statements_wf uid hwf_new
  · rw [hfb]
    exact hidx

theorem addFunctionAddressRanges_valid {t t1 : SymbolTable} {uid : Nat}
    {ranges : List AddressRange} (h : addFunctionAddressRanges t uid ranges = some t1) :
    uid < t.dm_functions.length := by
  unfold addFunctionAddressRanges at h
  cases hitem : t.dm_functions[uid]? with
  | none => rw [hitem] at h; exact Option.noConfusion h
  | some item => exact (List.getElem?_eq_some_iff.1 hitem).1

theorem addStatementAddressRanges_valid {t t1 : SymbolTable} {uid : Nat}
    {ranges : List AddressRange} (h : addStatementAddressRanges t uid ranges = some t1) :
    uid < t.dm_statements.length := by
  unfold addStatementAddressRanges at h
  cases hitem : t.dm_statements[uid]? with
  | none => rw [hitem] at h; exact Option.noConfusion h
  | some item => exact (List.getElem?_eq_some_iff.1 hitem).1

theorem functionBitmaps_addFunction (t : SymbolTable) (name : String) :
    functionBitmaps (addFunction t name).1 = functionBitmaps t ++ [[]] := by
  unfold functionBitmaps addFunction
  simp only [List.map_append, List.map_cons, List.map_nil]

theorem statementBitmaps_addStatement (t : SymbolTable) (path : String) (line column : Nat) :
    statementBitmaps (addStatement t path line column).1 = statementBitmaps t ++ [[]] := by
  unfold statementBitmaps addStatement
  simp only [List.map_append, List.map_cons, List.map_nil]

theorem consistent_addFunction {t : SymbolTable} (hc : Consistent t) (name : String) :
    Consistent (addFunction t name).1 := by
  refine ⟨?_, ?_, hc.statements_wf, hc.statements_index⟩
  · rw [functionBitmaps_addFunction]
    exact wf_append_empty hc.functions_wf
  · rw [functionBitmaps_addFunction]
    exact indexConsistent_append hc.functions_index

theorem consistent_addStatement {t : SymbolTable} (hc : Consistent t) (path : String)
    (line column : Nat) : Consistent (addStatement t path line column).1 := by
  refine ⟨hc.functions_wf, hc.functions_index, ?_, ?_⟩
  · rw [statementBitmaps_addStatement]
    exact wf_append_empty hc.statements_wf
  · rw [statementBitmaps_addStatement]
    exact indexConsistent_append hc.statements_index

/-- One call keeps the table consistent and adds to what each entity covers exactly the
ranges the call passes for it. -/
theorem step_spec {t t1 : SymbolTable} (hc : Consistent t) {op : Op} (hop : op.WF)
    (h : step t op = some t1) :
    Consistent t1 ∧
    (∀ (uid : Nat) a, CoversEntity (functionBitmaps t1) uid a ↔
      (CoversEntity (functionBitmaps t) uid a ∨
        ∃ ranges, op = Op.addFunctionAddressRanges uid ranges ∧
          ∃ r ∈ ranges, r.doesContain a = true)) ∧
    (∀ (uid : Nat) a, CoversEntity (statementBitmaps t1) uid a ↔
      (CoversEntity (statementBitmaps t) uid a ∨
        ∃ ranges, op = Op.addStatementAddressRanges uid ranges ∧
          ∃ r ∈ ranges, r.doesContain a = true)) := by
  cases op with
  | addFunction name =>
    injection h with h
    subst h
    refine ⟨consistent_addFunction hc name, ?_, ?_⟩
    · intro uid a
      rw [functionBitmaps_addFunction, coversEntity_append]
      simp
    · intro uid a
      have : statementBitmaps (addFunction t name).1 = statementBitmaps t := rfl
      rw [this]
      simp
  | addStatement path line column =>
    injection h with h
    subst h
    refine ⟨consistent_addStatement hc path line column, ?_, ?_⟩
    · intro uid a
      have : functionBitmaps (addStatement t path line column).1 = functionBitmaps t := rfl
      rw [this]
      simp
    · intro uid a
      rw [statementBitmaps_addStatement, coversEntity_append]
      simp
  | addFunctionAddressRanges u ranges =>
    have h' : addFunctionAddressRanges t u ranges = some t1 := h
    obtain ⟨t2, old, new, h1, h2, h3, h4, h5, h6⟩ :=
      addFunctionAddressRanges_spec hc (addFunctionAddressRanges_valid h') hop
    rw [h'] at h1
    injection h1 with h1
    subst h1
    refine ⟨h2, ?_, ?_⟩
    · intro uid a
      rw [h4, coversEntity_set h3 _ h6 uid a]
      simp only [Op.addFunctionAddressRanges.injEq]
      constructor
      · rintro (h | ⟨h, hx⟩)
        · exact Or.inl h
        · exact Or.inr ⟨ranges, ⟨h.symm, rfl⟩, hx⟩
      · rintro (h | ⟨rg, ⟨h, hrg⟩, hx⟩)
        · exact Or.inl h
        · subst hrg
          exact Or.inr ⟨h.symm, hx⟩
    · intro uid a
      rw [h5]
      simp
  | addStatementAddressRanges u ranges =>
    have h' : addStatementAddressRanges t u ranges = some t1 := h
    obtain ⟨t2, old, new, h1, h2, h3, h4, h5, h6⟩ :=
      addStatementAddressRanges_spec hc (addStatementAddressRanges_valid h') hop
    rw [h'] at h1
    injection h1 with h1
    subst h1
    refine ⟨h2, ?_, ?_⟩
    · intro uid a
      rw [h5]
      simp
    · intro uid a
      rw [h4, coversEntity_set h3 _ h6 uid a]
      simp only [Op.addStatementAddressRanges.injEq]
      constructor
      · rintro (h | ⟨h, hx⟩)
        · exact Or.inl h
        · exact Or.inr ⟨ranges, ⟨h.symm, rfl⟩, hx⟩
      · rintro (h | ⟨rg, ⟨h, hrg⟩, hx⟩)
        · exact Or.inl h
        · subst hrg
          exact Or.inr ⟨h.symm, hx⟩

/-- A sequence of calls keeps the table consistent, and each entity covers afterwards
what it covered before together with every range passed for it. -/
theorem run_spec :
    ∀ (ops : List Op) (t t1 : SymbolTable), Consistent t → (∀ op ∈ ops, op.WF) →
      run ops t = some t1 →
      Consistent t1 ∧
      (∀ (uid : Nat) a, CoversEntity (functionBitmaps t1) uid a ↔
        (CoversEntity (functionBitmaps t) uid a ∨
          ∃ ranges, Op.addFunctionAddressRanges uid ranges ∈ ops ∧
            ∃ r ∈ ranges, r.doesContain a = true)) ∧
      (∀ (uid : Nat) a, CoversEntity (statementBitmaps t1) uid a ↔
        (CoversEntity (statementBitmaps t) uid a ∨
          ∃ ranges, Op.addStatementAddressRanges uid ranges ∈ ops ∧
            ∃ r ∈ ranges, r.doesContain a = true)) := by
  intro ops
  induction ops with
  | nil =>
    intro t t1 hc _ h
    injection h with h
    subst h
    refine ⟨hc, ?_, ?_⟩ <;> intro uid a <;> simp
  | cons op rest ih =>
    intro t t1 hc hwf h
    rw [run] at h
    cases hs : step t op with
    | none => rw [hs] at h; exact Option.noConfusion h
    | some t2 =>
      rw [hs] at h
      obtain ⟨c2, f2, s2⟩ := step_spec hc (hwf op (List.mem_cons_self _ _)) hs
      obtain ⟨c1, f1, s1⟩ := ih t2 t1 c2 (fun x hx => hwf x (List.mem_cons_of_mem _ hx)) h
      refine ⟨c1, ?_, ?_⟩
      · intro uid a
        rw [f1 uid a, f2 uid a]
        simp only [List.mem_cons]
        constructor
        · rintro ((h | ⟨rg, h, hx⟩) | ⟨rg, h, hx⟩)
          · exact Or.inl h
          · exact Or.inr ⟨rg, Or.inl h.symm, hx⟩
          · exact Or.inr ⟨rg, Or.inr h, hx⟩
        · rintro (h | ⟨rg, h | h, hx⟩)
          · exact Or.inl (Or.inl h)
          · exact Or.inl (Or.inr ⟨rg, h.symm, hx⟩)
          · exact Or.inr ⟨rg, h, hx⟩
      · intro uid a
        rw [s1 uid a, s2 uid a]
        simp only [List.mem_cons]
        constructor
        · rintro ((h | ⟨rg, h, hx⟩) | ⟨rg, h, hx⟩)
          · exact Or.inl h
          · exact Or.inr ⟨rg, Or.inl h.symm, hx⟩
          · exact Or.inr ⟨rg, Or.inr h, hx⟩
        · rintro (h | ⟨rg, h | h, hx⟩)
          · exact Or.inl (Or.inl h)
          · exact Or.inl (Or.inr ⟨rg, h.symm, hx⟩)
          · exact Or.inr ⟨rg, h, hx⟩

/-! ## Symbol table: address lookup -/

theorem visitStep_true (a : Nat) (vis : List UniqueIdentifier)
    (e : AddressRange × UniqueIdentifier) :
    visitStep a (fun _ => true) (vis, true) e =
      (if e.1.doesContain a = true ∧ e.2 ∉ vis then vis ++ [e.2] else vis, true) := by
  unfold visitStep
  by_cases h1 : e.1.doesContain a = true
  · by_cases h2 : e.2 ∈ vis
    · have h3 : vis.contains e.2 = true := List.elem_iff.2 h2
      simp [h1, h2, h3]
    · have h3 : vis.contains e.2 = false := by
        rw [← Bool.not_eq_true]
        exact fun h => h2 (List.elem_iff.1 h)
      simp [h1, h2, h3]
  · simp [h1]

theorem foldl_visitStep_true (a : Nat) (index : AddressRangeIndex) :
    ∀ vis : List UniqueIdentifier, vis.Nodup →
      ∃ more, index.foldl (visitStep a (fun _ => true)) (vis, true) = (vis ++ more, true) ∧
        (vis ++ more).Nodup ∧
        ∀ u, u ∈ vis ++ more ↔ (u ∈ vis ∨ ∃ r, (r, u) ∈ index ∧ r.doesContain a = true) := by
  induction index with
  | nil =>
    intro vis hnd
    refine ⟨[], by simp, by simpa using hnd, ?_⟩
    intro u
    simp
  | cons e rest ih =>
    intro vis hnd
    rw [List.foldl_cons, visitStep_true]
    by_cases hc : e.1.doesContain a = true ∧ e.2 ∉ vis
    · rw [if_pos hc]
      have hnd1 : (vis ++ [e.2]).Nodup := by
        rw [List.nodup_append]
        refine ⟨hnd, List.nodup_singleton _, ?_⟩
        intro x hx hx2
        rw [List.mem_singleton] at hx2
        subst hx2
        exact hc.2 hx
      obtain ⟨more, h1, h2, h3⟩ := ih (vis ++ [e.2]) hnd1
      refine ⟨e.2 :: more, ?_, ?_, ?_⟩
      · rw [h1]
        simp
      · simpa using h2
      · intro u
        have h3u := h3 u
        simp only [List.append_assoc, List.singleton_append] at h3u
        rw [h3u]
        simp only [List.mem_append, List.mem_cons, List.not_mem_nil, or_false]
        constructor
        · rintro ((h | h) | ⟨r, h, hr⟩)
          · exact Or.inl h
          · subst h
            exact Or.inr ⟨e.1, Or.inl rfl, hc.1⟩
          · exact Or.inr ⟨r, Or.inr h, hr⟩
        · rintro (h | ⟨r, h | h, hr⟩)
          · exact Or.inl (Or.inl h)
          · left; right
            exact (Prod.ext_iff.1 h).2
          · exact Or.inr ⟨r, h, hr⟩
    · rw [if_neg hc]
      obtain ⟨more, h1, h2, h3⟩ := ih vis hnd
      refine ⟨more, h1, h2, ?_⟩
      intro u
      rw [h3 u]
      simp only [List.mem_cons]
      constructor
      · rintro (h | ⟨r, h, hr⟩)
        · exact Or.inl h
        · exact Or.inr ⟨r, Or.inr h, hr⟩
      · rintro (h | ⟨r, h | h, hr⟩)
        · exact Or.inl h
        · have h1e : r = e.1 := (Prod.ext_iff.1 h).1
          have h2e : u = e.2 := (Prod.ext_iff.1 h).2
          subst h1e
          by_cases hv : u ∈ vis
          · exact Or.inl hv
          · exact absurd ⟨hr, by rw [← h2e]; exact hv⟩ hc
        · exact Or.inr ⟨r, h, hr⟩

theorem visitAt_spec (index : AddressRangeIndex) (a : Nat) :
    (visitAt index a (fun _ => true)).Nodup ∧
    ∀ u, u ∈ visitAt index a (fun _ => true) ↔ ∃ r, (r, u) ∈ index ∧ r.doesContain a = true := by
  obtain ⟨more, h1, h2, h3⟩ := foldl_visitStep_true a index [] List.nodup_nil
  unfold visitAt
  rw [h1]
  refine ⟨h2, ?_⟩
  intro u
  rw [h3 u]
  simp

theorem foldl_visitStep_halted (a : Nat) (visitor : UniqueIdentifier → Bool)
    (index : AddressRangeIndex) (vis : List UniqueIdentifier) :
    index.foldl (visitStep a visitor) (vis, false) = (vis, false) := by
  induction index with
  | nil => rfl
  | cons e rest ih =>
    rw [List.foldl_cons]
    have : visitStep a visitor (vis, false) e = (vis, false) := by
      simp [visitStep]
    rw [this, ih]

theorem untilHalt_append (visitor : UniqueIdentifier → Bool) :
    ∀ (vis : List UniqueIdentifier), (∀ x ∈ vis, visitor x = true) →
      ∀ more, untilHalt visitor (vis ++ more) = vis ++ untilHalt visitor more := by
  intro vis
  induction vis with
  | nil =>
    intro _ more
    rfl
  | cons x xs ih =>
    intro h more
    rw [List.cons_append, untilHalt, if_pos (h x (List.mem_cons_self _ _)),
      ih (fun y hy => h y (List.mem_cons_of_mem _ hy)), List.cons_append]

theorem foldl_visitStep_untilHalt (a : Nat) (visitor : UniqueIdentifier → Bool)
    (index : AddressRangeIndex) :
    ∀ vis : List UniqueIdentifier, (∀ x ∈ vis, visitor x = true) →
      (index.foldl (visitStep a visitor) (vis, true)).1 =
        untilHalt visitor (index.foldl (visitStep a (fun _ => true)) (vis, true)).1 := by
  induction index with
  | nil =>
    intro vis hv
    have := untilHalt_append visitor vis hv []
    simp only [List.append_nil, untilHalt] at this
    simp only [List.foldl_nil]
    exact this.symm
  | cons e rest ih =>
    intro vis hv
    rw [List.foldl_cons, List.foldl_cons, visitStep_true]
    by_cases hc : e.1.doesContain a = true ∧ e.2 ∉ vis
    · have hstep : visitStep a visitor (vis, true) e = (vis ++ [e.2], visitor e.2) := by
        simp [visitStep, hc.1, hc.2]
      rw [if_pos hc, hstep]
      by_cases hve : visitor e.2 = true
      · rw [hve]
        apply ih
        intro x hx
        rcases List.mem_append.1 hx with hx | hx
        · exact hv x hx
        · rw [List.mem_singleton] at hx
          subst hx
          exact hve
      · have hf : visitor e.2 = false := by
          rw [← Bool.not_eq_true]
          exact hve
        rw [hf, foldl_visitStep_halted]
        have hnd : ∃ more, rest.foldl (visitStep a (fun _ => true)) (vis ++ [e.2], true) =
            (vis ++ [e.2] ++ more, true) := by
          clear ih hstep
          generalize vis ++ [e.2] = s
          induction rest generalizing s with
          | nil => exact ⟨[], by simp⟩
          | cons x xs ihx =>
            rw [List.foldl_cons, visitStep_true]
            split
            · obtain ⟨more, hm⟩ := ihx (s ++ [x.2])
              exact ⟨x.2 :: more, by rw [hm]; simp⟩
            · exact ihx s
        obtain ⟨more, hm⟩ := hnd
        rw [hm]
        simp only [List.append_assoc, List.singleton_append]
        rw [untilHalt_append visitor vis hv, untilHalt, if_neg hve]
    · have hstep : visitStep a visitor (vis, true) e = (vis, true) := by
        unfold visitStep
        by_cases h1 : e.1.doesContain a = true
        · have h2 : e.2 ∈ vis := by
            by_contra h2
            exact hc ⟨h1, h2⟩
          simp [h1, h2]
        · simp [h1]
      rw [if_neg hc, hstep]
      exact ih vis hv

theorem visitAt_untilHalt (index : AddressRangeIndex) (a : Nat)
    (visitor : UniqueIdentifier → Bool) :
    visitAt index a visitor = untilHalt visitor (visitAt index a (fun _ => true)) := by
  unfold visitAt
  exact foldl_visitStep_untilHalt a visitor index []
    (fun x hx => absurd hx (List.not_mem_nil x))

theorem visitsExactly_of_consistent {items : List (List AddressBitmap)}
    {index : AddressRangeIndex} (hidx : IndexConsistent items index) (a : Nat) :
    VisitsExactly items a (visitAt index a (fun _ => true)) := by
  obtain ⟨h1, h2⟩ := visitAt_spec index a
  refine ⟨h1, ?_⟩
  intro uid
  rw [h2 uid]
  constructor
  · rintro ⟨r, hr, hra⟩
    obtain ⟨bitmaps, hb, hrun⟩ := (hidx r uid).1 hr
    exact ⟨bitmaps, hb, r, hrun, hra⟩
  · rintro ⟨bitmaps, hb, r, hrun, hra⟩
    exact ⟨r, (hidx r uid).2 ⟨bitmaps, hb, hrun⟩, hra⟩

/-! ## Symbol table: the specification -/

theorem mem_functionRangesAdded (uid : Nat) (ranges : List AddressRange) :
    ∀ ops : List Op,
      ranges ∈ functionRangesAdded uid ops ↔ Op.addFunctionAddressRanges uid ranges ∈ ops := by
  intro ops
  induction ops with
  | nil => simp [functionRangesAdded]
  | cons op rest ih =>
    cases op with
    | addFunctionAddressRanges u rg =>
      simp only [functionRangesAdded]
      by_cases hu : u = uid
      · subst hu
        simp [ih, eq_comm]
      · have hne : ¬ (uid = u) := fun h => hu h.symm
        simp [ih, hu, hne]
    | addFunction name => simp [functionRangesAdded, ih]
    | addStatement path line column => simp [functionRangesAdded, ih]
    | addStatementAddressRanges u rg => simp [functionRangesAdded, ih]

theorem mem_statementRangesAdded (uid : Nat) (ranges : List AddressRange) :
    ∀ ops : List Op,
      ranges ∈ statementRangesAdded uid ops ↔
        Op.addStatementAddressRanges uid ranges ∈ ops := by
  intro ops
  induction ops with
  | nil => simp [statementRangesAdded]
  | cons op rest ih =>
    cases op with
    | addStatementAddressRanges u rg =>
      simp only [statementRangesAdded]
      by_cases hu : u = uid
      · subst hu
        simp [ih, eq_comm]
      · have hne : ¬ (uid = u) := fun h => hu h.symm
        simp [ih, hu, hne]
    | addFunction name => simp [statementRangesAdded, ih]
    | addStatement path line column => simp [statementRangesAdded, ih]
    | addFunctionAddressRanges u rg => simp [statementRangesAdded, ih]

theorem not_coversEntity_create_functions (path : String) (checksum : Nat) (uid : Nat)
    (a : Nat) : ¬ CoversEntity (functionBitmaps (create path checksum)) uid a := by
  rintro ⟨_, h, _⟩
  exact Option.noConfusion h

theorem not_coversEntity_create_statements (path : String) (checksum : Nat) (uid : Nat)
    (a : Nat) : ¬ CoversEntity (statementBitmaps (create path checksum)) uid a := by
  rintro ⟨_, h, _⟩
  exact Option.noConfusion h

/-- The ranges reported for an entity with well-formed bitmaps: the accessor's set of runs
covers exactly the set bits, and each reported range is non-empty. -/
theorem rangeSet_runs_spec {items : List (List AddressBitmap)} {uid : Nat}
    {bitmaps : List AddressBitmap} (hitem : items[uid]? = some bitmaps)
    (hwf : ∀ b ∈ bitmaps, b.WF) :
    ∃ rs, (contiguousRuns bitmaps).map rangeSet = some rs ∧
      (∀ a, (∃ r ∈ rs, r.doesContain a = true) ↔ CoversEntity items uid a) ∧
      ∀ r ∈ rs, r.dm_begin < r.dm_end := by
  obtain ⟨runs, hruns, hmem⟩ := contiguousRuns_spec bitmaps hwf
  refine ⟨rangeSet runs, by rw [hruns]; rfl, ?_, ?_⟩
  · intro a
    unfold CoversEntity
    rw [hitem]
    simp only [Option.some.injEq, exists_eq_left']
    rw [← isRun_covers hwf a]
    constructor
    · rintro ⟨r, hr, hra⟩
      exact ⟨r, (hmem r).1 ((mem_rangeSet runs r).1 hr), hra⟩
    · rintro ⟨r, hr, hra⟩
      exact ⟨r, (mem_rangeSet runs r).2 ((hmem r).2 hr), hra⟩
  · intro r hr
    obtain ⟨b, hb, rs, hrs, hrr⟩ := (hmem r).1 ((mem_rangeSet runs r).1 hr)
    exact run_nonempty (hwf b hb) hrs hrr

theorem unionOfAdded_of_cover {items : List (List AddressBitmap)} {uid : Nat}
    {added : List (List AddressRange)} {rs : List AddressRange}
    (h1 : ∀ a, (∃ r ∈ rs, r.doesContain a = true) ↔ CoversEntity items uid a)
    (h2 : ∀ a, CoversEntity items uid a ↔
      ∃ ranges ∈ added, ∃ r ∈ ranges, r.doesContain a = true)
    (h3 : ∀ r ∈ rs, r.dm_begin < r.dm_end) : UnionOfAdded items uid added rs := by
  refine ⟨h1, fun a => (h1 a).trans (h2 a), ?_⟩
  intro hadded
  cases rs with
  | nil => rfl
  | cons r rest =>
    exfalso
    have hr := h3 r (List.mem_cons_self _ _)
    have hc : ∃ x ∈ r :: rest, x.doesContain r.dm_begin = true :=
      ⟨r, List.mem_cons_self _ _, (doesContain_iff r _).2 ⟨le_refl _, hr⟩⟩
    obtain ⟨ranges, hin, _⟩ := (h2 _).1 ((h1 _).1 hc)
    rw [hadded] at hin
    exact absurd hin (List.not_mem_nil _)

theorem exampleOps_wf : ∀ op ∈ exampleOps, op.WF := by
  intro op hop
  simp only [exampleOps, List.mem_cons, List.mem_singleton, List.not_mem_nil, or_false] at hop
  rcases hop with hop | hop
  · subst hop
    trivial
  · subst hop
    intro r hr
    simp only [List.mem_cons, List.mem_singleton, List.not_mem_nil, or_false] at hr
    rcases hr with hr | hr <;> subst hr <;> decide

theorem run_cons_some {t t1 : SymbolTable} {op : Op} (rest : List Op)
    (h : step t op = some t1) : run (op :: rest) t = run rest t1 := by
  rw [run, h]

theorem exampleTable_some : ∃ t, run exampleOps (create "a.out" 0) = some t := by
  have hc := consistent_addFunction (consistent_create "a.out" 0) "f"
  have hlen : 0 < (addFunction (create "a.out" 0) "f").1.dm_functions.length := by
    unfold addFunction create
    simp
  obtain ⟨t, _, _, h, _⟩ := addFunctionAddressRanges_spec hc hlen
    (exampleOps_wf _ (List.mem_cons_of_mem _ (List.mem_singleton.2 rfl)))
  have h1 : step (create "a.out" 0) (Op.addFunction "f") =
      some (addFunction (create "a.out" 0) "f").1 := by
    rw [step]
  have h2 : step (addFunction (create "a.out" 0) "f").1
      (Op.addFunctionAddressRanges 0
        [{ dm_begin := 0x100, dm_end := 0x200 }, { dm_begin := 0x300, dm_end := 0x400 }]) =
      some t := by
    rw [step]
    exact h
  refine ⟨t, ?_⟩
  unfold exampleOps
  rw [run_cons_some _ h1, run_cons_some _ h2, run]

/-- In a table built by calls, the lookup that never halts visits exactly the entities to
which a range that contains the address was added. -/
theorem visits_iff_added {ops : List Op} {path : String} {checksum : Nat} {t : SymbolTable}
    (hwf : ∀ op ∈ ops, op.WF) (hrun : run ops (create path checksum) = some t) (a : Nat) :
    ((visitFunctionsAt t a (fun _ => true)).Nodup ∧
      ∀ uid, uid ∈ visitFunctionsAt t a (fun _ => true) ↔
        ∃ ranges ∈ functionRangesAdded uid ops, ∃ r ∈ ranges, r.doesContain a = true) ∧
    ((visitStatementsAt t a (fun _ => true)).Nodup ∧
      ∀ uid, uid ∈ visitStatementsAt t a (fun _ => true) ↔
        ∃ ranges ∈ statementRangesAdded uid ops, ∃ r ∈ ranges, r.doesContain a = true) := by
  obtain ⟨hc, hf, hs⟩ := run_spec ops _ t (consistent_create path checksum) hwf hrun
  obtain ⟨f1, f2⟩ := visitsExactly_of_consistent hc.functions_index a
  obtain ⟨s1, s2⟩ := visitsExactly_of_consistent hc.statements_index a
  refine ⟨⟨f1, ?_⟩, ⟨s1, ?_⟩⟩
  · intro (uid : Nat)
    have hcov : (∃ bitmaps, (functionBitmaps t)[uid]? = some bitmaps ∧
        ∃ r, IsRun bitmaps r ∧ r.doesContain a = true) ↔
        CoversEntity (functionBitmaps t) uid a := by
      constructor
      · rintro ⟨bitmaps, hb, hr⟩
        exact ⟨bitmaps, hb,
          (isRun_covers (hc.functions_wf _ (List.getElem?_mem hb)) a).1 hr⟩
      · rintro ⟨bitmaps, hb, hr⟩
        exact ⟨bitmaps, hb,
          (isRun_covers (hc.functions_wf _ (List.getElem?_mem hb)) a).2 hr⟩
    show uid ∈ visitAt t.dm_functions_index a (fun _ => true) ↔ _
    rw [f2 uid, hcov, hf uid a]
    constructor
    · rintro (h | ⟨ranges, hin, hx⟩)
      · exact absurd h (not_coversEntity_create_functions path checksum uid a)
      · exact ⟨ranges, (mem_functionRangesAdded uid ranges ops).2 hin, hx⟩
    · rintro ⟨ranges, hin, hx⟩
      exact Or.inr ⟨ranges, (mem_functionRangesAdded uid ranges ops).1 hin, hx⟩
  · intro (uid : Nat)
    have hcov : (∃ bitmaps, (statementBitmaps t)[uid]? = some bitmaps ∧
        ∃ r, IsRun bitmaps r ∧ r.doesContain a = true) ↔
        CoversEntity (statementBitmaps t) uid a := by
      constructor
      · rintro ⟨bitmaps, hb, hr⟩
        exact ⟨bitmaps, hb,
          (isRun_covers (hc.statements_wf _ (List.getElem?_mem hb)) a).1 hr⟩
      · rintro ⟨bitmaps, hb, hr⟩
        exact ⟨bitmaps, hb,
          (isRun_covers (hc.statements_wf _ (List.getElem?_mem hb)) a).2 hr⟩
    show uid ∈ visitAt t.dm_statements_index a (fun _ => true) ↔ _
    rw [s2 uid, hcov, hs uid a]
    constructor
    · rintro (h | ⟨ranges, hin, hx⟩)
      · exact absurd h (not_coversEntity_create_statements path checksum uid a)
      · exact ⟨ranges, (mem_statementRangesAdded uid ranges ops).2 hin, hx⟩
    · rintro ⟨ranges, hin, hx⟩
      exact Or.inr ⟨ranges, (mem_statementRangesAdded uid ranges ops).1 hin, hx⟩

theorem eq_singleton_of_nodup {l : List Nat} {x : Nat} (hnd : l.Nodup)
    (hmem : ∀ u, u ∈ l ↔ u = x) : l = [x] := by
  cases l with
  | nil => exact absurd ((hmem x).2 rfl) (List.not_mem_nil x)
  | cons y ys =>
    have hy : y = x := (hmem y).1 (List.mem_cons_self _ _)
    subst hy
    cases ys with
    | nil => rfl
    | cons z zs =>
      exfalso
      have hz : z = y := (hmem z).1 (List.mem_cons_of_mem _ (List.mem_cons_self _ _))
      subst hz
      exact (List.nodup_cons.1 hnd).1 (List.mem_cons_self _ _)

theorem exampleOps_added (uid : Nat) (a : Nat) :
    (∃ ranges ∈ functionRangesAdded uid exampleOps, ∃ r ∈ ranges, r.doesContain a = true) ↔
      (uid = 0 ∧ ((0x100 ≤ a ∧ a < 0x200) ∨ (0x300 ≤ a ∧ a < 0x400))) := by
  by_cases hu : uid = 0
  · subst hu
    simp [exampleOps, functionRangesAdded, doesContain_iff]
  · have hne : ¬ (0 = uid) := fun h => hu h.symm
    simp [exampleOps, functionRangesAdded, hu, hne]

/-- The lookups of the example, in the table the calls of the example build. -/
theorem exampleTable_lookups {t : SymbolTable}
    (ht : run exampleOps (create "a.out" 0) = some t) :
    visitFunctionsAt t 0x150 (fun _ => true) = [0] ∧
    visitFunctionsAt t 0x250 (fun _ => true) = [] ∧
    visitFunctionsAt t 0x3FF (fun _ => true) = [0] ∧
    visitFunctionsAt t 0x400 (fun _ => true) = [] := by
  have key : ∀ a, (visitFunctionsAt t a (fun _ => true)).Nodup ∧
      ∀ uid : Nat, uid ∈ visitFunctionsAt t a (fun _ => true) ↔
        (uid = 0 ∧ ((0x100 ≤ a ∧ a < 0x200) ∨ (0x300 ≤ a ∧ a < 0x400))) := by
    intro a
    obtain ⟨⟨h1, h2⟩, _⟩ := visits_iff_added exampleOps_wf ht a
    exact ⟨h1, fun uid => (h2 uid).trans (exampleOps_added uid a)⟩
  refine ⟨?_, ?_, ?_, ?_⟩
  · exact eq_singleton_of_nodup (key 0x150).1
      (fun u => ((key 0x150).2 u).trans (by norm_num))
  · refine List.eq_nil_iff_forall_not_mem.2 (fun u hu => ?_)
    have := ((key 0x250).2 u).1 hu
    norm_num at this
  · exact eq_singleton_of_nodup (key 0x3FF).1
      (fun u => ((key 0x3FF).2 u).trans (by norm_num))
  · refine List.eq_nil_iff_forall_not_mem.2 (fun u hu => ?_)
    have := ((key 0x400).2 u).1 hu
    norm_num at this

/-- C29: for every symbol table built by calls of `addFunction`, `addStatement`,
`addFunctionAddressRanges` and `addStatementAddressRanges`, and every address `a`, the
lookup `visitFunctionsAt(a)` with a visitor that never halts visits exactly the functions
for which some contiguous run of their bitmaps contains `a`, each of them once; with any
visitor it visits these up to the first one on which the visitor returns false; likewise
`visitStatementsAt`. In the table with function `f` and the ranges `[0x100, 0x200)` and
`[0x300, 0x400)`, the lookups at `0x150` and `0x3FF` visit `f` (identifier 0) exactly
once and the lookups at `0x250` and `0x400` visit nothing. -/
theorem lookup_visits_entities_at_address (ops : List Op) (path : String) (checksum : Nat)
    (t : SymbolTable) (a : Nat) (visitor : UniqueIdentifier → Bool)
    (hwf : ∀ op ∈ ops, op.WF) (hrun : run ops (create path checksum) = some t) :
    (VisitsExactly (functionBitmaps t) a (visitFunctionsAt t a (fun _ => true)) ∧
      visitFunctionsAt t a visitor =
        untilHalt visitor (visitFunctionsAt t a (fun _ => true))) ∧
    (VisitsExactly (statementBitmaps t) a (visitStatementsAt t a (fun _ => true)) ∧
      visitStatementsAt t a visitor =
        untilHalt visitor (visitStatementsAt t a (fun _ => true))) ∧
    exampleTable.map (fun t1 =>
      (visitFunctionsAt t1 0x150 (fun _ => true), visitFunctionsAt t1 0x250 (fun _ => true),
        visitFunctionsAt t1 0x3FF (fun _ => true), visitFunctionsAt t1 0x400 (fun _ => true)))
      = some ([0], [], [0], []) := by
  obtain ⟨hc, _, _⟩ := run_spec ops _ t (consistent_create path checksum) hwf hrun
  refine ⟨⟨visitsExactly_of_consistent hc.functions_index a, visitAt_untilHalt _ a visitor⟩,
    ⟨visitsExactly_of_consistent hc.statements_index a, visitAt_untilHalt _ a visitor⟩, ?_⟩
  obtain ⟨t1, ht1⟩ := exampleTable_some
  obtain ⟨e1, e2, e3, e4⟩ := exampleTable_lookups ht1
  unfold exampleTable
  rw [ht1, Option.map_some', e1, e2, e3, e4]

theorem lookup_visits_entities_at_address_witness :
    (∀ op ∈ exampleOps, op.WF) ∧
    ∃ t, run exampleOps (create "a.out" 0) = some t ∧
      ((VisitsExactly (functionBitmaps t) 0x150 (visitFunctionsAt t 0x150 (fun _ => true)) ∧
        visitFunctionsAt t 0x150 (fun _ => false) =
          untilHalt (fun _ => false) (visitFunctionsAt t 0x150 (fun _ => true))) ∧
      (VisitsExactly (statementBitmaps t) 0x150
          (visitStatementsAt t 0x150 (fun _ => true)) ∧
        visitStatementsAt t 0x150 (fun _ => false) =
          untilHalt (fun _ => false) (visitStatementsAt t 0x150 (fun _ => true))) ∧
      exampleTable.map (fun t1 =>
        (visitFunctionsAt t1 0x150 (fun _ => true), visitFunctionsAt t1 0x250 (fun _ => true),
          visitFunctionsAt t1 0x3FF (fun _ => true),
          visitFunctionsAt t1 0x400 (fun _ => true)))
        = some ([0], [], [0], [])) := by
  obtain ⟨t, ht⟩ := exampleTable_some
  exact ⟨exampleOps_wf, t, ht,
    lookup_visits_entities_at_address exampleOps "a.out" 0 t 0x150 (fun _ => false)
      exampleOps_wf ht⟩

/-- C30: in every symbol table built by calls of `addFunction`, `addStatement`,
`addFunctionAddressRanges` and `addStatementAddressRanges`, for every function (or
statement) `uid`, `getFunctionAddressRanges(uid)` (`getStatementAddressRanges(uid)`)
returns, and the set of addresses its ranges cover is the union of the set bits of all
bitmaps of the entity, which equals the union of all input ranges ever added to that
entity; it is empty when none was added. A further call that adds ranges to an entity of
the table returns. -/
theorem address_ranges_are_union_of_added (ops : List Op) (path : String) (checksum : Nat)
    (t : SymbolTable) (hwf : ∀ op ∈ ops, op.WF)
    (hrun : run ops (create path checksum) = some t) :
    (∀ uid, uid < t.dm_functions.length →
      ∃ rs, getFunctionAddressRanges t uid = some rs ∧
        UnionOfAdded (functionBitmaps t) uid (functionRangesAdded uid ops) rs) ∧
    (∀ uid, uid < t.dm_statements.length →
      ∃ rs, getStatementAddressRanges t uid = some rs ∧
        UnionOfAdded (statementBitmaps t) uid (statementRangesAdded uid ops) rs) ∧
    (∀ uid ranges, uid < t.dm_functions.length →
      (∀ r ∈ ranges, r.dm_begin ≤ r.dm_end ∧ r.dm_end < 2 ^ 64) →
      ∃ t1, addFunctionAddressRanges t uid ranges = some t1) ∧
    (∀ uid ranges, uid < t.dm_statements.length →
      (∀ r ∈ ranges, r.dm_begin ≤ r.dm_end ∧ r.dm_end < 2 ^ 64) →
      ∃ t1, addStatementAddressRanges t uid ranges = some t1) := by
  obtain ⟨hc, hf, hs⟩ := run_spec ops _ t (consistent_create path checksum) hwf hrun
  refine ⟨?_, ?_, ?_, ?_⟩
  · intro (uid : Nat) huid
    obtain ⟨item, hitem⟩ : ∃ item, t.dm_functions[uid]? = some item :=
      ⟨_, List.getElem?_eq_getElem huid⟩
    have hold : (functionBitmaps t)[uid]? = some item.dm_addresses := by
      unfold functionBitmaps
      rw [List.getElem?_map, hitem]
      rfl
    obtain ⟨rs, h1, h2, h3⟩ := rangeSet_runs_spec hold
      (hc.functions_wf _ (List.getElem?_mem hold))
    refine ⟨rs, by simp only [getFunctionAddressRanges, hitem]; exact h1, ?_⟩
    refine unionOfAdded_of_cover h2 ?_ h3
    intro a
    rw [hf uid a]
    constructor
    · rintro (h | ⟨ranges, hin, hx⟩)
      · exact absurd h (not_coversEntity_create_functions path checksum uid a)
      · exact ⟨ranges, (mem_functionRangesAdded uid ranges ops).2 hin, hx⟩
    · rintro ⟨ranges, hin, hx⟩
      exact Or.inr ⟨ranges, (mem_functionRangesAdded uid ranges ops).1 hin, hx⟩
  · intro (uid : Nat) huid
    obtain ⟨item, hitem⟩ : ∃ item, t.dm_statements[uid]? = some item :=
      ⟨_, List.getElem?_eq_getElem huid⟩
    have hold : (statementBitmaps t)[uid]? = some item.dm_addresses := by
      unfold statementBitmaps
      rw [List.getElem?_map, hitem]
      rfl
    obtain ⟨rs, h1, h2, h3⟩ := rangeSet_runs_spec hold
      (hc.statements_wf _ (List.getElem?_mem hold))
    refine ⟨rs, by simp only [getStatementAddressRanges, hitem]; exact h1, ?_⟩
    refine unionOfAdded_of_cover h2 ?_ h3
    intro a
    rw [hs uid a]
    constructor
    · rintro (h | ⟨ranges, hin, hx⟩)
      · exact absurd h (not_coversEntity_create_statements path checksum uid a)
      · exact ⟨ranges, (mem_statementRangesAdded uid ranges ops).2 hin, hx⟩
    · rintro ⟨ranges, hin, hx⟩
      exact Or.inr ⟨ranges, (mem_statementRangesAdded uid ranges ops).1 hin, hx⟩
  · intro (uid : Nat) ranges huid hr
    obtain ⟨t1, _, _, h, _⟩ := addFunctionAddressRanges_spec hc huid hr
    exact ⟨t1, h⟩
  · intro (uid : Nat) ranges huid hr
    obtain ⟨t1, _, _, h, _⟩ := addStatementAddressRanges_spec hc huid hr
    exact ⟨t1, h⟩

theorem address_ranges_are_union_of_added_witness :
    (∀ op ∈ exampleOps, op.WF) ∧
    ∃ t, run exampleOps (create "a.out" 0) = some t ∧
      ((∀ uid, uid < t.dm_functions.length →
        ∃ rs, getFunctionAddressRanges t uid = some rs ∧
          UnionOfAdded (functionBitmaps t) uid (functionRangesAdded uid exampleOps) rs) ∧
      (∀ uid, uid < t.dm_statements.length →
        ∃ rs, getStatementAddressRanges t uid = some rs ∧
          UnionOfAdded (statementBitmaps t) uid (statementRangesAdded uid exampleOps) rs) ∧
      (∀ uid ranges, uid < t.dm_functions.length →
        (∀ r ∈ ranges, r.dm_begin ≤ r.dm_end ∧ r.dm_end < 2 ^ 64) →
        ∃ t1, addFunctionAddressRanges t uid ranges = some t1) ∧
      (∀ uid ranges, uid < t.dm_statements.length →
        (∀ r ∈ ranges, r.dm_begin ≤ r.dm_end ∧ r.dm_end < 2 ^ 64) →
        ∃ t1, addStatementAddressRanges t uid ranges = some t1)) := by
  obtain ⟨t, ht⟩ := exampleTable_some
  exact ⟨exampleOps_wf, t, ht,
    address_ranges_are_union_of_added exampleOps "a.out" 0 t exampleOps_wf ht⟩

end SymbolTable
end KrellInstitute

namespace KrellInstitute
namespace AddressBitmap

/-! ## Frame of `setValue`, padding of the encoding -/

/-- C40: for every bitmap with the class invariant, every address `a` of its range and
every boolean `v`, `setValue(a, v)` returns a bitmap on which `getValue(a)` returns `v`
and `getValue(a1)` returns what it returned before for every other address `a1` of the
range; the range and the length of the bit vector are unchanged (so the class invariant
still holds). -/
theorem setValue_then_getValue (b : AddressBitmap) (hwf : b.WF) (a : Nat) (v : Bool)
    (ha : b.getRange.doesContain a = true) :
    ∃ b1, b.setValue a v = some b1 ∧ b1.getValue a = some v ∧
      (∀ a1, b.getRange.doesContain a1 = true → a1 ≠ a → b1.getValue a1 = b.getValue a1) ∧
      b1.getRange = b.getRange ∧ b1.dm_bitmap.length = b.dm_bitmap.length ∧ b1.WF := by
  have ha' : b.dm_range.dm_begin ≤ a ∧ a < b.dm_range.dm_end := by
    simpa [getRange, AddressRange.doesContain] using ha
  have hwf1 : WF { b with dm_bitmap := b.dm_bitmap.set (a - b.dm_range.dm_begin) v } :=
    wf_set hwf _ v
  refine ⟨_, setValue_of_contains hwf ha'.1 ha'.2 v, ?_, ?_, rfl, ?_, hwf1⟩
  · rw [getValue_eq_bitAt hwf1 ha'.1 ha'.2, bitAt_set hwf ha'.1 ha'.2 ha'.1 v, if_pos rfl]
  · intro a1 ha1 hne
    have ha1' : b.dm_range.dm_begin ≤ a1 ∧ a1 < b.dm_range.dm_end := by
      simpa [getRange, AddressRange.doesContain] using ha1
    rw [getValue_eq_bitAt hwf1 ha1'.1 ha1'.2, bitAt_set hwf ha'.1 ha'.2 ha1'.1 v,
      if_neg hne, getValue_eq_bitAt hwf ha1'.1 ha1'.2]
  · show (b.dm_bitmap.set _ v).length = _
    rw [List.length_set]

theorem setValue_then_getValue_witness :
    WF { dm_range := { dm_begin := 0x1000, dm_end := 0x1004 }
         dm_bitmap := [true, true, false, true] } ∧
    (getRange { dm_range := { dm_begin := 0x1000, dm_end := 0x1004 }
                dm_bitmap := [true, true, false, true] }).doesContain 0x1002 = true ∧
    ∃ b1, setValue { dm_range := { dm_begin := 0x1000, dm_end := 0x1004 }
                     dm_bitmap := [true, true, false, true] } 0x1002 true = some b1 ∧
      b1.getValue 0x1002 = some true ∧
      (∀ a1, (getRange { dm_range := { dm_begin := 0x1000, dm_end := 0x1004 }
                         dm_bitmap := [true, true, false, true] }).doesContain a1 = true →
        a1 ≠ 0x1002 →
        b1.getValue a1 = getValue { dm_range := { dm_begin := 0x1000, dm_end := 0x1004 }
                                    dm_bitmap := [true, true, false, true] } a1) ∧
      b1.getRange = getRange { dm_range := { dm_begin := 0x1000, dm_end := 0x1004 }
                               dm_bitmap := [true, true, false, true] } ∧
      b1.dm_bitmap.length =
        (AddressBitmap.mk { dm_begin := 0x1000, dm_end := 0x1004 }
          [true, true, false, true]).dm_bitmap.length ∧ b1.WF :=
  ⟨by decide, by decide, setValue_then_getValue _ (by decide) 0x1002 true (by decide)⟩

theorem toMessageStep_lt (bm : List Bool) (data : List Nat) (i : Nat)
    (h : ∀ x ∈ data, x < 256) : ∀ x ∈ toMessageStep bm data i, x < 256 := by
  unfold toMessageStep
  split
  · intro x hx
    rcases List.mem_or_eq_of_mem_set hx with hx | hx
    · exact h x hx
    · rw [hx]
      exact Nat.mod_lt _ (by norm_num)
  · exact h

theorem toMessage_loop_lt (bm : List Bool) (size : Nat) :
    ∀ n, ∀ x ∈ (List.range n).foldl (toMessageStep bm) (List.replicate size 0), x < 256 := by
  intro n
  induction n with
  | zero =>
    intro x hx
    rw [List.range_zero, List.foldl_nil] at hx
    rw [(List.mem_replicate.1 hx).2]
    norm_num
  | succ n ih =>
    rw [List.range_succ, List.foldl_append, List.foldl_cons, List.foldl_nil]
    exact toMessageStep_lt bm _ n ih

theorem foldl_toMessageStep_congr (bm1 bm2 : List Bool) :
    ∀ (l : List Nat) (data : List Nat), (∀ i ∈ l, bm1.getD i false = bm2.getD i false) →
      l.foldl (toMessageStep bm1) data = l.foldl (toMessageStep bm2) data := by
  intro l
  induction l with
  | nil => intro data _; rfl
  | cons i rest ih =>
    intro data h
    rw [List.foldl_cons, List.foldl_cons]
    have hstep : toMessageStep bm1 data i = toMessageStep bm2 data i := by
      unfold toMessageStep
      rw [h i (List.mem_cons_self _ _)]
    rw [hstep]
    exact ih _ (fun x hx => h x (List.mem_cons_of_mem _ hx))

/-- C39: in the message encoded from a bitmap (of width at least 1, and of width 0 as
well), every bit of the byte array at a position at or above the width is 0 (each byte is
below 256, and bit `k` of byte `j` is 0 whenever `8 * j + k` is not below the width), so
the byte array is determined by the range and the bit values: a bitmap with the same range
and the same value of `getValue` at every address of the range encodes to the same
message. -/
theorem padding_bits_are_zero (b : AddressBitmap) (hwf : b.WF) :
    (∀ x ∈ b.toMessage.data_val, x < 256) ∧
    (∀ j k, b.getRange.getWidth ≤ 8 * j + k →
      (b.toMessage.data_val.getD j 0).testBit k = false) ∧
    (∀ b2 : AddressBitmap, b2.WF → b2.getRange = b.getRange →
      (∀ a, b.getRange.doesContain a = true → b2.getValue a = b.getValue a) →
      b2.toMessage = b.toMessage) := by
  have hloop := toMessage_loop b.dm_bitmap (messageSize b.dm_range.getWidth)
    b.dm_range.getWidth (le_messageSize b.dm_range.getWidth_lt)
  have hlt : ∀ x ∈ b.toMessage.data_val, x < 256 :=
    toMessage_loop_lt b.dm_bitmap _ _
  refine ⟨hlt, ?_, ?_⟩
  · intro j k hjk
    by_cases hk : k < 8
    · have h := hloop.2 j k hk
      have hge : ¬ 8 * j + k < b.dm_range.getWidth := by
        have : b.getRange.getWidth = b.dm_range.getWidth := rfl
        omega
      show (((List.range b.dm_range.getWidth).foldl (toMessageStep b.dm_bitmap)
        (List.replicate (messageSize b.dm_range.getWidth) 0)).getD j 0).testBit k = false
      rw [h]
      simp [hge]
    · have hx : b.toMessage.data_val.getD j 0 < 256 := by
        rw [List.getD_eq_getElem?_getD]
        cases hget : b.toMessage.data_val[j]? with
        | none => simp
        | some x => exact hlt x (List.getElem?_mem hget)
      apply Nat.testBit_eq_false_of_lt
      calc b.toMessage.data_val.getD j 0 < 256 := hx
        _ = 2 ^ 8 := by norm_num
        _ ≤ 2 ^ k := Nat.pow_le_pow_right (by norm_num) (by omega)
  · intro b2 hwf2 hrange hval
    have hr : b2.dm_range = b.dm_range := hrange
    have hwd := AddressRange.getWidth_of_le hwf.1 hwf.2.1
    have hbits : ∀ i ∈ List.range b.dm_range.getWidth,
        b2.dm_bitmap.getD i false = b.dm_bitmap.getD i false := by
      intro i hi
      rw [List.mem_range, hwd] at hi
      have h1 : b.dm_range.dm_begin ≤ b.dm_range.dm_begin + i := Nat.le_add_right _ _
      have h2 : b.dm_range.dm_begin + i < b.dm_range.dm_end := by omega
      have hv := hval (b.dm_range.dm_begin + i) (by
        simp [getRange, AddressRange.doesContain, h2])
      rw [getValue_eq_bitAt hwf h1 h2,
        getValue_eq_bitAt hwf2 (by rw [hr]; exact h1) (by rw [hr]; exact h2)] at hv
      have hv2 := Option.some.inj hv
      unfold bitAt at hv2
      rw [hr, Nat.add_sub_cancel_left] at hv2
      exact hv2
    unfold toMessage
    rw [hr, foldl_toMessageStep_congr b2.dm_bitmap b.dm_bitmap _ _ hbits]

theorem padding_bits_are_zero_witness :
    WF { dm_range := { dm_begin := 0x1000, dm_end := 0x1004 }
         dm_bitmap := [true, true, false, true] } ∧
    1 ≤ (getRange { dm_range := { dm_begin := 0x1000, dm_end := 0x1004 }
                    dm_bitmap := [true, true, false, true] }).getWidth ∧
    toMessage { dm_range := { dm_begin := 0x1000, dm_end := 0x1004 }
                dm_bitmap := [true, true, false, true] } =
      { range := { dm_begin := 0x1000, dm_end := 0x1004 }, data_val := [0x0B] } ∧
    ((∀ x ∈ (toMessage { dm_range := { dm_begin := 0x1000, dm_end := 0x1004 }
                         dm_bitmap := [true, true, false, true] }).data_val, x < 256) ∧
    (∀ j k, (getRange { dm_range := { dm_begin := 0x1000, dm_end := 0x1004 }
                        dm_bitmap := [true, true, false, true] }).getWidth ≤ 8 * j + k →
      ((toMessage { dm_range := { dm_begin := 0x1000, dm_end := 0x1004 }
                    dm_bitmap := [true, true, false, true] }).data_val.getD j 0).testBit k
        = false) ∧
    (∀ b2 : AddressBitmap, b2.WF →
      b2.getRange = getRange { dm_range := { dm_begin := 0x1000, dm_end := 0x1004 }
                               dm_bitmap := [true, true, false, true] } →
      (∀ a, (getRange { dm_range := { dm_begin := 0x1000, dm_end := 0x1004 }
                        dm_bitmap := [true, true, false, true] }).doesContain a = true →
        b2.getValue a = getValue { dm_range := { dm_begin := 0x1000, dm_end := 0x1004 }
                                   dm_bitmap := [true, true, false, true] } a) →
      b2.toMessage = toMessage { dm_range := { dm_begin := 0x1000, dm_end := 0x1004 }
                                 dm_bitmap := [true, true, false, true] })) :=
  ⟨by decide, by decide, by decide, padding_bits_are_zero _ (by decide)⟩

end AddressBitmap

namespace Collector

/-! ## The address range of the header -/

/-- C37 (as stated, refuted): for the address `2 ^ 64 - 1` the new end `addr + 1` wraps to
0, so after the call the address is not below `addr_end`, and an end that was 5 has
shrunk to 0. -/
theorem update_header_with_top_address :
    (update_header_with_address
      { sampleRuntime.tls with header := { sampleRuntime.tls.header with
          addr_begin := 2, addr_end := 5 } } (2 ^ 64 - 1)).header.addr_end = 0 ∧
    ¬ (2 ^ 64 - 1 <
      (update_header_with_address
        { sampleRuntime.tls with header := { sampleRuntime.tls.header with
            addr_begin := 2, addr_end := 5 } } (2 ^ 64 - 1)).header.addr_end) := by
  decide

/-- C37 (amended): for every header state and every address `addr` below `2 ^ 64 - 1`,
after `update_header_with_address(tls, addr)` the header satisfies
`addr_begin <= addr < addr_end`, `addr_begin` has not increased and `addr_end` has not
decreased, and nothing but these two fields is changed. -/
theorem update_header_with_address_contains (tls : TLS) (addr : Nat)
    (haddr : addr < 2 ^ 64 - 1) :
    (update_header_with_address tls addr).header.addr_begin ≤ addr ∧
    addr < (update_header_with_address tls addr).header.addr_end ∧
    (update_header_with_address tls addr).header.addr_begin ≤ tls.header.addr_begin ∧
    tls.header.addr_end ≤ (update_header_with_address tls addr).header.addr_end ∧
    update_header_with_address tls addr =
      { tls with header := { tls.header with
          addr_begin := (update_header_with_address tls addr).header.addr_begin
          addr_end := (update_header_with_address tls addr).header.addr_end } } := by
  have hmod : (addr + 1) % 2 ^ 64 = addr + 1 := Nat.mod_eq_of_lt (by omega)
  unfold update_header_with_address
  simp only [hmod]
  by_cases h1 : addr < tls.header.addr_begin
  · by_cases h2 : addr ≥ tls.header.addr_end
    · simp only [if_pos h1, if_pos h2]
      refine ⟨le_refl _, Nat.lt_succ_self _, le_of_lt h1, by omega, trivial⟩
    · simp only [if_pos h1, if_neg h2]
      refine ⟨le_refl _, by omega, le_of_lt h1, le_refl _, trivial⟩
  · by_cases h2 : addr ≥ tls.header.addr_end
    · simp only [if_neg h1, if_pos h2]
      refine ⟨by omega, Nat.lt_succ_self _, le_refl _, by omega, trivial⟩
    · simp only [if_neg h1, if_neg h2]
      refine ⟨by omega, by omega, le_refl _, le_refl _, trivial⟩

theorem update_header_with_address_contains_witness :
    (0x400000 : Nat) < 2 ^ 64 - 1 ∧
    ((update_header_with_address sampleRuntime.tls 0x400000).header.addr_begin ≤ 0x400000 ∧
    0x400000 < (update_header_with_address sampleRuntime.tls 0x400000).header.addr_end ∧
    (update_header_with_address sampleRuntime.tls 0x400000).header.addr_begin ≤
      sampleRuntime.tls.header.addr_begin ∧
    sampleRuntime.tls.header.addr_end ≤
      (update_header_with_address sampleRuntime.tls 0x400000).header.addr_end ∧
    update_header_with_address sampleRuntime.tls 0x400000 =
      { sampleRuntime.tls with header := { sampleRuntime.tls.header with
          addr_begin := (update_header_with_address sampleRuntime.tls 0x400000).header.addr_begin
          addr_end :=
            (update_header_with_address sampleRuntime.tls 0x400000).header.addr_end } }) :=
  ⟨by decide, update_header_with_address_contains sampleRuntime.tls 0x400000 (by decide)⟩

end Collector
end KrellInstitute

namespace KrellInstitute
namespace Collector

/-! ## The search of the handlers -/

theorem scanStep_cases {tls : TLS} {fb : List Nat} {k : Nat} {acc r : Bool × Nat} {i : Nat}
    (h : scanStep tls fb k acc i = some r) :
    (r = (true, i) ∧ ScanMatch tls fb k i) ∨ (r = acc ∧ ¬ ScanMatch tls fb k i) := by
  unfold scanStep at h
  cases hc : tls.count[i]? with
  | none => rw [hc] at h; exact Option.noConfusion h
  | some c =>
    rw [hc] at h
    simp only at h
    by_cases h0 : c = 0
    · rw [if_pos h0] at h
      right
      refine ⟨(Option.some.inj h).symm, ?_⟩
      rintro ⟨c1, hc1, hne, _⟩
      rw [hc] at hc1
      exact hne ((Option.some.inj hc1).symm.trans h0)
    · rw [if_neg h0] at h
      by_cases h255 : c = 255
      · rw [if_pos h255] at h
        right
        refine ⟨(Option.some.inj h).symm, ?_⟩
        rintro ⟨c1, hc1, _, hne, _⟩
        rw [hc] at hc1
        exact hne ((Option.some.inj hc1).symm.trans h255)
      · rw [if_neg h255] at h
        cases hm : matchFrames tls.stacktraces fb i k 0 with
        | none => rw [hm] at h; exact Option.noConfusion h
        | some j =>
          rw [hm] at h
          simp only at h
          by_cases hj : j = k
          · rw [if_pos hj] at h
            left
            exact ⟨(Option.some.inj h).symm, c, hc, h0, h255, by rw [hm, hj]⟩
          · rw [if_neg hj] at h
            right
            refine ⟨(Option.some.inj h).symm, ?_⟩
            rintro ⟨_, _, _, _, hm2⟩
            rw [hm] at hm2
            exact hj (Option.some.inj hm2)

/-- What the first `n` iterations of the search have found: the matching entry of the
highest index below `n`, if there is one. -/
theorem scan_prefix_spec (tls : TLS) (fb : List Nat) (k : Nat) :
    ∀ (n : Nat) (r : Bool × Nat),
      (List.range n).foldlM (scanStep tls fb k) (false, 0) = some r →
      (r.1 = true → r.2 < n ∧ ScanMatch tls fb k r.2 ∧
        ∀ i, r.2 < i → i < n → ¬ ScanMatch tls fb k i) ∧
      (r.1 = false → r.2 = 0 ∧ ∀ i, i < n → ¬ ScanMatch tls fb k i) := by
  intro n
  induction n with
  | zero =>
    intro r h
    rw [List.range_zero, List.foldlM_nil] at h
    have hr : r = (false, 0) := (Option.some.inj h).symm
    subst hr
    exact ⟨fun h => Bool.noConfusion h, fun _ => ⟨rfl, fun i hi => absurd hi (Nat.not_lt_zero i)⟩⟩
  | succ n ih =>
    intro r h
    rw [List.range_succ, List.foldlM_append] at h
    cases hp : (List.range n).foldlM (scanStep tls fb k) (false, 0) with
    | none => rw [hp] at h; exact Option.noConfusion h
    | some acc =>
      rw [hp] at h
      simp only [Option.bind_eq_bind, Option.some_bind, List.foldlM_cons, List.foldlM_nil] at h
      have hstep : scanStep tls fb k acc n = some r := by
        cases hs : scanStep tls fb k acc n with
        | none => rw [hs] at h; exact Option.noConfusion h
        | some r1 => rw [hs] at h; exact h
      obtain ⟨ih1, ih2⟩ := ih acc hp
      rcases scanStep_cases hstep with ⟨hr, hm⟩ | ⟨hr, hm⟩
      · subst hr
        refine ⟨fun _ => ⟨Nat.lt_succ_self n, hm, fun i h1 h2 => ?_⟩,
          fun h => Bool.noConfusion h⟩
        exact absurd h2 (by simp only at h1; omega)
      · subst hr
        constructor
        · intro ht
          obtain ⟨a1, a2, a3⟩ := ih1 ht
          refine ⟨Nat.lt_succ_of_lt a1, a2, fun i h1 h2 => ?_⟩
          by_cases hin : i = n
          · rw [hin]; exact hm
          · exact a3 i h1 (by omega)
        · intro hf
          obtain ⟨a1, a2⟩ := ih2 hf
          refine ⟨a1, fun i h2 => ?_⟩
          by_cases hin : i = n
          · rw [hin]; exact hm
          · exact a2 i (by omega)

/-- The result of the search: the flag tells whether some entry matches, and the index is
that of the matching entry with the highest index. -/
theorem scanStacks_spec {tls : TLS} {fb : List Nat} {k : Nat} {r : Bool × Nat}
    (h : scanStacks tls fb k = some r) :
    (r.1 = true → r.2 < tls.count_len ∧ ScanMatch tls fb k r.2 ∧
      ∀ i, r.2 < i → i < tls.count_len → ¬ ScanMatch tls fb k i) ∧
    (r.1 = false → r.2 = 0 ∧ ∀ i, i < tls.count_len → ¬ ScanMatch tls fb k i) :=
  scan_prefix_spec tls fb k tls.count_len r h

/-- The inner loop runs through all frames only when every compared slot agrees. -/
theorem matchFrames_eq_all (st fb : List Nat) (i : Nat) :
    ∀ (n j r : Nat), matchFrames st fb i n j = some r →
      j ≤ r ∧ r ≤ j + n ∧ (∀ x, j ≤ x → x < r → st[i + x]? = fb[x]?) ∧
      (r < j + n → st[i + r]? ≠ fb[r]?) ∧ ∀ x, j ≤ x → x ≤ r → x < j + n → i + x < st.length := by
  intro n
  induction n with
  | zero =>
    intro j r h
    rw [matchFrames] at h
    have hr : r = j := (Option.some.inj h).symm
    subst hr
    exact ⟨le_refl _, le_refl _, fun x h1 h2 => absurd h2 (by omega),
      fun h => absurd h (by omega), fun x h1 h2 h3 => absurd h3 (by omega)⟩
  | succ n ih =>
    intro j r h
    rw [matchFrames] at h
    cases ha : st[i + j]? with
    | none => rw [ha] at h; exact Option.noConfusion h
    | some a =>
      have hlt : i + j < st.length := (List.getElem?_eq_some_iff.1 ha).1
      cases hf : fb[j]? with
      | none => rw [ha, hf] at h; exact Option.noConfusion h
      | some f =>
        rw [ha, hf] at h
        simp only at h
        by_cases hne : a ≠ f
        · rw [if_pos hne] at h
          have hr : r = j := (Option.some.inj h).symm
          subst hr
          refine ⟨le_refl _, by omega, fun x h1 h2 => absurd h2 (by omega), fun _ => ?_,
            fun x h1 h2 _ => ?_⟩
          · rw [ha, hf]
            exact fun h => hne (Option.some.inj h)
          · have : x = r := by omega
            subst this
            exact hlt
        · rw [if_neg hne] at h
          have heq : a = f := by
            by_contra hc
            exact hne hc
          obtain ⟨a1, a2, a3, a4, a5⟩ := ih (j + 1) r h
          refine ⟨by omega, by omega, fun x h1 h2 => ?_, fun h1 => a4 (by omega),
            fun x h1 h2 h3 => ?_⟩
          · by_cases hx : x = j
            · subst hx
              rw [ha, hf, heq]
            · exact a3 x (by omega) h2
          · by_cases hx : x = j
            · subst hx
              exact hlt
            · exact a5 x (by omega) h2 (by omega)

/-- The indices the inner loop reads lie between `i + j` and `i + j + n - 1`. -/
theorem mem_matchReads_bounds (st fb : List Nat) (i : Nat) :
    ∀ (n j x : Nat), x ∈ matchReads st fb i n j → i + j ≤ x ∧ x < i + j + n := by
  intro n
  induction n with
  | zero =>
    intro j x h
    rw [matchReads] at h
    exact absurd h (List.not_mem_nil x)
  | succ n ih =>
    intro j x h
    rw [matchReads] at h
    rcases List.mem_cons.1 h with h | h
    · omega
    · cases ha : st[i + j]? with
      | none => rw [ha] at h; exact absurd h (List.not_mem_nil x)
      | some a =>
        cases hf : fb[j]? with
        | none => rw [ha, hf] at h; exact absurd h (List.not_mem_nil x)
        | some f =>
          rw [ha, hf] at h
          simp only at h
          by_cases hne : a ≠ f
          · rw [if_pos hne] at h
            exact absurd h (List.not_mem_nil x)
          · rw [if_neg hne] at h
            have := ih (j + 1) x h
            omega

/-- While the compared slots agree the inner loop reads on: slot `i + m` is read when the
slots before it agree with the captured frames. -/
theorem mem_matchReads_of_agree (st fb : List Nat) (i m : Nat) :
    ∀ (n j : Nat), j ≤ m → m < j + n →
      (∀ x, j ≤ x → x < m → ∃ a, st[i + x]? = some a ∧ fb[x]? = some a) →
      i + m ∈ matchReads st fb i n j := by
  intro n
  induction n with
  | zero =>
    intro j h1 h2 _
    exact absurd h2 (by omega)
  | succ n ih =>
    intro j h1 h2 hag
    rw [matchReads]
    by_cases hjm : j = m
    · subst hjm
      exact List.mem_cons_self _ _
    · obtain ⟨a, ha, hf⟩ := hag j (le_refl _) (by omega)
      rw [ha, hf]
      simp only [ne_eq, not_true_eq_false, if_false]
      exact List.mem_cons_of_mem _
        (ih (j + 1) (by omega) (by omega) (fun x hx1 hx2 => hag x (by omega) hx2))

/-- The inner loop fails exactly when it reads a slot outside the array. -/
theorem matchFrames_eq_none_iff (st fb : List Nat) (i : Nat) :
    ∀ (n j : Nat), j + n ≤ fb.length →
      (matchFrames st fb i n j = none ↔ ∃ x ∈ matchReads st fb i n j, st.length ≤ x) := by
  intro n
  induction n with
  | zero =>
    intro j _
    rw [matchFrames, matchReads]
    constructor
    · intro h
      exact Option.noConfusion h
    · rintro ⟨x, hx, _⟩
      exact absurd hx (List.not_mem_nil x)
  | succ n ih =>
    intro j hj
    rw [matchFrames, matchReads]
    obtain ⟨f, hf⟩ : ∃ f, fb[j]? = some f :=
      ⟨fb[j], List.getElem?_eq_getElem (by omega)⟩
    cases ha : st[i + j]? with
    | none =>
      have hge : st.length ≤ i + j := by
        by_contra hc
        rw [List.getElem?_eq_getElem (by omega)] at ha
        exact Option.noConfusion ha
      simp only
      exact ⟨fun _ => ⟨i + j, List.mem_cons_self _ _, hge⟩, fun _ => trivial⟩
    | some a =>
      have hlt : i + j < st.length := (List.getElem?_eq_some_iff.1 ha).1
      rw [hf]
      simp only
      by_cases hne : a ≠ f
      · rw [if_pos hne, if_pos hne]
        constructor
        · intro h
          exact Option.noConfusion h
        · rintro ⟨x, hx, hxl⟩
          rw [List.mem_singleton] at hx
          omega
      · rw [if_neg hne, if_neg hne, ih (j + 1) (by omega)]
        constructor
        · rintro ⟨x, hx, hxl⟩
          exact ⟨x, List.mem_cons_of_mem _ hx, hxl⟩
        · rintro ⟨x, hx, hxl⟩
          rcases List.mem_cons.1 hx with hx | hx
          · omega
          · exact ⟨x, hx, hxl⟩

theorem mem_scanReads {tls : TLS} {fb : List Nat} {k : Nat} {x : Nat} :
    x ∈ scanReads tls fb k ↔
      ∃ i c, i < tls.count_len ∧ tls.count[i]? = some c ∧ c ≠ 0 ∧ c ≠ 255 ∧
        x ∈ matchReads tls.stacktraces fb i k 0 := by
  unfold scanReads
  rw [List.mem_flatMap]
  constructor
  · rintro ⟨i, hi, hx⟩
    rw [List.mem_range] at hi
    cases hc : tls.count[i]? with
    | none => rw [hc] at hx; exact absurd hx (List.not_mem_nil x)
    | some c =>
      rw [hc] at hx
      simp only at hx
      by_cases h0 : c = 0
      · rw [if_pos h0] at hx; exact absurd hx (List.not_mem_nil x)
      · rw [if_neg h0] at hx
        by_cases h255 : c = 255
        · rw [if_pos h255] at hx; exact absurd hx (List.not_mem_nil x)
        · rw [if_neg h255] at hx
          exact ⟨i, c, hi, hc, h0, h255, hx⟩
  · rintro ⟨i, c, hi, hc, h0, h255, hx⟩
    refine ⟨i, List.mem_range.2 hi, ?_⟩
    rw [hc]
    simp only [if_neg h0, if_neg h255]
    exact hx

/-- A monadic fold whose step fails independently of the accumulator fails exactly when
some step fails. -/
theorem foldlM_scanStep_eq_none_iff (tls : TLS) (fb : List Nat) (k : Nat) :
    ∀ (l : List Nat) (acc : Bool × Nat),
      (l.foldlM (scanStep tls fb k) acc = none ↔
        ∃ i ∈ l, scanStep tls fb k (false, 0) i = none) := by
  have hind : ∀ (acc : Bool × Nat) (i : Nat),
      (scanStep tls fb k acc i = none ↔ scanStep tls fb k (false, 0) i = none) := by
    intro acc i
    unfold scanStep
    cases tls.count[i]? with
    | none => simp
    | some c =>
      simp only
      split
      · simp
      · split
        · simp
        · cases matchFrames tls.stacktraces fb i k 0 with
          | none => simp
          | some j =>
            simp only
            split <;> simp
  intro l
  induction l with
  | nil =>
    intro acc
    simp
  | cons i rest ih =>
    intro acc
    rw [List.foldlM_cons]
    cases hs : scanStep tls fb k acc i with
    | none =>
      simp only [Option.bind_eq_bind, Option.none_bind, true_iff]
      exact ⟨i, List.mem_cons_self _ _, (hind acc i).1 hs⟩
    | some acc1 =>
      simp only [Option.bind_eq_bind, Option.some_bind]
      rw [ih acc1]
      constructor
      · rintro ⟨x, hx, hxn⟩
        exact ⟨x, List.mem_cons_of_mem _ hx, hxn⟩
      · rintro ⟨x, hx, hxn⟩
        rcases List.mem_cons.1 hx with hx | hx
        · subst hx
          rw [(hind acc x).2 hxn] at hs
          exact Option.noConfusion hs
        · exact ⟨x, hx, hxn⟩

/-- The search returns exactly when every slot of `buffer.stacktraces` it reads lies
within the array: a read at an index that is not below the array length has no defined
result. -/
theorem scanStacks_eq_none_iff {tls : TLS} {fb : List Nat} {k : Nat}
    (hcount : tls.count_len ≤ tls.count.length) (hk : k ≤ fb.length) :
    scanStacks tls fb k = none ↔ ∃ x ∈ scanReads tls fb k, tls.stacktraces.length ≤ x := by
  unfold scanStacks
  rw [foldlM_scanStep_eq_none_iff]
  constructor
  · rintro ⟨i, hi, hn⟩
    rw [List.mem_range] at hi
    obtain ⟨c, hc⟩ : ∃ c, tls.count[i]? = some c :=
      ⟨tls.count[i], List.getElem?_eq_getElem (by omega)⟩
    unfold scanStep at hn
    rw [hc] at hn
    simp only at hn
    by_cases h0 : c = 0
    · rw [if_pos h0] at hn; exact Option.noConfusion hn
    · rw [if_neg h0] at hn
      by_cases h255 : c = 255
      · rw [if_pos h255] at hn; exact Option.noConfusion hn
      · rw [if_neg h255] at hn
        cases hm : matchFrames tls.stacktraces fb i k 0 with
        | none =>
          obtain ⟨x, hx, hxl⟩ :=
            (matchFrames_eq_none_iff tls.stacktraces fb i k 0 (by omega)).1 hm
          exact ⟨x, mem_scanReads.2 ⟨i, c, hi, hc, h0, h255, hx⟩, hxl⟩
        | some j =>
          rw [hm] at hn
          simp only at hn
          split at hn <;> exact Option.noConfusion hn
  · rintro ⟨x, hx, hxl⟩
    obtain ⟨i, c, hi, hc, h0, h255, hxm⟩ := mem_scanReads.1 hx
    refine ⟨i, List.mem_range.2 hi, ?_⟩
    have hm := (matchFrames_eq_none_iff tls.stacktraces fb i k 0 (by omega)).2 ⟨x, hxm, hxl⟩
    unfold scanStep
    rw [hc]
    simp only [if_neg h0, if_neg h255, hm]

/-- The search stays within the array whenever the payload and the captured frames
together exceed the array by at most one slot. -/
theorem scanReads_lt_of_room {tls : TLS} {fb : List Nat} {k : Nat}
    (hroom : tls.count_len + k ≤ tls.stacktraces.length + 1) :
    ∀ x ∈ scanReads tls fb k, x < tls.stacktraces.length := by
  intro x hx
  obtain ⟨i, c, hi, _, _, _, hxm⟩ := mem_scanReads.1 hx
  have := mem_matchReads_bounds tls.stacktraces fb i k 0 x hxm
  omega

theorem scanStacks_isSome_of_room {tls : TLS} {fb : List Nat} {k : Nat}
    (hcount : tls.count_len ≤ tls.count.length) (hk : k ≤ fb.length)
    (hroom : tls.count_len + k ≤ tls.stacktraces.length + 1) :
    ∃ r, scanStacks tls fb k = some r := by
  cases h : scanStacks tls fb k with
  | some r => exact ⟨r, rfl⟩
  | none =>
    obtain ⟨x, hx, hxl⟩ := (scanStacks_eq_none_iff hcount hk).1 h
    have := scanReads_lt_of_room hroom x hx
    omega

end Collector
end KrellInstitute

namespace KrellInstitute
namespace Collector

/-! ## Merging a sample into an entry -/

theorem recordSample_merged (env : Env) (setRank : Bool) (rt : Runtime) {fb : List Nat}
    {k idx : Nat} (hscan : scanStacks rt.tls fb k = some (true, idx))
    (hc : rt.tls.count.getD idx 0 < 255) :
    ∃ rt1, recordSample env setRank rt fb k = some rt1 ∧ MergedAt rt fb k idx rt1 := by
  obtain ⟨h1, h2, h3⟩ := (scanStacks_spec hscan).1 rfl
  have hmod : (rt.tls.count.getD idx 0 + 1) % 256 = rt.tls.count.getD idx 0 + 1 :=
    Nat.mod_eq_of_lt (by omega)
  have hlt : idx < rt.tls.count.length := by
    obtain ⟨c, hcc, _⟩ := h2
    exact (List.getElem?_eq_some_iff.1 hcc).1
  refine ⟨{ rt with tls := { rt.tls with
      count := rt.tls.count.set idx (rt.tls.count.getD idx 0 + 1) } }, ?_, h1, h2, h3, rfl, ?_, ?_⟩
  · unfold recordSample
    rw [hscan]
    simp only [Bool.true_and, decide_eq_true_eq, if_pos hc, hmod]
  · show (rt.tls.count.set idx _)[idx]? = _
    rw [List.getElem?_set_self hlt]
  · intro i hi
    show (rt.tls.count.set idx _)[i]? = _
    rw [List.getElem?_set_ne (Ne.symm hi)]

/-- C34: when the search finds a matching entry and the count of the entry found is below
255, the handler (usertime and hwctime) returns after incrementing that count by 1: the
entry is the matching entry with the highest index, and the stack slots, every other
count, both lengths, the header with its address range and the list of batches sent are
as before. -/
theorem matching_entry_is_incremented (env : Env) (rt : Runtime) (frames : List Nat)
    (hdefer : rt.tls.defer_sampling = false)
    (hk : frames.length ≤ CBTF_USERTIME_MAXFRAMES) :
    (∀ idx,
      scanStacks rt.tls (usertimeBlameShift env rt.tls (captureBuffer frames)) frames.length
        = some (true, idx) →
      rt.tls.count.getD idx 0 < 255 →
      ∃ rt1, serviceTimerHandler env rt frames = some rt1 ∧
        MergedAt rt (usertimeBlameShift env rt.tls (captureBuffer frames))
          frames.length idx rt1) ∧
    (∀ idx,
      scanStacks rt.tls (hwctimeBlameShift env rt.tls (captureBuffer frames)) frames.length
        = some (true, idx) →
      rt.tls.count.getD idx 0 < 255 →
      ∃ rt1, hwctimePAPIHandler env rt frames = some rt1 ∧
        MergedAt rt (hwctimeBlameShift env rt.tls (captureBuffer frames))
          frames.length idx rt1) := by
  constructor
  · intro idx hscan hc
    rw [serviceTimerHandler_eq env hdefer hk]
    exact recordSample_merged env _ rt hscan hc
  · intro idx hscan hc
    rw [hwctimePAPIHandler_eq env hdefer hk]
    exact recordSample_merged env _ rt hscan hc

/-! ## The sum of the counts -/

theorem sum_set_add (l : List Nat) :
    ∀ (i v : Nat), i < l.length → (l.set i v).sum + l.getD i 0 = l.sum + v := by
  induction l with
  | nil =>
    intro i v h
    exact absurd h (Nat.not_lt_zero i)
  | cons x xs ih =>
    intro i v h
    cases i with
    | zero =>
      simp only [List.set_cons_zero, List.sum_cons, List.getD_cons_zero]
      omega
    | succ i =>
      have := ih i v (by simpa using h)
      simp only [List.set_cons_succ, List.sum_cons, List.getD_cons_succ]
      omega

theorem sum_eq_zero_of_getD (l : List Nat) (h : ∀ i, l.getD i 0 = 0) : l.sum = 0 := by
  induction l with
  | nil => rfl
  | cons x xs ih =>
    have hx : x = 0 := h 0
    have hxs : ∀ i, xs.getD i 0 = 0 := fun i => h (i + 1)
    rw [List.sum_cons, ih hxs, hx]

theorem sum_take_of_tail (l : List Nat) (n : Nat) (h : ∀ i, n ≤ i → l.getD i 0 = 0) :
    (l.take n).sum = l.sum := by
  have hsplit : l.sum = (l.take n).sum + (l.drop n).sum := by
    conv_lhs => rw [← List.take_append_drop n l]
    rw [List.sum_append]
  have hdrop : (l.drop n).sum = 0 := by
    apply sum_eq_zero_of_getD
    intro i
    have := h (n + i) (Nat.le_add_right _ _)
    rw [List.getD_eq_getElem?_getD] at this ⊢
    rw [List.getElem?_drop]
    exact this
  omega

theorem insertStep_count {fb : List Nat} {tls t : TLS} {i : Nat}
    (h : insertStep fb tls i = some t) (htail : CountTail tls) :
    CountTail t ∧ t.count.sum = tls.count.sum + (if i > 0 then 0 else 1) := by
  unfold insertStep at h
  split at h
  · exact Option.noConfusion h
  · split at h
    · rename_i hroom
      injection h with h
      subst h
      constructor
      · intro x hx
        have hx' : tls.count_len + 1 ≤ x := hx
        show (tls.count.set tls.count_len _).getD x 0 = 0
        rw [List.getD_eq_getElem?_getD, List.getElem?_set_ne (by omega),
          ← List.getD_eq_getElem?_getD]
        exact htail x (by omega)
      · show (tls.count.set tls.count_len _).sum = _
        have := sum_set_add tls.count tls.count_len (if i > 0 then 0 else 1) hroom.2
        rw [htail tls.count_len (le_refl _)] at this
        omega
    · exact Option.noConfusion h

theorem insertFrames_count (fb : List Nat) :
    ∀ (n : Nat) (tls t : TLS), (List.range n).foldlM (insertStep fb) tls = some t →
      CountTail tls →
      CountTail t ∧ t.count.sum = tls.count.sum + (if 0 < n then 1 else 0) := by
  intro n
  induction n with
  | zero =>
    intro tls t h htail
    rw [List.range_zero, List.foldlM_nil] at h
    have : t = tls := (Option.some.inj h).symm
    subst this
    exact ⟨htail, rfl⟩
  | succ n ih =>
    intro tls t h htail
    rw [List.range_succ, List.foldlM_append] at h
    cases hp : (List.range n).foldlM (insertStep fb) tls with
    | none => rw [hp] at h; exact Option.noConfusion h
    | some t1 =>
      rw [hp] at h
      simp only [Option.bind_eq_bind, Option.some_bind, List.foldlM_cons, List.foldlM_nil] at h
      have hstep : insertStep fb t1 n = some t := by
        cases hs : insertStep fb t1 n with
        | none => rw [hs] at h; exact Option.noConfusion h
        | some t2 => rw [hs] at h; exact h
      obtain ⟨a1, a2⟩ := ih tls t1 hp htail
      obtain ⟨b1, b2⟩ := insertStep_count hstep a1
      refine ⟨b1, ?_⟩
      rw [b2, a2]
      by_cases hn : 0 < n
      · simp [hn]
      · have : n = 0 := by omega
        subst this
        simp

theorem countTail_send_samples (env : Env) (setRank : Bool) (rt : Runtime) :
    CountTail (send_samples env setRank rt).tls ∧
    (send_samples env setRank rt).tls.count.sum = 0 := by
  have hc : (send_samples env setRank rt).tls.count = List.replicate CBTF_USERTIME_BUFFERSIZE 0 :=
    (send_samples_blockWF env setRank rt).2.2.2.2
  have hz : ∀ i, (List.replicate CBTF_USERTIME_BUFFERSIZE 0).getD i 0 = 0 := by
    intro i
    rw [List.getD_eq_getElem?_getD, List.getElem?_replicate]
    split <;> rfl
  constructor
  · intro i _
    rw [hc]
    exact hz i
  · rw [hc]
    exact sum_eq_zero_of_getD _ hz

/-- One handled sample of at least one frame is counted exactly once. -/
theorem recordSample_countedOnce {env : Env} {setRank : Bool} {rt rt1 : Runtime}
    {fb : List Nat} {k : Nat} (wf : BlockWF rt.tls) (htail : CountTail rt.tls) (hk : 1 ≤ k)
    (h : recordSample env setRank rt fb k = some rt1) : CountedOnce rt rt1 := by
  rcases recordSample_cases h with ⟨idx, hscan, hc, heq⟩ | ⟨_, t, hins, heq⟩ | ⟨_, t, hins, heq⟩
  · subst heq
    obtain ⟨h1, ⟨c, hcc, _⟩, _⟩ := (scanStacks_spec hscan).1 rfl
    have hlt : idx < rt.tls.count.length := (List.getElem?_eq_some_iff.1 hcc).1
    have hmod : (rt.tls.count.getD idx 0 + 1) % 256 = rt.tls.count.getD idx 0 + 1 :=
      Nat.mod_eq_of_lt (by omega)
    refine ⟨⟨wf.1, ?_, wf.2.2.1, wf.2.2.2⟩, ?_, rfl, Or.inl rfl, fun _ => ?_, fun b hb => ?_⟩
    · show (rt.tls.count.set idx _).length = _
      rw [List.length_set]
      exact wf.2.1
    · intro x hx
      have hx' : rt.tls.count_len ≤ x := hx
      show (rt.tls.count.set idx _).getD x 0 = 0
      rw [List.getD_eq_getElem?_getD, List.getElem?_set_ne (by omega),
        ← List.getD_eq_getElem?_getD]
      exact htail x hx'
    · show (rt.tls.count.set idx _).sum = _
      have := sum_set_add rt.tls.count idx ((rt.tls.count.getD idx 0 + 1) % 256) hlt
      omega
    · exfalso
      have hb' : rt.sent = rt.sent ++ [b] := hb
      have := congrArg List.length hb'
      rw [List.length_append, List.length_singleton] at this
      omega
  · subst heq
    obtain ⟨a1, a2⟩ := insertFrames_count fb k rt.tls t hins htail
    have hfr := insertFrames_frame hins
    refine ⟨insertFrames_blockWF hins wf, a1, by rw [hfr], Or.inl rfl, fun _ => ?_,
      fun b hb => ?_⟩
    · show t.count.sum = _
      rw [a2, if_pos (by omega)]
    · exfalso
      have hb' : rt.sent = rt.sent ++ [b] := hb
      have := congrArg List.length hb'
      rw [List.length_append, List.length_singleton] at this
      omega
  · subst heq
    obtain ⟨s1, s2⟩ := countTail_send_samples env setRank rt
    obtain ⟨a1, a2⟩ := insertFrames_count fb k _ t hins s1
    have hfr := insertFrames_frame hins
    obtain ⟨b0, hsent, hct⟩ : ∃ b0 : Batch,
        (send_samples env setRank rt).sent = rt.sent ++ [b0] ∧
        b0.count = rt.tls.count.take rt.tls.count_len := ⟨_, rfl, rfl⟩
    refine ⟨insertFrames_blockWF hins (send_samples_blockWF env setRank rt).1, a1,
      by rw [hfr]; rfl, Or.inr ⟨b0, hsent⟩, fun hs => ?_, fun b hb => ?_⟩
    · exfalso
      have hs' : (send_samples env setRank rt).sent = rt.sent := hs
      rw [hsent] at hs'
      have := congrArg List.length hs'
      rw [List.length_append, List.length_singleton] at this
      omega
    · have hb' : (send_samples env setRank rt).sent = rt.sent ++ [b] := hb
      rw [hsent] at hb'
      have hbb : b0 = b := by
        have := List.append_cancel_left hb'
        exact List.singleton_inj.1 this
      subst hbb
      refine ⟨?_, ?_⟩
      · rw [hct]
        exact sum_take_of_tail _ _ htail
      · show t.count.sum = 1
        rw [a2, s2, if_pos (by omega)]

theorem serviceTimerHandler_countedOnce {env : Env} {rt rt1 : Runtime} {frames : List Nat}
    (wf : BlockWF rt.tls) (htail : CountTail rt.tls)
    (hdefer : rt.tls.defer_sampling = false) (h1 : 1 ≤ frames.length)
    (h : serviceTimerHandler env rt frames = some rt1) : CountedOnce rt rt1 := by
  unfold serviceTimerHandler at h
  rw [if_neg (by rw [hdefer]; exact Bool.noConfusion)] at h
  split at h
  · exact Option.noConfusion h
  · exact recordSample_countedOnce wf htail h1 h

theorem hwctimePAPIHandler_countedOnce {env : Env} {rt rt1 : Runtime} {frames : List Nat}
    (wf : BlockWF rt.tls) (htail : CountTail rt.tls)
    (hdefer : rt.tls.defer_sampling = false) (h1 : 1 ≤ frames.length)
    (h : hwctimePAPIHandler env rt frames = some rt1) : CountedOnce rt rt1 := by
  unfold hwctimePAPIHandler at h
  rw [if_neg (by rw [hdefer]; exact Bool.noConfusion)] at h
  split at h
  · exact Option.noConfusion h
  · exact recordSample_countedOnce wf htail h1 h

/-- Samples delivered one after the other without a send in between: the sum of the count
array grows by the number of samples. -/
theorem deliverAll_counted {handler : Runtime → List Nat → Option Runtime}
    (hh : ∀ rt rt1 frames, BlockWF rt.tls → CountTail rt.tls →
      rt.tls.defer_sampling = false → 1 ≤ frames.length →
      handler rt frames = some rt1 → CountedOnce rt rt1) :
    ∀ (samples : List (List Nat)) (rt rt1 : Runtime),
      BlockWF rt.tls → CountTail rt.tls → rt.tls.defer_sampling = false →
      (∀ s ∈ samples, 1 ≤ s.length) →
      deliverAll handler samples rt = some rt1 →
      rt.sent.length ≤ rt1.sent.length ∧
      (rt1.sent = rt.sent → rt1.tls.count.sum = rt.tls.count.sum + samples.length) := by
  intro samples
  induction samples with
  | nil =>
    intro rt rt1 _ _ _ _ h
    rw [deliverAll] at h
    have : rt1 = rt := (Option.some.inj h).symm
    subst this
    exact ⟨le_refl _, fun _ => rfl⟩
  | cons f rest ih =>
    intro rt rt1 wf htail hd hlen h
    rw [deliverAll] at h
    cases hs : handler rt f with
    | none => rw [hs] at h; exact Option.noConfusion h
    | some rt2 =>
      rw [hs] at h
      obtain ⟨c1, c2, c3, c4, c5, c6⟩ :=
        hh rt rt2 f wf htail hd (hlen f (List.mem_cons_self _ _)) hs
      obtain ⟨i1, i2⟩ := ih rt2 rt1 c1 c2 (by rw [c3]; exact hd)
        (fun s hs => hlen s (List.mem_cons_of_mem _ hs)) h
      have hle : rt.sent.length ≤ rt2.sent.length := by
        rcases c4 with e | ⟨b, e⟩
        · rw [e]
        · rw [e, List.length_append, List.length_singleton]
          omega
      refine ⟨le_trans hle i1, ?_⟩
      intro hsame
      have hsent2 : rt2.sent = rt.sent := by
        rcases c4 with e | ⟨b, e⟩
        · exact e
        · exfalso
          rw [hsame, e, List.length_append, List.length_singleton] at i1
          omega
      rw [i2 (by rw [hsame, hsent2]), c5 hsent2, List.length_cons]
      omega

/-- C31: on a well-formed block whose count slots above the payload are 0 (the state
`initialize_data` leaves and every handler call keeps), a handler call (usertime or
hwctime) that is not deferred and captures at least one frame keeps that state and, when
it sends nothing, raises the sum of the count array by exactly 1; when it sends, the
counts of the batch sum to what the array held and the array then sums to 1, the new
sample. Hence after any number of such calls without a send the sum has grown by the
number of samples: none is lost and none is counted twice. -/
theorem each_sample_is_counted_once (env : Env) (rt rt1 : Runtime) (frames : List Nat)
    (wf : BlockWF rt.tls) (htail : CountTail rt.tls)
    (hdefer : rt.tls.defer_sampling = false) (h1 : 1 ≤ frames.length)
    (h : serviceTimerHandler env rt frames = some rt1 ∨
      hwctimePAPIHandler env rt frames = some rt1) :
    CountedOnce rt rt1 ∧
    (∀ samples rtN, (∀ s ∈ samples, 1 ≤ s.length) →
      (deliverAll (serviceTimerHandler env) samples rt = some rtN ∨
        deliverAll (hwctimePAPIHandler env) samples rt = some rtN) →
      rtN.sent = rt.sent → rtN.tls.count.sum = rt.tls.count.sum + samples.length) := by
  constructor
  · rcases h with h | h
    · exact serviceTimerHandler_countedOnce wf htail hdefer h1 h
    · exact hwctimePAPIHandler_countedOnce wf htail hdefer h1 h
  · intro samples rtN hlen hrun hsame
    rcases hrun with hrun | hrun
    · exact (deliverAll_counted
        (fun a b f w t d l hf => serviceTimerHandler_countedOnce w t d l hf)
        samples rt rtN wf htail hdefer hlen hrun).2 hsame
    · exact (deliverAll_counted
        (fun a b f w t d l hf => hwctimePAPIHandler_countedOnce w t d l hf)
        samples rt rtN wf htail hdefer hlen hrun).2 hsame

end Collector
end KrellInstitute

namespace KrellInstitute
namespace Collector

/-! ## Invariants of the block in every reachable state -/

theorem countInv_of_empty {tls : TLS}
    (h : tls.stacktraces_len = 0 ∧ tls.count_len = 0 ∧
      tls.stacktraces = List.replicate CBTF_USERTIME_BUFFERSIZE 0 ∧
      tls.count = List.replicate CBTF_USERTIME_BUFFERSIZE 0) : CountInv tls := by
  refine ⟨blockWF_of_empty h, ?_⟩
  intro i _
  rw [h.2.2.2, List.getD_eq_getElem?_getD, List.getElem?_replicate]
  split <;> rfl

theorem countInv_send_samples (env : Env) (setRank : Bool) (rt : Runtime) :
    CountInv (send_samples env setRank rt).tls :=
  ⟨(send_samples_blockWF env setRank rt).1, (countTail_send_samples env setRank rt).1⟩

theorem countInv_recordSample {env : Env} {setRank : Bool} {rt rt1 : Runtime}
    {fb : List Nat} {k : Nat} (inv : CountInv rt.tls)
    (h : recordSample env setRank rt fb k = some rt1) : CountInv rt1.tls := by
  obtain ⟨wf, htail⟩ := inv
  rcases recordSample_cases h with ⟨idx, hscan, hc, heq⟩ | ⟨_, t, hins, heq⟩ | ⟨_, t, hins, heq⟩
  · subst heq
    obtain ⟨h1, _, _⟩ := (scanStacks_spec hscan).1 rfl
    refine ⟨⟨wf.1, ?_, wf.2.2.1, wf.2.2.2⟩, ?_⟩
    · show (rt.tls.count.set idx _).length = _
      rw [List.length_set]
      exact wf.2.1
    · intro x hx
      have hx' : rt.tls.count_len ≤ x := hx
      show (rt.tls.count.set idx _).getD x 0 = 0
      rw [List.getD_eq_getElem?_getD, List.getElem?_set_ne (by omega),
        ← List.getD_eq_getElem?_getD]
      exact htail x hx'
  · subst heq
    exact ⟨insertFrames_blockWF hins wf, (insertFrames_count fb k rt.tls t hins htail).1⟩
  · subst heq
    obtain ⟨s1, s2⟩ := countInv_send_samples env setRank rt
    exact ⟨insertFrames_blockWF hins s1, (insertFrames_count fb k _ t hins s2).1⟩

theorem countInv_serviceTimerHandler {env : Env} {rt rt1 : Runtime} {frames : List Nat}
    (inv : CountInv rt.tls) (h : serviceTimerHandler env rt frames = some rt1) :
    CountInv rt1.tls := by
  unfold serviceTimerHandler at h
  split at h
  · injection h with h
    subst h
    exact inv
  · split at h
    · exact Option.noConfusion h
    · exact countInv_recordSample inv h

theorem countInv_hwctimePAPIHandler {env : Env} {rt rt1 : Runtime} {frames : List Nat}
    (inv : CountInv rt.tls) (h : hwctimePAPIHandler env rt frames = some rt1) :
    CountInv rt1.tls := by
  unfold hwctimePAPIHandler at h
  split at h
  · injection h with h
    subst h
    exact inv
  · split at h
    · exact Option.noConfusion h
    · exact countInv_recordSample inv h

/-- The start of the usertime collector leaves an empty, zeroed buffer with sampling
enabled, whatever the thread held before. -/
theorem start_empty {env : Env} {rt rt1 : Runtime} {args : Usertime.StartArgs}
    (h : Usertime.cbtf_collector_start env args rt = some rt1) :
    (rt1.tls.stacktraces_len = 0 ∧ rt1.tls.count_len = 0 ∧
      rt1.tls.stacktraces = List.replicate CBTF_USERTIME_BUFFERSIZE 0 ∧
      rt1.tls.count = List.replicate CBTF_USERTIME_BUFFERSIZE 0) ∧
    rt1.tls.defer_sampling = false ∧ rt1.sent = rt.sent := by
  unfold Usertime.cbtf_collector_start at h
  simp only at h
  split at h
  · exact Option.noConfusion h
  · injection h with h
    subst h
    exact ⟨⟨rfl, rfl, rfl, rfl⟩, rfl, rfl⟩

theorem countInv_stop (env : Env) {rt : Runtime} (inv : CountInv rt.tls) :
    CountInv (Usertime.cbtf_collector_stop env rt).tls := by
  unfold Usertime.cbtf_collector_stop
  simp only
  split
  · exact countInv_send_samples env _ _
  · exact inv

theorem countInv_step {env : Env} {rt rt1 : Runtime} {e : Usertime.Event}
    (inv : CountInv rt.tls ∨ isStart e = true) (h : Usertime.step env rt e = some rt1) :
    CountInv rt1.tls := by
  cases e with
  | start args => exact countInv_of_empty (start_empty h).1
  | sample frames =>
    rcases inv with inv | inv
    · exact countInv_serviceTimerHandler inv h
    · exact Bool.noConfusion inv
  | pause =>
    rcases inv with inv | inv
    · injection h with h
      subst h
      exact inv
    · exact Bool.noConfusion inv
  | resume =>
    rcases inv with inv | inv
    · injection h with h
      subst h
      exact inv
    · exact Bool.noConfusion inv
  | stop =>
    rcases inv with inv | inv
    · injection h with h
      subst h
      exact countInv_stop env inv
    · exact Bool.noConfusion inv

theorem countInv_run {env : Env} :
    ∀ (events : List Usertime.Event) (rt rt1 : Runtime), CountInv rt.tls →
      Usertime.run env events rt = some rt1 → CountInv rt1.tls := by
  intro events
  induction events with
  | nil =>
    intro rt rt1 inv h
    injection h with h
    subst h
    exact inv
  | cons e rest ih =>
    intro rt rt1 inv h
    rw [Usertime.run] at h
    cases hs : Usertime.step env rt e with
    | none => rw [hs] at h; exact Option.noConfusion h
    | some rt2 =>
      rw [hs] at h
      exact ih rt2 rt1 (countInv_step (Or.inl inv) hs) h

/-- Every state the usertime collector reaches from a start has a well-formed block with
zeros above the payload. -/
theorem countInv_of_started {env : Env} {args : Usertime.StartArgs}
    {events : List Usertime.Event} {rt0 rt : Runtime}
    (hrun : Usertime.run env (Usertime.Event.start args :: events) rt0 = some rt) :
    CountInv rt.tls := by
  rw [Usertime.run] at hrun
  cases hs : Usertime.step env rt0 (Usertime.Event.start args) with
  | none => rw [hs] at hrun; exact Option.noConfusion hrun
  | some rt2 =>
    rw [hs] at hrun
    exact countInv_run events rt2 rt
      (@countInv_step env rt0 rt2 (Usertime.Event.start args) (Or.inr rfl) hs) hrun

/-! ## Insertion within the buffer -/

theorem recordSample_insertedWithin (env : Env) (setRank : Bool) (rt : Runtime)
    {fb : List Nat} {k : Nat} {r : Bool × Nat} (wf : BlockWF rt.tls) (hk : k ≤ fb.length)
    (hk2 : k ≤ CBTF_USERTIME_MAXFRAMES)
    (hscan : scanStacks rt.tls fb k = some r)
    (hnm : (r.1 && decide (rt.tls.count.getD r.2 0 < 255)) = false) :
    ∃ rt1, recordSample env setRank rt fb k = some rt1 ∧ InsertedWithin rt k rt1 := by
  have h100 : CBTF_USERTIME_MAXFRAMES = 100 := rfl
  have h1024 : CBTF_USERTIME_BUFFERSIZE = 1024 := rfl
  obtain ⟨ex, idx⟩ := r
  by_cases hfull : rt.tls.stacktraces_len + k > CBTF_USERTIME_BUFFERSIZE
  · obtain ⟨t, h1, h2, h3, h4, _⟩ := recordSample_insert_flush env setRank rt hk
      (by omega) hscan hnm hfull
    refine ⟨_, h1, 0, by rw [if_pos hfull], fun i hi => by omega, ?_, ?_, h2.1, h2.2.1⟩
    · show t.stacktraces_len = 0 + k
      omega
    · show t.count_len = 0 + k
      omega
  · obtain ⟨t, h1, h2, h3, h4, _⟩ := recordSample_insert_room env setRank rt wf hk
      hscan hnm (by omega)
    exact ⟨_, h1, rt.tls.stacktraces_len, by rw [if_neg hfull], fun i hi => by omega,
      h3, h4, h2.1, h2.2.1⟩

/-- C33: in every state the usertime collector reaches from a start, `stacktraces_len` is
at most 1024 and both arrays have 1024 slots; for every capture of at most 100 frames,
a handler call (usertime or hwctime) keeps this, and when the search returns without a
merge the insertion takes place and writes the slots `base .. base + framecount - 1` of
`stacktraces` and `count`, all below 1024, where `base` is the payload length, or 0 when
the buffer had no room and was sent first. -/
theorem insertion_stays_within_the_buffer (env : Env) (args : Usertime.StartArgs)
    (events : List Usertime.Event) (rt0 rt : Runtime) (frames : List Nat)
    (hrun : Usertime.run env (Usertime.Event.start args :: events) rt0 = some rt)
    (hk : frames.length ≤ CBTF_USERTIME_MAXFRAMES) :
    rt.tls.stacktraces_len ≤ CBTF_USERTIME_BUFFERSIZE ∧ BlockWF rt.tls ∧
    (∀ rt1, serviceTimerHandler env rt frames = some rt1 ∨
        hwctimePAPIHandler env rt frames = some rt1 →
      BlockWF rt1.tls ∧ rt1.tls.stacktraces_len ≤ CBTF_USERTIME_BUFFERSIZE) ∧
    (rt.tls.defer_sampling = false →
      (∀ r,
        scanStacks rt.tls (usertimeBlameShift env rt.tls (captureBuffer frames)) frames.length
          = some r →
        (r.1 && decide (rt.tls.count.getD r.2 0 < 255)) = false →
        ∃ rt1, serviceTimerHandler env rt frames = some rt1 ∧
          InsertedWithin rt frames.length rt1) ∧
      (∀ r,
        scanStacks rt.tls (hwctimeBlameShift env rt.tls (captureBuffer frames)) frames.length
          = some r →
        (r.1 && decide (rt.tls.count.getD r.2 0 < 255)) = false →
        ∃ rt1, hwctimePAPIHandler env rt frames = some rt1 ∧
          InsertedWithin rt frames.length rt1)) := by
  have inv := countInv_of_started hrun
  have hcap := captureBuffer_length hk
  refine ⟨inv.1.2.2.2, inv.1, ?_, ?_⟩
  · intro rt1 h
    rcases h with h | h
    · have := countInv_serviceTimerHandler inv h
      exact ⟨this.1, this.1.2.2.2⟩
    · have := countInv_hwctimePAPIHandler inv h
      exact ⟨this.1, this.1.2.2.2⟩
  · intro hdefer
    constructor
    · intro r hscan hnm
      rw [serviceTimerHandler_eq env hdefer hk]
      exact recordSample_insertedWithin env _ rt inv.1
        (by rw [usertimeBlameShift_length, hcap]; exact hk) hk hscan hnm
    · intro r hscan hnm
      rw [hwctimePAPIHandler_eq env hdefer hk]
      exact recordSample_insertedWithin env _ rt inv.1
        (by rw [hwctimeBlameShift_length, hcap]; exact hk) hk hscan hnm

section
set_option maxRecDepth 100000

theorem insertion_stays_within_the_buffer_witness :
    ([0x50, 0x60] : List Nat).length ≤ CBTF_USERTIME_MAXFRAMES ∧
    ∃ rt, Usertime.run sampleEnv (Usertime.Event.start sampleStartArgs :: sampleSession)
        sampleRuntime = some rt ∧
      (rt.tls.stacktraces_len ≤ CBTF_USERTIME_BUFFERSIZE ∧ BlockWF rt.tls ∧
      (∀ rt1, serviceTimerHandler sampleEnv rt [0x50, 0x60] = some rt1 ∨
          hwctimePAPIHandler sampleEnv rt [0x50, 0x60] = some rt1 →
        BlockWF rt1.tls ∧ rt1.tls.stacktraces_len ≤ CBTF_USERTIME_BUFFERSIZE) ∧
      (rt.tls.defer_sampling = false →
        (∀ r,
          scanStacks rt.tls (usertimeBlameShift sampleEnv rt.tls (captureBuffer [0x50, 0x60]))
            ([0x50, 0x60] : List Nat).length = some r →
          (r.1 && decide (rt.tls.count.getD r.2 0 < 255)) = false →
          ∃ rt1, serviceTimerHandler sampleEnv rt [0x50, 0x60] = some rt1 ∧
            InsertedWithin rt ([0x50, 0x60] : List Nat).length rt1) ∧
        (∀ r,
          scanStacks rt.tls (hwctimeBlameShift sampleEnv rt.tls (captureBuffer [0x50, 0x60]))
            ([0x50, 0x60] : List Nat).length = some r →
          (r.1 && decide (rt.tls.count.getD r.2 0 < 255)) = false →
          ∃ rt1, hwctimePAPIHandler sampleEnv rt [0x50, 0x60] = some rt1 ∧
            InsertedWithin rt ([0x50, 0x60] : List Nat).length rt1))) :=
  ⟨by decide, _, rfl,
    insertion_stays_within_the_buffer sampleEnv sampleStartArgs sampleSession sampleRuntime
      _ [0x50, 0x60] rfl (by decide)⟩

theorem each_sample_is_counted_once_witness :
    BlockWF sampleRuntime.tls ∧ CountTail sampleRuntime.tls ∧
    sampleRuntime.tls.defer_sampling = false ∧ 1 ≤ ([0x10, 0x20, 0x30] : List Nat).length ∧
    ∃ rt1, serviceTimerHandler sampleEnv sampleRuntime [0x10, 0x20, 0x30] = some rt1 ∧
      (CountedOnce sampleRuntime rt1 ∧
      (∀ samples rtN, (∀ s ∈ samples, 1 ≤ s.length) →
        (deliverAll (serviceTimerHandler sampleEnv) samples sampleRuntime = some rtN ∨
          deliverAll (hwctimePAPIHandler sampleEnv) samples sampleRuntime = some rtN) →
        rtN.sent = sampleRuntime.sent →
        rtN.tls.count.sum = sampleRuntime.tls.count.sum + samples.length)) :=
  ⟨blockWF_of_empty sampleRuntime_empty, (countInv_of_empty sampleRuntime_empty).2, rfl,
    by decide, _, rfl,
    each_sample_is_counted_once sampleEnv sampleRuntime _ [0x10, 0x20, 0x30]
      (blockWF_of_empty sampleRuntime_empty) (countInv_of_empty sampleRuntime_empty).2 rfl
      (by decide) (Or.inl rfl)⟩

theorem matching_entry_is_incremented_witness :
    bufferedRuntime.tls.defer_sampling = false ∧
    ([0x10, 0x20, 0x30] : List Nat).length ≤ CBTF_USERTIME_MAXFRAMES ∧
    scanStacks bufferedRuntime.tls
      (usertimeBlameShift sampleEnv bufferedRuntime.tls (captureBuffer [0x10, 0x20, 0x30]))
      ([0x10, 0x20, 0x30] : List Nat).length = some (true, 0) ∧
    bufferedRuntime.tls.count.getD 0 0 < 255 ∧
    (∃ rt1, serviceTimerHandler sampleEnv bufferedRuntime [0x10, 0x20, 0x30] = some rt1 ∧
      MergedAt bufferedRuntime
        (usertimeBlameShift sampleEnv bufferedRuntime.tls (captureBuffer [0x10, 0x20, 0x30]))
        ([0x10, 0x20, 0x30] : List Nat).length 0 rt1) ∧
    (∃ rt1, hwctimePAPIHandler sampleEnv bufferedRuntime [0x10, 0x20, 0x30] = some rt1 ∧
      MergedAt bufferedRuntime
        (hwctimeBlameShift sampleEnv bufferedRuntime.tls (captureBuffer [0x10, 0x20, 0x30]))
        ([0x10, 0x20, 0x30] : List Nat).length 0 rt1) :=
  ⟨rfl, by decide, by decide, by decide,
    (matching_entry_is_incremented sampleEnv bufferedRuntime [0x10, 0x20, 0x30] rfl
      (by decide)).1 0 (by decide) (by decide),
    (matching_entry_is_incremented sampleEnv bufferedRuntime [0x10, 0x20, 0x30] rfl
      (by decide)).2 0 (by decide) (by decide)⟩

end

end Collector
end KrellInstitute

namespace KrellInstitute
namespace Collector

/-! ## The search on a full buffer -/

theorem run_samples (env : Env) :
    ∀ (samples : List (List Nat)) (rt : Runtime),
      Usertime.run env (samples.map Usertime.Event.sample) rt =
        deliverAll (serviceTimerHandler env) samples rt := by
  intro samples
  induction samples with
  | nil => intro rt; rfl
  | cons s rest ih =>
    intro rt
    rw [List.map_cons, Usertime.run, deliverAll]
    show (match serviceTimerHandler env rt s with
      | none => none
      | some rt1 => Usertime.run env (rest.map Usertime.Event.sample) rt1) = _
    cases serviceTimerHandler env rt s with
    | none => rfl
    | some rt1 => exact ih rt1

section
set_option maxRecDepth 100000

theorem tenStacks_length : tenStacks.length = 10 := by decide

theorem tenStacks_frames : ∀ s ∈ tenStacks, s.length = 100 := by decide

theorem tenStacks_distinct : tenStacks.Pairwise (· ≠ ·) := by decide

end

theorem tenStacks_getElem? {e : Nat} (he : e < 10) :
    tenStacks[e]? = some (List.replicate 100 (0x1000 + e)) := by
  unfold tenStacks
  rw [List.getElem?_map, List.getElem?_range he]
  rfl

/-- The state of the buffer after the stacks of `fillStacks`: all 1024 slots are in use
and the last entry, of 24 frames, begins at slot 1000. -/
theorem deliverAll_fillStacks (env : Env) (setRank : Bool)
    (handler : Runtime → List Nat → Option Runtime)
    (hh : ∀ rt s, Undisturbed rt.tls → s.length ≤ CBTF_USERTIME_MAXFRAMES →
      handler rt s = recordSample env setRank rt (captureBuffer s) s.length)
    (rt0 : Runtime)
    (hempty : rt0.tls.stacktraces_len = 0 ∧ rt0.tls.count_len = 0 ∧
      rt0.tls.stacktraces = List.replicate CBTF_USERTIME_BUFFERSIZE 0 ∧
      rt0.tls.count = List.replicate CBTF_USERTIME_BUFFERSIZE 0)
    (hu : Undisturbed rt0.tls) :
    ∃ rt, deliverAll handler fillStacks rt0 = some rt ∧ BlockWF rt.tls ∧
      Undisturbed rt.tls ∧ rt.sent = rt0.sent ∧
      rt.tls.stacktraces_len = 1024 ∧ rt.tls.count[1000]? = some 1 ∧
      ∀ x, x < 24 → rt.tls.stacktraces[1000 + x]? = some 0x2000 := by
  have h100 : CBTF_USERTIME_MAXFRAMES = 100 := rfl
  have h1024 : CBTF_USERTIME_BUFFERSIZE = 1024 := rfl
  have wf0 := blockWF_of_empty hempty
  obtain ⟨rt10, hdel, hst, hu10, hsent, _⟩ := deliverAll_stored env setRank handler
    (fun rt s hu hs => by
      rw [hh rt s hu (by omega), captureBuffer_of_full hs, hs])
    tenStacks [] rt0 (stored_nil wf0 hempty.1) hu
    (by simpa using tenStacks_frames) (by simpa using tenStacks_distinct)
    (by simp only [List.nil_append, tenStacks_length]; omega)
  simp only [List.nil_append] at hst
  have hlen10 : rt10.tls.stacktraces_len = 1000 := by rw [hst.slen, tenStacks_length]
  have hclen10 : rt10.tls.count_len = 1000 := by rw [← hst.wf.2.2.1]; exact hlen10
  have hfb : (captureBuffer (List.replicate 24 0x2000)).length = 100 :=
    captureBuffer_length (by rw [List.length_replicate]; omega)
  have hfb0 : (captureBuffer (List.replicate 24 0x2000))[0]? = some 0x2000 := by
    rw [captureBuffer_getElem? _ (by rw [List.length_replicate]; omega)]
    rfl
  -- the search finds nothing: the top frame of every stored stack differs
  obtain ⟨r, hscan⟩ := @scanStacks_isSome_of_room rt10.tls
    (captureBuffer (List.replicate 24 0x2000)) 24
    (by rw [hclen10, hst.wf.2.1]; omega) (by omega)
    (by rw [hclen10, hst.wf.1]; omega)
  have hr : r.1 = false := by
    cases hr1 : r.1 with
    | false => rfl
    | true =>
      exfalso
      obtain ⟨a1, ⟨c, hc, hc0, _, hm⟩, _⟩ := (scanStacks_spec hscan).1 hr1
      rw [hclen10] at a1
      have he : r.2 / 100 < tenStacks.length := by rw [tenStacks_length]; omega
      have hsplit : r.2 = 100 * (r.2 / 100) + r.2 % 100 := (Nat.div_add_mod r.2 100).symm
      by_cases hj : 0 < r.2 % 100
      · have hcnt : rt10.tls.count[r.2]? = some 0 := by
          rw [hsplit]
          exact hst.rest (r.2 / 100) (r.2 % 100) he hj (Nat.mod_lt _ (by omega))
        rw [hc] at hcnt
        exact hc0 (Option.some.inj hcnt)
      · have hn0 : r.2 = 100 * (r.2 / 100) := by omega
        have he10 : r.2 / 100 < 10 := by omega
        have hfr := hst.frames (r.2 / 100) _ 0 (tenStacks_getElem? he10) (by omega)
        rw [Nat.add_zero, ← hn0] at hfr
        obtain ⟨_, _, hall, _, _⟩ := matchFrames_eq_all _ _ _ _ _ _ hm
        have h0 := hall 0 (le_refl _) (by omega)
        rw [Nat.add_zero, hfr, hfb0, List.getElem?_replicate, if_pos (by omega)] at h0
        have := Option.some.inj h0
        omega
  have hnm : (r.1 && decide (rt10.tls.count.getD r.2 0 < 255)) = false := by
    rw [hr]
    rfl
  obtain ⟨t, hrec, hwf, hsl, hcl, hstk, hcnt, hund⟩ := recordSample_insert_room env setRank
    rt10 hst.wf (show 24 ≤ (captureBuffer (List.replicate 24 0x2000)).length by omega)
    (show scanStacks rt10.tls (captureBuffer (List.replicate 24 0x2000)) 24 = some (r.1, r.2)
      from hscan)
    hnm (by rw [hlen10]; omega)
  refine ⟨{ rt10 with tls := t }, ?_, hwf, hund hu10, hsent, by rw [hsl, hlen10], ?_, ?_⟩
  · unfold fillStacks
    rw [deliverAll_append, hdel]
    simp only [Option.bind_eq_bind, Option.some_bind]
    rw [deliverAll, hh rt10 _ hu10 (by rw [List.length_replicate]; omega),
      List.length_replicate, hrec]
    rfl
  · show t.count[1000]? = some 1
    rw [hcnt 1000, hlen10, if_pos ⟨le_refl _, by omega⟩, if_pos rfl]
  · intro x hx
    show t.stacktraces[1000 + x]? = some 0x2000
    rw [hstk (1000 + x), hlen10, if_pos ⟨by omega, by omega⟩, Nat.add_sub_cancel_left,
      captureBuffer_getElem? _ (by rw [List.length_replicate]; omega),
      List.getElem?_replicate, if_pos (by omega)]

/-- On the full buffer that `fillStacks` leaves, the search for the 25 frames of
`probeStack` reads slot 1024 of `stacktraces`: the last entry agrees with the first 24
frames, so the inner loop goes on to the frame after it. -/
theorem scanReads_probeStack {rt : Runtime} (wf : BlockWF rt.tls)
    (hlen : rt.tls.stacktraces_len = 1024) (htop : rt.tls.count[1000]? = some 1)
    (hfr : ∀ x, x < 24 → rt.tls.stacktraces[1000 + x]? = some 0x2000) :
    1024 ∈ scanReads rt.tls (captureBuffer probeStack) probeStack.length ∧
    scanStacks rt.tls (captureBuffer probeStack) probeStack.length = none := by
  have h100 : CBTF_USERTIME_MAXFRAMES = 100 := rfl
  have h1024 : CBTF_USERTIME_BUFFERSIZE = 1024 := rfl
  have hp : probeStack.length = 25 := by
    unfold probeStack
    rw [List.length_replicate]
  have hcap : (captureBuffer probeStack).length = 100 :=
    captureBuffer_length (by rw [hp]; omega)
  have hmem : 1024 ∈ scanReads rt.tls (captureBuffer probeStack) probeStack.length := by
    rw [mem_scanReads]
    refine ⟨1000, 1, by rw [← wf.2.2.1, hlen]; omega, htop, by omega, by omega, ?_⟩
    rw [hp]
    refine mem_matchReads_of_agree rt.tls.stacktraces (captureBuffer probeStack) 1000 24 25 0
      (by omega) (by omega) ?_
    intro x _ hx
    refine ⟨0x2000, hfr x hx, ?_⟩
    rw [captureBuffer_getElem? _ (by rw [hp]; omega)]
    unfold probeStack
    rw [List.getElem?_replicate, if_pos (by omega)]
  refine ⟨hmem, ?_⟩
  rw [scanStacks_eq_none_iff (by rw [← wf.2.2.1, wf.2.1]; exact wf.2.2.2)
    (by rw [hcap, hp]; omega)]
  exact ⟨1024, hmem, by rw [wf.1]; exact le_refl _⟩

theorem recordSample_of_scan_none (env : Env) (setRank : Bool) (rt : Runtime) (fb : List Nat)
    (k : Nat) (h : scanStacks rt.tls fb k = none) : recordSample env setRank rt fb k = none := by
  unfold recordSample
  rw [h]

theorem sampleStart_some :
    ∃ rtS, Usertime.cbtf_collector_start sampleEnv sampleStartArgs sampleRuntime = some rtS := by
  unfold Usertime.cbtf_collector_start
  simp only
  rw [if_neg (by decide)]
  exact ⟨_, rfl⟩

theorem start_undisturbed {env : Env} {rt rt1 : Runtime} {args : Usertime.StartArgs}
    (hompt : env.HAVE_OMPT = true)
    (h : Usertime.cbtf_collector_start env args rt = some rt1) : Undisturbed rt1.tls := by
  unfold Usertime.cbtf_collector_start at h
  simp only at h
  split at h
  · exact Option.noConfusion h
  · injection h with h
    subst h
    refine ⟨rfl, ?_, ?_, ?_⟩ <;> simp [hompt]

/-- C32 (refuted): after a start of the usertime collector and the eleven samples of
`fillStacks`, none of more than 100 frames, all 1024 slots of the buffer are in use and
nothing has been sent; for the next sample, the 25 frames of `probeStack`, the search
reads `stacktraces[1000 + 24]`, index 1024, one past the end of the 1024-slot array (in
the usertime and in the hwctime handler: the read has no defined result). -/
theorem search_reads_past_the_buffer :
    (∀ s ∈ fillStacks, s.length ≤ CBTF_USERTIME_MAXFRAMES) ∧
    probeStack.length ≤ CBTF_USERTIME_MAXFRAMES ∧
    ∃ rt, Usertime.run sampleEnv
        (Usertime.Event.start sampleStartArgs :: fillStacks.map Usertime.Event.sample)
        sampleRuntime = some rt ∧
      rt.tls.stacktraces.length = 1024 ∧ rt.tls.stacktraces_len = 1024 ∧ rt.sent = [] ∧
      rt.tls.defer_sampling = false ∧
      usertimeBlameShift sampleEnv rt.tls (captureBuffer probeStack) = captureBuffer probeStack ∧
      hwctimeBlameShift sampleEnv rt.tls (captureBuffer probeStack) = captureBuffer probeStack ∧
      1024 ∈ scanReads rt.tls (captureBuffer probeStack) probeStack.length ∧
      ¬ (∀ x ∈ scanReads rt.tls (captureBuffer probeStack) probeStack.length, x < 1024) ∧
      serviceTimerHandler sampleEnv rt probeStack = none ∧
      hwctimePAPIHandler sampleEnv rt probeStack = none := by
  have h100 : CBTF_USERTIME_MAXFRAMES = 100 := rfl
  have hp : probeStack.length = 25 := by
    unfold probeStack
    rw [List.length_replicate]
  obtain ⟨rtS, hstart⟩ := sampleStart_some
  obtain ⟨hempty, _, hsentS⟩ := start_empty hstart
  have huS := start_undisturbed (show sampleEnv.HAVE_OMPT = true from rfl) hstart
  obtain ⟨rt, hdel, wf, hu, hsent, hlen, htop, hfr⟩ :=
    deliverAll_fillStacks sampleEnv sampleEnv.CBTF_SERVICE_USE_OFFLINE
      (serviceTimerHandler sampleEnv)
      (fun rt s hu hs => serviceTimerHandler_undisturbed sampleEnv hu hs) rtS hempty huS
  obtain ⟨hmem, hnone⟩ := scanReads_probeStack wf hlen htop hfr
  refine ⟨?_, by rw [hp]; omega, rt, ?_, wf.1, hlen, ?_, hu.1,
    usertimeBlameShift_undisturbed sampleEnv hu _,
    hwctimeBlameShift_undisturbed sampleEnv hu _, hmem, ?_, ?_, ?_⟩
  · intro s hs
    unfold fillStacks at hs
    rcases List.mem_append.1 hs with hs | hs
    · rw [tenStacks_frames s hs]
      omega
    · rw [List.mem_singleton] at hs
      rw [hs, List.length_replicate]
      omega
  · rw [Usertime.run]
    show (match Usertime.cbtf_collector_start sampleEnv sampleStartArgs sampleRuntime with
      | none => none
      | some rt1 => Usertime.run sampleEnv (fillStacks.map Usertime.Event.sample) rt1) = _
    rw [hstart]
    simp only
    rw [run_samples, hdel]
  · rw [hsent, hsentS]
    rfl
  · intro hall
    have := hall 1024 hmem
    omega
  · rw [serviceTimerHandler_undisturbed sampleEnv hu (by rw [hp]; omega)]
    exact recordSample_of_scan_none _ _ _ _ _ hnone
  · rw [hwctimePAPIHandler_undisturbed sampleEnv hu (by rw [hp]; omega)]
    exact recordSample_of_scan_none _ _ _ _ _ hnone

end Collector
end KrellInstitute

namespace KrellInstitute
namespace Collector

/-! ## Entries at the count limit -/

theorem insertStep_keeps_counts {fb : List Nat} {tls t : TLS} {i : Nat}
    (h : insertStep fb tls i = some t) :
    t.count_len = tls.count_len + 1 ∧
    ∀ x, x < tls.count_len → t.count[x]? = tls.count[x]? := by
  unfold insertStep at h
  split at h
  · exact Option.noConfusion h
  · split at h
    · injection h with h
      subst h
      refine ⟨rfl, ?_⟩
      intro x hx
      show (tls.count.set tls.count_len _)[x]? = _
      rw [List.getElem?_set_ne (by omega)]
    · exact Option.noConfusion h

theorem foldlM_insertStep_keeps_counts (fb : List Nat) :
    ∀ (l : List Nat) (tls t : TLS), l.foldlM (insertStep fb) tls = some t →
      t.count_len = tls.count_len + l.length ∧
      ∀ x, x < tls.count_len → t.count[x]? = tls.count[x]? := by
  intro l
  induction l with
  | nil =>
    intro tls t h
    injection h with h
    subst h
    exact ⟨rfl, fun _ _ => rfl⟩
  | cons i rest ih =>
    intro tls t h
    rw [List.foldlM_cons] at h
    cases hs : insertStep fb tls i with
    | none => rw [hs] at h; exact Option.noConfusion h
    | some t1 =>
      rw [hs] at h
      obtain ⟨hl1, hk1⟩ := insertStep_keeps_counts hs
      obtain ⟨hl2, hk2⟩ := ih t1 t h
      refine ⟨by rw [hl2, hl1, List.length_cons]; omega, ?_⟩
      intro x hx
      rw [hk2 x (by omega), hk1 x hx]

/-- A handled sample that sends nothing leaves every count of 255 below the payload
length as it is. -/
theorem recordSample_keeps_full {env : Env} {setRank : Bool} {rt rt1 : Runtime}
    {fb : List Nat} {k : Nat} (h : recordSample env setRank rt fb k = some rt1)
    (hsent : rt1.sent = rt.sent) {i : Nat} (hi : i < rt.tls.count_len)
    (hfull : rt.tls.count[i]? = some 255) : rt1.tls.count[i]? = some 255 := by
  rcases recordSample_cases h with ⟨idx, _, hc, heq⟩ | ⟨_, t, hins, heq⟩ | ⟨_, t, hins, heq⟩
  · subst heq
    have hne : idx ≠ i := by
      intro hii
      subst hii
      rw [List.getD_eq_getElem?_getD, hfull] at hc
      exact absurd hc (by decide)
    show (rt.tls.count.set idx _)[i]? = _
    rw [List.getElem?_set_ne hne]
    exact hfull
  · subst heq
    show t.count[i]? = _
    rw [(foldlM_insertStep_keeps_counts fb _ rt.tls t hins).2 i hi]
    exact hfull
  · subst heq
    exfalso
    have hs : (send_samples env setRank rt).sent = rt.sent := hsent
    have hsend : (send_samples env setRank rt).sent = rt.sent ++ [_] := rfl
    rw [hsend] at hs
    have := congrArg List.length hs
    rw [List.length_append, List.length_singleton] at this
    omega

section
set_option maxRecDepth 10000000

/-- C35 (refuted): from the empty buffer of `sampleRuntime`, after 255 samples of the stack
`[0x10, 0x20]` and one sample of `[0x10, 0x20, 0x30]`, the only buffered entry equal to
`[0x10, 0x20]` has count 255;
the next sample of `[0x10, 0x20]` is not appended as a fresh entry with count 1 but
merged into the entry of `[0x10, 0x20, 0x30]`, whose count becomes 2, and the payload
length stays 5. What does hold: a handler call (usertime or hwctime) that sends nothing
never changes a count of 255 below the payload length. -/
theorem full_entry_and_longer_stack :
    ((deliver (serviceTimerHandler sampleEnv) [0x10, 0x20] 255 sampleRuntime).bind
      (fun rt => (serviceTimerHandler sampleEnv rt [0x10, 0x20, 0x30]).bind
        (fun rt1 => (serviceTimerHandler sampleEnv rt1 [0x10, 0x20]).map
          (fun rt2 =>
            ((rt1.tls.stacktraces_len, rt1.tls.stacktraces.take 5, rt1.tls.count.take 5),
              (rt2.tls.stacktraces_len, rt2.tls.stacktraces.take 5, rt2.tls.count.take 5,
                rt2.sent.length))))) =
      some ((5, [0x10, 0x20, 0x10, 0x20, 0x30], [255, 0, 1, 0, 0]),
        (5, [0x10, 0x20, 0x10, 0x20, 0x30], [255, 0, 2, 0, 0], 0))) ∧
    (∀ (env : Env) (rt rt1 : Runtime) (frames : List Nat) (i : Nat),
      (serviceTimerHandler env rt frames = some rt1 ∨
        hwctimePAPIHandler env rt frames = some rt1) →
      rt1.sent = rt.sent → i < rt.tls.count_len → rt.tls.count[i]? = some 255 →
      rt1.tls.count[i]? = some 255) := by
  constructor
  · decide
  · intro env rt rt1 frames i h hsent hi hfull
    rcases h with h | h
    · unfold serviceTimerHandler at h
      split at h
      · injection h with h
        subst h
        exact hfull
      · split at h
        · exact Option.noConfusion h
        · exact recordSample_keeps_full h hsent hi hfull
    · unfold hwctimePAPIHandler at h
      split at h
      · injection h with h
        subst h
        exact hfull
      · split at h
        · exact Option.noConfusion h
        · exact recordSample_keeps_full h hsent hi hfull

end

end Collector
end KrellInstitute

namespace KrellInstitute
namespace Collector

/-! ## The two handlers as one aggregator -/

theorem eraseBatchRank_idem (b : Batch) : eraseBatchRank (eraseBatchRank b) = eraseBatchRank b :=
  rfl

theorem map_eraseBatchRank_idem (l : List Batch) :
    (l.map eraseBatchRank).map eraseBatchRank = l.map eraseBatchRank := by
  rw [List.map_map]
  rfl

theorem eraseRank_idem (rt : Runtime) : eraseRank (eraseRank rt) = eraseRank rt := by
  show ({ tls := _, clock_reads := _, sent := (rt.sent.map eraseBatchRank).map eraseBatchRank }
    : Runtime) = _
  rw [map_eraseBatchRank_idem]
  rfl

theorem eraseRank_congr {a b : Runtime} (h1 : eraseBlockRank a.tls = eraseBlockRank b.tls)
    (h2 : a.clock_reads = b.clock_reads)
    (h3 : a.sent.map eraseBatchRank = b.sent.map eraseBatchRank) :
    eraseRank a = eraseRank b := by
  unfold eraseRank
  rw [h1, h2, h3]

theorem scanStacks_eraseBlockRank (tls : TLS) (fb : List Nat) (k : Nat) :
    scanStacks (eraseBlockRank tls) fb k = scanStacks tls fb k := rfl

theorem insertStep_eraseBlockRank (fb : List Nat) (tls : TLS) (i : Nat) :
    insertStep fb (eraseBlockRank tls) i = (insertStep fb tls i).map eraseBlockRank := by
  unfold insertStep
  cases fb[i]? with
  | none => rfl
  | some f =>
    simp only
    by_cases h : tls.stacktraces_len < tls.stacktraces.length ∧ tls.count_len < tls.count.length
    · have h' : (eraseBlockRank tls).stacktraces_len < (eraseBlockRank tls).stacktraces.length ∧
          (eraseBlockRank tls).count_len < (eraseBlockRank tls).count.length := h
      rw [if_pos h, if_pos h']
      rfl
    · have h' : ¬ ((eraseBlockRank tls).stacktraces_len < (eraseBlockRank tls).stacktraces.length ∧
          (eraseBlockRank tls).count_len < (eraseBlockRank tls).count.length) := h
      rw [if_neg h, if_neg h']
      rfl

theorem foldlM_insertStep_eraseBlockRank (fb : List Nat) :
    ∀ (l : List Nat) (tls : TLS),
      l.foldlM (insertStep fb) (eraseBlockRank tls) =
        (l.foldlM (insertStep fb) tls).map eraseBlockRank := by
  intro l
  induction l with
  | nil => intro tls; rfl
  | cons i rest ih =>
    intro tls
    rw [List.foldlM_cons, List.foldlM_cons, insertStep_eraseBlockRank]
    cases insertStep fb tls i with
    | none => rfl
    | some t1 => exact ih t1

theorem insertFrames_eraseBlockRank (fb : List Nat) (k : Nat) (tls : TLS) :
    insertFrames fb k (eraseBlockRank tls) = (insertFrames fb k tls).map eraseBlockRank :=
  foldlM_insertStep_eraseBlockRank fb _ tls

theorem send_samples_eraseRank (env : Env) (b1 b2 : Bool) (rt : Runtime) :
    eraseRank (send_samples env b1 rt) = eraseRank (send_samples env b2 (eraseRank rt)) := by
  unfold send_samples initialize_data eraseRank eraseBlockRank eraseHeaderRank
  simp only [List.map_append, List.map_map, List.map_cons, List.map_nil]
  congr 1

/-- The part of the handlers after the capture does not depend on the rank, neither on
the rank held in the header nor on whether `send_samples` assigns it. -/
theorem recordSample_eraseRank (env : Env) (b1 b2 : Bool) (rt : Runtime) (fb : List Nat)
    (k : Nat) :
    (recordSample env b1 rt fb k).map eraseRank =
      (recordSample env b2 (eraseRank rt) fb k).map eraseRank := by
  cases hscan : scanStacks rt.tls fb k with
  | none =>
    have hscan' : scanStacks (eraseRank rt).tls fb k = none := hscan
    unfold recordSample
    rw [hscan, hscan']
  | some r =>
    obtain ⟨ex, idx⟩ := r
    have hscan' : scanStacks (eraseRank rt).tls fb k = some (ex, idx) := hscan
    by_cases hm : (ex && decide (rt.tls.count.getD idx 0 < 255)) = true
    · have hm' : (ex && decide ((eraseRank rt).tls.count.getD idx 0 < 255)) = true := hm
      unfold recordSample
      rw [hscan, hscan']
      simp only [if_pos hm, if_pos hm', Option.map_some']
      exact congrArg some (eraseRank_congr rfl rfl (map_eraseBatchRank_idem rt.sent).symm)
    · have hm0 : (ex && decide (rt.tls.count.getD idx 0 < 255)) = false := by
        rw [← Bool.not_eq_true]; exact hm
      have hm0' : (ex && decide ((eraseRank rt).tls.count.getD idx 0 < 255)) = false := hm0
      rw [recordSample_not_merged env b1 rt fb k hscan hm0,
        recordSample_not_merged env b2 (eraseRank rt) fb k hscan' hm0']
      have hlen : (eraseRank rt).tls.stacktraces_len = rt.tls.stacktraces_len := rfl
      rw [hlen]
      have key : ∀ r1 r2 : Runtime, eraseRank r1 = eraseRank r2 →
          ((insertFrames fb k r1.tls).map (fun t => ({ r1 with tls := t } : Runtime))).map
              eraseRank =
            ((insertFrames fb k r2.tls).map (fun t => ({ r2 with tls := t } : Runtime))).map
              eraseRank := by
        intro r1 r2 he
        have h1 : ∀ r : Runtime,
            ((insertFrames fb k r.tls).map (fun t => ({ r with tls := t } : Runtime))).map
                eraseRank =
              (insertFrames fb k (eraseRank r).tls).map
                (fun t => ({ eraseRank r with tls := t } : Runtime)) := by
          intro r
          show _ = (insertFrames fb k (eraseBlockRank r.tls)).map _
          rw [insertFrames_eraseBlockRank]
          cases insertFrames fb k r.tls with
          | none => rfl
          | some t => rfl
        rw [h1 r1, h1 r2, he]
      apply key
      by_cases hfull : rt.tls.stacktraces_len + k > CBTF_USERTIME_BUFFERSIZE
      · rw [if_pos hfull, if_pos hfull]
        exact send_samples_eraseRank env b1 b2 rt
      · rw [if_neg hfull, if_neg hfull, eraseRank_idem]

theorem recordSample_eraseRank_of_eq (env : Env) (b1 b2 : Bool) {rt rt2 : Runtime}
    (he : eraseRank rt = eraseRank rt2) (fb : List Nat) (k : Nat) :
    (recordSample env b1 rt fb k).map eraseRank =
      (recordSample env b2 rt2 fb k).map eraseRank := by
  rw [recordSample_eraseRank env b1 false rt, recordSample_eraseRank env b2 false rt2, he]

theorem noBlame_of_eraseRank_eq {rt rt2 : Runtime} (he : eraseRank rt = eraseRank rt2)
    (h : NoBlame rt.tls) : NoBlame rt2.tls ∧ rt2.tls.defer_sampling = rt.tls.defer_sampling := by
  have h1 : (eraseRank rt).tls.thread_idle = (eraseRank rt2).tls.thread_idle := by rw [he]
  have h2 : (eraseRank rt).tls.thread_wait_barrier = (eraseRank rt2).tls.thread_wait_barrier := by
    rw [he]
  have h3 : (eraseRank rt).tls.thread_barrier = (eraseRank rt2).tls.thread_barrier := by rw [he]
  have h4 : (eraseRank rt).tls.defer_sampling = (eraseRank rt2).tls.defer_sampling := by rw [he]
  exact ⟨⟨h1.symm.trans h.1, h2.symm.trans h.2.1, h3.symm.trans h.2.2⟩, h4.symm⟩

theorem usertimeBlameShift_noBlame (env : Env) {tls : TLS} (h : NoBlame tls) (fb : List Nat) :
    usertimeBlameShift env tls fb = fb := by
  unfold usertimeBlameShift
  simp [h.1, h.2.1, h.2.2]

theorem hwctimeBlameShift_noBlame (env : Env) {tls : TLS} (h : NoBlame tls) (fb : List Nat) :
    hwctimeBlameShift env tls fb = fb := by
  unfold hwctimeBlameShift
  simp [h.1, h.2.1]

theorem serviceTimerHandler_noBlame (env : Env) {rt : Runtime} (h : NoBlame rt.tls)
    (frames : List Nat) :
    serviceTimerHandler env rt frames =
      if rt.tls.defer_sampling = true then some rt
      else if frames.length > CBTF_USERTIME_MAXFRAMES then none
      else recordSample env env.CBTF_SERVICE_USE_OFFLINE rt (captureBuffer frames)
        frames.length := by
  unfold serviceTimerHandler
  rw [usertimeBlameShift_noBlame env h]

theorem hwctimePAPIHandler_noBlame (env : Env) {rt : Runtime} (h : NoBlame rt.tls)
    (frames : List Nat) :
    hwctimePAPIHandler env rt frames =
      if rt.tls.defer_sampling = true then some rt
      else if frames.length > CBTF_USERTIME_MAXFRAMES then none
      else recordSample env true rt (captureBuffer frames) frames.length := by
  unfold hwctimePAPIHandler
  rw [hwctimeBlameShift_noBlame env h]

theorem handlers_eraseRank (env : Env) {rt rt2 : Runtime} (h : NoBlame rt.tls)
    (he : eraseRank rt = eraseRank rt2) (frames : List Nat) :
    (serviceTimerHandler env rt frames).map eraseRank =
      (hwctimePAPIHandler env rt2 frames).map eraseRank := by
  obtain ⟨h2, hd⟩ := noBlame_of_eraseRank_eq he h
  rw [serviceTimerHandler_noBlame env h, hwctimePAPIHandler_noBlame env h2, hd]
  by_cases hdef : rt.tls.defer_sampling = true
  · rw [if_pos hdef, if_pos hdef, Option.map_some', Option.map_some', he]
  · rw [if_neg hdef, if_neg hdef]
    by_cases hlen : frames.length > CBTF_USERTIME_MAXFRAMES
    · rw [if_pos hlen, if_pos hlen]
    · rw [if_neg hlen, if_neg hlen]
      exact recordSample_eraseRank_of_eq env _ _ he _ _

theorem recordSample_noBlame {env : Env} {setRank : Bool} {rt rt1 : Runtime} {fb : List Nat}
    {k : Nat} (h : recordSample env setRank rt fb k = some rt1) (hb : NoBlame rt.tls) :
    NoBlame rt1.tls := by
  rcases recordSample_cases h with ⟨idx, _, _, heq⟩ | ⟨_, t, hins, heq⟩ | ⟨_, t, hins, heq⟩
  · subst heq
    exact hb
  · subst heq
    have hfr := insertFrames_frame hins
    show NoBlame t
    rw [hfr]
    exact hb
  · subst heq
    have hfr := insertFrames_frame hins
    show NoBlame t
    rw [hfr]
    exact hb

theorem serviceTimerHandler_keeps_noBlame {env : Env} {rt rt1 : Runtime} {frames : List Nat}
    (h : serviceTimerHandler env rt frames = some rt1) (hb : NoBlame rt.tls) :
    NoBlame rt1.tls := by
  unfold serviceTimerHandler at h
  split at h
  · injection h with h
    subst h
    exact hb
  · split at h
    · exact Option.noConfusion h
    · exact recordSample_noBlame h hb

/-- Delivered to threads that differ in the rank only, the same samples take the two
handlers through states that differ in the rank only. -/
theorem deliverAll_eraseRank (env : Env) :
    ∀ (samples : List (List Nat)) (rt rt2 : Runtime), NoBlame rt.tls →
      eraseRank rt = eraseRank rt2 →
      (deliverAll (serviceTimerHandler env) samples rt).map eraseRank =
        (deliverAll (hwctimePAPIHandler env) samples rt2).map eraseRank := by
  intro samples
  induction samples with
  | nil =>
    intro rt rt2 _ he
    rw [deliverAll, deliverAll, Option.map_some', Option.map_some', he]
  | cons f rest ih =>
    intro rt rt2 hb he
    have hstep := handlers_eraseRank env hb he f
    rw [deliverAll, deliverAll]
    cases h1 : serviceTimerHandler env rt f with
    | none =>
      rw [h1] at hstep
      cases h2 : hwctimePAPIHandler env rt2 f with
      | none => rfl
      | some r2 => rw [h2] at hstep; exact Option.noConfusion hstep
    | some r1 =>
      rw [h1] at hstep
      cases h2 : hwctimePAPIHandler env rt2 f with
      | none => rw [h2] at hstep; exact Option.noConfusion hstep
      | some r2 =>
        rw [h2] at hstep
        exact ih r1 r2 (serviceTimerHandler_keeps_noBlame h1 hb) (Option.some.inj hstep)

/-- C36: with no blame flag set, the usertime and the hwctime handler are the same
aggregator. From the same state and the same captured frames both fail or both return,
and the results agree in everything but the rank field: stack slots, counts, both
lengths, the header with its time and address fields, and the batches sent, one by one.
The same holds after any sequence of samples, and when `send_samples` of the usertime
collector assigns the rank as well (`CBTF_SERVICE_USE_OFFLINE`) the results are equal. -/
theorem handlers_share_the_aggregator (env : Env) (rt : Runtime) (frames : List Nat)
    (samples : List (List Nat)) (hflags : NoBlame rt.tls) :
    (serviceTimerHandler env rt frames).map eraseRank =
      (hwctimePAPIHandler env rt frames).map eraseRank ∧
    (deliverAll (serviceTimerHandler env) samples rt).map eraseRank =
      (deliverAll (hwctimePAPIHandler env) samples rt).map eraseRank ∧
    (env.CBTF_SERVICE_USE_OFFLINE = true →
      serviceTimerHandler env rt frames = hwctimePAPIHandler env rt frames) ∧
    (∀ rtU rtH, serviceTimerHandler env rt frames = some rtU →
      hwctimePAPIHandler env rt frames = some rtH →
      rtU.tls.stacktraces = rtH.tls.stacktraces ∧ rtU.tls.count = rtH.tls.count ∧
      rtU.tls.stacktraces_len = rtH.tls.stacktraces_len ∧
      rtU.tls.count_len = rtH.tls.count_len ∧
      rtU.tls.header.addr_begin = rtH.tls.header.addr_begin ∧
      rtU.tls.header.addr_end = rtH.tls.header.addr_end ∧
      rtU.tls.header.time_begin = rtH.tls.header.time_begin ∧
      rtU.sent.map eraseBatchRank = rtH.sent.map eraseBatchRank) := by
  have h1 := handlers_eraseRank env hflags (rfl : eraseRank rt = eraseRank rt) frames
  refine ⟨h1, deliverAll_eraseRank env samples rt rt hflags rfl, ?_, ?_⟩
  · intro hoff
    rw [serviceTimerHandler_noBlame env hflags, hwctimePAPIHandler_noBlame env hflags, hoff]
  · intro rtU rtH hU hH
    rw [hU, hH] at h1
    have he : eraseRank rtU = eraseRank rtH := Option.some.inj h1
    have e1 : (eraseRank rtU).tls.stacktraces = (eraseRank rtH).tls.stacktraces := by rw [he]
    have e2 : (eraseRank rtU).tls.count = (eraseRank rtH).tls.count := by rw [he]
    have e3 : (eraseRank rtU).tls.stacktraces_len = (eraseRank rtH).tls.stacktraces_len := by
      rw [he]
    have e4 : (eraseRank rtU).tls.count_len = (eraseRank rtH).tls.count_len := by rw [he]
    have e5 : (eraseRank rtU).tls.header.addr_begin = (eraseRank rtH).tls.header.addr_begin := by
      rw [he]
    have e6 : (eraseRank rtU).tls.header.addr_end = (eraseRank rtH).tls.header.addr_end := by
      rw [he]
    have e7 : (eraseRank rtU).tls.header.time_begin = (eraseRank rtH).tls.header.time_begin := by
      rw [he]
    have e8 : (eraseRank rtU).sent = (eraseRank rtH).sent := by rw [he]
    exact ⟨e1, e2, e3, e4, e5, e6, e7, e8⟩

section
set_option maxRecDepth 100000

theorem handlers_share_the_aggregator_witness :
    NoBlame bufferedRuntime.tls ∧
    (∃ rtU rtH, serviceTimerHandler sampleEnv bufferedRuntime [0x40, 0x50] = some rtU ∧
      hwctimePAPIHandler sampleEnv bufferedRuntime [0x40, 0x50] = some rtH) ∧
    ((serviceTimerHandler sampleEnv bufferedRuntime [0x40, 0x50]).map eraseRank =
      (hwctimePAPIHandler sampleEnv bufferedRuntime [0x40, 0x50]).map eraseRank ∧
    (deliverAll (serviceTimerHandler sampleEnv) [[0x40], [0x10, 0x20, 0x30]]
        bufferedRuntime).map eraseRank =
      (deliverAll (hwctimePAPIHandler sampleEnv) [[0x40], [0x10, 0x20, 0x30]]
        bufferedRuntime).map eraseRank ∧
    (sampleEnv.CBTF_SERVICE_USE_OFFLINE = true →
      serviceTimerHandler sampleEnv bufferedRuntime [0x40, 0x50] =
        hwctimePAPIHandler sampleEnv bufferedRuntime [0x40, 0x50]) ∧
    (∀ rtU rtH, serviceTimerHandler sampleEnv bufferedRuntime [0x40, 0x50] = some rtU →
      hwctimePAPIHandler sampleEnv bufferedRuntime [0x40, 0x50] = some rtH →
      rtU.tls.stacktraces = rtH.tls.stacktraces ∧ rtU.tls.count = rtH.tls.count ∧
      rtU.tls.stacktraces_len = rtH.tls.stacktraces_len ∧
      rtU.tls.count_len = rtH.tls.count_len ∧
      rtU.tls.header.addr_begin = rtH.tls.header.addr_begin ∧
      rtU.tls.header.addr_end = rtH.tls.header.addr_end ∧
      rtU.tls.header.time_begin = rtH.tls.header.time_begin ∧
      rtU.sent.map eraseBatchRank = rtH.sent.map eraseBatchRank)) :=
  ⟨⟨rfl, rfl, rfl⟩, ⟨_, _, rfl, rfl⟩,
    handlers_share_the_aggregator sampleEnv bufferedRuntime [0x40, 0x50]
      [[0x40], [0x10, 0x20, 0x30]] ⟨rfl, rfl, rfl⟩⟩

end

end Collector
end KrellInstitute

namespace KrellInstitute
namespace Collector

/-! ## Identity fields and interval -/

theorem keepsIdentity_refl (rt : Runtime) : KeepsIdentity rt rt :=
  ⟨rfl, rfl, [], (List.append_nil _).symm, fun _ hb => absurd hb (List.not_mem_nil _)⟩

theorem keepsIdentity_of_same {rt rt1 : Runtime}
    (h1 : identityOf rt1.tls.header = identityOf rt.tls.header)
    (h2 : rt1.tls.interval = rt.tls.interval) (h3 : rt1.sent = rt.sent) :
    KeepsIdentity rt rt1 :=
  ⟨h1, h2, [], by rw [h3, List.append_nil], fun _ hb => absurd hb (List.not_mem_nil _)⟩

theorem keepsIdentity_trans {a b c : Runtime} (h1 : KeepsIdentity a b)
    (h2 : KeepsIdentity b c) : KeepsIdentity a c := by
  obtain ⟨hi1, hv1, n1, hs1, hb1⟩ := h1
  obtain ⟨hi2, hv2, n2, hs2, hb2⟩ := h2
  refine ⟨hi2.trans hi1, hv2.trans hv1, n1 ++ n2, ?_, ?_⟩
  · rw [hs2, hs1, List.append_assoc]
  · intro x hx
    rcases List.mem_append.1 hx with hx | hx
    · exact hb1 x hx
    · obtain ⟨e1, e2⟩ := hb2 x hx
      exact ⟨e1.trans hi1, e2.trans hv1⟩

theorem keepsIdentity_send_samples (env : Env) (setRank : Bool) (rt : Runtime) :
    KeepsIdentity rt (send_samples env setRank rt) := by
  refine ⟨rfl, rfl, [_], rfl, ?_⟩
  intro x hx
  rw [List.mem_singleton] at hx
  subst hx
  exact ⟨rfl, rfl⟩

theorem keepsIdentity_insert {rt : Runtime} {fb : List Nat} {k : Nat} {t : TLS}
    (h : insertFrames fb k rt.tls = some t) :
    KeepsIdentity rt { rt with tls := t } := by
  have hfr := insertFrames_frame h
  apply keepsIdentity_of_same
  · show identityOf t.header = _
    rw [hfr]
    rfl
  · show t.interval = _
    rw [hfr]
  · rfl

theorem keepsIdentity_recordSample {env : Env} {setRank : Bool} {rt rt1 : Runtime}
    {fb : List Nat} {k : Nat} (h : recordSample env setRank rt fb k = some rt1) :
    KeepsIdentity rt rt1 := by
  rcases recordSample_cases h with ⟨idx, _, _, heq⟩ | ⟨_, t, hins, heq⟩ | ⟨_, t, hins, heq⟩
  · subst heq
    exact keepsIdentity_of_same rfl rfl rfl
  · subst heq
    exact keepsIdentity_insert hins
  · subst heq
    exact keepsIdentity_trans (keepsIdentity_send_samples env setRank rt)
      (@keepsIdentity_insert (send_samples env setRank rt) fb k t hins)

theorem keepsIdentity_serviceTimerHandler {env : Env} {rt rt1 : Runtime} {frames : List Nat}
    (h : serviceTimerHandler env rt frames = some rt1) : KeepsIdentity rt rt1 := by
  unfold serviceTimerHandler at h
  split at h
  · injection h with h
    subst h
    exact keepsIdentity_refl rt
  · split at h
    · exact Option.noConfusion h
    · exact keepsIdentity_recordSample h

theorem keepsIdentity_hwctimePAPIHandler {env : Env} {rt rt1 : Runtime} {frames : List Nat}
    (h : hwctimePAPIHandler env rt frames = some rt1) : KeepsIdentity rt rt1 := by
  unfold hwctimePAPIHandler at h
  split at h
  · injection h with h
    subst h
    exact keepsIdentity_refl rt
  · split at h
    · exact Option.noConfusion h
    · exact keepsIdentity_recordSample h

theorem keepsIdentity_stop (env : Env) (rt : Runtime) :
    KeepsIdentity rt (Usertime.cbtf_collector_stop env rt) := by
  unfold Usertime.cbtf_collector_stop
  simp only
  split
  · exact keepsIdentity_trans
      (@keepsIdentity_of_same rt _ rfl rfl rfl)
      (keepsIdentity_send_samples env _ _)
  · exact keepsIdentity_of_same rfl rfl rfl

theorem keepsIdentity_step {env : Env} {rt rt1 : Runtime} {e : Usertime.Event}
    (he : isStart e = false) (h : Usertime.step env rt e = some rt1) :
    KeepsIdentity rt rt1 := by
  cases e with
  | start args => exact Bool.noConfusion he
  | sample frames => exact keepsIdentity_serviceTimerHandler h
  | pause =>
    injection h with h
    subst h
    exact keepsIdentity_of_same rfl rfl rfl
  | resume =>
    injection h with h
    subst h
    exact keepsIdentity_of_same rfl rfl rfl
  | stop =>
    injection h with h
    subst h
    exact keepsIdentity_stop env rt

theorem keepsIdentity_run (env : Env) :
    ∀ (events : List Usertime.Event) (rt rt1 : Runtime),
      (∀ e ∈ events, isStart e = false) → Usertime.run env events rt = some rt1 →
      KeepsIdentity rt rt1 := by
  intro events
  induction events with
  | nil =>
    intro rt rt1 _ h
    injection h with h
    subst h
    exact keepsIdentity_refl rt
  | cons e rest ih =>
    intro rt rt1 hev h
    rw [Usertime.run] at h
    cases hs : Usertime.step env rt e with
    | none => rw [hs] at h; exact Option.noConfusion h
    | some r =>
      rw [hs] at h
      exact keepsIdentity_trans (keepsIdentity_step (hev e (List.mem_cons_self _ _)) hs)
        (ih r rt1 (fun e1 h1 => hev e1 (List.mem_cons_of_mem _ h1)) h)

theorem start_identity {env : Env} {args : Usertime.StartArgs} {rt rt1 : Runtime}
    (h : Usertime.cbtf_collector_start env args rt = some rt1) :
    identityOf rt1.tls.header =
      (args.header.experiment, args.header.collector, "usertime", args.header.host,
        args.header.pid, args.header.posix_tid, args.omp_tid) ∧
    rt1.tls.interval = 1000000000 / args.sampling_rate := by
  unfold Usertime.cbtf_collector_start at h
  simp only at h
  split at h
  · exact Option.noConfusion h
  · injection h with h
    subst h
    exact ⟨rfl, rfl⟩

/-- C38: neither a sample handler nor `send_samples` changes the identity fields of the
header (experiment, collector, id, host, pid, posix_tid, omp_tid) or the payload interval,
and the batch `send_samples` hands over carries them. So after `cbtf_collector_start` has
set them (template fields, id "usertime", the thread number, interval
`1000000000 / sampling_rate`), whatever samples, pauses, resumes and stops follow, the
header keeps them and every batch the thread sends carries them. -/
theorem batches_carry_the_identity (env : Env) (args : Usertime.StartArgs)
    (events : List Usertime.Event) (rt0 rtS rt : Runtime)
    (hstart : Usertime.cbtf_collector_start env args rt0 = some rtS)
    (hev : ∀ e ∈ events, isStart e = false)
    (hrun : Usertime.run env events rtS = some rt) :
    (identityOf rtS.tls.header =
        (args.header.experiment, args.header.collector, "usertime", args.header.host,
          args.header.pid, args.header.posix_tid, args.omp_tid) ∧
      rtS.tls.interval = 1000000000 / args.sampling_rate) ∧
    KeepsIdentity rtS rt ∧
    (∀ (setRank : Bool) (r : Runtime), KeepsIdentity r (send_samples env setRank r)) ∧
    (∀ (r r1 : Runtime) (frames : List Nat),
      serviceTimerHandler env r frames = some r1 ∨ hwctimePAPIHandler env r frames = some r1 →
      KeepsIdentity r r1) := by
  refine ⟨start_identity hstart, keepsIdentity_run env events rtS rt hev hrun,
    fun setRank r => keepsIdentity_send_samples env setRank r, ?_⟩
  intro r r1 frames h
  rcases h with h | h
  · exact keepsIdentity_serviceTimerHandler h
  · exact keepsIdentity_hwctimePAPIHandler h

section
set_option maxRecDepth 100000

theorem batches_carry_the_identity_witness :
    ∃ rtS rt : Runtime,
      Usertime.cbtf_collector_start sampleEnv sampleStartArgs sampleRuntime = some rtS ∧
      (∀ e ∈ sessionEvents, isStart e = false) ∧
      Usertime.run sampleEnv sessionEvents rtS = some rt ∧
      rt.sent.length = 1 ∧
      ((identityOf rtS.tls.header =
          (sampleStartArgs.header.experiment, sampleStartArgs.header.collector, "usertime",
            sampleStartArgs.header.host, sampleStartArgs.header.pid,
            sampleStartArgs.header.posix_tid, sampleStartArgs.omp_tid) ∧
        rtS.tls.interval = 1000000000 / sampleStartArgs.sampling_rate) ∧
      KeepsIdentity rtS rt ∧
      (∀ (setRank : Bool) (r : Runtime), KeepsIdentity r (send_samples sampleEnv setRank r)) ∧
      (∀ (r r1 : Runtime) (frames : List Nat),
        serviceTimerHandler sampleEnv r frames = some r1 ∨
          hwctimePAPIHandler sampleEnv r frames = some r1 →
        KeepsIdentity r r1)) :=
  ⟨_, _, rfl, by decide, rfl, rfl,
    batches_carry_the_identity sampleEnv sampleStartArgs sessionEvents sampleRuntime _ _ rfl
      (by decide) rfl⟩

end

end Collector
end KrellInstitute

namespace KrellInstitute
namespace Collector

/-! ## Stop of a started thread -/

theorem hwctime_start_empty (env : Env) (args : Hwctime.StartArgs) (rt : Runtime) :
    ((Hwctime.cbtf_collector_start env args rt).tls.stacktraces_len = 0 ∧
      (Hwctime.cbtf_collector_start env args rt).tls.count_len = 0 ∧
      (Hwctime.cbtf_collector_start env args rt).tls.stacktraces =
        List.replicate CBTF_USERTIME_BUFFERSIZE 0 ∧
      (Hwctime.cbtf_collector_start env args rt).tls.count =
        List.replicate CBTF_USERTIME_BUFFERSIZE 0) ∧
    (Hwctime.cbtf_collector_start env args rt).sent = rt.sent :=
  ⟨⟨rfl, rfl, rfl, rfl⟩, rfl⟩

theorem recordSample_eventSet {env : Env} {setRank : Bool} {rt rt1 : Runtime} {fb : List Nat}
    {k : Nat} (h : recordSample env setRank rt fb k = some rt1) :
    rt1.tls.EventSet = rt.tls.EventSet := by
  rcases recordSample_cases h with ⟨idx, _, _, heq⟩ | ⟨_, t, hins, heq⟩ | ⟨_, t, hins, heq⟩
  · subst heq
    rfl
  · subst heq
    have hfr := insertFrames_frame hins
    show t.EventSet = _
    rw [hfr]
  · subst heq
    have hfr := insertFrames_frame hins
    show t.EventSet = _
    rw [hfr]
    rfl

theorem hwctimePAPIHandler_eventSet {env : Env} {rt rt1 : Runtime} {frames : List Nat}
    (h : hwctimePAPIHandler env rt frames = some rt1) :
    rt1.tls.EventSet = rt.tls.EventSet := by
  unfold hwctimePAPIHandler at h
  split at h
  · injection h with h
    subst h
    rfl
  · split at h
    · exact Option.noConfusion h
    · exact recordSample_eventSet h

theorem hwctime_stop_inv (env : Env) {rt : Runtime} (inv : CountInv rt.tls)
    (hnull : rt.tls.EventSet = PAPI_NULL → rt.tls.stacktraces_len = 0) :
    CountInv (Hwctime.cbtf_collector_stop env rt).tls ∧
    ((Hwctime.cbtf_collector_stop env rt).tls.EventSet = PAPI_NULL →
      (Hwctime.cbtf_collector_stop env rt).tls.stacktraces_len = 0) := by
  unfold Hwctime.cbtf_collector_stop
  by_cases hev : rt.tls.EventSet = PAPI_NULL
  · rw [if_pos hev]
    exact ⟨inv, hnull⟩
  · rw [if_neg hev]
    simp only
    split
    · exact ⟨countInv_send_samples env _ _, fun _ => rfl⟩
    · exact ⟨inv, fun h => absurd h hev⟩

/-- One event of the hwctime collector keeps the sample block well formed and keeps the
buffer empty while the thread has no event set. -/
theorem hwctime_step_inv {env : Env} {rt rt1 : Runtime} {e : Hwctime.Event}
    (inv : (CountInv rt.tls ∧ (rt.tls.EventSet = PAPI_NULL → rt.tls.stacktraces_len = 0)) ∨
      ∃ args, e = Hwctime.Event.start args)
    (h : Hwctime.step env rt e = some rt1) :
    CountInv rt1.tls ∧ (rt1.tls.EventSet = PAPI_NULL → rt1.tls.stacktraces_len = 0) := by
  cases e with
  | start args =>
    injection h with h
    subst h
    exact ⟨countInv_of_empty (hwctime_start_empty env args rt).1, fun _ => rfl⟩
  | sample frames =>
    rcases inv with inv | ⟨args, he⟩
    · have h1 : (if rt.tls.EventSet = PAPI_NULL then none
          else hwctimePAPIHandler env rt frames) = some rt1 := h
      by_cases hev : rt.tls.EventSet = PAPI_NULL
      · rw [if_pos hev] at h1
        exact Option.noConfusion h1
      · rw [if_neg hev] at h1
        refine ⟨countInv_hwctimePAPIHandler inv.1 h1, ?_⟩
        intro hnull
        rw [hwctimePAPIHandler_eventSet h1] at hnull
        exact absurd hnull hev
    · exact Hwctime.Event.noConfusion he
  | pause flag =>
    rcases inv with inv | ⟨args, he⟩
    · injection h with h
      subst h
      unfold Hwctime.cbtf_collector_pause
      split
      · exact inv
      · exact inv
    · exact Hwctime.Event.noConfusion he
  | resume flag =>
    rcases inv with inv | ⟨args, he⟩
    · injection h with h
      subst h
      unfold Hwctime.cbtf_collector_resume
      split
      · exact inv
      · exact inv
    · exact Hwctime.Event.noConfusion he
  | stop =>
    rcases inv with inv | ⟨args, he⟩
    · injection h with h
      subst h
      exact hwctime_stop_inv env inv.1 inv.2
    · exact Hwctime.Event.noConfusion he

theorem hwctime_run_inv {env : Env} :
    ∀ (events : List Hwctime.Event) (rt rt1 : Runtime),
      (CountInv rt.tls ∧ (rt.tls.EventSet = PAPI_NULL → rt.tls.stacktraces_len = 0)) →
      Hwctime.run env events rt = some rt1 →
      CountInv rt1.tls ∧ (rt1.tls.EventSet = PAPI_NULL → rt1.tls.stacktraces_len = 0) := by
  intro events
  induction events with
  | nil =>
    intro rt rt1 inv h
    injection h with h
    subst h
    exact inv
  | cons e rest ih =>
    intro rt rt1 inv h
    rw [Hwctime.run] at h
    cases hs : Hwctime.step env rt e with
    | none => rw [hs] at h; exact Option.noConfusion h
    | some r =>
      rw [hs] at h
      exact ih r rt1 (hwctime_step_inv (Or.inl inv) hs) h

/-- In every state the hwctime collector reaches from a start the sample block is well
formed, and the buffer is empty while the thread has no event set. -/
theorem hwctime_inv_of_started {env : Env} {args : Hwctime.StartArgs}
    {events : List Hwctime.Event} {rt0 rt : Runtime}
    (hrun : Hwctime.run env (Hwctime.Event.start args :: events) rt0 = some rt) :
    CountInv rt.tls ∧ (rt.tls.EventSet = PAPI_NULL → rt.tls.stacktraces_len = 0) := by
  rw [Hwctime.run] at hrun
  cases hs : Hwctime.step env rt0 (Hwctime.Event.start args) with
  | none => rw [hs] at hrun; exact Option.noConfusion hrun
  | some rt2 =>
    rw [hs] at hrun
    exact hwctime_run_inv events rt2 rt (hwctime_step_inv (Or.inr ⟨args, rfl⟩) hs) hrun

theorem hwctime_stop_stoppedWith_of_empty (env : Env) (rt : Runtime)
    (hlen : rt.tls.stacktraces_len = rt.tls.count_len)
    (hnull : rt.tls.EventSet = PAPI_NULL → rt.tls.stacktraces_len = 0) :
    StoppedWith rt (Hwctime.cbtf_collector_stop env rt) := by
  by_cases hev : rt.tls.EventSet = PAPI_NULL
  · have h0 := hnull hev
    unfold Hwctime.cbtf_collector_stop
    rw [if_pos hev]
    constructor
    · intro hpos
      omega
    · intro _
      exact ⟨rfl, h0, by rw [← hlen]; exact h0⟩
  · exact hwctime_stop_stoppedWith env rt hlen hev

/-- C21: in every state a collector reaches from a start, usertime or hwctime, stop sends
exactly one batch when `stacktraces_len > 0` and nothing when `stacktraces_len = 0`; the
batch holds every slot buffered so far, and after stop both lengths are 0. In the hwctime
collector stop returns at once when the thread has no event set (`PAPI_NULL`); that
happens only with an empty buffer, because samples reach the handler only for an event
set of the thread. The same holds for a stop on storage with both lengths 0, such as the
storage of a thread that was never started. -/
theorem stop_sends_buffered_samples (env : Env)
    (uargs : Usertime.StartArgs) (uevents : List Usertime.Event) (u0 u : Runtime)
    (hargs : Hwctime.StartArgs) (hevents : List Hwctime.Event) (h0 h : Runtime)
    (hu : Usertime.run env (Usertime.Event.start uargs :: uevents) u0 = some u)
    (hh : Hwctime.run env (Hwctime.Event.start hargs :: hevents) h0 = some h) :
    StoppedWith u (Usertime.cbtf_collector_stop env u) ∧
    StoppedWith h (Hwctime.cbtf_collector_stop env h) ∧
    (h.tls.EventSet = PAPI_NULL → h.tls.stacktraces_len = 0 ∧ h.tls.count_len = 0) ∧
    (∀ rt : Runtime, rt.tls.stacktraces_len = 0 → rt.tls.count_len = 0 →
      StoppedWith rt (Usertime.cbtf_collector_stop env rt) ∧
      StoppedWith rt (Hwctime.cbtf_collector_stop env rt)) := by
  have invU := countInv_of_started hu
  have invH := hwctime_inv_of_started hh
  refine ⟨usertime_stop_stoppedWith env u invU.1.2.2.1,
    hwctime_stop_stoppedWith_of_empty env h invH.1.1.2.2.1 invH.2, ?_, ?_⟩
  · intro hnull
    have h0 := invH.2 hnull
    exact ⟨h0, by rw [← invH.1.1.2.2.1]; exact h0⟩
  · intro rt hs hc
    have hlen : rt.tls.stacktraces_len = rt.tls.count_len := by rw [hs, hc]
    exact ⟨usertime_stop_stoppedWith env rt hlen,
      hwctime_stop_stoppedWith_of_empty env rt hlen (fun _ => hs)⟩

section
set_option maxRecDepth 100000

theorem stop_sends_buffered_samples_witness :
    ∃ u h : Runtime,
      Usertime.run sampleEnv
        [Usertime.Event.start sampleStartArgs, Usertime.Event.sample [0x10, 0x20, 0x30],
          Usertime.Event.sample [0x40, 0x50]] sampleRuntime = some u ∧
      Hwctime.run sampleEnv
        [Hwctime.Event.start (sampleHwctimeStartArgs 1), Hwctime.Event.sample [0x10, 0x20, 0x30],
          Hwctime.Event.sample [0x40, 0x50]] sampleRuntime = some h ∧
      u.tls.stacktraces_len = 5 ∧ h.tls.stacktraces_len = 5 ∧ h.tls.EventSet ≠ PAPI_NULL ∧
      (Usertime.cbtf_collector_stop sampleEnv u).sent.length = 1 ∧
      (Hwctime.cbtf_collector_stop sampleEnv h).sent.length = 1 ∧
      (StoppedWith u (Usertime.cbtf_collector_stop sampleEnv u) ∧
      StoppedWith h (Hwctime.cbtf_collector_stop sampleEnv h) ∧
      (h.tls.EventSet = PAPI_NULL → h.tls.stacktraces_len = 0 ∧ h.tls.count_len = 0) ∧
      (∀ rt : Runtime, rt.tls.stacktraces_len = 0 → rt.tls.count_len = 0 →
        StoppedWith rt (Usertime.cbtf_collector_stop sampleEnv rt) ∧
        StoppedWith rt (Hwctime.cbtf_collector_stop sampleEnv rt))) :=
  ⟨_, _, rfl, rfl, by decide, by decide, by decide, by decide, by decide,
    stop_sends_buffered_samples sampleEnv sampleStartArgs
      [Usertime.Event.sample [0x10, 0x20, 0x30], Usertime.Event.sample [0x40, 0x50]]
      sampleRuntime _
      (sampleHwctimeStartArgs 1)
      [Hwctime.Event.sample [0x10, 0x20, 0x30], Hwctime.Event.sample [0x40, 0x50]]
      sampleRuntime _ rfl rfl⟩

end

end Collector
end KrellInstitute
